import Mathlib

/-!
KarasWinds/cache: the eviction engines (FIFO, LRU, LFU) and the cache shard.

A shallow embedding of `fifo/fifl.go`, `lru/lru.go`, `lfu/lfu.go` and
`fast/shard.go`.

Modelling conventions.

* Go `int` is a wrapping integer of 64 bits. The engines add to and subtract
  from the byte counter and compare it with the budget. They are embedded
  twice. The definitions `fifo.Set`, `lru.Set`, `lfu.Set` and their companions
  perform these operations on the integers (`Int`), without bound. The
  definitions of the namespaces `fifo.int64`, `lru.int64` and `lfu.int64` are
  the same methods on the type `int` itself: every result of `cache.CalcLen`,
  of an addition and of a subtraction on the counter (and, for the LFU cache,
  the access weight `e.weight+1`) is reduced to the range of `int` by
  `wrap64`, and the budget is compared with the counter so reduced. The two
  embeddings go through the same states along every sequence of calls in
  which the budget, every value of the counter, every weight passed to `Set`,
  every sum that is compared with the budget and every access weight are
  values of `int`: this is the predicate `fits` (`fifo.fits`, `lru.fits`,
  `lfu.fits`), and the agreement is `fifo.int64.run_eq_fifo`,
  `lru.int64.run_eq_lru` and `lfu.int64.run_eq_lfu`. Where a sum overflows they
  part ways (`int64_overflow_example`). What depends on the outcome of the
  comparison `usedBytes > maxBytes` after an addition, or on the size or the
  sign of the counter, is stated of the engines on `int`. The shard of package
  `fast` compares a list length with `maxEntries`; no addition is involved
  there.
* A Go pointer is modelled by a natural number (the identity of the object it
  points to); an allocation takes the next number from a counter kept in the
  state (`fresh`).
* `container/list` is modelled by the list of its elements from front to back;
  an element carries its identity and its `Value` (the `*entry`). The entry of
  an element lives in the list; a call that meets a pointer of the lookup
  table that refers to no element of the list (no reachable state has one, see
  `Linked` and `QLinked`) leaves the state as it is.
* A Go `map[string]*T` is modelled by an association list from keys to
  pointers.
* `cache.CalcLen` is not part of the sources at hand; it is a parameter
  `CalcLen : V → Int` of every definition that uses it, a total function.
* The callback `onEvicted` is modelled by a flag (nil or not) and a log of its
  invocations; every record of the log holds the arguments of the invocation
  and the fields of the cache as they stand when the callback is entered. The
  callback does not call back into the cache.
* An interface value `nil` returned by `Get` is `none`.
-/

set_option autoImplicit false

namespace GoCache

/-! ## Go maps `map[string]*T` -/

/-- The Go map type `map[string]*T`, keys in first-insertion order. -/
abbrev PtrMap := List (String × Nat)

namespace PtrMap

/-- The lookup `e, ok := m[k]`. -/
def get (m : PtrMap) (k : String) : Option Nat :=
  match m with
  | [] => none
  | (k', p) :: rest => if k' = k then some p else get rest k

/-- The builtin `delete(m, k)`. -/
def delete (m : PtrMap) (k : String) : PtrMap :=
  m.filter (fun kp => decide (kp.1 ≠ k))

/-- The assignment `m[k] = p`. -/
def set (m : PtrMap) (k : String) (p : Nat) : PtrMap :=
  delete m k ++ [(k, p)]

/-- The builtin `len(m)`. -/
def len (m : PtrMap) : Int := m.length

end PtrMap

/-! ## Entries and `container/list` -/

/-- The struct `entry` of the packages `fifo`, `lru` and `fast`. -/
structure entry (V : Type) where
  key : String
  value : V

/-- A `list.Element`: its identity `ptr` and its field `Value`, an `*entry`. -/
structure Element (V : Type) where
  ptr : Nat
  Value : entry V

namespace list

variable {V : Type}

/-- The element a pointer refers to, when it is an element of the list. -/
def deref (l : List (Element V)) (p : Nat) : Option (Element V) :=
  l.find? (fun e => decide (e.ptr = p))

/-- Method `Front`: the first element, or nil. -/
def Front (l : List (Element V)) : Option (Element V) := l.head?

/-- Method `Len`. -/
def Len (l : List (Element V)) : Int := l.length

/-- Method `PushBack`, the new element being allocated at `p`. -/
def PushBack (l : List (Element V)) (p : Nat) (en : entry V) : List (Element V) :=
  l ++ [⟨p, en⟩]

/-- Method `Remove`: unlinks the element `p` when it is an element of the list. -/
def Remove (l : List (Element V)) (p : Nat) : List (Element V) :=
  l.filter (fun e => decide (e.ptr ≠ p))

/-- Method `MoveToBack`: no effect unless `p` is an element of the list. -/
def MoveToBack (l : List (Element V)) (p : Nat) : List (Element V) :=
  match deref l p with
  | some e => Remove l p ++ [e]
  | none => l

/-- The assignment `en.value = value` through the element `p`. -/
def setValue (l : List (Element V)) (p : Nat) (value : V) : List (Element V) :=
  l.map (fun e => if e.ptr = p then ⟨e.ptr, ⟨e.Value.key, value⟩⟩ else e)

/-- The keys of the entries, front to back. -/
def keys (l : List (Element V)) : List String := l.map (fun e => e.Value.key)

end list

/-! ## The byte-bounded list engines `fifo` and `lru` -/

/-- One invocation `onEvicted(key, value)` of a byte-bounded engine, with the
fields of the cache at the moment the callback is entered. -/
structure Call (V : Type) where
  key : String
  value : V
  ll : List (Element V)
  cache : PtrMap
  usedBytes : Int

/-- The structs `fifo` and `lru`; they have the same fields. `onEvicted` tells
whether the callback is non-nil, `calls` logs its invocations, `fresh` is the
allocation counter. -/
structure engine (V : Type) where
  maxBytes : Int
  onEvicted : Bool
  usedBytes : Int
  ll : List (Element V)
  cache : PtrMap
  fresh : Nat
  calls : List (Call V)

/-- The calls of the interface `cache.Cache` that change a cache. -/
inductive Op (V : Type) where
  | Set (key : String) (value : V)
  | Get (key : String)
  | Del (key : String)
  | DelOldest

/-- Invokes `onEvicted(key, value)` when it is not nil. -/
def engine.notify {V : Type} (f : engine V) (key : String) (value : V) : engine V :=
  if f.onEvicted then
    { f with calls := f.calls ++ [⟨key, value, f.ll, f.cache, f.usedBytes⟩] }
  else f

namespace fifo

variable {V : Type} (CalcLen : V → Int)

/-- Function `New`. -/
def New (maxBytes : Int) (onEvicted : Bool) : engine V :=
  { maxBytes := maxBytes, onEvicted := onEvicted, usedBytes := 0,
    ll := [], cache := [], fresh := 0, calls := [] }

/-- Method `removeElement`; the argument is nil or an element with its entry. -/
def removeElement (f : engine V) (e : Option (Element V)) : engine V :=
  match e with
  | none => f
  | some e =>
    let en := e.Value
    let f1 := { f with ll := list.Remove f.ll e.ptr }
    let f2 := { f1 with usedBytes := f1.usedBytes - CalcLen en.value }
    let f3 := { f2 with cache := PtrMap.delete f2.cache en.key }
    f3.notify en.key en.value

/-- Method `DelOldest`. -/
def DelOldest (f : engine V) : engine V :=
  removeElement CalcLen f (list.Front f.ll)

/-- Method `Set`. -/
def Set (f : engine V) (key : String) (value : V) : engine V :=
  match PtrMap.get f.cache key with
  | some p =>
    match list.deref f.ll p with
    | some e =>
      let f1 := { f with ll := list.MoveToBack f.ll p }
      let f2 := { f1 with
        usedBytes := f1.usedBytes - CalcLen e.Value.value + CalcLen value }
      { f2 with ll := list.setValue f2.ll p value }
    | none => f
  | none =>
    let en : entry V := ⟨key, value⟩
    let f1 := { f with ll := list.PushBack f.ll f.fresh en, fresh := f.fresh + 1 }
    let f2 := { f1 with cache := PtrMap.set f1.cache key f.fresh }
    let f3 := { f2 with usedBytes := f2.usedBytes + CalcLen en.value }
    if f3.maxBytes > 0 ∧ f3.usedBytes > f3.maxBytes then DelOldest CalcLen f3 else f3

/-- Method `Get`: the state afterwards and the value returned. -/
def Get (f : engine V) (key : String) : engine V × Option V :=
  match PtrMap.get f.cache key with
  | some p =>
    match list.deref f.ll p with
    | some e => (f, some e.Value.value)
    | none => (f, none)
  | none => (f, none)

/-- Method `Del`. -/
def Del (f : engine V) (key : String) : engine V :=
  match PtrMap.get f.cache key with
  | some p => removeElement CalcLen f (list.deref f.ll p)
  | none => f

/-- Method `Len`. -/
def Len (f : engine V) : Int := list.Len f.ll

/-- One call of the interface. -/
def step (f : engine V) : Op V → engine V
  | .Set key value => Set CalcLen f key value
  | .Get key => (Get f key).1
  | .Del key => Del CalcLen f key
  | .DelOldest => DelOldest CalcLen f

/-- A sequence of calls, in order. -/
def run (f : engine V) (ops : List (Op V)) : engine V :=
  ops.foldl (step CalcLen) f

end fifo

namespace lru

variable {V : Type} (CalcLen : V → Int)

/-- Function `New`. -/
def New (maxBytes : Int) (onEvicted : Bool) : engine V :=
  { maxBytes := maxBytes, onEvicted := onEvicted, usedBytes := 0,
    ll := [], cache := [], fresh := 0, calls := [] }

/-- Method `removeElement`; the argument is nil or an element with its entry. -/
def removeElement (l : engine V) (e : Option (Element V)) : engine V :=
  match e with
  | none => l
  | some e =>
    let en := e.Value
    let l1 := { l with ll := list.Remove l.ll e.ptr }
    let l2 := { l1 with usedBytes := l1.usedBytes - CalcLen en.value }
    let l3 := { l2 with cache := PtrMap.delete l2.cache en.key }
    l3.notify en.key en.value

/-- Method `DelOldest`. -/
def DelOldest (l : engine V) : engine V :=
  removeElement CalcLen l (list.Front l.ll)

/-- Method `Set`. -/
def Set (l : engine V) (key : String) (value : V) : engine V :=
  match PtrMap.get l.cache key with
  | some p =>
    match list.deref l.ll p with
    | some e =>
      let l1 := { l with ll := list.MoveToBack l.ll p }
      let l2 := { l1 with
        usedBytes := l1.usedBytes - CalcLen e.Value.value + CalcLen value }
      { l2 with ll := list.setValue l2.ll p value }
    | none => l
  | none =>
    let en : entry V := ⟨key, value⟩
    let l1 := { l with ll := list.PushBack l.ll l.fresh en, fresh := l.fresh + 1 }
    let l2 := { l1 with cache := PtrMap.set l1.cache key l.fresh }
    let l3 := { l2 with usedBytes := l2.usedBytes + CalcLen en.value }
    if l3.maxBytes > 0 ∧ l3.usedBytes > l3.maxBytes then DelOldest CalcLen l3 else l3

/-- Method `Get`: the state afterwards and the value returned. -/
def Get (l : engine V) (key : String) : engine V × Option V :=
  match PtrMap.get l.cache key with
  | some p =>
    match list.deref l.ll p with
    | some e => ({ l with ll := list.MoveToBack l.ll p }, some e.Value.value)
    | none => (l, none)
  | none => (l, none)

/-- Method `Del`. -/
def Del (l : engine V) (key : String) : engine V :=
  match PtrMap.get l.cache key with
  | some p => removeElement CalcLen l (list.deref l.ll p)
  | none => l

/-- Method `Len`. -/
def Len (l : engine V) : Int := list.Len l.ll

/-- One call of the interface. -/
def step (l : engine V) : Op V → engine V
  | .Set key value => Set CalcLen l key value
  | .Get key => (Get l key).1
  | .Del key => Del CalcLen l key
  | .DelOldest => DelOldest CalcLen l

/-- A sequence of calls, in order. -/
def run (l : engine V) (ops : List (Op V)) : engine V :=
  ops.foldl (step CalcLen) l

end lru

/-! ## The entry-count bounded shard of package `fast` -/

namespace fast

variable {V : Type}

/-- One invocation `onEvicted(key, value)` of a shard, with the fields of the
shard at the moment the callback is entered. -/
structure Call (V : Type) where
  key : String
  value : V
  ll : List (Element V)
  cache : PtrMap

/-- The struct `cacheShard`. The lock serialises the methods and is not
modelled: every method below is one critical section. -/
structure cacheShard (V : Type) where
  maxEntries : Int
  onEvicted : Bool
  ll : List (Element V)
  cache : PtrMap
  fresh : Nat
  calls : List (Call V)

/-- Function `newCacheShard`. -/
def newCacheShard (maxEntries : Int) (onEvicted : Bool) : cacheShard V :=
  { maxEntries := maxEntries, onEvicted := onEvicted,
    ll := [], cache := [], fresh := 0, calls := [] }

/-- Invokes `onEvicted(key, value)` when it is not nil. -/
def cacheShard.notify (c : cacheShard V) (key : String) (value : V) : cacheShard V :=
  if c.onEvicted then
    { c with calls := c.calls ++ [⟨key, value, c.ll, c.cache⟩] }
  else c

/-- Method `removeElement`; the argument is nil or an element with its entry. -/
def removeElement (c : cacheShard V) (e : Option (Element V)) : cacheShard V :=
  match e with
  | some e =>
    let c1 := { c with ll := list.Remove c.ll e.ptr }
    let en := e.Value
    let c2 := { c1 with cache := PtrMap.delete c1.cache en.key }
    c2.notify en.key en.value
  | none => c

/-- Method `set`. -/
def set (c : cacheShard V) (key : String) (value : V) : cacheShard V :=
  match PtrMap.get c.cache key with
  | some p =>
    let c1 := { c with ll := list.MoveToBack c.ll p }
    { c1 with ll := list.setValue c1.ll p value }
  | none =>
    let en : entry V := ⟨key, value⟩
    let c1 := { c with ll := list.PushBack c.ll c.fresh en, fresh := c.fresh + 1 }
    let c2 := { c1 with cache := PtrMap.set c1.cache key c.fresh }
    if c2.maxEntries > 0 ∧ list.Len c2.ll > c2.maxEntries then
      removeElement c2 (list.Front c2.ll)
    else c2

/-- Method `get`: the state afterwards and the value returned. -/
def get (c : cacheShard V) (key : String) : cacheShard V × Option V :=
  match PtrMap.get c.cache key with
  | some p =>
    match list.deref c.ll p with
    | some e => ({ c with ll := list.MoveToBack c.ll p }, some e.Value.value)
    | none => (c, none)
  | none => (c, none)

/-- Method `del`. -/
def del (c : cacheShard V) (key : String) : cacheShard V :=
  match PtrMap.get c.cache key with
  | some p => removeElement c (list.deref c.ll p)
  | none => c

/-- Method `delOldest`. -/
def delOldest (c : cacheShard V) : cacheShard V :=
  removeElement c (list.Front c.ll)

/-- Method `len`. -/
def len (c : cacheShard V) : Int := list.Len c.ll

/-- One call on the shard. -/
def step (c : cacheShard V) : Op V → cacheShard V
  | .Set key value => set c key value
  | .Get key => (get c key).1
  | .Del key => del c key
  | .DelOldest => delOldest c

/-- A sequence of calls, in order. -/
def run (c : cacheShard V) (ops : List (Op V)) : cacheShard V :=
  ops.foldl step c

end fast

/-! ## The LFU engine of package `lfu`

The file of package `lfu` that declares the types `entry` and `queue` is not
part of the sources at hand. The declarations marked as modelled from the spec
follow the data model: an entry carries its key, its value, an integer access
weight and its own live index in the heap array, which every swap keeps
correct. The order the heap is kept in (method `Less`) is a parameter. The
functions of `container/heap` are those of the Go standard library. A run-time
panic (an index out of range) is the result `none`, and so is a loop that does
not end within its bound. -/

namespace lfu

/-- Modelled from the spec: the struct `entry` of package `lfu`, whose file is
missing: key, value, access weight and index in the heap; `ptr` is the identity
of the object. Entries are allocated when they are inserted, so `ptr` also
numbers the entries in the order of their insertion. -/
structure entry (V : Type) where
  ptr : Nat
  key : String
  value : V
  weight : Int
  index : Int

/-- Modelled from the spec: the method `Len` of the `entry` of package `lfu`,
which is missing: the accounted weight is that of the value. -/
def entry.Len {V : Type} (CalcLen : V → Int) (e : entry V) : Int := CalcLen e.value

namespace queue

variable {V : Type}

/-- The entry a pointer refers to, when the queue holds it. -/
def deref (q : List (entry V)) (p : Nat) : Option (entry V) :=
  q.find? (fun e => decide (e.ptr = p))

/-- The index expression `q[i]`; `none` is the panic of an index out of range. -/
def item (q : List (entry V)) (i : Int) : Option (entry V) :=
  if 0 ≤ i then q[i.toNat]? else none

/-- Modelled from the spec: method `Len` of the missing type `queue`. -/
def Len (q : List (entry V)) : Int := q.length

/-- Method `Less(i, j)` of the missing type `queue`: it compares the two entries
by the parameter `less`. -/
def Less (less : entry V → entry V → Bool) (q : List (entry V)) (i j : Int) : Option Bool :=
  match item q i, item q j with
  | some a, some b => some (less a b)
  | _, _ => none

/-- Modelled from the spec: method `Swap(i, j)` of the missing type `queue`; it
exchanges the two entries and records their new positions in them. -/
def Swap (q : List (entry V)) (i j : Int) : Option (List (entry V)) :=
  match item q i, item q j with
  | some a, some b =>
    some ((q.set i.toNat { b with index := i }).set j.toNat { a with index := j })
  | _, _ => none

/-- Modelled from the spec: method `Push(x)` of the missing type `queue`; it
appends the entry and records its position in it. -/
def Push (q : List (entry V)) (x : entry V) : List (entry V) :=
  q ++ [{ x with index := q.length }]

/-- Modelled from the spec: method `Pop()` of the missing type `queue`; it
takes the last entry off. -/
def Pop (q : List (entry V)) : Option (List (entry V) × entry V) :=
  match q.getLast? with
  | some x => some (q.dropLast, x)
  | none => none

end queue

namespace heap

variable {V : Type} (less : entry V → entry V → Bool)

/-- Function `up` of `container/heap`; the first argument bounds the number of
iterations. -/
def up : Nat → List (entry V) → Int → Option (List (entry V))
  | 0, _, _ => none
  | fuel + 1, q, j =>
    let i := Int.tdiv (j - 1) 2
    if i = j then some q
    else
      match queue.Less less q j i with
      | none => none
      | some false => some q
      | some true =>
        match queue.Swap q i j with
        | none => none
        | some q1 => up fuel q1 i

/-- Function `down` of `container/heap`, started at `i0`, now at `i`; the first
argument bounds the number of iterations. The result tells whether `i > i0`. -/
def down : Nat → List (entry V) → Int → Int → Int → Option (List (entry V) × Bool)
  | 0, _, _, _, _ => none
  | fuel + 1, q, i0, i, n =>
    let j1 := 2 * i + 1
    if j1 ≥ n ∨ j1 < 0 then some (q, decide (i > i0))
    else
      let j2 := j1 + 1
      match (if j2 < n then queue.Less less q j2 j1 else some false) with
      | none => none
      | some c =>
        let j := if c then j2 else j1
        match queue.Less less q j i with
        | none => none
        | some false => some (q, decide (i > i0))
        | some true =>
          match queue.Swap q i j with
          | none => none
          | some q1 => down fuel q1 i0 j n

/-- Function `Fix` of `container/heap`. -/
def Fix (q : List (entry V)) (i : Int) : Option (List (entry V)) :=
  match down less (q.length + 1) q i i (queue.Len q) with
  | none => none
  | some (q1, moved) => if moved then some q1 else up less (q.length + 1) q1 i

/-- Function `Push` of `container/heap`. -/
def Push (q : List (entry V)) (x : entry V) : Option (List (entry V)) :=
  let q1 := queue.Push q x
  up less (q1.length + 1) q1 (queue.Len q1 - 1)

/-- Function `Pop` of `container/heap`. -/
def Pop (q : List (entry V)) : Option (List (entry V) × entry V) :=
  let n := queue.Len q - 1
  match queue.Swap q 0 n with
  | none => none
  | some q1 =>
    match down less (q.length + 1) q1 0 0 n with
    | none => none
    | some (q2, _) => queue.Pop q2

/-- Function `Remove` of `container/heap`. -/
def Remove (q : List (entry V)) (i : Int) : Option (List (entry V) × entry V) :=
  let n := queue.Len q - 1
  if n ≠ i then
    match queue.Swap q i n with
    | none => none
    | some q1 =>
      match down less (q.length + 1) q1 i i n with
      | none => none
      | some (q2, moved) =>
        if moved then queue.Pop q2
        else
          match up less (q.length + 1) q2 i with
          | none => none
          | some q3 => queue.Pop q3
  else queue.Pop q

end heap

/-- The assignments `en.value = value` and `en.weight = weight` through the
pointer `p`. -/
def queue.assign {V : Type} (q : List (entry V)) (p : Nat) (value : V) (weight : Int) :
    List (entry V) :=
  q.map (fun e => if e.ptr = p then { e with value := value, weight := weight } else e)

/-- Modelled from the spec: method `update(en, value, weight)` of the missing
type `queue`; it stores the value and the weight in the entry and restores the
heap at the index the entry records. -/
def queue.update {V : Type} (less : entry V → entry V → Bool) (q : List (entry V))
    (en : entry V) (value : V) (weight : Int) : Option (List (entry V)) :=
  heap.Fix less (queue.assign q en.ptr value weight) en.index

/-- One invocation `onEvicted(key, value)` of the LFU engine, with the fields of
the cache at the moment the callback is entered. -/
structure Call (V : Type) where
  key : String
  value : V
  queue : List (entry V)
  cache : PtrMap
  usedBytes : Int

end lfu

/-- The struct `lfu`. `onEvicted` tells whether the callback is non-nil, `calls`
logs its invocations, `fresh` is the allocation counter. -/
structure lfu (V : Type) where
  maxBytes : Int
  onEvicted : Bool
  usedBytes : Int
  queue : List (lfu.entry V)
  cache : PtrMap
  fresh : Nat
  calls : List (lfu.Call V)

namespace lfu

variable {V : Type} (CalcLen : V → Int) (less : entry V → entry V → Bool)

/-- Function `New`. -/
def New (maxBytes : Int) (onEvicted : Bool) : lfu V :=
  { maxBytes := maxBytes, onEvicted := onEvicted, usedBytes := 0,
    queue := [], cache := [], fresh := 0, calls := [] }

/-- Invokes `onEvicted(key, value)` when it is not nil. -/
def notify (l : lfu V) (key : String) (value : V) : lfu V :=
  if l.onEvicted then
    { l with calls := l.calls ++ [⟨key, value, l.queue, l.cache, l.usedBytes⟩] }
  else l

/-- Method `removeElement`; the argument is nil or an entry. -/
def removeElement (l : lfu V) (x : Option (entry V)) : lfu V :=
  match x with
  | none => l
  | some en =>
    let l1 : lfu V := { l with cache := PtrMap.delete l.cache en.key }
    let l2 : lfu V := { l1 with usedBytes := l1.usedBytes - entry.Len CalcLen en }
    l2.notify en.key en.value

/-- Method `Set`. -/
def Set (l : lfu V) (key : String) (value : V) : Option (lfu V) :=
  match PtrMap.get l.cache key with
  | some p =>
    match queue.deref l.queue p with
    | some e =>
      let l1 : lfu V := { l with usedBytes := l.usedBytes - CalcLen e.value + CalcLen value }
      match queue.update less l1.queue e value (e.weight + 1) with
      | some q => some { l1 with queue := q }
      | none => none
    | none => some l
  | none =>
    let en : entry V := { ptr := l.fresh, key := key, value := value, weight := 0, index := 0 }
    match heap.Push less l.queue en with
    | none => none
    | some q =>
      let l1 : lfu V := { l with queue := q, fresh := l.fresh + 1 }
      let l2 : lfu V := { l1 with cache := PtrMap.set l1.cache key en.ptr }
      let l3 : lfu V := { l2 with usedBytes := l2.usedBytes + entry.Len CalcLen en }
      if l3.maxBytes > 0 ∧ l3.usedBytes > l3.maxBytes then
        match heap.Pop less l3.queue with
        | none => none
        | some (q1, x) => some (removeElement CalcLen { l3 with queue := q1 } (some x))
      else some l3

/-- Method `Get`: the state afterwards and the value returned. -/
def Get (l : lfu V) (key : String) : Option (lfu V × Option V) :=
  match PtrMap.get l.cache key with
  | some p =>
    match queue.deref l.queue p with
    | some e =>
      match queue.update less l.queue e e.value (e.weight + 1) with
      | some q => some ({ l with queue := q }, some e.value)
      | none => none
    | none => some (l, none)
  | none => some (l, none)

/-- Method `Del`. -/
def Del (l : lfu V) (key : String) : Option (lfu V) :=
  match PtrMap.get l.cache key with
  | some p =>
    match queue.deref l.queue p with
    | some e =>
      match heap.Remove less l.queue e.index with
      | some (q, _) => some (removeElement CalcLen { l with queue := q } (some e))
      | none => none
    | none => some l
  | none => some l

/-- Method `DelOldest`. -/
def DelOldest (l : lfu V) : Option (lfu V) :=
  if queue.Len l.queue = 0 then some l
  else
    match heap.Pop less l.queue with
    | some (q, x) => some (removeElement CalcLen { l with queue := q } (some x))
    | none => none

/-- Method `Len`. -/
def Len (l : lfu V) : Int := queue.Len l.queue

/-- One call of the interface. -/
def step (l : lfu V) : Op V → Option (lfu V)
  | .Set key value => Set CalcLen less l key value
  | .Get key => (Get less l key).map Prod.fst
  | .Del key => Del CalcLen less l key
  | .DelOldest => DelOldest CalcLen less l

/-- A sequence of calls, in order; `none` when one of them panics. -/
def run (l : lfu V) : List (Op V) → Option (lfu V)
  | [] => some l
  | op :: rest =>
    match step CalcLen less l op with
    | some l1 => run l1 rest
    | none => none

end lfu

/-! ## The invariant that ties the lookup table to the list -/

namespace list

variable {V : Type}

/-- The identities of the elements, front to back. -/
def ptrs (l : List (Element V)) : List Nat := l.map (fun e => e.ptr)

/-- The table a list stands for: every key with the element that carries it. -/
def pairs (l : List (Element V)) : PtrMap := l.map (fun e => (e.Value.key, e.ptr))

end list

/-- The lookup table holds exactly the pairs (key, element) of the list, no key
and no element occurs twice, and every element was allocated. -/
structure Linked {V : Type} (ll : List (Element V)) (cache : PtrMap) (fresh : Nat) :
    Prop where
  perm : List.Perm cache (list.pairs ll)
  keys_nodup : (list.keys ll).Nodup
  ptrs_nodup : (list.ptrs ll).Nodup
  fresh_bound : ∀ e ∈ ll, e.ptr < fresh

/-- The invariant `Linked` on the fields of a byte-bounded engine. -/
def engine.linked {V : Type} (s : engine V) : Prop := Linked s.ll s.cache s.fresh

/-- The invariant `Linked` on the fields of a shard. -/
def fast.cacheShard.linked {V : Type} (c : fast.cacheShard V) : Prop :=
  Linked c.ll c.cache c.fresh

/-- The consistency of a lookup table with a list, as the data model states
it: a key is in the table iff exactly one node carries it, the table entry of a
key points at a node that carries the key, no key occurs twice in the list or in
the table, and the table and the list have the same size. -/
def TableMatchesList {V : Type} (ll : List (Element V)) (cache : PtrMap) : Prop :=
  (∀ k, (PtrMap.get cache k).isSome ↔
      (ll.filter (fun e => decide (e.Value.key = k))).length = 1) ∧
  (∀ k p, PtrMap.get cache k = some p →
      ∃ e, list.deref ll p = some e ∧ e ∈ ll ∧ e.ptr = p ∧ e.Value.key = k) ∧
  (list.keys ll).Nodup ∧
  (cache.map Prod.fst).Nodup ∧
  PtrMap.len cache = list.Len ll

/-- The sum of `CalcLen` of the stored value over the entries of the list. -/
def weightSum {V : Type} (CalcLen : V → Int) (ll : List (Element V)) : Int :=
  (ll.map (fun e => CalcLen e.Value.value)).sum

/-- The sum of `CalcLen` of the stored value over the entries the lookup table
points at. -/
def tableWeight {V : Type} (CalcLen : V → Int) (ll : List (Element V)) (cache : PtrMap) :
    Int :=
  (cache.map (fun kp =>
    match list.deref ll kp.2 with
    | some e => CalcLen e.Value.value
    | none => 0)).sum

/-- The accounting invariant of a byte-bounded engine. -/
def engine.accounted {V : Type} (CalcLen : V → Int) (s : engine V) : Prop :=
  s.usedBytes = weightSum CalcLen s.ll

/-- What a `Set(k, v)` of a key that is not held does to a byte-bounded engine,
from the state `s` before to the state `t` after, the budget being positive:
when it is exceeded once the new entry is counted, exactly the entry at the front of
the list (the new entry appended) is removed and the callback, if any, is
invoked once for it; otherwise nothing is removed and nothing is invoked. -/
def FreshInsertEffect {V : Type} (CalcLen : V → Int) (s t : engine V) (k : String) (v : V) :
    Prop :=
  (s.usedBytes + CalcLen v > s.maxBytes →
    ∃ e rest, s.ll ++ [⟨s.fresh, ⟨k, v⟩⟩] = e :: rest ∧
      t.ll = rest ∧
      t.cache = PtrMap.delete (s.cache ++ [(k, s.fresh)]) e.Value.key ∧
      t.usedBytes = s.usedBytes + CalcLen v - CalcLen e.Value.value ∧
      t.calls = (if s.onEvicted then
          s.calls ++ [⟨e.Value.key, e.Value.value, t.ll, t.cache, t.usedBytes⟩]
        else s.calls) ∧
      list.Len t.ll = list.Len s.ll) ∧
  (¬ (s.usedBytes + CalcLen v > s.maxBytes) →
    t.ll = s.ll ++ [⟨s.fresh, ⟨k, v⟩⟩] ∧
    t.cache = s.cache ++ [(k, s.fresh)] ∧
    t.usedBytes = s.usedBytes + CalcLen v ∧
    t.calls = s.calls ∧
    list.Len t.ll = list.Len s.ll + 1)

/-! ## Recency of touch in an LRU cache -/

namespace lru

variable {V : Type} (CalcLen : V → Int)

/-- Whether the call `op`, made in state `s`, touches the key `x`: it is a `Set`
of `x`, or a `Get` of `x` that hits. -/
def touches (s : engine V) : Op V → String → Bool
  | .Set k _, x => decide (k = x)
  | .Get k, x => decide (k = x) && (PtrMap.get s.cache k).isSome
  | .Del _, _ => false
  | .DelOldest, _ => false

/-- An LRU cache with the number of calls made so far and, for every key, the
number of the most recent call that touched it. -/
structure Timed (V : Type) where
  state : engine V
  clock : Nat
  lastTouch : String → Option Nat

/-- One call, with the bookkeeping of touches. -/
def timedStep (t : Timed V) (op : Op V) : Timed V :=
  { state := step CalcLen t.state op
    clock := t.clock + 1
    lastTouch := fun x => if touches t.state op x then some t.clock else t.lastTouch x }

/-- The history of a cache created by `New` and driven by `ops`. -/
def history (maxBytes : Int) (onEvicted : Bool) (ops : List (Op V)) : Timed V :=
  ops.foldl (timedStep CalcLen) ⟨New maxBytes onEvicted, 0, fun _ => none⟩

/-- Key `a` was last touched strictly before key `b` was. -/
def touchedBefore (lastTouch : String → Option Nat) (a b : String) : Prop :=
  ∃ ta tb, lastTouch a = some ta ∧ lastTouch b = some tb ∧ ta < tb

/-- The keys of the list have been touched, before the current call, and occur
in increasing order of their most recent touch. -/
def Recency (ll : List (Element V)) (lastTouch : String → Option Nat) (clock : Nat) : Prop :=
  (∀ k ∈ list.keys ll, ∃ t, lastTouch k = some t ∧ t < clock) ∧
  (list.keys ll).Pairwise (touchedBefore lastTouch)

end lru

/-! ## The invariants of the LFU heap -/

namespace lfu

variable {V : Type}

/-- An entry without the position it records. -/
def strip (e : entry V) : entry V := { e with index := 0 }

/-- Every entry of the queue records its own position. -/
def IdxOK (q : List (entry V)) : Prop :=
  ∀ (m : Nat) (e : entry V), q[m]? = some e → e.index = (m : Int)

/-- The queue `q2` holds the entries of `q`, rearranged below position `n` only,
each with its position recorded anew. -/
structure Rearranged (n : Nat) (q q2 : List (entry V)) : Prop where
  length_eq : q2.length = q.length
  perm : (q2.map strip).Perm (q.map strip)
  above : ∀ m, n ≤ m → q2[m]? = q[m]?
  idx : IdxOK q → IdxOK q2

/-- The keys of the entries of the queue. -/
def queue.keys (q : List (entry V)) : List String := q.map (fun e => e.key)

/-- The identities of the entries of the queue. -/
def queue.ptrs (q : List (entry V)) : List Nat := q.map (fun e => e.ptr)

/-- The table a queue stands for. -/
def queue.pairs (q : List (entry V)) : PtrMap := q.map (fun e => (e.key, e.ptr))

/-- The lookup table holds exactly the pairs (key, entry) of the queue, no key
and no entry occurs twice, every entry was allocated and records its own
position in the queue. -/
structure QLinked (q : List (entry V)) (cache : PtrMap) (fresh : Nat) : Prop where
  perm : List.Perm cache (queue.pairs q)
  keys_nodup : (queue.keys q).Nodup
  ptrs_nodup : (queue.ptrs q).Nodup
  fresh_bound : ∀ p ∈ queue.ptrs q, p < fresh
  idx : IdxOK q

end lfu

/-- The invariant `QLinked` on the fields of an LFU cache. -/
def lfu.linked {V : Type} (s : lfu V) : Prop := lfu.QLinked s.queue s.cache s.fresh

/-! ## Held keys -/

/-- Every key held in the first table is held in the second. -/
def KeepsAll (before after : PtrMap) : Prop :=
  ∀ k, (PtrMap.get before k).isSome = true → (PtrMap.get after k).isSome = true

/-! ## The entries a call removes and the callback log -/

/-- The entry a call inserts: the pair of a `Set` whose key the table does not
hold. -/
def Op.inserted {V : Type} (cache : PtrMap) : Op V → List (String × V)
  | .Set k v => if (PtrMap.get cache k).isSome then [] else [(k, v)]
  | .Get _ => []
  | .Del _ => []
  | .DelOldest => []

/-- The entries a call removes: those held before the call, or inserted by it,
whose key is not held after the call; each with the value it held. -/
def removedBy {V : Type} (before : List (String × V)) (cache : PtrMap) (op : Op V)
    (after : List String) : List (String × V) :=
  (before ++ Op.inserted cache op).filter (fun kv => decide (kv.1 ∉ after))

/-- The entries (key, value) of the list, front to back. -/
def list.entries {V : Type} (l : List (Element V)) : List (String × V) :=
  l.map (fun e => (e.Value.key, e.Value.value))

/-- The entries removed in the course of a sequence of FIFO calls, in order. -/
def fifo.removals {V : Type} (CalcLen : V → Int) (s : engine V) : List (Op V) → List (String × V)
  | [] => []
  | op :: rest =>
    removedBy (list.entries s.ll) s.cache op (list.keys (fifo.step CalcLen s op).ll)
      ++ fifo.removals CalcLen (fifo.step CalcLen s op) rest

/-- The entries removed in the course of a sequence of LRU calls, in order. -/
def lru.removals {V : Type} (CalcLen : V → Int) (s : engine V) : List (Op V) → List (String × V)
  | [] => []
  | op :: rest =>
    removedBy (list.entries s.ll) s.cache op (list.keys (lru.step CalcLen s op).ll)
      ++ lru.removals CalcLen (lru.step CalcLen s op) rest

/-- The entries removed in the course of a sequence of calls on a shard, in
order. -/
def fast.removals {V : Type} (c : fast.cacheShard V) : List (Op V) → List (String × V)
  | [] => []
  | op :: rest =>
    removedBy (list.entries c.ll) c.cache op (list.keys (fast.step c op).ll)
      ++ fast.removals (fast.step c op) rest

/-- The entries (key, value) of the queue. -/
def lfu.queue.entries {V : Type} (q : List (lfu.entry V)) : List (String × V) :=
  q.map (fun e => (e.key, e.value))

/-- The entries removed in the course of a sequence of LFU calls, in order. -/
def lfu.removals {V : Type} (CalcLen : V → Int) (less : lfu.entry V → lfu.entry V → Bool)
    (s : lfu V) : List (Op V) → List (String × V)
  | [] => []
  | op :: rest =>
    match lfu.step CalcLen less s op with
    | some s1 =>
      removedBy (lfu.queue.entries s.queue) s.cache op (lfu.queue.keys s1.queue)
        ++ lfu.removals CalcLen less s1 rest
    | none => []

/-- The value the lookup table and the list give for a key: the value of the
entry of the element the table points at, `none` when the key is not in the
table. It is what `Get` of `fifo`, of `lru` and of the shard returns. -/
def list.lookup {V : Type} (ll : List (Element V)) (cache : PtrMap) (k : String) : Option V :=
  match PtrMap.get cache k with
  | some p =>
    match list.deref ll p with
    | some e => some e.Value.value
    | none => none
  | none => none

/-! ## Calls that set a key -/

/-- Whether a call is a `Set` of the key `k`. -/
def Op.setsKey {V : Type} (k : String) : Op V → Bool
  | .Set key _ => decide (key = k)
  | _ => false

/-! ## The shard as the entry-count form of the LRU cache -/

/-- The shard that has the fields of a byte-bounded engine, the budget read as a
number of entries and the byte count dropped. -/
def fast.ofEngine {V : Type} (s : engine V) : fast.cacheShard V :=
  { maxEntries := s.maxBytes
    onEvicted := s.onEvicted
    ll := s.ll
    cache := s.cache
    fresh := s.fresh
    calls := s.calls.map (fun x => ⟨x.key, x.value, x.ll, x.cache⟩) }

/-- The weight function of the entry-count mode: every value weighs 1. -/
def unitWeight {V : Type} (_ : V) : Int := 1

namespace fast

variable {V : Type}

/-- Whether the call `op`, made on the shard `c`, touches the key `x`: it is a
`set` of `x`, or a `get` of `x` that hits. -/
def touches (c : cacheShard V) : Op V → String → Bool
  | .Set k _, x => decide (k = x)
  | .Get k, x => decide (k = x) && (PtrMap.get c.cache k).isSome
  | .Del _, _ => false
  | .DelOldest, _ => false

/-- A shard with the number of calls made so far and, for every key, the number
of the most recent call that touched it. -/
structure Timed (V : Type) where
  state : cacheShard V
  clock : Nat
  lastTouch : String → Option Nat

/-- One call, with the bookkeeping of touches. -/
def timedStep (t : Timed V) (op : Op V) : Timed V :=
  { state := step t.state op
    clock := t.clock + 1
    lastTouch := fun x => if touches t.state op x then some t.clock else t.lastTouch x }

/-- The history of a shard created by `newCacheShard` and driven by `ops`. -/
def history (maxEntries : Int) (onEvicted : Bool) (ops : List (Op V)) : Timed V :=
  ops.foldl timedStep ⟨newCacheShard maxEntries onEvicted, 0, fun _ => none⟩

end fast

/-! ## The heap order of the LFU queue -/

namespace lfu

variable {V : Type}

/-- Modelled from the spec: the order `Less` of the missing type `queue`. The
heap is a min-heap over the pair (weight, sequence number): an entry comes
before another when its weight is smaller, or the weights are equal and it was
inserted earlier. The sequence number of an entry is its allocation number
`ptr`, which `Set` draws at insertion from the strictly increasing counter
`fresh`. -/
def specLess (a b : entry V) : Bool :=
  decide (a.weight < b.weight ∨ (a.weight = b.weight ∧ a.ptr < b.ptr))

/-- The pair (weight, sequence number) of the entry at position `m`. -/
def rankAt (q : List (entry V)) (m : Nat) : Option (Int × Nat) :=
  (q[m]?).map (fun e => (e.weight, e.ptr))

/-- The order of the pairs (weight, sequence number): not after. -/
def RLe (x y : Int × Nat) : Prop := x.1 < y.1 ∨ (x.1 = y.1 ∧ x.2 ≤ y.2)

/-- The pair at position `a` is not after the pair at position `b`. -/
def FLe (f : Nat → Option (Int × Nat)) (a b : Nat) : Prop :=
  ∀ x y, f a = some x → f b = some y → RLe x y

/-- The heap condition on the first `n` positions: no position comes before its
parent. -/
def FHeap (f : Nat → Option (Int × Nat)) (n : Nat) : Prop :=
  ∀ m, 0 < m → m < n → FLe f ((m - 1) / 2) m

/-- The heap condition but for the pairs that involve position `i`, whose
children are not before the parent of `i`: what `down` starts from. -/
def FDownPre (f : Nat → Option (Int × Nat)) (n i : Nat) : Prop :=
  (∀ m, 0 < m → m < n → m ≠ i → (m - 1) / 2 ≠ i → FLe f ((m - 1) / 2) m) ∧
  (0 < i → ∀ c, 0 < c → c < n → (c - 1) / 2 = i → FLe f ((i - 1) / 2) c)

/-- The heap condition but for the pair of position `j` and its parent, the
children of `j` being not before the parent of `j`: what `up` starts from. -/
def FUpPre (f : Nat → Option (Int × Nat)) (n j : Nat) : Prop :=
  (∀ m, 0 < m → m < n → m ≠ j → FLe f ((m - 1) / 2) m) ∧
  (0 < j → ∀ c, 0 < c → c < n → (c - 1) / 2 = j → FLe f ((j - 1) / 2) c)

/-- The pairs of `f1` are those of `f` with the positions `i` and `j`
exchanged. -/
def FSwap (f f1 : Nat → Option (Int × Nat)) (i j : Nat) : Prop :=
  f1 i = f j ∧ f1 j = f i ∧ ∀ m, m ≠ i → m ≠ j → f1 m = f m

end lfu

/-- The heap condition on the queue of an LFU cache, for the order `specLess`. -/
def lfu.heapOrdered {V : Type} (s : lfu V) : Prop :=
  lfu.FHeap (lfu.rankAt s.queue) s.queue.length

/-! ## The range of the Go type `int` -/

/-- The value that a Go `int` of 64 bits holds for the integer `x`: the integer
congruent to `x` modulo `2^64` that lies from `-2^63` to `2^63 - 1`. -/
def wrap64 (x : Int) : Int :=
  (x + 9223372036854775808) % 18446744073709551616 - 9223372036854775808

/-- The integer `x` is a value of `int`: wrapping leaves it as it is, the code
computes it without overflow. -/
def isInt (x : Int) : Bool := decide (wrap64 x = x)

/-- What the call `op` finds and computes on the byte counter of a byte-bounded
engine in the state `s` is a value of `int`: the budget, the counter, the weight
of the value of a `Set`, and the sum `usedBytes + en.Len()` that a `Set` of a key
not held compares with the budget. -/
def engine.fitsCall {V : Type} (CalcLen : V → Int) (s : engine V) : Op V → Bool
  | .Set k v =>
    isInt s.maxBytes && isInt s.usedBytes && isInt (CalcLen v) &&
      ((PtrMap.get s.cache k).isSome || isInt (s.usedBytes + CalcLen v))
  | _ => isInt s.maxBytes && isInt s.usedBytes

/-- No computation on the byte counter overflows in the course of the calls
`ops` made on the FIFO cache `s`: the budget is a value of `int`, and so is
every value the counter takes and every sum compared with the budget. On such
a sequence of calls the counter of the model is the counter of the code. -/
def fifo.fits {V : Type} (CalcLen : V → Int) (s : engine V) : List (Op V) → Bool
  | [] => isInt s.maxBytes && isInt s.usedBytes
  | op :: rest => engine.fitsCall CalcLen s op && fifo.fits CalcLen (fifo.step CalcLen s op) rest

/-- No computation on the byte counter overflows in the course of the calls
`ops` made on the LRU cache `s`. -/
def lru.fits {V : Type} (CalcLen : V → Int) (s : engine V) : List (Op V) → Bool
  | [] => isInt s.maxBytes && isInt s.usedBytes
  | op :: rest => engine.fitsCall CalcLen s op && lru.fits CalcLen (lru.step CalcLen s op) rest

/-- The access weight `e.weight + 1` that a `Set` or a `Get` of the key `k`
stores in the entry of `k` is a value of `int`; a key that is not held has no
weight to compute. -/
def lfu.fitsTouch {V : Type} (s : lfu V) (k : String) : Bool :=
  match PtrMap.get s.cache k with
  | some p =>
    match lfu.queue.deref s.queue p with
    | some e => isInt (e.weight + 1)
    | none => true
  | none => true

/-- What the call `op` finds and computes on the byte counter and on an access
weight of an LFU cache in the state `s` is a value of `int`. -/
def lfu.fitsCall {V : Type} (CalcLen : V → Int) (s : lfu V) : Op V → Bool
  | .Set k v =>
    isInt s.maxBytes && isInt s.usedBytes && isInt (CalcLen v) &&
      ((PtrMap.get s.cache k).isSome || isInt (s.usedBytes + CalcLen v)) &&
      lfu.fitsTouch s k
  | .Get k => isInt s.maxBytes && isInt s.usedBytes && lfu.fitsTouch s k
  | _ => isInt s.maxBytes && isInt s.usedBytes

/-- No computation on the byte counter or on an access weight overflows in the
course of the calls `ops` made on the LFU cache `s`, and no call fails. -/
def lfu.fits {V : Type} (CalcLen : V → Int) (less : lfu.entry V → lfu.entry V → Bool)
    (s : lfu V) : List (Op V) → Bool
  | [] => isInt s.maxBytes && isInt s.usedBytes
  | op :: rest =>
    lfu.fitsCall CalcLen s op &&
      match lfu.step CalcLen less s op with
      | some t => lfu.fits CalcLen less t rest
      | none => false

/-! ## The engines on the machine type `int` -/

namespace fifo.int64

variable {V : Type} (CalcLen : V → Int)

/-- Method `removeElement` of `fifo` on the type `int` of 64 bits: the result of
`cache.CalcLen` and the result of the subtraction are reduced by `wrap64`. -/
def removeElement (f : engine V) (e : Option (Element V)) : engine V :=
  match e with
  | none => f
  | some e =>
    let en := e.Value
    let f1 := { f with ll := list.Remove f.ll e.ptr }
    let f2 := { f1 with usedBytes := wrap64 (f1.usedBytes - wrap64 (CalcLen en.value)) }
    let f3 := { f2 with cache := PtrMap.delete f2.cache en.key }
    f3.notify en.key en.value

/-- Method `DelOldest` of `fifo` on the type `int` of 64 bits. -/
def DelOldest (f : engine V) : engine V :=
  removeElement CalcLen f (list.Front f.ll)

/-- Method `Set` of `fifo` on the type `int` of 64 bits: every result of
`cache.CalcLen`, of an addition and of a subtraction is reduced by `wrap64`, and
the budget is compared with the counter so reduced. -/
def Set (f : engine V) (key : String) (value : V) : engine V :=
  match PtrMap.get f.cache key with
  | some p =>
    match list.deref f.ll p with
    | some e =>
      let f1 := { f with ll := list.MoveToBack f.ll p }
      let f2 := { f1 with
        usedBytes := wrap64 (wrap64 (f1.usedBytes - wrap64 (CalcLen e.Value.value))
          + wrap64 (CalcLen value)) }
      { f2 with ll := list.setValue f2.ll p value }
    | none => f
  | none =>
    let en : entry V := ⟨key, value⟩
    let f1 := { f with ll := list.PushBack f.ll f.fresh en, fresh := f.fresh + 1 }
    let f2 := { f1 with cache := PtrMap.set f1.cache key f.fresh }
    let f3 := { f2 with usedBytes := wrap64 (f2.usedBytes + wrap64 (CalcLen en.value)) }
    if f3.maxBytes > 0 ∧ f3.usedBytes > f3.maxBytes then DelOldest CalcLen f3 else f3

/-- Method `Del` of `fifo` on the type `int` of 64 bits. -/
def Del (f : engine V) (key : String) : engine V :=
  match PtrMap.get f.cache key with
  | some p => removeElement CalcLen f (list.deref f.ll p)
  | none => f

/-- One call of the interface, on the type `int` of 64 bits; `Get` computes
nothing on the counter. -/
def step (f : engine V) : Op V → engine V
  | .Set key value => Set CalcLen f key value
  | .Get key => (fifo.Get f key).1
  | .Del key => Del CalcLen f key
  | .DelOldest => DelOldest CalcLen f

/-- A sequence of calls, in order, on the type `int` of 64 bits. -/
def run (f : engine V) (ops : List (Op V)) : engine V :=
  ops.foldl (step CalcLen) f

end fifo.int64

namespace lru.int64

variable {V : Type} (CalcLen : V → Int)

/-- Method `removeElement` of `lru` on the type `int` of 64 bits. -/
def removeElement (l : engine V) (e : Option (Element V)) : engine V :=
  match e with
  | none => l
  | some e =>
    let en := e.Value
    let l1 := { l with ll := list.Remove l.ll e.ptr }
    let l2 := { l1 with usedBytes := wrap64 (l1.usedBytes - wrap64 (CalcLen en.value)) }
    let l3 := { l2 with cache := PtrMap.delete l2.cache en.key }
    l3.notify en.key en.value

/-- Method `DelOldest` of `lru` on the type `int` of 64 bits. -/
def DelOldest (l : engine V) : engine V :=
  removeElement CalcLen l (list.Front l.ll)

/-- Method `Set` of `lru` on the type `int` of 64 bits. -/
def Set (l : engine V) (key : String) (value : V) : engine V :=
  match PtrMap.get l.cache key with
  | some p =>
    match list.deref l.ll p with
    | some e =>
      let l1 := { l with ll := list.MoveToBack l.ll p }
      let l2 := { l1 with
        usedBytes := wrap64 (wrap64 (l1.usedBytes - wrap64 (CalcLen e.Value.value))
          + wrap64 (CalcLen value)) }
      { l2 with ll := list.setValue l2.ll p value }
    | none => l
  | none =>
    let en : entry V := ⟨key, value⟩
    let l1 := { l with ll := list.PushBack l.ll l.fresh en, fresh := l.fresh + 1 }
    let l2 := { l1 with cache := PtrMap.set l1.cache key l.fresh }
    let l3 := { l2 with usedBytes := wrap64 (l2.usedBytes + wrap64 (CalcLen en.value)) }
    if l3.maxBytes > 0 ∧ l3.usedBytes > l3.maxBytes then DelOldest CalcLen l3 else l3

/-- Method `Del` of `lru` on the type `int` of 64 bits. -/
def Del (l : engine V) (key : String) : engine V :=
  match PtrMap.get l.cache key with
  | some p => removeElement CalcLen l (list.deref l.ll p)
  | none => l

/-- One call of the interface, on the type `int` of 64 bits; `Get` computes
nothing on the counter. -/
def step (l : engine V) : Op V → engine V
  | .Set key value => Set CalcLen l key value
  | .Get key => (lru.Get l key).1
  | .Del key => Del CalcLen l key
  | .DelOldest => DelOldest CalcLen l

/-- A sequence of calls, in order, on the type `int` of 64 bits. -/
def run (l : engine V) (ops : List (Op V)) : engine V :=
  ops.foldl (step CalcLen) l

end lru.int64

namespace lfu.int64

variable {V : Type} (CalcLen : V → Int) (less : entry V → entry V → Bool)

/-- Method `removeElement` of `lfu` on the type `int` of 64 bits. -/
def removeElement (l : lfu V) (x : Option (entry V)) : lfu V :=
  match x with
  | none => l
  | some en =>
    let l1 : lfu V := { l with cache := PtrMap.delete l.cache en.key }
    let l2 : lfu V := { l1 with
      usedBytes := wrap64 (l1.usedBytes - wrap64 (entry.Len CalcLen en)) }
    l2.notify en.key en.value

/-- Method `Set` of `lfu` on the type `int` of 64 bits: every result of
`cache.CalcLen`, of an addition and of a subtraction on the byte counter is
reduced by `wrap64`, and so is the weight `e.weight+1`; the budget is compared
with the counter so reduced. -/
def Set (l : lfu V) (key : String) (value : V) : Option (lfu V) :=
  match PtrMap.get l.cache key with
  | some p =>
    match queue.deref l.queue p with
    | some e =>
      let l1 : lfu V := { l with
        usedBytes := wrap64 (wrap64 (l.usedBytes - wrap64 (CalcLen e.value))
          + wrap64 (CalcLen value)) }
      match queue.update less l1.queue e value (wrap64 (e.weight + 1)) with
      | some q => some { l1 with queue := q }
      | none => none
    | none => some l
  | none =>
    let en : entry V := { ptr := l.fresh, key := key, value := value, weight := 0, index := 0 }
    match heap.Push less l.queue en with
    | none => none
    | some q =>
      let l1 : lfu V := { l with queue := q, fresh := l.fresh + 1 }
      let l2 : lfu V := { l1 with cache := PtrMap.set l1.cache key en.ptr }
      let l3 : lfu V := { l2 with
        usedBytes := wrap64 (l2.usedBytes + wrap64 (entry.Len CalcLen en)) }
      if l3.maxBytes > 0 ∧ l3.usedBytes > l3.maxBytes then
        match heap.Pop less l3.queue with
        | none => none
        | some (q1, x) => some (removeElement CalcLen { l3 with queue := q1 } (some x))
      else some l3

/-- Method `Get` of `lfu` on the type `int` of 64 bits: the weight `e.weight+1` is
reduced by `wrap64`. -/
def Get (l : lfu V) (key : String) : Option (lfu V × Option V) :=
  match PtrMap.get l.cache key with
  | some p =>
    match queue.deref l.queue p with
    | some e =>
      match queue.update less l.queue e e.value (wrap64 (e.weight + 1)) with
      | some q => some ({ l with queue := q }, some e.value)
      | none => none
    | none => some (l, none)
  | none => some (l, none)

/-- Method `Del` of `lfu` on the type `int` of 64 bits. -/
def Del (l : lfu V) (key : String) : Option (lfu V) :=
  match PtrMap.get l.cache key with
  | some p =>
    match queue.deref l.queue p with
    | some e =>
      match heap.Remove less l.queue e.index with
      | some (q, _) => some (removeElement CalcLen { l with queue := q } (some e))
      | none => none
    | none => some l
  | none => some l

/-- Method `DelOldest` of `lfu` on the type `int` of 64 bits. -/
def DelOldest (l : lfu V) : Option (lfu V) :=
  if queue.Len l.queue = 0 then some l
  else
    match heap.Pop less l.queue with
    | some (q, x) => some (removeElement CalcLen { l with queue := q } (some x))
    | none => none

/-- One call of the interface, on the type `int` of 64 bits. -/
def step (l : lfu V) : Op V → Option (lfu V)
  | .Set key value => Set CalcLen less l key value
  | .Get key => (Get less l key).map Prod.fst
  | .Del key => Del CalcLen less l key
  | .DelOldest => DelOldest CalcLen less l

/-- A sequence of calls, in order, on the type `int` of 64 bits; `none` when one
of them panics. -/
def run (l : lfu V) : List (Op V) → Option (lfu V)
  | [] => some l
  | op :: rest =>
    match step CalcLen less l op with
    | some l1 => run l1 rest
    | none => none

end lfu.int64

/-! ## The order of the calls `Set` of a FIFO cache -/

namespace fifo

variable {V : Type} (CalcLen : V → Int)

/-- A FIFO cache with the number of calls made so far and, for every key, the
number of the most recent `Set` of it. -/
structure Timed (V : Type) where
  state : engine V
  clock : Nat
  lastSet : String → Option Nat

/-- One call, with the bookkeeping of the calls `Set`. -/
def timedStep (t : Timed V) (op : Op V) : Timed V :=
  { state := step CalcLen t.state op
    clock := t.clock + 1
    lastSet := fun x => if Op.setsKey x op then some t.clock else t.lastSet x }

/-- The history of a cache created by `New` and driven by `ops`. -/
def history (maxBytes : Int) (onEvicted : Bool) (ops : List (Op V)) : Timed V :=
  ops.foldl (timedStep CalcLen) ⟨New maxBytes onEvicted, 0, fun _ => none⟩

end fifo

/-! ## Statements about the engines on the machine type `int` -/

/-- What a `Set(k, v)` of a key that is not held does to a byte-bounded engine
on the type `int`, from the state `s` before to the state `t` after, the budget
being positive. The new counter is the counter plus the weight of the new
value, reduced to the range of `int`. When it exceeds the budget, exactly the
entry at the front of the list (the new entry appended) is removed and the
callback, if any, is invoked once for it; otherwise nothing is removed and
nothing is invoked. -/
def FreshInsertEffect64 {V : Type} (CalcLen : V → Int) (s t : engine V) (k : String)
    (v : V) : Prop :=
  (wrap64 (s.usedBytes + wrap64 (CalcLen v)) > s.maxBytes →
    ∃ e rest, s.ll ++ [⟨s.fresh, ⟨k, v⟩⟩] = e :: rest ∧
      t.ll = rest ∧
      t.cache = PtrMap.delete (s.cache ++ [(k, s.fresh)]) e.Value.key ∧
      t.usedBytes = wrap64 (wrap64 (s.usedBytes + wrap64 (CalcLen v))
        - wrap64 (CalcLen e.Value.value)) ∧
      t.calls = (if s.onEvicted then
          s.calls ++ [⟨e.Value.key, e.Value.value, t.ll, t.cache, t.usedBytes⟩]
        else s.calls) ∧
      list.Len t.ll = list.Len s.ll) ∧
  (¬ (wrap64 (s.usedBytes + wrap64 (CalcLen v)) > s.maxBytes) →
    t.ll = s.ll ++ [⟨s.fresh, ⟨k, v⟩⟩] ∧
    t.cache = s.cache ++ [(k, s.fresh)] ∧
    t.usedBytes = wrap64 (s.usedBytes + wrap64 (CalcLen v)) ∧
    t.calls = s.calls ∧
    list.Len t.ll = list.Len s.ll + 1)

/-- The accounting invariant of a byte-bounded engine on the type `int`: the
counter is the sum of the weights, reduced to the range of `int`. -/
def engine.accounted64 {V : Type} (CalcLen : V → Int) (s : engine V) : Prop :=
  s.usedBytes = wrap64 (weightSum CalcLen s.ll)

namespace lru.int64

variable {V : Type} (CalcLen : V → Int)

/-- One call on the type `int`, with the bookkeeping of touches. -/
def timedStep (t : lru.Timed V) (op : Op V) : lru.Timed V :=
  { state := step CalcLen t.state op
    clock := t.clock + 1
    lastTouch := fun x => if lru.touches t.state op x then some t.clock else t.lastTouch x }

/-- The history of a cache on the type `int` created by `New` and driven by
`ops`. -/
def history (maxBytes : Int) (onEvicted : Bool) (ops : List (Op V)) : lru.Timed V :=
  ops.foldl (timedStep CalcLen) ⟨lru.New maxBytes onEvicted, 0, fun _ => none⟩

end lru.int64

namespace fifo.int64

variable {V : Type} (CalcLen : V → Int)

/-- One call on the type `int`, with the bookkeeping of the calls `Set`. -/
def timedStep (t : fifo.Timed V) (op : Op V) : fifo.Timed V :=
  { state := step CalcLen t.state op
    clock := t.clock + 1
    lastSet := fun x => if Op.setsKey x op then some t.clock else t.lastSet x }

/-- The history of a cache on the type `int` created by `New` and driven by
`ops`. -/
def history (maxBytes : Int) (onEvicted : Bool) (ops : List (Op V)) : fifo.Timed V :=
  ops.foldl (timedStep CalcLen) ⟨fifo.New maxBytes onEvicted, 0, fun _ => none⟩

end fifo.int64

/-! ## Pointer maps: basic facts -/

namespace PtrMap

theorem get_eq_none_iff (m : PtrMap) (k : String) :
    get m k = none ↔ k ∉ m.map Prod.fst := by
  induction m with
  | nil => simp [get]
  | cons kp rest ih =>
    obtain ⟨k', p⟩ := kp
    by_cases h : k' = k
    · simp [get, h]
    · have h2 : ¬ k = k' := fun h2 => h h2.symm
      simp [get, h, ih, h2]

theorem mem_of_get (m : PtrMap) (k : String) (p : Nat) (h : get m k = some p) :
    (k, p) ∈ m := by
  induction m with
  | nil => simp [get] at h
  | cons kp rest ih =>
    obtain ⟨k', q⟩ := kp
    by_cases hk : k' = k
    · simp [get, hk] at h; simp [hk, h]
    · simp [get, hk] at h; simp [ih h]

theorem get_of_mem (m : PtrMap) (k : String) (p : Nat) (hnd : (m.map Prod.fst).Nodup)
    (h : (k, p) ∈ m) : get m k = some p := by
  induction m with
  | nil => simp at h
  | cons kp rest ih =>
    obtain ⟨k', q⟩ := kp
    simp only [List.map_cons, List.nodup_cons] at hnd
    by_cases hk : k' = k
    · subst hk
      simp only [List.mem_cons, Prod.mk.injEq, true_and] at h
      rcases h with h | h
      · simp [get, h]
      · exact absurd (List.mem_map_of_mem Prod.fst h) hnd.1
    · simp only [List.mem_cons, Prod.mk.injEq] at h
      rcases h with h | h
      · exact absurd h.1.symm hk
      · simp [get, hk, ih hnd.2 h]

theorem delete_of_not_mem (m : PtrMap) (k : String) (h : k ∉ m.map Prod.fst) :
    delete m k = m := by
  unfold delete
  rw [List.filter_eq_self]
  intro kp hkp
  simp only [ne_eq, decide_not, Bool.not_eq_eq_eq_not, Bool.not_true, decide_eq_false_iff_not]
  intro hk
  exact h (hk ▸ List.mem_map_of_mem Prod.fst hkp)

end PtrMap

/-! ## `container/list`: basic facts -/

namespace list

variable {V : Type}

theorem split_of_mem (l : List (Element V)) (e : Element V) (h : e ∈ l)
    (hnd : (ptrs l).Nodup) :
    ∃ l1 l2, l = l1 ++ e :: l2 ∧ (∀ x ∈ l1, x.ptr ≠ e.ptr) ∧ (∀ x ∈ l2, x.ptr ≠ e.ptr) := by
  obtain ⟨l1, l2, rfl⟩ := List.append_of_mem h
  refine ⟨l1, l2, rfl, ?_, ?_⟩
  · intro x hx hxe
    simp only [ptrs, List.map_append, List.map_cons] at hnd
    have := (List.nodup_append.1 hnd).2.2
    exact this (List.mem_map_of_mem (fun e => e.ptr) hx) (by simp [hxe]) 
  · intro x hx hxe
    simp only [ptrs, List.map_append, List.map_cons] at hnd
    have := ((List.nodup_append.1 hnd).2.1)
    rw [List.nodup_cons] at this
    exact this.1 (hxe ▸ List.mem_map_of_mem (fun e => e.ptr) hx)

theorem Remove_eq_self (l : List (Element V)) (p : Nat) (h : ∀ x ∈ l, x.ptr ≠ p) :
    Remove l p = l := by
  unfold Remove
  rw [List.filter_eq_self]
  intro x hx
  simpa using h x hx

theorem deref_eq_none (l : List (Element V)) (p : Nat) (h : ∀ x ∈ l, x.ptr ≠ p) :
    deref l p = none := by
  unfold deref
  rw [List.find?_eq_none]
  intro x hx
  simpa using h x hx

theorem deref_split (l1 l2 : List (Element V)) (e : Element V)
    (h1 : ∀ x ∈ l1, x.ptr ≠ e.ptr) : deref (l1 ++ e :: l2) e.ptr = some e := by
  have := deref_eq_none l1 e.ptr h1
  unfold deref at this ⊢
  rw [List.find?_append, this]
  simp

theorem Remove_split (l1 l2 : List (Element V)) (e : Element V)
    (h1 : ∀ x ∈ l1, x.ptr ≠ e.ptr) (h2 : ∀ x ∈ l2, x.ptr ≠ e.ptr) :
    Remove (l1 ++ e :: l2) e.ptr = l1 ++ l2 := by
  have e1 := Remove_eq_self l1 e.ptr h1
  have e2 := Remove_eq_self l2 e.ptr h2
  unfold Remove at e1 e2 ⊢
  rw [List.filter_append, List.filter_cons, e1, e2]
  simp

theorem setValue_eq_self (l : List (Element V)) (p : Nat) (v : V)
    (h : ∀ x ∈ l, x.ptr ≠ p) : setValue l p v = l := by
  unfold setValue
  conv_rhs => rw [← List.map_id l]
  apply List.map_congr_left
  intro x hx
  simp [h x hx]

theorem MoveToBack_split (l1 l2 : List (Element V)) (e : Element V)
    (h1 : ∀ x ∈ l1, x.ptr ≠ e.ptr) (h2 : ∀ x ∈ l2, x.ptr ≠ e.ptr) :
    MoveToBack (l1 ++ e :: l2) e.ptr = l1 ++ l2 ++ [e] := by
  unfold MoveToBack
  rw [deref_split l1 l2 e h1, Remove_split l1 l2 e h1 h2]

theorem setValue_back (l1 l2 : List (Element V)) (e : Element V) (v : V)
    (h1 : ∀ x ∈ l1, x.ptr ≠ e.ptr) (h2 : ∀ x ∈ l2, x.ptr ≠ e.ptr) :
    setValue (l1 ++ l2 ++ [e]) e.ptr v = l1 ++ l2 ++ [⟨e.ptr, ⟨e.Value.key, v⟩⟩] := by
  have e1 := setValue_eq_self l1 e.ptr v h1
  have e2 := setValue_eq_self l2 e.ptr v h2
  unfold setValue at e1 e2 ⊢
  rw [List.map_append, List.map_append, e1, e2]
  simp

theorem deref_mem (l : List (Element V)) (p : Nat) (e : Element V)
    (h : deref l p = some e) : e ∈ l ∧ e.ptr = p := by
  unfold deref at h
  exact ⟨List.mem_of_find?_eq_some h, by simpa using List.find?_some h⟩

theorem deref_of_mem (l : List (Element V)) (e : Element V) (h : e ∈ l)
    (hnd : (ptrs l).Nodup) : deref l e.ptr = some e := by
  obtain ⟨l1, l2, rfl, h1, _⟩ := split_of_mem l e h hnd
  exact deref_split l1 l2 e h1

end list

/-! ## The invariant `Linked` and the list operations -/

namespace Linked

variable {V : Type} {ll : List (Element V)} {cache : PtrMap} {fresh : Nat}

theorem nil : Linked ([] : List (Element V)) [] 0 :=
  ⟨List.Perm.refl _, List.nodup_nil, List.nodup_nil, by simp⟩

theorem cache_keys (h : Linked ll cache fresh) : (cache.map Prod.fst).Perm (list.keys ll) := by
  have := h.perm.map Prod.fst
  simpa [list.pairs, list.keys, Function.comp_def] using this

theorem cache_nodup (h : Linked ll cache fresh) : (cache.map Prod.fst).Nodup :=
  h.cache_keys.nodup_iff.2 h.keys_nodup

theorem length_eq (h : Linked ll cache fresh) : cache.length = ll.length := by
  simpa [list.pairs] using h.perm.length_eq

theorem get_none_iff (h : Linked ll cache fresh) (k : String) :
    PtrMap.get cache k = none ↔ k ∉ list.keys ll := by
  rw [PtrMap.get_eq_none_iff, h.cache_keys.mem_iff]

theorem get_some_iff (h : Linked ll cache fresh) (k : String) (p : Nat) :
    PtrMap.get cache k = some p ↔ ∃ e ∈ ll, e.Value.key = k ∧ e.ptr = p := by
  constructor
  · intro hg
    have := h.perm.mem_iff.1 (PtrMap.mem_of_get cache k p hg)
    simp only [list.pairs, List.mem_map, Prod.mk.injEq] at this
    exact this
  · rintro ⟨e, he, rfl, rfl⟩
    apply PtrMap.get_of_mem cache _ _ h.cache_nodup
    exact h.perm.mem_iff.2 (List.mem_map_of_mem (fun e => (e.Value.key, e.ptr)) he)

theorem get_deref (h : Linked ll cache fresh) (k : String) (p : Nat)
    (hg : PtrMap.get cache k = some p) :
    ∃ e, list.deref ll p = some e ∧ e ∈ ll ∧ e.Value.key = k ∧ e.ptr = p := by
  obtain ⟨e, he, hk, hp⟩ := (h.get_some_iff k p).1 hg
  exact ⟨e, hp ▸ list.deref_of_mem ll e he h.ptrs_nodup, he, hk, hp⟩

theorem key_ne_of_split {l1 l2 : List (Element V)} {e : Element V}
    (h : (list.keys (l1 ++ e :: l2)).Nodup) :
    (∀ x ∈ l1, x.Value.key ≠ e.Value.key) ∧ (∀ x ∈ l2, x.Value.key ≠ e.Value.key) := by
  simp only [list.keys, List.map_append, List.map_cons] at h
  have h' := List.nodup_append.1 h
  constructor
  · intro x hx hxe
    exact h'.2.2 (List.mem_map_of_mem (fun e => e.Value.key) hx) (by simp [hxe])
  · intro x hx hxe
    have := (List.nodup_cons.1 h'.2.1).1
    exact this (hxe ▸ List.mem_map_of_mem (fun e => e.Value.key) hx)

end Linked

namespace Linked

variable {V : Type} {ll : List (Element V)} {cache : PtrMap} {fresh : Nat}

theorem push (h : Linked ll cache fresh) (k : String) (v : V)
    (hk : PtrMap.get cache k = none) :
    Linked (list.PushBack ll fresh ⟨k, v⟩) (PtrMap.set cache k fresh) (fresh + 1) := by
  have hk1 : k ∉ cache.map Prod.fst := (PtrMap.get_eq_none_iff cache k).1 hk
  have hk2 : k ∉ list.keys ll := (h.get_none_iff k).1 hk
  have hp : fresh ∉ list.ptrs ll := by
    intro hmem
    simp only [list.ptrs, List.mem_map] at hmem
    obtain ⟨e, he, hpe⟩ := hmem
    have := h.fresh_bound e he
    omega
  refine ⟨?_, ?_, ?_, ?_⟩
  · unfold PtrMap.set list.PushBack
    rw [PtrMap.delete_of_not_mem cache k hk1]
    simp only [list.pairs, List.map_append, List.map_cons, List.map_nil]
    exact List.Perm.append_right _ h.perm
  · simp only [list.PushBack, list.keys, List.map_append, List.map_cons, List.map_nil]
    rw [List.nodup_append]
    refine ⟨h.keys_nodup, by simp, ?_⟩
    intro a ha hb
    simp only [List.mem_singleton] at hb
    subst hb
    exact hk2 ha
  · simp only [list.PushBack, list.ptrs, List.map_append, List.map_cons, List.map_nil]
    rw [List.nodup_append]
    refine ⟨h.ptrs_nodup, by simp, ?_⟩
    intro a ha hb
    simp only [List.mem_singleton] at hb
    subst hb
    exact hp ha
  · intro e he
    simp only [list.PushBack, List.mem_append, List.mem_singleton] at he
    rcases he with he | he
    · have := h.fresh_bound e he
      omega
    · subst he
      simp

theorem remove {l1 l2 : List (Element V)} {e : Element V}
    (h : Linked (l1 ++ e :: l2) cache fresh) :
    Linked (l1 ++ l2) (PtrMap.delete cache e.Value.key) fresh := by
  obtain ⟨hk1, hk2⟩ := key_ne_of_split h.keys_nodup
  refine ⟨?_, ?_, ?_, ?_⟩
  · have hp := h.perm.filter (fun kp => decide (kp.1 ≠ e.Value.key))
    unfold PtrMap.delete
    refine hp.trans ?_
    have e1 : (list.pairs l1).filter (fun kp => decide (kp.1 ≠ e.Value.key)) = list.pairs l1 := by
      rw [List.filter_eq_self]
      intro kp hkp
      simp only [list.pairs, List.mem_map] at hkp
      obtain ⟨x, hx, rfl⟩ := hkp
      simpa using hk1 x hx
    have e2 : (list.pairs l2).filter (fun kp => decide (kp.1 ≠ e.Value.key)) = list.pairs l2 := by
      rw [List.filter_eq_self]
      intro kp hkp
      simp only [list.pairs, List.mem_map] at hkp
      obtain ⟨x, hx, rfl⟩ := hkp
      simpa using hk2 x hx
    have e3 : list.pairs (l1 ++ e :: l2)
        = list.pairs l1 ++ (e.Value.key, e.ptr) :: list.pairs l2 := by
      simp [list.pairs]
    have e4 : list.pairs (l1 ++ l2) = list.pairs l1 ++ list.pairs l2 := by
      simp [list.pairs]
    rw [e3, e4, List.filter_append, List.filter_cons, e1, e2]
    simp
  · have := h.keys_nodup
    simp only [list.keys, List.map_append, List.map_cons] at this ⊢
    exact this.sublist (List.Sublist.append_left (List.sublist_cons_self _ _) _)
  · have := h.ptrs_nodup
    simp only [list.ptrs, List.map_append, List.map_cons] at this ⊢
    exact this.sublist (List.Sublist.append_left (List.sublist_cons_self _ _) _)
  · intro x hx
    apply h.fresh_bound
    simp only [List.mem_append, List.mem_cons] at hx ⊢
    tauto

theorem touch {l1 l2 : List (Element V)} {e : Element V} (v : V)
    (h : Linked (l1 ++ e :: l2) cache fresh) :
    Linked (l1 ++ l2 ++ [⟨e.ptr, ⟨e.Value.key, v⟩⟩]) cache fresh := by
  refine ⟨?_, ?_, ?_, ?_⟩
  · refine h.perm.trans ?_
    simp only [list.pairs, List.map_append, List.map_cons, List.map_nil, List.append_assoc]
    exact List.Perm.append_left _ (List.perm_append_singleton _ _).symm
  · have := h.keys_nodup
    simp only [list.keys, List.map_append, List.map_cons, List.map_nil,
      List.append_assoc] at this ⊢
    refine (List.Perm.nodup_iff ?_).1 this
    exact List.Perm.append_left _ (List.perm_append_singleton _ _).symm
  · have := h.ptrs_nodup
    simp only [list.ptrs, List.map_append, List.map_cons, List.map_nil,
      List.append_assoc] at this ⊢
    refine (List.Perm.nodup_iff ?_).1 this
    exact List.Perm.append_left _ (List.perm_append_singleton _ _).symm
  · intro x hx
    simp only [List.mem_append, List.mem_singleton] at hx
    rcases hx with (hx | hx) | hx
    · exact h.fresh_bound x (by simp [hx])
    · exact h.fresh_bound x (by simp [hx])
    · subst hx
      exact h.fresh_bound e (by simp)

end Linked

/-! ## The methods of `fifo` and `lru` on linked states -/

namespace fifo

variable {V : Type} (CalcLen : V → Int)

theorem removeElement_split (s : engine V) (l1 l2 : List (Element V)) (e : Element V)
    (hs : s.ll = l1 ++ e :: l2)
    (h1 : ∀ x ∈ l1, x.ptr ≠ e.ptr) (h2 : ∀ x ∈ l2, x.ptr ≠ e.ptr) :
    removeElement CalcLen s (some e) =
      engine.notify { s with
        ll := l1 ++ l2
        usedBytes := s.usedBytes - CalcLen e.Value.value
        cache := PtrMap.delete s.cache e.Value.key } e.Value.key e.Value.value := by
  simp only [removeElement, hs, list.Remove_split l1 l2 e h1 h2]

theorem DelOldest_nil (s : engine V) (hs : s.ll = []) : DelOldest CalcLen s = s := by
  simp [DelOldest, list.Front, hs, removeElement]

theorem DelOldest_cons (s : engine V) (e : Element V) (rest : List (Element V))
    (hs : s.ll = e :: rest) (hnd : (list.ptrs s.ll).Nodup) :
    DelOldest CalcLen s =
      engine.notify { s with
        ll := rest
        usedBytes := s.usedBytes - CalcLen e.Value.value
        cache := PtrMap.delete s.cache e.Value.key } e.Value.key e.Value.value := by
  have h2 : ∀ x ∈ rest, x.ptr ≠ e.ptr := by
    rw [hs] at hnd
    simp only [list.ptrs, List.map_cons, List.nodup_cons] at hnd
    intro x hx hxe
    exact hnd.1 (hxe ▸ List.mem_map_of_mem (fun e => e.ptr) hx)
  have := removeElement_split CalcLen s [] rest e (by simpa using hs) (by simp) h2
  simpa [DelOldest, list.Front, hs] using this

theorem Set_hit (s : engine V) (k : String) (v : V) (p : Nat)
    (hl : Linked s.ll s.cache s.fresh) (hg : PtrMap.get s.cache k = some p) :
    ∃ l1 l2 e, s.ll = l1 ++ e :: l2 ∧ e.Value.key = k ∧ e.ptr = p ∧
      (∀ x ∈ l1, x.ptr ≠ p) ∧ (∀ x ∈ l2, x.ptr ≠ p) ∧
      Set CalcLen s k v = { s with
        ll := l1 ++ l2 ++ [⟨p, ⟨k, v⟩⟩]
        usedBytes := s.usedBytes - CalcLen e.Value.value + CalcLen v } := by
  obtain ⟨e, hd, he, hk, hp⟩ := hl.get_deref k p hg
  obtain ⟨l1, l2, hs, h1, h2⟩ := list.split_of_mem s.ll e he hl.ptrs_nodup
  subst hk hp
  refine ⟨l1, l2, e, hs, rfl, rfl, h1, h2, ?_⟩
  simp only [Set, hg, hd]
  rw [hs, list.MoveToBack_split l1 l2 e h1 h2, list.setValue_back l1 l2 e v h1 h2]

theorem Set_miss (s : engine V) (k : String) (v : V)
    (hg : PtrMap.get s.cache k = none) :
    Set CalcLen s k v =
      let s3 : engine V := { s with
        ll := s.ll ++ [⟨s.fresh, ⟨k, v⟩⟩]
        fresh := s.fresh + 1
        cache := s.cache ++ [(k, s.fresh)]
        usedBytes := s.usedBytes + CalcLen v }
      if s.maxBytes > 0 ∧ s.usedBytes + CalcLen v > s.maxBytes then DelOldest CalcLen s3
      else s3 := by
  have hk1 : k ∉ s.cache.map Prod.fst := (PtrMap.get_eq_none_iff s.cache k).1 hg
  simp only [Set, hg, list.PushBack, PtrMap.set, PtrMap.delete_of_not_mem s.cache k hk1]

theorem Del_miss (s : engine V) (k : String) (hg : PtrMap.get s.cache k = none) :
    Del CalcLen s k = s := by
  simp [Del, hg]

theorem Del_hit (s : engine V) (k : String) (p : Nat)
    (hl : Linked s.ll s.cache s.fresh) (hg : PtrMap.get s.cache k = some p) :
    ∃ l1 l2 e, s.ll = l1 ++ e :: l2 ∧ e.Value.key = k ∧ e.ptr = p ∧
      (∀ x ∈ l1, x.ptr ≠ p) ∧ (∀ x ∈ l2, x.ptr ≠ p) ∧
      Del CalcLen s k = engine.notify { s with
        ll := l1 ++ l2
        usedBytes := s.usedBytes - CalcLen e.Value.value
        cache := PtrMap.delete s.cache k } k e.Value.value := by
  obtain ⟨e, hd, he, hk, hp⟩ := hl.get_deref k p hg
  obtain ⟨l1, l2, hs, h1, h2⟩ := list.split_of_mem s.ll e he hl.ptrs_nodup
  subst hk hp
  refine ⟨l1, l2, e, hs, rfl, rfl, h1, h2, ?_⟩
  simp only [Del, hg, hd]
  exact removeElement_split CalcLen s l1 l2 e hs h1 h2

end fifo

namespace lru

variable {V : Type} (CalcLen : V → Int)

theorem removeElement_eq : @removeElement V CalcLen = fifo.removeElement CalcLen := rfl

theorem DelOldest_eq : @DelOldest V CalcLen = fifo.DelOldest CalcLen := rfl

theorem Set_eq : @Set V CalcLen = fifo.Set CalcLen := rfl

theorem Del_eq : @Del V CalcLen = fifo.Del CalcLen := rfl

theorem Get_miss_lru (s : engine V) (k : String) (hg : PtrMap.get s.cache k = none) :
    Get s k = (s, none) := by
  simp [Get, hg]

theorem Get_hit_lru (s : engine V) (k : String) (p : Nat)
    (hl : Linked s.ll s.cache s.fresh) (hg : PtrMap.get s.cache k = some p) :
    ∃ l1 l2 e, s.ll = l1 ++ e :: l2 ∧ e.Value.key = k ∧ e.ptr = p ∧
      (∀ x ∈ l1, x.ptr ≠ p) ∧ (∀ x ∈ l2, x.ptr ≠ p) ∧
      Get s k = ({ s with ll := l1 ++ l2 ++ [e] }, some e.Value.value) := by
  obtain ⟨e, hd, he, hk, hp⟩ := hl.get_deref k p hg
  obtain ⟨l1, l2, hs, h1, h2⟩ := list.split_of_mem s.ll e he hl.ptrs_nodup
  subst hk hp
  refine ⟨l1, l2, e, hs, rfl, rfl, h1, h2, ?_⟩
  simp only [Get, hg, hd]
  rw [hs, list.MoveToBack_split l1 l2 e h1 h2]

end lru

/-! ## Reachable states are linked -/

namespace engine

variable {V : Type}

@[simp] theorem notify_ll (s : engine V) (k : String) (v : V) : (s.notify k v).ll = s.ll := by
  unfold notify; split <;> rfl

@[simp] theorem notify_cache (s : engine V) (k : String) (v : V) :
    (s.notify k v).cache = s.cache := by
  unfold notify; split <;> rfl

@[simp] theorem notify_fresh (s : engine V) (k : String) (v : V) :
    (s.notify k v).fresh = s.fresh := by
  unfold notify; split <;> rfl

@[simp] theorem notify_usedBytes (s : engine V) (k : String) (v : V) :
    (s.notify k v).usedBytes = s.usedBytes := by
  unfold notify; split <;> rfl

@[simp] theorem notify_maxBytes (s : engine V) (k : String) (v : V) :
    (s.notify k v).maxBytes = s.maxBytes := by
  unfold notify; split <;> rfl

@[simp] theorem notify_onEvicted (s : engine V) (k : String) (v : V) :
    (s.notify k v).onEvicted = s.onEvicted := by
  unfold notify; split <;> rfl

end engine

namespace Linked

variable {V : Type} {ll : List (Element V)} {cache : PtrMap} {fresh : Nat}

theorem push_append (h : Linked ll cache fresh) (k : String) (v : V)
    (hk : PtrMap.get cache k = none) :
    Linked (ll ++ [⟨fresh, ⟨k, v⟩⟩]) (cache ++ [(k, fresh)]) (fresh + 1) := by
  have := h.push k v hk
  have hk1 : k ∉ cache.map Prod.fst := (PtrMap.get_eq_none_iff cache k).1 hk
  simpa only [list.PushBack, PtrMap.set, PtrMap.delete_of_not_mem cache k hk1] using this

theorem remove_head {e : Element V} {rest : List (Element V)}
    (h : Linked (e :: rest) cache fresh) :
    Linked rest (PtrMap.delete cache e.Value.key) fresh := by
  have h' : Linked ([] ++ e :: rest) cache fresh := by simpa using h
  simpa using h'.remove

theorem touch_same {l1 l2 : List (Element V)} {e : Element V}
    (h : Linked (l1 ++ e :: l2) cache fresh) : Linked (l1 ++ l2 ++ [e]) cache fresh :=
  h.touch e.Value.value

end Linked

namespace fifo

variable {V : Type} (CalcLen : V → Int)

theorem DelOldest_linked (s : engine V) (h : s.linked) : (DelOldest CalcLen s).linked := by
  unfold engine.linked at h ⊢
  cases hs : s.ll with
  | nil => rw [DelOldest_nil CalcLen s hs]; exact h
  | cons e rest =>
    rw [DelOldest_cons CalcLen s e rest hs h.ptrs_nodup]
    simp only [engine.notify_ll, engine.notify_cache, engine.notify_fresh]
    rw [hs] at h
    exact h.remove_head

theorem Set_linked (s : engine V) (k : String) (v : V) (h : s.linked) :
    (Set CalcLen s k v).linked := by
  cases hg : PtrMap.get s.cache k with
  | none =>
    rw [Set_miss CalcLen s k v hg]
    have h3 := Linked.push_append h k v hg
    dsimp only
    split
    · exact DelOldest_linked CalcLen _ h3
    · exact h3
  | some p =>
    obtain ⟨l1, l2, e, hs, hk, hp, -, -, hset⟩ := Set_hit CalcLen s k v p h hg
    rw [hset]
    unfold engine.linked at h ⊢
    rw [hs] at h
    subst hk hp
    exact h.touch v

theorem Del_linked (s : engine V) (k : String) (h : s.linked) : (Del CalcLen s k).linked := by
  cases hg : PtrMap.get s.cache k with
  | none => rw [Del_miss CalcLen s k hg]; exact h
  | some p =>
    obtain ⟨l1, l2, e, hs, hk, hp, -, -, hdel⟩ := Del_hit CalcLen s k p h hg
    rw [hdel]
    unfold engine.linked at h ⊢
    simp only [engine.notify_ll, engine.notify_cache, engine.notify_fresh]
    rw [hs] at h
    subst hk
    exact h.remove

theorem step_linked (s : engine V) (op : Op V) (h : s.linked) : (step CalcLen s op).linked := by
  cases op with
  | Set k v => exact Set_linked CalcLen s k v h
  | Get k =>
    have : (Get s k).1 = s := by
      unfold Get; split
      · split <;> rfl
      · rfl
    simp only [step, this]; exact h
  | Del k => exact Del_linked CalcLen s k h
  | DelOldest => exact DelOldest_linked CalcLen s h

theorem run_linked (s : engine V) (ops : List (Op V)) (h : s.linked) :
    (run CalcLen s ops).linked := by
  induction ops generalizing s with
  | nil => exact h
  | cons op rest ih => exact ih _ (step_linked CalcLen s op h)

theorem New_linked (maxBytes : Int) (onEvicted : Bool) :
    (New maxBytes onEvicted : engine V).linked := Linked.nil

end fifo

namespace lru

variable {V : Type} (CalcLen : V → Int)

theorem Get_linked (s : engine V) (k : String) (h : s.linked) : (Get s k).1.linked := by
  cases hg : PtrMap.get s.cache k with
  | none => rw [Get_miss_lru s k hg]; exact h
  | some p =>
    obtain ⟨l1, l2, e, hs, hk, hp, -, -, hget⟩ := Get_hit_lru s k p h hg
    rw [hget]
    unfold engine.linked at h ⊢
    rw [hs] at h
    exact h.touch_same

theorem step_linked_lru (s : engine V) (op : Op V) (h : s.linked) : (step CalcLen s op).linked := by
  cases op with
  | Set k v => exact fifo.Set_linked CalcLen s k v h
  | Get k => exact Get_linked s k h
  | Del k => exact fifo.Del_linked CalcLen s k h
  | DelOldest => exact fifo.DelOldest_linked CalcLen s h

theorem run_linked_lru (s : engine V) (ops : List (Op V)) (h : s.linked) :
    (run CalcLen s ops).linked := by
  induction ops generalizing s with
  | nil => exact h
  | cons op rest ih => exact ih _ (step_linked_lru CalcLen s op h)

theorem New_linked_lru (maxBytes : Int) (onEvicted : Bool) :
    (New maxBytes onEvicted : engine V).linked := Linked.nil

end lru

/-! ## The methods of the shard on linked states -/

namespace fast

variable {V : Type}

@[simp] theorem notify_ll_shard (c : cacheShard V) (k : String) (v : V) : (c.notify k v).ll = c.ll := by
  unfold cacheShard.notify; split <;> rfl

@[simp] theorem notify_cache_shard (c : cacheShard V) (k : String) (v : V) :
    (c.notify k v).cache = c.cache := by
  unfold cacheShard.notify; split <;> rfl

@[simp] theorem notify_fresh_shard (c : cacheShard V) (k : String) (v : V) :
    (c.notify k v).fresh = c.fresh := by
  unfold cacheShard.notify; split <;> rfl

@[simp] theorem notify_maxEntries (c : cacheShard V) (k : String) (v : V) :
    (c.notify k v).maxEntries = c.maxEntries := by
  unfold cacheShard.notify; split <;> rfl

@[simp] theorem notify_onEvicted_shard (c : cacheShard V) (k : String) (v : V) :
    (c.notify k v).onEvicted = c.onEvicted := by
  unfold cacheShard.notify; split <;> rfl

theorem removeElement_split_shard (c : cacheShard V) (l1 l2 : List (Element V)) (e : Element V)
    (hs : c.ll = l1 ++ e :: l2)
    (h1 : ∀ x ∈ l1, x.ptr ≠ e.ptr) (h2 : ∀ x ∈ l2, x.ptr ≠ e.ptr) :
    removeElement c (some e) =
      cacheShard.notify { c with
        ll := l1 ++ l2
        cache := PtrMap.delete c.cache e.Value.key } e.Value.key e.Value.value := by
  simp only [removeElement, hs, list.Remove_split l1 l2 e h1 h2]

theorem delOldest_nil (c : cacheShard V) (hs : c.ll = []) : delOldest c = c := by
  simp [delOldest, list.Front, hs, removeElement]

theorem delOldest_cons (c : cacheShard V) (e : Element V) (rest : List (Element V))
    (hs : c.ll = e :: rest) (hnd : (list.ptrs c.ll).Nodup) :
    delOldest c =
      cacheShard.notify { c with
        ll := rest
        cache := PtrMap.delete c.cache e.Value.key } e.Value.key e.Value.value := by
  have h2 : ∀ x ∈ rest, x.ptr ≠ e.ptr := by
    rw [hs] at hnd
    simp only [list.ptrs, List.map_cons, List.nodup_cons] at hnd
    intro x hx hxe
    exact hnd.1 (hxe ▸ List.mem_map_of_mem (fun e => e.ptr) hx)
  have := removeElement_split_shard c [] rest e (by simpa using hs) (by simp) h2
  simpa [delOldest, list.Front, hs] using this

theorem set_hit (c : cacheShard V) (k : String) (v : V) (p : Nat)
    (hl : c.linked) (hg : PtrMap.get c.cache k = some p) :
    ∃ l1 l2 e, c.ll = l1 ++ e :: l2 ∧ e.Value.key = k ∧ e.ptr = p ∧
      (∀ x ∈ l1, x.ptr ≠ p) ∧ (∀ x ∈ l2, x.ptr ≠ p) ∧
      set c k v = { c with ll := l1 ++ l2 ++ [⟨p, ⟨k, v⟩⟩] } := by
  obtain ⟨e, hd, he, hk, hp⟩ := Linked.get_deref hl k p hg
  obtain ⟨l1, l2, hs, h1, h2⟩ := list.split_of_mem c.ll e he hl.ptrs_nodup
  subst hk hp
  refine ⟨l1, l2, e, hs, rfl, rfl, h1, h2, ?_⟩
  simp only [set, hg]
  rw [hs, list.MoveToBack_split l1 l2 e h1 h2, list.setValue_back l1 l2 e v h1 h2]

theorem set_miss (c : cacheShard V) (k : String) (v : V)
    (hg : PtrMap.get c.cache k = none) :
    set c k v =
      let c2 : cacheShard V := { c with
        ll := c.ll ++ [⟨c.fresh, ⟨k, v⟩⟩]
        fresh := c.fresh + 1
        cache := c.cache ++ [(k, c.fresh)] }
      if c.maxEntries > 0 ∧ ((c.ll.length + 1 : Nat) : Int) > c.maxEntries then delOldest c2
      else c2 := by
  have hk1 : k ∉ c.cache.map Prod.fst := (PtrMap.get_eq_none_iff c.cache k).1 hg
  simp only [set, hg, list.PushBack, PtrMap.set, PtrMap.delete_of_not_mem c.cache k hk1,
    list.Len, List.length_append, List.length_singleton, delOldest]

theorem del_miss (c : cacheShard V) (k : String) (hg : PtrMap.get c.cache k = none) :
    del c k = c := by
  simp [del, hg]

theorem del_hit (c : cacheShard V) (k : String) (p : Nat)
    (hl : c.linked) (hg : PtrMap.get c.cache k = some p) :
    ∃ l1 l2 e, c.ll = l1 ++ e :: l2 ∧ e.Value.key = k ∧ e.ptr = p ∧
      (∀ x ∈ l1, x.ptr ≠ p) ∧ (∀ x ∈ l2, x.ptr ≠ p) ∧
      del c k = cacheShard.notify { c with
        ll := l1 ++ l2
        cache := PtrMap.delete c.cache k } k e.Value.value := by
  obtain ⟨e, hd, he, hk, hp⟩ := Linked.get_deref hl k p hg
  obtain ⟨l1, l2, hs, h1, h2⟩ := list.split_of_mem c.ll e he hl.ptrs_nodup
  subst hk hp
  refine ⟨l1, l2, e, hs, rfl, rfl, h1, h2, ?_⟩
  simp only [del, hg, hd]
  exact removeElement_split_shard c l1 l2 e hs h1 h2

theorem get_miss (c : cacheShard V) (k : String) (hg : PtrMap.get c.cache k = none) :
    get c k = (c, none) := by
  simp [get, hg]

theorem get_hit (c : cacheShard V) (k : String) (p : Nat)
    (hl : c.linked) (hg : PtrMap.get c.cache k = some p) :
    ∃ l1 l2 e, c.ll = l1 ++ e :: l2 ∧ e.Value.key = k ∧ e.ptr = p ∧
      (∀ x ∈ l1, x.ptr ≠ p) ∧ (∀ x ∈ l2, x.ptr ≠ p) ∧
      get c k = ({ c with ll := l1 ++ l2 ++ [e] }, some e.Value.value) := by
  obtain ⟨e, hd, he, hk, hp⟩ := Linked.get_deref hl k p hg
  obtain ⟨l1, l2, hs, h1, h2⟩ := list.split_of_mem c.ll e he hl.ptrs_nodup
  subst hk hp
  refine ⟨l1, l2, e, hs, rfl, rfl, h1, h2, ?_⟩
  simp only [get, hg, hd]
  rw [hs, list.MoveToBack_split l1 l2 e h1 h2]

theorem delOldest_linked (c : cacheShard V) (h : c.linked) : (delOldest c).linked := by
  unfold cacheShard.linked at h ⊢
  cases hs : c.ll with
  | nil => rw [delOldest_nil c hs]; exact h
  | cons e rest =>
    rw [delOldest_cons c e rest hs h.ptrs_nodup]
    simp only [notify_ll_shard, notify_cache_shard, notify_fresh_shard]
    rw [hs] at h
    exact h.remove_head

theorem set_linked (c : cacheShard V) (k : String) (v : V) (h : c.linked) :
    (set c k v).linked := by
  cases hg : PtrMap.get c.cache k with
  | none =>
    rw [set_miss c k v hg]
    have h3 := Linked.push_append h k v hg
    dsimp only
    split
    · exact delOldest_linked _ h3
    · exact h3
  | some p =>
    obtain ⟨l1, l2, e, hs, hk, hp, -, -, hset⟩ := set_hit c k v p h hg
    rw [hset]
    unfold cacheShard.linked at h ⊢
    rw [hs] at h
    subst hk hp
    exact h.touch v

theorem del_linked (c : cacheShard V) (k : String) (h : c.linked) : (del c k).linked := by
  cases hg : PtrMap.get c.cache k with
  | none => rw [del_miss c k hg]; exact h
  | some p =>
    obtain ⟨l1, l2, e, hs, hk, hp, -, -, hdel⟩ := del_hit c k p h hg
    rw [hdel]
    unfold cacheShard.linked at h ⊢
    simp only [notify_ll_shard, notify_cache_shard, notify_fresh_shard]
    rw [hs] at h
    subst hk
    exact h.remove

theorem get_linked (c : cacheShard V) (k : String) (h : c.linked) : (get c k).1.linked := by
  cases hg : PtrMap.get c.cache k with
  | none => rw [get_miss c k hg]; exact h
  | some p =>
    obtain ⟨l1, l2, e, hs, hk, hp, -, -, hget⟩ := get_hit c k p h hg
    rw [hget]
    unfold cacheShard.linked at h ⊢
    rw [hs] at h
    exact h.touch_same

theorem step_linked_shard (c : cacheShard V) (op : Op V) (h : c.linked) : (step c op).linked := by
  cases op with
  | Set k v => exact set_linked c k v h
  | Get k => exact get_linked c k h
  | Del k => exact del_linked c k h
  | DelOldest => exact delOldest_linked c h

theorem run_linked_shard (c : cacheShard V) (ops : List (Op V)) (h : c.linked) :
    (run c ops).linked := by
  induction ops generalizing c with
  | nil => exact h
  | cons op rest ih => exact ih _ (step_linked_shard c op h)

theorem new_linked (maxEntries : Int) (onEvicted : Bool) :
    (newCacheShard maxEntries onEvicted : cacheShard V).linked := Linked.nil

end fast

/-! ## C6: the lookup table and the list agree -/

theorem Linked.filter_key_length {V : Type} {ll : List (Element V)} {cache : PtrMap}
    {fresh : Nat} (h : Linked ll cache fresh) (k : String) :
    (ll.filter (fun e => decide (e.Value.key = k))).length = 1 ↔ k ∈ list.keys ll := by
  constructor
  · intro hlen
    by_contra hk
    have : ll.filter (fun e => decide (e.Value.key = k)) = [] := by
      rw [List.filter_eq_nil_iff]
      intro e he
      simp only [decide_eq_true_eq]
      intro hek
      exact hk (hek ▸ List.mem_map_of_mem (fun e => e.Value.key) he)
    rw [this] at hlen
    simp at hlen
  · intro hk
    simp only [list.keys, List.mem_map] at hk
    obtain ⟨e, he, rfl⟩ := hk
    obtain ⟨l1, l2, rfl⟩ := List.append_of_mem he
    obtain ⟨h1, h2⟩ := Linked.key_ne_of_split h.keys_nodup
    have e1 : l1.filter (fun x => decide (x.Value.key = e.Value.key)) = [] := by
      rw [List.filter_eq_nil_iff]
      intro x hx
      simpa using h1 x hx
    have e2 : l2.filter (fun x => decide (x.Value.key = e.Value.key)) = [] := by
      rw [List.filter_eq_nil_iff]
      intro x hx
      simpa using h2 x hx
    rw [List.filter_append, List.filter_cons, e1, e2]
    simp

theorem Linked.tableMatchesList {V : Type} {ll : List (Element V)} {cache : PtrMap}
    {fresh : Nat} (h : Linked ll cache fresh) : TableMatchesList ll cache := by
  refine ⟨?_, ?_, h.keys_nodup, h.cache_nodup, ?_⟩
  · intro k
    rw [h.filter_key_length k, ← not_iff_not, ← h.get_none_iff k]
    cases PtrMap.get cache k <;> simp
  · intro k p hg
    obtain ⟨e, hd, he, hk, hp⟩ := h.get_deref k p hg
    exact ⟨e, hd, he, hp, hk⟩
  · simp [PtrMap.len, list.Len, h.length_eq]

/-- C6: in every state of a FIFO cache, an LRU cache or a shard that is
reachable from the constructor by calls of Set, Get, Del and DelOldest, a key is
in the lookup table iff exactly one list node carries it, the table entry of a
key points at that node, no key occurs twice, and the size of the table, the
length of the list and the result of `Len()` are equal. -/
theorem C6_table_and_list_consistent {V : Type} (CalcLen : V → Int) (capacity : Int)
    (onEvicted : Bool) (ops : List (Op V)) :
    (TableMatchesList (fifo.run CalcLen (fifo.New capacity onEvicted) ops).ll
        (fifo.run CalcLen (fifo.New capacity onEvicted) ops).cache ∧
      PtrMap.len (fifo.run CalcLen (fifo.New capacity onEvicted) ops).cache
        = fifo.Len (fifo.run CalcLen (fifo.New capacity onEvicted) ops)) ∧
    (TableMatchesList (lru.run CalcLen (lru.New capacity onEvicted) ops).ll
        (lru.run CalcLen (lru.New capacity onEvicted) ops).cache ∧
      PtrMap.len (lru.run CalcLen (lru.New capacity onEvicted) ops).cache
        = lru.Len (lru.run CalcLen (lru.New capacity onEvicted) ops)) ∧
    (TableMatchesList (fast.run (fast.newCacheShard capacity onEvicted) ops).ll
        (fast.run (fast.newCacheShard capacity onEvicted) ops).cache ∧
      PtrMap.len (fast.run (fast.newCacheShard capacity onEvicted) ops).cache
        = fast.len (fast.run (fast.newCacheShard capacity onEvicted) ops)) := by
  have h1 := fifo.run_linked CalcLen _ ops (fifo.New_linked (V := V) capacity onEvicted)
  have h2 := lru.run_linked_lru CalcLen _ ops (lru.New_linked_lru (V := V) capacity onEvicted)
  have h3 := fast.run_linked_shard _ ops (fast.new_linked (V := V) capacity onEvicted)
  exact ⟨⟨h1.tableMatchesList, h1.tableMatchesList.2.2.2.2⟩,
    ⟨h2.tableMatchesList, h2.tableMatchesList.2.2.2.2⟩,
    ⟨h3.tableMatchesList, h3.tableMatchesList.2.2.2.2⟩⟩

/-! ## Computations within the range of `int` -/

theorem isInt_iff (x : Int) :
    isInt x = true ↔ -9223372036854775808 ≤ x ∧ x ≤ 9223372036854775807 := by
  simp only [isInt, wrap64, decide_eq_true_eq]
  omega

theorem isInt_eq (x : Int) (h : isInt x = true) : wrap64 x = x := by
  simpa [isInt] using h

theorem engine.fitsCall_spec {V : Type} (CalcLen : V → Int) (s : engine V) (op : Op V)
    (h : engine.fitsCall CalcLen s op = true) :
    wrap64 s.maxBytes = s.maxBytes ∧ wrap64 s.usedBytes = s.usedBytes ∧
    ∀ k v, op = Op.Set k v → PtrMap.get s.cache k = none →
      wrap64 (s.usedBytes + CalcLen v) = s.usedBytes + CalcLen v := by
  cases op with
  | Set k0 v0 =>
    simp only [engine.fitsCall, Bool.and_eq_true] at h
    refine ⟨isInt_eq _ h.1.1.1, isInt_eq _ h.1.1.2, ?_⟩
    intro k v hop hg
    cases hop
    have h2 := h.2
    simp only [hg, Option.isSome_none, Bool.false_or] at h2
    exact isInt_eq _ h2
  | Get k0 =>
    simp only [engine.fitsCall, Bool.and_eq_true] at h
    exact ⟨isInt_eq _ h.1, isInt_eq _ h.2, fun k v hop => Op.noConfusion hop⟩
  | Del k0 =>
    simp only [engine.fitsCall, Bool.and_eq_true] at h
    exact ⟨isInt_eq _ h.1, isInt_eq _ h.2, fun k v hop => Op.noConfusion hop⟩
  | DelOldest =>
    simp only [engine.fitsCall, Bool.and_eq_true] at h
    exact ⟨isInt_eq _ h.1, isInt_eq _ h.2, fun k v hop => Op.noConfusion hop⟩

theorem fifo.fits_snoc {V : Type} (CalcLen : V → Int) (ops : List (Op V)) (s : engine V)
    (op : Op V) (h : fifo.fits CalcLen s (ops ++ [op]) = true) :
    engine.fitsCall CalcLen (fifo.run CalcLen s ops) op = true := by
  induction ops generalizing s with
  | nil =>
    simp only [List.nil_append, fifo.fits, Bool.and_eq_true] at h
    exact h.1
  | cons o rest ih =>
    simp only [List.cons_append, fifo.fits, Bool.and_eq_true] at h
    exact ih (fifo.step CalcLen s o) h.2

theorem lru.fits_snoc_lru {V : Type} (CalcLen : V → Int) (ops : List (Op V)) (s : engine V)
    (op : Op V) (h : lru.fits CalcLen s (ops ++ [op]) = true) :
    engine.fitsCall CalcLen (lru.run CalcLen s ops) op = true := by
  induction ops generalizing s with
  | nil =>
    simp only [List.nil_append, lru.fits, Bool.and_eq_true] at h
    exact h.1
  | cons o rest ih =>
    simp only [List.cons_append, lru.fits, Bool.and_eq_true] at h
    exact ih (lru.step CalcLen s o) h.2

theorem fifo.fits_run {V : Type} (CalcLen : V → Int) (ops : List (Op V)) (s : engine V)
    (h : fifo.fits CalcLen s ops = true) :
    wrap64 (fifo.run CalcLen s ops).usedBytes = (fifo.run CalcLen s ops).usedBytes ∧
    wrap64 (fifo.run CalcLen s ops).maxBytes = (fifo.run CalcLen s ops).maxBytes := by
  induction ops generalizing s with
  | nil =>
    simp only [fifo.fits, Bool.and_eq_true] at h
    exact ⟨isInt_eq _ h.2, isInt_eq _ h.1⟩
  | cons o rest ih =>
    simp only [fifo.fits, Bool.and_eq_true] at h
    exact ih (fifo.step CalcLen s o) h.2

theorem lru.fits_run_lru {V : Type} (CalcLen : V → Int) (ops : List (Op V)) (s : engine V)
    (h : lru.fits CalcLen s ops = true) :
    wrap64 (lru.run CalcLen s ops).usedBytes = (lru.run CalcLen s ops).usedBytes ∧
    wrap64 (lru.run CalcLen s ops).maxBytes = (lru.run CalcLen s ops).maxBytes := by
  induction ops generalizing s with
  | nil =>
    simp only [lru.fits, Bool.and_eq_true] at h
    exact ⟨isInt_eq _ h.2, isInt_eq _ h.1⟩
  | cons o rest ih =>
    simp only [lru.fits, Bool.and_eq_true] at h
    exact ih (lru.step CalcLen s o) h.2

theorem lfu.fitsCall_spec_lfu {V : Type} (CalcLen : V → Int) (s : lfu V) (op : Op V)
    (h : lfu.fitsCall CalcLen s op = true) :
    wrap64 s.maxBytes = s.maxBytes ∧ wrap64 s.usedBytes = s.usedBytes ∧
    ∀ k v, op = Op.Set k v → PtrMap.get s.cache k = none →
      wrap64 (s.usedBytes + CalcLen v) = s.usedBytes + CalcLen v := by
  cases op with
  | Set k0 v0 =>
    simp only [lfu.fitsCall, Bool.and_eq_true] at h
    refine ⟨isInt_eq _ h.1.1.1.1, isInt_eq _ h.1.1.1.2, ?_⟩
    intro k v hop hg
    cases hop
    have h2 := h.1.2
    simp only [hg, Option.isSome_none, Bool.false_or] at h2
    exact isInt_eq _ h2
  | Get k0 =>
    simp only [lfu.fitsCall, Bool.and_eq_true] at h
    exact ⟨isInt_eq _ h.1.1, isInt_eq _ h.1.2, fun k v hop => Op.noConfusion hop⟩
  | Del k0 =>
    simp only [lfu.fitsCall, Bool.and_eq_true] at h
    exact ⟨isInt_eq _ h.1, isInt_eq _ h.2, fun k v hop => Op.noConfusion hop⟩
  | DelOldest =>
    simp only [lfu.fitsCall, Bool.and_eq_true] at h
    exact ⟨isInt_eq _ h.1, isInt_eq _ h.2, fun k v hop => Op.noConfusion hop⟩

theorem lfu.fitsTouch_spec {V : Type} (s : lfu V) (k : String) (p : Nat) (e : lfu.entry V)
    (h : lfu.fitsTouch s k = true) (hg : PtrMap.get s.cache k = some p)
    (hd : lfu.queue.deref s.queue p = some e) :
    wrap64 (e.weight + 1) = e.weight + 1 := by
  simp only [lfu.fitsTouch, hg, hd] at h
  exact isInt_eq _ h

theorem lfu.fits_snoc_lfu {V : Type} (CalcLen : V → Int)
    (less : lfu.entry V → lfu.entry V → Bool) (ops : List (Op V)) (s l : lfu V) (op : Op V)
    (hrun : lfu.run CalcLen less s ops = some l)
    (h : lfu.fits CalcLen less s (ops ++ [op]) = true) :
    lfu.fitsCall CalcLen l op = true := by
  induction ops generalizing s with
  | nil =>
    simp only [lfu.run, Option.some.injEq] at hrun
    subst hrun
    simp only [List.nil_append, lfu.fits, Bool.and_eq_true] at h
    exact h.1
  | cons o rest ih =>
    simp only [List.cons_append, lfu.fits, Bool.and_eq_true] at h
    cases hs : lfu.step CalcLen less s o with
    | none => simp [hs] at h
    | some t =>
      simp only [hs] at h
      simp only [lfu.run, hs] at hrun
      exact ih t hrun h.2

/-! ## On calls that fit, the engines on `int` are the engines on the integers -/

theorem wrap64_wrap64 (x : Int) : wrap64 (wrap64 x) = wrap64 x := by
  simp only [wrap64]; omega

theorem wrap64_sub_wrap64 (x y : Int) : wrap64 (x - wrap64 y) = wrap64 (x - y) := by
  simp only [wrap64]; omega

theorem wrap64_add_wrap64 (x y : Int) : wrap64 (x + wrap64 y) = wrap64 (x + y) := by
  simp only [wrap64]; omega

theorem wrap64_wrap64_add (x y : Int) : wrap64 (wrap64 x + y) = wrap64 (x + y) := by
  simp only [wrap64]; omega

theorem wrap64_update (u a b : Int) (h : isInt (u - a + b) = true) :
    wrap64 (wrap64 (u - wrap64 a) + wrap64 b) = u - a + b := by
  have := isInt_eq _ h
  simp only [wrap64] at this ⊢
  omega

theorem wrap64_remove (u a : Int) (h : isInt (u - a) = true) :
    wrap64 (u - wrap64 a) = u - a := by
  rw [wrap64_sub_wrap64]; exact isInt_eq _ h

theorem wrap64_insert (u a : Int) (h : isInt (u + a) = true) :
    wrap64 (u + wrap64 a) = u + a := by
  rw [wrap64_add_wrap64]; exact isInt_eq _ h

namespace fifo.int64

variable {V : Type} (CalcLen : V → Int)

theorem removeElement_eq_fifo (f : engine V) (e : Option (Element V))
    (h : isInt (fifo.removeElement CalcLen f e).usedBytes = true) :
    removeElement CalcLen f e = fifo.removeElement CalcLen f e := by
  cases e with
  | none => rfl
  | some e =>
    simp only [fifo.removeElement, engine.notify_usedBytes] at h
    simp only [removeElement, fifo.removeElement, wrap64_remove _ _ h]

theorem DelOldest_eq_fifo (f : engine V)
    (h : isInt (fifo.DelOldest CalcLen f).usedBytes = true) :
    DelOldest CalcLen f = fifo.DelOldest CalcLen f :=
  removeElement_eq_fifo CalcLen f _ h

theorem Del_eq_fifo (f : engine V) (key : String)
    (h : isInt (fifo.Del CalcLen f key).usedBytes = true) :
    Del CalcLen f key = fifo.Del CalcLen f key := by
  unfold Del fifo.Del at *
  cases hg : PtrMap.get f.cache key with
  | none => rfl
  | some p =>
    simp only [hg] at h ⊢
    exact removeElement_eq_fifo CalcLen f _ h

theorem Set_eq_fifo (f : engine V) (key : String) (value : V)
    (hc : engine.fitsCall CalcLen f (Op.Set key value) = true)
    (h : isInt (fifo.Set CalcLen f key value).usedBytes = true) :
    Set CalcLen f key value = fifo.Set CalcLen f key value := by
  unfold Set fifo.Set at *
  cases hg : PtrMap.get f.cache key with
  | some p =>
    simp only [hg] at h ⊢
    cases hd : list.deref f.ll p with
    | none => rfl
    | some e =>
      simp only [hd] at h ⊢
      rw [wrap64_update _ _ _ h]
  | none =>
    simp only [hg] at h ⊢
    have hs : isInt (f.usedBytes + CalcLen value) = true := by
      simp only [engine.fitsCall, hg, Option.isSome_none, Bool.false_or, Bool.and_eq_true] at hc
      exact hc.2
    rw [wrap64_insert _ _ hs]
    split
    · rename_i hgd
      rw [if_pos hgd] at h
      exact DelOldest_eq_fifo CalcLen _ h
    · rfl

theorem step_eq_fifo (f : engine V) (op : Op V)
    (hc : engine.fitsCall CalcLen f op = true)
    (h : isInt (fifo.step CalcLen f op).usedBytes = true) :
    step CalcLen f op = fifo.step CalcLen f op := by
  cases op with
  | Set k v => exact Set_eq_fifo CalcLen f k v hc h
  | Get k => rfl
  | Del k => exact Del_eq_fifo CalcLen f k h
  | DelOldest => exact DelOldest_eq_fifo CalcLen f h

end fifo.int64

theorem fifo.fits_start {V : Type} (CalcLen : V → Int) (s : engine V) (ops : List (Op V))
    (h : fifo.fits CalcLen s ops = true) :
    isInt s.maxBytes = true ∧ isInt s.usedBytes = true := by
  cases ops with
  | nil => simpa [fifo.fits] using h
  | cons op rest =>
    simp only [fifo.fits, Bool.and_eq_true] at h
    cases op <;> simp only [engine.fitsCall, Bool.and_eq_true] at h
    · exact ⟨h.1.1.1.1, h.1.1.1.2⟩
    all_goals exact h.1

/-- On a sequence of calls in which no computation on the byte counter
overflows, the FIFO cache on the type `int` of 64 bits goes through the states
of the FIFO cache on the integers. -/
theorem fifo.int64.run_eq_fifo {V : Type} (CalcLen : V → Int) (ops : List (Op V))
    (s : engine V) (h : fifo.fits CalcLen s ops = true) :
    fifo.int64.run CalcLen s ops = fifo.run CalcLen s ops := by
  induction ops generalizing s with
  | nil => rfl
  | cons op rest ih =>
    simp only [fifo.fits, Bool.and_eq_true] at h
    have h2 := (fifo.fits_start CalcLen _ rest h.2).2
    simp only [fifo.int64.run, fifo.run, List.foldl_cons]
    rw [fifo.int64.step_eq_fifo CalcLen s op h.1 h2]
    exact ih _ h.2

theorem fifo.fits_prefix {V : Type} (CalcLen : V → Int) (ops ops2 : List (Op V))
    (s : engine V) (h : fifo.fits CalcLen s (ops ++ ops2) = true) :
    fifo.fits CalcLen s ops = true := by
  induction ops generalizing s with
  | nil =>
    have := fifo.fits_start CalcLen s _ h
    simp [fifo.fits, this.1, this.2]
  | cons op rest ih =>
    simp only [List.cons_append, fifo.fits, Bool.and_eq_true] at h ⊢
    exact ⟨h.1, ih _ h.2⟩

namespace lru.int64

variable {V : Type} (CalcLen : V → Int)

theorem removeElement_eq_lru (l : engine V) (e : Option (Element V))
    (h : isInt (lru.removeElement CalcLen l e).usedBytes = true) :
    removeElement CalcLen l e = lru.removeElement CalcLen l e := by
  cases e with
  | none => rfl
  | some e =>
    simp only [lru.removeElement, engine.notify_usedBytes] at h
    simp only [removeElement, lru.removeElement, wrap64_remove _ _ h]

theorem DelOldest_eq_lru (l : engine V)
    (h : isInt (lru.DelOldest CalcLen l).usedBytes = true) :
    DelOldest CalcLen l = lru.DelOldest CalcLen l :=
  removeElement_eq_lru CalcLen l _ h

theorem Del_eq_lru (l : engine V) (key : String)
    (h : isInt (lru.Del CalcLen l key).usedBytes = true) :
    Del CalcLen l key = lru.Del CalcLen l key := by
  unfold Del lru.Del at *
  cases hg : PtrMap.get l.cache key with
  | none => rfl
  | some p =>
    simp only [hg] at h ⊢
    exact removeElement_eq_lru CalcLen l _ h

theorem Set_eq_lru (l : engine V) (key : String) (value : V)
    (hc : engine.fitsCall CalcLen l (Op.Set key value) = true)
    (h : isInt (lru.Set CalcLen l key value).usedBytes = true) :
    Set CalcLen l key value = lru.Set CalcLen l key value := by
  unfold Set lru.Set at *
  cases hg : PtrMap.get l.cache key with
  | some p =>
    simp only [hg] at h ⊢
    cases hd : list.deref l.ll p with
    | none => rfl
    | some e =>
      simp only [hd] at h ⊢
      rw [wrap64_update _ _ _ h]
  | none =>
    simp only [hg] at h ⊢
    have hs : isInt (l.usedBytes + CalcLen value) = true := by
      simp only [engine.fitsCall, hg, Option.isSome_none, Bool.false_or, Bool.and_eq_true] at hc
      exact hc.2
    rw [wrap64_insert _ _ hs]
    split
    · rename_i hgd
      rw [if_pos hgd] at h
      exact DelOldest_eq_lru CalcLen _ h
    · rfl

theorem step_eq_lru (l : engine V) (op : Op V)
    (hc : engine.fitsCall CalcLen l op = true)
    (h : isInt (lru.step CalcLen l op).usedBytes = true) :
    step CalcLen l op = lru.step CalcLen l op := by
  cases op with
  | Set k v => exact Set_eq_lru CalcLen l k v hc h
  | Get k => rfl
  | Del k => exact Del_eq_lru CalcLen l k h
  | DelOldest => exact DelOldest_eq_lru CalcLen l h

end lru.int64

theorem lru.fits_start_lru {V : Type} (CalcLen : V → Int) (s : engine V) (ops : List (Op V))
    (h : lru.fits CalcLen s ops = true) :
    isInt s.maxBytes = true ∧ isInt s.usedBytes = true := by
  cases ops with
  | nil => simpa [lru.fits] using h
  | cons op rest =>
    simp only [lru.fits, Bool.and_eq_true] at h
    cases op <;> simp only [engine.fitsCall, Bool.and_eq_true] at h
    · exact ⟨h.1.1.1.1, h.1.1.1.2⟩
    all_goals exact h.1

/-- On a sequence of calls in which no computation on the byte counter
overflows, the LRU cache on the type `int` of 64 bits goes through the states
of the LRU cache on the integers. -/
theorem lru.int64.run_eq_lru {V : Type} (CalcLen : V → Int) (ops : List (Op V))
    (s : engine V) (h : lru.fits CalcLen s ops = true) :
    lru.int64.run CalcLen s ops = lru.run CalcLen s ops := by
  induction ops generalizing s with
  | nil => rfl
  | cons op rest ih =>
    simp only [lru.fits, Bool.and_eq_true] at h
    have h2 := (lru.fits_start_lru CalcLen _ rest h.2).2
    simp only [lru.int64.run, lru.run, List.foldl_cons]
    rw [lru.int64.step_eq_lru CalcLen s op h.1 h2]
    exact ih _ h.2

theorem lru.fits_prefix_lru {V : Type} (CalcLen : V → Int) (ops ops2 : List (Op V))
    (s : engine V) (h : lru.fits CalcLen s (ops ++ ops2) = true) :
    lru.fits CalcLen s ops = true := by
  induction ops generalizing s with
  | nil =>
    have := lru.fits_start_lru CalcLen s _ h
    simp [lru.fits, this.1, this.2]
  | cons op rest ih =>
    simp only [List.cons_append, lru.fits, Bool.and_eq_true] at h ⊢
    exact ⟨h.1, ih _ h.2⟩

/-! ## Capacity accounting on the integers -/

section accounting

variable {V : Type} (CalcLen : V → Int)

@[simp] theorem weightSum_nil : weightSum CalcLen ([] : List (Element V)) = 0 := rfl

@[simp] theorem weightSum_cons (e : Element V) (l : List (Element V)) :
    weightSum CalcLen (e :: l) = CalcLen e.Value.value + weightSum CalcLen l := by
  simp [weightSum]

@[simp] theorem weightSum_append (l1 l2 : List (Element V)) :
    weightSum CalcLen (l1 ++ l2) = weightSum CalcLen l1 + weightSum CalcLen l2 := by
  simp [weightSum]

theorem weightSum_nonneg (h : ∀ v, 0 ≤ CalcLen v) (l : List (Element V)) :
    0 ≤ weightSum CalcLen l := by
  induction l with
  | nil => simp
  | cons e l ih => simp only [weightSum_cons]; have := h e.Value.value; omega

theorem tableWeight_eq {ll : List (Element V)} {cache : PtrMap} {fresh : Nat}
    (h : Linked ll cache fresh) : tableWeight CalcLen ll cache = weightSum CalcLen ll := by
  unfold tableWeight weightSum
  rw [(h.perm.map _).sum_eq]
  simp only [list.pairs, List.map_map]
  congr 1
  apply List.map_congr_left
  intro e he
  simp [list.deref_of_mem ll e he h.ptrs_nodup]

theorem fifo.DelOldest_accounted (s : engine V) (hl : s.linked)
    (h : s.accounted CalcLen) : (fifo.DelOldest CalcLen s).accounted CalcLen := by
  unfold engine.accounted at h ⊢
  cases hs : s.ll with
  | nil => rw [fifo.DelOldest_nil CalcLen s hs]; exact h
  | cons e rest =>
    rw [fifo.DelOldest_cons CalcLen s e rest hs hl.ptrs_nodup]
    simp only [engine.notify_ll, engine.notify_usedBytes]
    rw [h, hs]
    simp

theorem fifo.Set_accounted (s : engine V) (k : String) (v : V) (hl : s.linked)
    (h : s.accounted CalcLen) : (fifo.Set CalcLen s k v).accounted CalcLen := by
  cases hg : PtrMap.get s.cache k with
  | none =>
    rw [fifo.Set_miss CalcLen s k v hg]
    have h3 := Linked.push_append hl k v hg
    have h4 : engine.accounted CalcLen ({ s with
        ll := s.ll ++ [⟨s.fresh, ⟨k, v⟩⟩]
        fresh := s.fresh + 1
        cache := s.cache ++ [(k, s.fresh)]
        usedBytes := s.usedBytes + CalcLen v } : engine V) := by
      unfold engine.accounted at h ⊢
      simp [h]
    dsimp only
    split
    · exact fifo.DelOldest_accounted CalcLen _ h3 h4
    · exact h4
  | some p =>
    obtain ⟨l1, l2, e, hs, hk, hp, -, -, hset⟩ := fifo.Set_hit CalcLen s k v p hl hg
    rw [hset]
    unfold engine.accounted at h ⊢
    simp only [h, hs, weightSum_append, weightSum_cons, weightSum_nil]
    omega

theorem fifo.Del_accounted (s : engine V) (k : String) (hl : s.linked)
    (h : s.accounted CalcLen) : (fifo.Del CalcLen s k).accounted CalcLen := by
  cases hg : PtrMap.get s.cache k with
  | none => rw [fifo.Del_miss CalcLen s k hg]; exact h
  | some p =>
    obtain ⟨l1, l2, e, hs, hk, hp, -, -, hdel⟩ := fifo.Del_hit CalcLen s k p hl hg
    rw [hdel]
    unfold engine.accounted at h ⊢
    simp only [engine.notify_ll, engine.notify_usedBytes, h, hs, weightSum_append,
      weightSum_cons]
    omega

theorem fifo.run_accounted (s : engine V) (ops : List (Op V)) (hl : s.linked)
    (h : s.accounted CalcLen) : (fifo.run CalcLen s ops).accounted CalcLen := by
  induction ops generalizing s with
  | nil => exact h
  | cons op rest ih =>
    refine ih _ (fifo.step_linked CalcLen s op hl) ?_
    cases op with
    | Set k v => exact fifo.Set_accounted CalcLen s k v hl h
    | Get k =>
      have : (fifo.Get s k).1 = s := by
        unfold fifo.Get; split
        · split <;> rfl
        · rfl
      simp only [fifo.step, this]; exact h
    | Del k => exact fifo.Del_accounted CalcLen s k hl h
    | DelOldest => exact fifo.DelOldest_accounted CalcLen s hl h

theorem lru.Get_accounted (s : engine V) (k : String) (hl : s.linked)
    (h : s.accounted CalcLen) : (lru.Get s k).1.accounted CalcLen := by
  cases hg : PtrMap.get s.cache k with
  | none => rw [lru.Get_miss_lru s k hg]; exact h
  | some p =>
    obtain ⟨l1, l2, e, hs, hk, hp, -, -, hget⟩ := lru.Get_hit_lru s k p hl hg
    rw [hget]
    unfold engine.accounted at h ⊢
    simp only [h, hs, weightSum_append, weightSum_cons, weightSum_nil]
    omega

theorem lru.run_accounted_lru (s : engine V) (ops : List (Op V)) (hl : s.linked)
    (h : s.accounted CalcLen) : (lru.run CalcLen s ops).accounted CalcLen := by
  induction ops generalizing s with
  | nil => exact h
  | cons op rest ih =>
    refine ih _ (lru.step_linked_lru CalcLen s op hl) ?_
    cases op with
    | Set k v => exact fifo.Set_accounted CalcLen s k v hl h
    | Get k => exact lru.Get_accounted CalcLen s k hl h
    | Del k => exact fifo.Del_accounted CalcLen s k hl h
    | DelOldest => exact fifo.DelOldest_accounted CalcLen s hl h

end accounting

/-! ## C2 and C3: FIFO order under `Set` and `Get` -/

theorem fifo.Get_state {V : Type} (s : engine V) (k : String) : (fifo.Get s k).1 = s := by
  unfold fifo.Get; split
  · split <;> rfl
  · rfl

theorem fifo.run_Gets {V : Type} (CalcLen : V → Int) (s : engine V) (ks : List String) :
    fifo.run CalcLen s (ks.map Op.Get) = s := by
  induction ks with
  | nil => rfl
  | cons k rest ih =>
    simp only [List.map_cons, fifo.run, List.foldl_cons, fifo.step, fifo.Get_state]
    exact ih

/-- C2, as stated, fails: in the FIFO cache reached by Set a, Set b (no budget),
the key a is held and the list order is a, b; Set(a, v') moves the entry of a
behind b, and a following DelOldest removes b, whereas before the Set it would
have removed a. -/
theorem C2_fifo_Set_moves_entry_counterexample :
    (PtrMap.get (fifo.run (fun _ : Nat => (1 : Int)) (fifo.New 0 true)
        [Op.Set "a" 1, Op.Set "b" 2]).cache "a").isSome = true ∧
    list.keys (fifo.run (fun _ : Nat => (1 : Int)) (fifo.New 0 true)
        [Op.Set "a" 1, Op.Set "b" 2]).ll = ["a", "b"] ∧
    list.keys (fifo.Set (fun _ : Nat => (1 : Int))
        (fifo.run (fun _ : Nat => (1 : Int)) (fifo.New 0 true)
          [Op.Set "a" 1, Op.Set "b" 2]) "a" 3).ll = ["b", "a"] ∧
    list.keys (fifo.DelOldest (fun _ : Nat => (1 : Int))
        (fifo.run (fun _ : Nat => (1 : Int)) (fifo.New 0 true)
          [Op.Set "a" 1, Op.Set "b" 2])).ll = ["b"] ∧
    list.keys (fifo.DelOldest (fun _ : Nat => (1 : Int))
        (fifo.Set (fun _ : Nat => (1 : Int))
          (fifo.run (fun _ : Nat => (1 : Int)) (fifo.New 0 true)
            [Op.Set "a" 1, Op.Set "b" 2]) "a" 3)).ll = ["a"] := by
  decide

/-- C3: `Get` of a FIFO cache leaves the whole state as it is (list order,
lookup table, `usedBytes`, callback log), for every state and every key, held or
not; so after any number of `Get` calls a following DelOldest does what it
would have done without them. After Set a, Set b, Set c and two calls Get(a),
DelOldest removes a. -/
theorem C3_fifo_Get_no_side_effect {V : Type} (CalcLen : V → Int) (s : engine V)
    (k : String) (ks : List String) :
    (fifo.Get s k).1 = s ∧
    (fifo.Get s k).1.ll = s.ll ∧ (fifo.Get s k).1.cache = s.cache ∧
    (fifo.Get s k).1.usedBytes = s.usedBytes ∧ (fifo.Get s k).1.calls = s.calls ∧
    fifo.DelOldest CalcLen (fifo.run CalcLen s (ks.map Op.Get)) = fifo.DelOldest CalcLen s ∧
    list.keys (fifo.run (fun _ : Nat => (1 : Int)) (fifo.New 0 true)
      [Op.Set "a" 1, Op.Set "b" 2, Op.Set "c" 3, Op.Get "a", Op.Get "a"]).ll
      = ["a", "b", "c"] ∧
    list.keys (fifo.run (fun _ : Nat => (1 : Int)) (fifo.New 0 true)
      [Op.Set "a" 1, Op.Set "b" 2, Op.Set "c" 3, Op.Get "a", Op.Get "a", Op.DelOldest]).ll
      = ["b", "c"] ∧
    (fifo.run (fun _ : Nat => (1 : Int)) (fifo.New 0 true)
      [Op.Set "a" 1, Op.Set "b" 2, Op.Set "c" 3, Op.Get "a", Op.Get "a", Op.DelOldest]).calls.map
        (fun c => (c.key, c.value)) = [("a", 1)] := by
  refine ⟨fifo.Get_state s k, ?_, ?_, ?_, ?_, ?_, by decide, by decide, by decide⟩
  · rw [fifo.Get_state]
  · rw [fifo.Get_state]
  · rw [fifo.Get_state]
  · rw [fifo.Get_state]
  · rw [fifo.run_Gets]

/-! ## The configuration of an engine never changes -/

namespace engine

variable {V : Type}

theorem notify_calls (s : engine V) (k : String) (v : V) :
    (s.notify k v).calls =
      if s.onEvicted then s.calls ++ [⟨k, v, s.ll, s.cache, s.usedBytes⟩] else s.calls := by
  unfold notify; split <;> rfl

end engine

namespace fifo

variable {V : Type} (CalcLen : V → Int)

theorem removeElement_config (s : engine V) (e : Option (Element V)) :
    (removeElement CalcLen s e).maxBytes = s.maxBytes ∧
    (removeElement CalcLen s e).onEvicted = s.onEvicted := by
  cases e <;> simp [removeElement]

theorem Set_config (s : engine V) (k : String) (v : V) :
    (Set CalcLen s k v).maxBytes = s.maxBytes ∧
    (Set CalcLen s k v).onEvicted = s.onEvicted := by
  unfold Set
  split
  · split <;> simp
  · dsimp only
    split
    · simp [DelOldest, removeElement_config]
    · simp

theorem step_config (s : engine V) (op : Op V) :
    (step CalcLen s op).maxBytes = s.maxBytes ∧
    (step CalcLen s op).onEvicted = s.onEvicted := by
  cases op with
  | Set k v => exact Set_config CalcLen s k v
  | Get k => simp [step, Get_state]
  | Del k =>
    simp only [step, Del]
    split
    · exact removeElement_config CalcLen s _
    · simp
  | DelOldest => exact removeElement_config CalcLen s _

theorem run_config (s : engine V) (ops : List (Op V)) :
    (run CalcLen s ops).maxBytes = s.maxBytes ∧
    (run CalcLen s ops).onEvicted = s.onEvicted := by
  induction ops generalizing s with
  | nil => exact ⟨rfl, rfl⟩
  | cons op rest ih =>
    have h1 := ih (step CalcLen s op)
    have h2 := step_config CalcLen s op
    exact ⟨h1.1.trans h2.1, h1.2.trans h2.2⟩

theorem Set_fresh (s : engine V) (k : String) (v : V) (hl : s.linked)
    (hg : PtrMap.get s.cache k = none) (hpos : s.maxBytes > 0) :
    FreshInsertEffect CalcLen s (Set CalcLen s k v) k v := by
  have h3 := Linked.push_append hl k v hg
  rw [Set_miss CalcLen s k v hg]
  dsimp only
  constructor
  · intro hc
    rw [if_pos ⟨hpos, hc⟩]
    obtain ⟨e, rest, hs⟩ : ∃ e rest, s.ll ++ [(⟨s.fresh, ⟨k, v⟩⟩ : Element V)] = e :: rest := by
      cases hs : s.ll ++ [(⟨s.fresh, ⟨k, v⟩⟩ : Element V)] with
      | nil => simp at hs
      | cons e rest => exact ⟨e, rest, rfl⟩
    refine ⟨e, rest, hs, ?_⟩
    rw [DelOldest_cons CalcLen _ e rest hs h3.ptrs_nodup]
    have hlen : rest.length = s.ll.length := by
      have := congrArg List.length hs
      simp only [List.length_append, List.length_cons, List.length_nil] at this
      omega
    refine ⟨by simp, by simp, by simp, ?_, ?_⟩
    · simp only [engine.notify_ll, engine.notify_cache, engine.notify_usedBytes,
        engine.notify_calls]
    · simp only [engine.notify_ll, list.Len, hlen]
  · intro hc
    rw [if_neg (fun h => hc h.2)]
    refine ⟨rfl, rfl, rfl, rfl, ?_⟩
    simp [list.Len]

end fifo

namespace lru

variable {V : Type} (CalcLen : V → Int)

theorem step_config_lru (s : engine V) (op : Op V) :
    (step CalcLen s op).maxBytes = s.maxBytes ∧
    (step CalcLen s op).onEvicted = s.onEvicted := by
  cases op with
  | Set k v => exact fifo.Set_config CalcLen s k v
  | Get k =>
    simp only [step, Get]
    split
    · split <;> simp
    · simp
  | Del k => exact fifo.step_config CalcLen s (Op.Del k)
  | DelOldest => exact fifo.removeElement_config CalcLen s _

theorem run_config_lru (s : engine V) (ops : List (Op V)) :
    (run CalcLen s ops).maxBytes = s.maxBytes ∧
    (run CalcLen s ops).onEvicted = s.onEvicted := by
  induction ops generalizing s with
  | nil => exact ⟨rfl, rfl⟩
  | cons op rest ih =>
    have h1 := ih (step CalcLen s op)
    have h2 := step_config_lru CalcLen s op
    exact ⟨h1.1.trans h2.1, h1.2.trans h2.2⟩

end lru

/-! ## The list of an LRU cache is ordered by recency of touch -/

namespace lru

variable {V : Type} (CalcLen : V → Int)

theorem Recency.sublist {ll ll2 : List (Element V)} {τ : String → Option Nat} {c : Nat}
    (h : Recency ll τ c) (hsub : (list.keys ll2).Sublist (list.keys ll)) :
    Recency ll2 τ c :=
  ⟨fun k hk => h.1 k (hsub.subset hk), h.2.sublist hsub⟩

theorem Recency.later {ll : List (Element V)} {τ : String → Option Nat} {c : Nat}
    (h : Recency ll τ c) : Recency ll τ (c + 1) :=
  ⟨fun k hk => by obtain ⟨t, h1, h2⟩ := h.1 k hk; exact ⟨t, h1, by omega⟩, h.2⟩

theorem Recency.push_key {ll : List (Element V)} {τ : String → Option Nat} {c : Nat}
    (h : Recency ll τ c) (k : String) (p : Nat) (v : V) (hk : k ∉ list.keys ll) :
    Recency (ll ++ [⟨p, ⟨k, v⟩⟩]) (fun x => if k = x then some c else τ x) (c + 1) := by
  have hne : ∀ x ∈ list.keys ll, ¬ k = x := fun x hx hkx => hk (hkx ▸ hx)
  constructor
  · intro x hx
    simp only [list.keys, List.map_append, List.map_cons, List.map_nil, List.mem_append,
      List.mem_singleton] at hx
    rcases hx with hx | hx
    · obtain ⟨t, h1, h2⟩ := h.1 x hx
      exact ⟨t, by simp [hne x hx, h1], by omega⟩
    · subst hx
      exact ⟨c, by simp, by omega⟩
  · simp only [list.keys, List.map_append, List.map_cons, List.map_nil]
    rw [List.pairwise_append]
    refine ⟨?_, by simp, ?_⟩
    · refine h.2.imp_of_mem ?_
      intro a b ha hb hab
      obtain ⟨ta, tb, h1, h2, h3⟩ := hab
      exact ⟨ta, tb, by simp [hne a ha, h1], by simp [hne b hb, h2], h3⟩
    · intro a ha b hb
      simp only [List.mem_singleton] at hb
      subst hb
      obtain ⟨t, h1, h2⟩ := h.1 a ha
      exact ⟨t, c, by simp [hne a ha, h1], by simp, h2⟩

theorem keys_remove_sublist (l1 l2 : List (Element V)) (e : Element V) :
    (list.keys (l1 ++ l2)).Sublist (list.keys (l1 ++ e :: l2)) := by
  simp only [list.keys, List.map_append, List.map_cons]
  exact List.Sublist.append_left (List.sublist_cons_self _ _) _

theorem not_mem_keys_remove {l1 l2 : List (Element V)} {e : Element V}
    (h : (list.keys (l1 ++ e :: l2)).Nodup) : e.Value.key ∉ list.keys (l1 ++ l2) := by
  obtain ⟨h1, h2⟩ := Linked.key_ne_of_split h
  intro hmem
  simp only [list.keys, List.map_append, List.mem_append, List.mem_map] at hmem
  rcases hmem with ⟨x, hx, hxe⟩ | ⟨x, hx, hxe⟩
  · exact h1 x hx hxe
  · exact h2 x hx hxe

theorem Recency.touch_key {l1 l2 : List (Element V)} {e : Element V} {τ : String → Option Nat}
    {c : Nat} (h : Recency (l1 ++ e :: l2) τ c) (hnd : (list.keys (l1 ++ e :: l2)).Nodup)
    (v : V) :
    Recency (l1 ++ l2 ++ [⟨e.ptr, ⟨e.Value.key, v⟩⟩])
      (fun x => if e.Value.key = x then some c else τ x) (c + 1) :=
  (h.sublist (keys_remove_sublist l1 l2 e)).push_key e.Value.key e.ptr v (not_mem_keys_remove hnd)

theorem DelOldest_recency (s : engine V) (τ : String → Option Nat) (c : Nat)
    (hl : s.linked) (h : Recency s.ll τ c) : Recency (DelOldest CalcLen s).ll τ c := by
  rw [DelOldest_eq]
  cases hs : s.ll with
  | nil => rw [fifo.DelOldest_nil CalcLen s hs, hs]; rw [hs] at h; exact h
  | cons e rest =>
    rw [fifo.DelOldest_cons CalcLen s e rest hs hl.ptrs_nodup]
    simp only [engine.notify_ll]
    rw [hs] at h
    exact h.sublist (by simpa using keys_remove_sublist [] rest e)

theorem timedStep_recency (t : Timed V) (op : Op V) (hl : t.state.linked)
    (h : Recency t.state.ll t.lastTouch t.clock) :
    Recency (timedStep CalcLen t op).state.ll (timedStep CalcLen t op).lastTouch
      (timedStep CalcLen t op).clock := by
  cases op with
  | Set k v =>
    have hτ : (timedStep CalcLen t (Op.Set k v)).lastTouch
        = fun x => if k = x then some t.clock else t.lastTouch x := by
      funext x; simp [timedStep, touches]
    simp only [hτ]
    simp only [timedStep, step, Set_eq]
    cases hg : PtrMap.get t.state.cache k with
    | none =>
      rw [fifo.Set_miss CalcLen t.state k v hg]
      have h3 := Linked.push_append hl k v hg
      have hk : k ∉ list.keys t.state.ll := (Linked.get_none_iff hl k).1 hg
      have hr := h.push_key k t.state.fresh v hk
      dsimp only
      split
      · exact DelOldest_recency CalcLen _ _ _ h3 hr
      · exact hr
    | some p =>
      obtain ⟨l1, l2, e, hs, hk, hp, -, -, hset⟩ := fifo.Set_hit CalcLen t.state k v p hl hg
      rw [hset]
      subst hk hp
      have hnd := hl.keys_nodup
      rw [hs] at h hnd
      exact h.touch_key hnd v
  | Get k =>
    cases hg : PtrMap.get t.state.cache k with
    | none =>
      have hτ : (timedStep CalcLen t (Op.Get k)).lastTouch = t.lastTouch := by
        funext x; simp [timedStep, touches, hg]
      simp only [hτ]
      simp only [timedStep, step, Get_miss_lru t.state k hg]
      exact h.later
    | some p =>
      have hτ : (timedStep CalcLen t (Op.Get k)).lastTouch
          = fun x => if k = x then some t.clock else t.lastTouch x := by
        funext x; simp [timedStep, touches, hg]
      simp only [hτ]
      obtain ⟨l1, l2, e, hs, hk, hp, -, -, hget⟩ := Get_hit_lru t.state k p hl hg
      simp only [timedStep, step, hget]
      subst hk hp
      have hnd := hl.keys_nodup
      rw [hs] at h hnd
      exact h.touch_key hnd e.Value.value
  | Del k =>
    have hτ : (timedStep CalcLen t (Op.Del k)).lastTouch = t.lastTouch := by
      funext x; simp [timedStep, touches]
    simp only [hτ]
    simp only [timedStep, step, Del_eq]
    cases hg : PtrMap.get t.state.cache k with
    | none => rw [fifo.Del_miss CalcLen t.state k hg]; exact h.later
    | some p =>
      obtain ⟨l1, l2, e, hs, hk, hp, -, -, hdel⟩ := fifo.Del_hit CalcLen t.state k p hl hg
      rw [hdel]
      simp only [engine.notify_ll]
      rw [hs] at h
      exact (h.sublist (keys_remove_sublist l1 l2 e)).later
  | DelOldest =>
    have hτ : (timedStep CalcLen t Op.DelOldest).lastTouch = t.lastTouch := by
      funext x; simp [timedStep, touches]
    simp only [hτ]
    simp only [timedStep, step]
    exact (DelOldest_recency CalcLen _ _ _ hl h).later

theorem foldl_timedStep_state (t : Timed V) (ops : List (Op V)) :
    (ops.foldl (timedStep CalcLen) t).state = run CalcLen t.state ops := by
  induction ops generalizing t with
  | nil => rfl
  | cons op rest ih => simp only [List.foldl_cons, run, ih]; rfl

theorem foldl_timedStep_recency (t : Timed V) (ops : List (Op V)) (hl : t.state.linked)
    (h : Recency t.state.ll t.lastTouch t.clock) :
    Recency (ops.foldl (timedStep CalcLen) t).state.ll
      (ops.foldl (timedStep CalcLen) t).lastTouch (ops.foldl (timedStep CalcLen) t).clock := by
  induction ops generalizing t with
  | nil => exact h
  | cons op rest ih =>
    simp only [List.foldl_cons]
    refine ih _ ?_ (timedStep_recency CalcLen t op hl h)
    exact step_linked_lru CalcLen t.state op hl

theorem history_state (maxBytes : Int) (onEvicted : Bool) (ops : List (Op V)) :
    (history CalcLen maxBytes onEvicted ops).state
      = run CalcLen (New maxBytes onEvicted) ops :=
  foldl_timedStep_state CalcLen _ ops

theorem history_recency (maxBytes : Int) (onEvicted : Bool) (ops : List (Op V)) :
    Recency (history CalcLen maxBytes onEvicted ops).state.ll
      (history CalcLen maxBytes onEvicted ops).lastTouch
      (history CalcLen maxBytes onEvicted ops).clock :=
  foldl_timedStep_recency CalcLen _ ops (New_linked_lru maxBytes onEvicted)
    ⟨by simp [New, list.keys], by simp [New, list.keys]⟩

theorem history_snoc (maxBytes : Int) (onEvicted : Bool) (ops : List (Op V)) (op : Op V) :
    history CalcLen maxBytes onEvicted (ops ++ [op])
      = timedStep CalcLen (history CalcLen maxBytes onEvicted ops) op := by
  simp [history, List.foldl_append]

end lru

theorem lru.DelOldest_least_recent {V : Type} (CalcLen : V → Int) (s : engine V)
    (τ : String → Option Nat) (c : Nat) (hl : s.linked) (h : lru.Recency s.ll τ c)
    (e : Element V) (rest : List (Element V)) (hs : s.ll = e :: rest) :
    (lru.DelOldest CalcLen s).ll = rest ∧
    PtrMap.get (lru.DelOldest CalcLen s).cache e.Value.key = none ∧
    ∀ k, (PtrMap.get (lru.DelOldest CalcLen s).cache k).isSome = true →
      lru.touchedBefore τ e.Value.key k := by
  have hl2 := fifo.DelOldest_linked CalcLen s hl
  have hll : (lru.DelOldest CalcLen s).ll = rest := by
    rw [lru.DelOldest_eq, fifo.DelOldest_cons CalcLen s e rest hs hl.ptrs_nodup]
    simp
  rw [← lru.DelOldest_eq] at hl2
  have hnd := hl.keys_nodup
  rw [hs] at h hnd
  simp only [list.keys, List.map_cons, List.nodup_cons] at hnd
  refine ⟨hll, ?_, ?_⟩
  · rw [Linked.get_none_iff hl2, hll]
    exact hnd.1
  · intro k hk
    have hk2 : k ∈ list.keys rest := by
      by_contra hcon
      rw [← hll, ← Linked.get_none_iff hl2] at hcon
      rw [hcon] at hk
      simp at hk
    have hp := h.2
    simp only [list.keys, List.map_cons, List.pairwise_cons] at hp
    exact hp.1 k hk2

theorem lru.run_snoc_lru {V : Type} (CalcLen : V → Int) (s : engine V) (ops : List (Op V))
    (op : Op V) : lru.run CalcLen s (ops ++ [op]) = lru.step CalcLen (lru.run CalcLen s ops) op := by
  simp [lru.run, List.foldl_append]

theorem fifo.run_snoc {V : Type} (CalcLen : V → Int) (s : engine V) (ops : List (Op V))
    (op : Op V) :
    fifo.run CalcLen s (ops ++ [op]) = fifo.step CalcLen (fifo.run CalcLen s ops) op := by
  simp [fifo.run, List.foldl_append]

theorem lru.Set_evicts_least_recent {V : Type} (CalcLen : V → Int) (s : engine V)
    (τ : String → Option Nat) (c : Nat) (hl : s.linked) (hr : lru.Recency s.ll τ c)
    (k : String) (v : V) (hg : PtrMap.get s.cache k = none) (hpos : s.maxBytes > 0)
    (hc : s.usedBytes + CalcLen v > s.maxBytes) :
    ∃ e rest, s.ll ++ [⟨s.fresh, ⟨k, v⟩⟩] = e :: rest ∧
      (lru.Set CalcLen s k v).ll = rest ∧
      PtrMap.get (lru.Set CalcLen s k v).cache e.Value.key = none ∧
      ∀ k2, (PtrMap.get (lru.Set CalcLen s k v).cache k2).isSome = true →
        lru.touchedBefore (fun x => if k = x then some c else τ x) e.Value.key k2 := by
  have hk : k ∉ list.keys s.ll := (Linked.get_none_iff hl k).1 hg
  have h3 : engine.linked ({ s with
      ll := s.ll ++ [⟨s.fresh, ⟨k, v⟩⟩]
      fresh := s.fresh + 1
      cache := s.cache ++ [(k, s.fresh)]
      usedBytes := s.usedBytes + CalcLen v } : engine V) := Linked.push_append hl k v hg
  have hr3 := hr.push_key k s.fresh v hk
  obtain ⟨e, rest, hs⟩ : ∃ e rest, s.ll ++ [(⟨s.fresh, ⟨k, v⟩⟩ : Element V)] = e :: rest := by
    cases hs : s.ll ++ [(⟨s.fresh, ⟨k, v⟩⟩ : Element V)] with
    | nil => simp at hs
    | cons e rest => exact ⟨e, rest, rfl⟩
  refine ⟨e, rest, hs, ?_⟩
  rw [lru.Set_eq, fifo.Set_miss CalcLen s k v hg]
  dsimp only
  rw [if_pos ⟨hpos, hc⟩, ← lru.DelOldest_eq]
  exact lru.DelOldest_least_recent CalcLen _ _ _ h3 hr3 e rest hs

/-! ## The list of a FIFO cache is ordered by the last `Set` -/

namespace fifo

variable {V : Type} (CalcLen : V → Int)

theorem timedStep_recency_fifo (t : Timed V) (op : Op V) (hl : t.state.linked)
    (h : lru.Recency t.state.ll t.lastSet t.clock) :
    lru.Recency (timedStep CalcLen t op).state.ll (timedStep CalcLen t op).lastSet
      (timedStep CalcLen t op).clock := by
  cases op with
  | Set k v =>
    have hτ : (timedStep CalcLen t (Op.Set k v)).lastSet
        = fun x => if k = x then some t.clock else t.lastSet x := by
      funext x; simp [timedStep, Op.setsKey]
    simp only [hτ]
    simp only [timedStep, step]
    cases hg : PtrMap.get t.state.cache k with
    | none =>
      rw [Set_miss CalcLen t.state k v hg]
      have h3 := Linked.push_append hl k v hg
      have hk : k ∉ list.keys t.state.ll := (Linked.get_none_iff hl k).1 hg
      have hr := h.push_key k t.state.fresh v hk
      dsimp only
      split
      · exact lru.DelOldest_recency CalcLen _ _ _ h3 hr
      · exact hr
    | some p =>
      obtain ⟨l1, l2, e, hs, hk, hp, -, -, hset⟩ := Set_hit CalcLen t.state k v p hl hg
      rw [hset]
      subst hk hp
      have hnd := hl.keys_nodup
      rw [hs] at h hnd
      exact h.touch_key hnd v
  | Get k =>
    have hτ : (timedStep CalcLen t (Op.Get k)).lastSet = t.lastSet := by
      funext x; simp [timedStep, Op.setsKey]
    simp only [hτ]
    simp only [timedStep, step, Get_state]
    exact h.later
  | Del k =>
    have hτ : (timedStep CalcLen t (Op.Del k)).lastSet = t.lastSet := by
      funext x; simp [timedStep, Op.setsKey]
    simp only [hτ]
    simp only [timedStep, step]
    cases hg : PtrMap.get t.state.cache k with
    | none => rw [Del_miss CalcLen t.state k hg]; exact h.later
    | some p =>
      obtain ⟨l1, l2, e, hs, hk, hp, -, -, hdel⟩ := Del_hit CalcLen t.state k p hl hg
      rw [hdel]
      simp only [engine.notify_ll]
      rw [hs] at h
      exact (h.sublist (lru.keys_remove_sublist l1 l2 e)).later
  | DelOldest =>
    have hτ : (timedStep CalcLen t Op.DelOldest).lastSet = t.lastSet := by
      funext x; simp [timedStep, Op.setsKey]
    simp only [hτ]
    simp only [timedStep, step]
    exact (lru.DelOldest_recency CalcLen t.state _ _ hl h).later

theorem foldl_timedStep_state_fifo (t : Timed V) (ops : List (Op V)) :
    (ops.foldl (timedStep CalcLen) t).state = run CalcLen t.state ops := by
  induction ops generalizing t with
  | nil => rfl
  | cons op rest ih => simp only [List.foldl_cons, run, ih]; rfl

theorem foldl_timedStep_recency_fifo (t : Timed V) (ops : List (Op V)) (hl : t.state.linked)
    (h : lru.Recency t.state.ll t.lastSet t.clock) :
    lru.Recency (ops.foldl (timedStep CalcLen) t).state.ll
      (ops.foldl (timedStep CalcLen) t).lastSet (ops.foldl (timedStep CalcLen) t).clock := by
  induction ops generalizing t with
  | nil => exact h
  | cons op rest ih =>
    simp only [List.foldl_cons]
    refine ih _ ?_ (timedStep_recency_fifo CalcLen t op hl h)
    exact step_linked CalcLen t.state op hl

theorem history_state_fifo (maxBytes : Int) (onEvicted : Bool) (ops : List (Op V)) :
    (history CalcLen maxBytes onEvicted ops).state
      = run CalcLen (New maxBytes onEvicted) ops :=
  foldl_timedStep_state_fifo CalcLen _ ops

theorem history_recency_fifo (maxBytes : Int) (onEvicted : Bool) (ops : List (Op V)) :
    lru.Recency (history CalcLen maxBytes onEvicted ops).state.ll
      (history CalcLen maxBytes onEvicted ops).lastSet
      (history CalcLen maxBytes onEvicted ops).clock :=
  foldl_timedStep_recency_fifo CalcLen _ ops (New_linked maxBytes onEvicted)
    ⟨by simp [New, list.keys], by simp [New, list.keys]⟩

end fifo

/-! ## The heap of the LFU engine: no panic, same entries, positions recorded -/

namespace lfu

variable {V : Type}

theorem perm_cons_set {α : Type} (t : List α) (j : Nat) (b x : α) (h : t[j]? = some b) :
    (b :: t.set j x).Perm (x :: t) := by
  induction t generalizing j with
  | nil => simp at h
  | cons y t ih =>
    cases j with
    | zero =>
      simp only [List.getElem?_cons_zero, Option.some.injEq] at h
      subst h
      simpa using List.Perm.swap x y t
    | succ j =>
      simp only [List.getElem?_cons_succ] at h
      simp only [List.set_cons_succ]
      exact (List.Perm.swap y b _).trans (((ih j h).cons y).trans (List.Perm.swap x y t))

theorem perm_set_set {α : Type} (l : List α) (i j : Nat) (a b : α)
    (hi : l[i]? = some a) (hj : l[j]? = some b) : ((l.set i b).set j a).Perm l := by
  induction l generalizing i j with
  | nil => simp at hi
  | cons x t ih =>
    cases i with
    | zero =>
      simp only [List.getElem?_cons_zero, Option.some.injEq] at hi
      subst hi
      cases j with
      | zero =>
        simp only [List.getElem?_cons_zero, Option.some.injEq] at hj
        subst hj
        simp
      | succ j =>
        simp only [List.getElem?_cons_succ] at hj
        simp only [List.set_cons_zero, List.set_cons_succ]
        exact perm_cons_set t j b x hj
    | succ i =>
      simp only [List.getElem?_cons_succ] at hi
      cases j with
      | zero =>
        simp only [List.getElem?_cons_zero, Option.some.injEq] at hj
        subst hj
        simp only [List.set_cons_zero, List.set_cons_succ]
        exact perm_cons_set t i a x hi
      | succ j =>
        simp only [List.getElem?_cons_succ] at hj
        simp only [List.set_cons_succ]
        exact (ih i j hi hj).cons x

namespace Rearranged

theorem refl (n : Nat) (q : List (entry V)) : Rearranged n q q :=
  ⟨rfl, List.Perm.refl _, fun _ _ => rfl, id⟩

theorem trans {n : Nat} {q q2 q3 : List (entry V)} (h1 : Rearranged n q q2)
    (h2 : Rearranged n q2 q3) : Rearranged n q q3 :=
  ⟨h2.length_eq.trans h1.length_eq, h2.perm.trans h1.perm,
    fun m hm => (h2.above m hm).trans (h1.above m hm), fun h => h2.idx (h1.idx h)⟩

theorem mono {n n2 : Nat} {q q2 : List (entry V)} (h : Rearranged n q q2) (hn : n ≤ n2) :
    Rearranged n2 q q2 :=
  ⟨h.length_eq, h.perm, fun m hm => h.above m (by omega), h.idx⟩

end Rearranged

theorem queue.item_natCast (q : List (entry V)) (m : Nat) : queue.item q (m : Int) = q[m]? := by
  simp [queue.item]

theorem queue.Less_natCast (less : entry V → entry V → Bool) (q : List (entry V)) (i j : Nat)
    (hi : i < q.length) (hj : j < q.length) :
    ∃ b, queue.Less less q (i : Int) (j : Int) = some b := by
  simp only [queue.Less, queue.item_natCast, List.getElem?_eq_getElem hi,
    List.getElem?_eq_getElem hj]
  exact ⟨_, rfl⟩

theorem queue.Swap_natCast (q : List (entry V)) (i j : Nat) (hi : i < q.length)
    (hj : j < q.length) (n : Nat) (hin : i < n) (hjn : j < n) :
    ∃ q2, queue.Swap q (i : Int) (j : Int) = some q2 ∧ Rearranged n q q2 ∧
      q2[j]? = some { q[i] with index := (j : Int) } := by
  refine ⟨(q.set i { q[j] with index := (i : Int) }).set j { q[i] with index := (j : Int) },
    by simp only [queue.Swap, queue.item_natCast, List.getElem?_eq_getElem hi,
      List.getElem?_eq_getElem hj, Int.toNat_ofNat], ⟨?_, ?_, ?_, ?_⟩, ?_⟩
  · simp
  · simp only [List.map_set]
    exact perm_set_set (q.map strip) i j (strip q[i]) (strip q[j]) (by simp [hi]) (by simp [hj])
  · intro m hm
    rw [List.getElem?_set_ne (by omega), List.getElem?_set_ne (by omega)]
  · intro hq m e he
    by_cases hmj : m = j
    · subst hmj
      rw [List.getElem?_set_self (by simpa using hj)] at he
      simp only [Option.some.injEq] at he
      subst he
      rfl
    · rw [List.getElem?_set_ne (fun h => hmj h.symm)] at he
      by_cases hmi : m = i
      · subst hmi
        rw [List.getElem?_set_self hi] at he
        simp only [Option.some.injEq] at he
        subst he
        rfl
      · rw [List.getElem?_set_ne (fun h => hmi h.symm)] at he
        exact hq m e he
  · rw [List.getElem?_set_self (by simpa using hj)]

theorem parent_pos (m : Nat) (hm : 0 < m) :
    Int.tdiv ((m : Int) - 1) 2 = (((m - 1) / 2 : Nat) : Int) := by
  rw [Int.tdiv_eq_ediv (by omega) (by omega)]
  omega

theorem heap.up_spec (less : entry V → entry V → Bool) :
    ∀ (fuel : Nat) (q : List (entry V)) (j : Nat), j < q.length → j < fuel →
      ∃ q2, heap.up less fuel q (j : Int) = some q2 ∧ Rearranged (j + 1) q q2 := by
  intro fuel
  induction fuel with
  | zero => intro q j _ hf; omega
  | succ fuel ih =>
    intro q j hj hf
    rcases Nat.eq_zero_or_pos j with h0 | hpos
    · subst h0
      refine ⟨q, ?_, Rearranged.refl _ q⟩
      have hz : Int.tdiv (((0 : Nat) : Int) - 1) 2 = ((0 : Nat) : Int) := by decide
      simp only [heap.up, hz, if_true]
    · have hp := parent_pos j hpos
      have hlt : (j - 1) / 2 < j := by omega
      have hne : ¬ ((((j - 1) / 2 : Nat) : Int) = (j : Int)) := by omega
      obtain ⟨b, hb⟩ := queue.Less_natCast less q j ((j - 1) / 2) hj (by omega)
      simp only [heap.up, hp, if_neg hne, hb]
      cases b with
      | false => exact ⟨q, rfl, Rearranged.refl _ q⟩
      | true =>
        obtain ⟨q1, hsw, hr1, -⟩ := queue.Swap_natCast q ((j - 1) / 2) j (by omega) hj (j + 1)
          (by omega) (by omega)
        simp only [hsw]
        obtain ⟨q2, hup, hr2⟩ := ih q1 ((j - 1) / 2) (by rw [hr1.length_eq]; omega) (by omega)
        exact ⟨q2, hup, hr1.trans (hr2.mono (by omega))⟩

theorem heap.down_spec (less : entry V → entry V → Bool) :
    ∀ (fuel : Nat) (q : List (entry V)) (i0 : Int) (i n : Nat), n ≤ q.length → 1 ≤ fuel →
      n ≤ fuel + i →
      ∃ q2 b, heap.down less fuel q i0 (i : Int) (n : Int) = some (q2, b) ∧
        Rearranged n q q2 := by
  intro fuel
  induction fuel with
  | zero => intro q i0 i n _ hf; omega
  | succ fuel ih =>
    intro q i0 i n hn _ hf
    have hj1 : (2 * (i : Int) + 1) = ((2 * i + 1 : Nat) : Int) := by push_cast; rfl
    by_cases hbrk : n ≤ 2 * i + 1
    · refine ⟨q, decide ((i : Int) > i0), ?_, Rearranged.refl _ q⟩
      have : (2 * (i : Int) + 1 ≥ (n : Int) ∨ 2 * (i : Int) + 1 < 0) := Or.inl (by omega)
      simp only [heap.down, if_pos this]
    · have hnb : ¬ (2 * (i : Int) + 1 ≥ (n : Int) ∨ 2 * (i : Int) + 1 < 0) := by omega
      have hj2 : (2 * (i : Int) + 1 + 1) = ((2 * i + 2 : Nat) : Int) := by push_cast; ring
      obtain ⟨c, hc⟩ : ∃ c, (if 2 * (i : Int) + 1 + 1 < (n : Int) then
          queue.Less less q (2 * (i : Int) + 1 + 1) (2 * (i : Int) + 1) else some false)
          = some c := by
        split
        · rw [hj2, hj1]
          exact queue.Less_natCast less q _ _ (by omega) (by omega)
        · exact ⟨false, rfl⟩
      obtain ⟨j, hjdef, hjlo, hjhi⟩ : ∃ j : Nat,
          (if c = true then 2 * (i : Int) + 1 + 1 else 2 * (i : Int) + 1) = (j : Int) ∧
          i < j ∧ j < n := by
        cases c with
        | false => exact ⟨2 * i + 1, by simp, by omega, by omega⟩
        | true =>
          refine ⟨2 * i + 2, by simp [hj2], by omega, ?_⟩
          by_contra hcon
          rw [if_neg (by omega)] at hc
          simp at hc
      obtain ⟨b, hb⟩ := queue.Less_natCast less q j i (by omega) (by omega)
      simp only [heap.down, if_neg hnb, hc, hjdef, hb]
      cases b with
      | false => exact ⟨q, _, rfl, Rearranged.refl _ q⟩
      | true =>
        obtain ⟨q1, hsw, hr1, -⟩ := queue.Swap_natCast q i j (by omega) (by omega) n
          (by omega) hjhi
        simp only [hsw]
        obtain ⟨q2, b2, hdn, hr2⟩ := ih q1 i0 j n (by rw [hr1.length_eq]; exact hn)
          (by omega) (by omega)
        exact ⟨q2, b2, hdn, hr1.trans hr2⟩

theorem IdxOK_dropLast (q : List (entry V)) (h : IdxOK q) : IdxOK q.dropLast := by
  intro m e he
  rw [List.getElem?_dropLast] at he
  split at he
  · exact h m e he
  · simp at he

theorem queue.Pop_last_spec (q : List (entry V)) (x : entry V) (hlen : 1 ≤ q.length)
    (hx : q[q.length - 1]? = some x) :
    queue.Pop q = some (q.dropLast, x) ∧ q = q.dropLast ++ [x] := by
  have hne : q ≠ [] := by
    intro h; rw [h] at hlen; simp at hlen
  have hl : q.getLast? = some x := by rw [List.getLast?_eq_getElem?]; exact hx
  refine ⟨by simp [queue.Pop, hl], ?_⟩
  have := List.dropLast_concat_getLast hne
  rw [List.getLast?_eq_getLast _ hne] at hl
  simp only [Option.some.injEq] at hl
  rw [hl] at this
  exact this.symm

/-- What `heap.Pop` and `heap.Remove` return for the entry at position `i`. -/
theorem taken_spec (q q2 : List (entry V)) (i : Nat) (hi : i < q.length)
    (hr : Rearranged q.length q q2)
    (hlast : q2[q.length - 1]? = some { q[i] with index := ((q.length - 1 : Nat) : Int) }) :
    ∃ x, queue.Pop q2 = some (q2.dropLast, x) ∧ strip x = strip q[i] ∧
      q2.dropLast.length + 1 = q.length ∧
      (q2.dropLast.map strip ++ [strip x]).Perm (q.map strip) ∧
      (IdxOK q → IdxOK q2.dropLast) := by
  have hlen := hr.length_eq
  obtain ⟨hpop, hq2⟩ := queue.Pop_last_spec q2 _ (by omega) (by rw [hlen]; exact hlast)
  refine ⟨_, hpop, rfl, by simp; omega, ?_, fun h => IdxOK_dropLast q2 (hr.idx h)⟩
  have hp := hr.perm
  rw [hq2] at hp
  simpa using hp

theorem heap.Fix_spec (less : entry V → entry V → Bool) (q : List (entry V)) (i : Nat)
    (hi : i < q.length) :
    ∃ q2, heap.Fix less q (i : Int) = some q2 ∧ Rearranged q.length q q2 := by
  obtain ⟨q1, b, hd, hr1⟩ := heap.down_spec less (q.length + 1) q (i : Int) i q.length
    (le_refl _) (by omega) (by omega)
  simp only [heap.Fix, queue.Len, hd]
  cases b with
  | true => exact ⟨q1, rfl, hr1⟩
  | false =>
    obtain ⟨q2, hu, hr2⟩ := heap.up_spec less (q.length + 1) q1 i
      (by rw [hr1.length_eq]; exact hi) (by omega)
    refine ⟨q2, by simpa using hu, hr1.trans (hr2.mono (by omega))⟩

theorem heap.Push_spec (less : entry V → entry V → Bool) (q : List (entry V)) (x : entry V) :
    ∃ q2, heap.Push less q x = some q2 ∧ q2.length = q.length + 1 ∧
      (q2.map strip).Perm (q.map strip ++ [strip x]) ∧ (IdxOK q → IdxOK q2) := by
  have hl : (queue.Push q x).length = q.length + 1 := by simp [queue.Push]
  have hj : queue.Len (queue.Push q x) - 1 = ((q.length : Nat) : Int) := by
    simp [queue.Len, hl]
  obtain ⟨q2, hu, hr⟩ := heap.up_spec less ((queue.Push q x).length + 1) (queue.Push q x)
    q.length (by omega) (by omega)
  refine ⟨q2, by simp only [heap.Push, hj]; exact hu, by rw [hr.length_eq, hl], ?_, ?_⟩
  · refine hr.perm.trans ?_
    simp [queue.Push, strip]
  · intro hq
    apply hr.idx
    intro m e he
    simp only [queue.Push] at he
    by_cases hm : m < q.length
    · rw [List.getElem?_append_left hm] at he
      exact hq m e he
    · rw [List.getElem?_append_right (by omega)] at he
      have hm2 : m - q.length = 0 := by
        by_contra hcon
        rw [List.getElem?_eq_none (by simp; omega)] at he
        simp at he
      rw [hm2] at he
      simp only [List.getElem?_cons_zero, Option.some.injEq] at he
      subst he
      simp only
      have : m = q.length := by omega
      rw [this]

theorem heap.Pop_spec (less : entry V → entry V → Bool) (q : List (entry V))
    (hlen : 0 < q.length) :
    ∃ q2 x, heap.Pop less q = some (q2, x) ∧ strip x = strip q[0] ∧
      q2.length + 1 = q.length ∧ (q2.map strip ++ [strip x]).Perm (q.map strip) ∧
      (IdxOK q → IdxOK q2) := by
  have hn : queue.Len q - 1 = ((q.length - 1 : Nat) : Int) := by
    simp only [queue.Len]; omega
  obtain ⟨q1, hsw, hr1, hl1⟩ := queue.Swap_natCast q 0 (q.length - 1) hlen (by omega)
    q.length (by omega) (by omega)
  obtain ⟨q2, b, hd, hr2⟩ := heap.down_spec less (q.length + 1) q1 0 0 (q.length - 1)
    (by rw [hr1.length_eq]; omega) (by omega) (by omega)
  have hlast : q2[q.length - 1]? = some { q[0] with index := ((q.length - 1 : Nat) : Int) } := by
    rw [hr2.above _ (le_refl _), hl1]
  obtain ⟨x, hpop, hx, hl, hp, hidx⟩ := taken_spec q q2 0 hlen
    (hr1.trans (hr2.mono (by omega))) hlast
  have h0 : ((0 : Nat) : Int) = 0 := rfl
  rw [h0] at hsw hd
  exact ⟨q2.dropLast, x, by simp only [heap.Pop, hn, hsw, hd, hpop], hx, hl, hp, hidx⟩

theorem heap.Remove_spec (less : entry V → entry V → Bool) (q : List (entry V)) (i : Nat)
    (hi : i < q.length) :
    ∃ q2 x, heap.Remove less q (i : Int) = some (q2, x) ∧ strip x = strip q[i] ∧
      q2.length + 1 = q.length ∧ (q2.map strip ++ [strip x]).Perm (q.map strip) ∧
      (IdxOK q → IdxOK q2) := by
  have hn : queue.Len q - 1 = ((q.length - 1 : Nat) : Int) := by
    simp only [queue.Len]; omega
  by_cases hin : i = q.length - 1
  · have hne : ¬ (((q.length - 1 : Nat) : Int) ≠ (i : Int)) := by omega
    have hq : q[q.length - 1]? = some q[i] := by
      subst hin
      exact List.getElem?_eq_getElem _
    obtain ⟨hpop, hq2⟩ := queue.Pop_last_spec q q[i] (by omega) hq
    refine ⟨q.dropLast, q[i], by simp only [heap.Remove, hn, if_neg hne, hpop], rfl,
      by simp; omega, ?_, fun h => IdxOK_dropLast q h⟩
    have : (q.map strip) = (q.dropLast.map strip ++ [strip q[i]]) := by
      conv_lhs => rw [hq2]
      simp
    rw [this]
  · have hne : (((q.length - 1 : Nat) : Int) ≠ (i : Int)) := by omega
    obtain ⟨q1, hsw, hr1, hl1⟩ := queue.Swap_natCast q i (q.length - 1) hi (by omega)
      q.length (by omega) (by omega)
    obtain ⟨q2, b, hd, hr2⟩ := heap.down_spec less (q.length + 1) q1 (i : Int) i (q.length - 1)
      (by rw [hr1.length_eq]; omega) (by omega) (by omega)
    have hlast2 : q2[q.length - 1]? = some { q[i] with index := ((q.length - 1 : Nat) : Int) } := by
      rw [hr2.above _ (le_refl _), hl1]
    cases b with
    | true =>
      obtain ⟨x, hpop, hx, hl, hp, hidx⟩ := taken_spec q q2 i hi
        (hr1.trans (hr2.mono (by omega))) hlast2
      exact ⟨q2.dropLast, x, by simp only [heap.Remove, hn, if_pos hne, hsw, hd, hpop, if_true],
        hx, hl, hp, hidx⟩
    | false =>
      obtain ⟨q3, hu, hr3⟩ := heap.up_spec less (q.length + 1) q2 i
        (by rw [hr2.length_eq, hr1.length_eq]; exact hi) (by omega)
      have hlast3 : q3[q.length - 1]?
          = some { q[i] with index := ((q.length - 1 : Nat) : Int) } := by
        rw [hr3.above _ (by omega), hlast2]
      obtain ⟨x, hpop, hx, hl, hp, hidx⟩ := taken_spec q q3 i hi
        (hr1.trans ((hr2.mono (by omega)).trans (hr3.mono (by omega)))) hlast3
      refine ⟨q3.dropLast, x, ?_, hx, hl, hp, hidx⟩
      simp only [heap.Remove, hn, if_pos hne, hsw, hd, hu, hpop]
      simp

theorem map_perm_of_strip {β : Type} {q q2 : List (entry V)}
    (h : (q2.map strip).Perm (q.map strip)) (f : entry V → β) (hf : ∀ e, f (strip e) = f e) :
    (q2.map f).Perm (q.map f) := by
  have := h.map f
  simp only [List.map_map] at this
  have e : f ∘ strip = f := funext hf
  rwa [e] at this

theorem map_perm_of_strip_snoc {β : Type} {q q2 : List (entry V)} {x : entry V}
    (h : (q2.map strip ++ [strip x]).Perm (q.map strip)) (f : entry V → β)
    (hf : ∀ e, f (strip e) = f e) : (q2.map f ++ [f x]).Perm (q.map f) := by
  have := h.map f
  simp only [List.map_map, List.map_append, List.map_cons, List.map_nil] at this
  have e : f ∘ strip = f := funext hf
  rwa [e, hf] at this

namespace QLinked

variable {q : List (entry V)} {cache : PtrMap} {fresh : Nat}

theorem nil_q : QLinked ([] : List (entry V)) [] 0 :=
  ⟨List.Perm.refl _, List.nodup_nil, List.nodup_nil, by simp [queue.ptrs],
    fun m e he => by simp at he⟩

theorem of_perm (h : QLinked q cache fresh) {q2 : List (entry V)}
    (hp : (q2.map strip).Perm (q.map strip)) (hidx : IdxOK q2) : QLinked q2 cache fresh := by
  have hpairs : (queue.pairs q2).Perm (queue.pairs q) :=
    map_perm_of_strip hp (fun e => (e.key, e.ptr)) (fun _ => rfl)
  have hkeys : (queue.keys q2).Perm (queue.keys q) :=
    map_perm_of_strip hp (fun e => e.key) (fun _ => rfl)
  have hptrs : (queue.ptrs q2).Perm (queue.ptrs q) :=
    map_perm_of_strip hp (fun e => e.ptr) (fun _ => rfl)
  exact ⟨h.perm.trans hpairs.symm, hkeys.nodup_iff.2 h.keys_nodup,
    hptrs.nodup_iff.2 h.ptrs_nodup, fun p hp2 => h.fresh_bound p (hptrs.mem_iff.1 hp2), hidx⟩

theorem cache_keys_q (h : QLinked q cache fresh) :
    (cache.map Prod.fst).Perm (queue.keys q) := by
  have := h.perm.map Prod.fst
  simpa [queue.pairs, queue.keys, Function.comp_def] using this

theorem get_none_iff_q (h : QLinked q cache fresh) (k : String) :
    PtrMap.get cache k = none ↔ k ∉ queue.keys q := by
  rw [PtrMap.get_eq_none_iff, h.cache_keys_q.mem_iff]

theorem deref_of_mem_q (h : QLinked q cache fresh) (e : entry V) (he : e ∈ q) :
    queue.deref q e.ptr = some e := by
  obtain ⟨l1, l2, rfl⟩ := List.append_of_mem he
  have hnd := h.ptrs_nodup
  simp only [queue.ptrs, List.map_append, List.map_cons] at hnd
  have hd := (List.nodup_append.1 hnd).2.2
  have h1 : l1.find? (fun x => decide (x.ptr = e.ptr)) = none := by
    rw [List.find?_eq_none]
    intro x hx
    simp only [decide_eq_true_eq]
    intro hxe
    exact hd (List.mem_map_of_mem (fun e => e.ptr) hx) (by simp [hxe])
  simp [queue.deref, List.find?_append, h1]

theorem get_deref_q (h : QLinked q cache fresh) (k : String) (p : Nat)
    (hg : PtrMap.get cache k = some p) :
    ∃ e, queue.deref q p = some e ∧ e ∈ q ∧ e.key = k ∧ e.ptr = p := by
  have := h.perm.mem_iff.1 (PtrMap.mem_of_get cache k p hg)
  simp only [queue.pairs, List.mem_map, Prod.mk.injEq] at this
  obtain ⟨e, he, hk, hp⟩ := this
  exact ⟨e, hp ▸ h.deref_of_mem_q e he, he, hk, hp⟩

theorem get_of_mem_q (h : QLinked q cache fresh) (e : entry V) (he : e ∈ q) :
    PtrMap.get cache e.key = some e.ptr := by
  apply PtrMap.get_of_mem cache _ _ (h.cache_keys_q.nodup_iff.2 h.keys_nodup)
  exact h.perm.mem_iff.2 (List.mem_map_of_mem (fun e => (e.key, e.ptr)) he)

theorem index_of_mem (h : QLinked q cache fresh) (e : entry V) (he : e ∈ q) :
    ∃ i : Nat, i < q.length ∧ e.index = (i : Int) ∧ q[i]? = some e := by
  obtain ⟨i, hi, hq⟩ := List.getElem_of_mem he
  exact ⟨i, hi, h.idx i e (by rw [List.getElem?_eq_getElem hi, hq]), by
    rw [List.getElem?_eq_getElem hi, hq]⟩

theorem push_q (h : QLinked q cache fresh) {q2 : List (entry V)} (x : entry V)
    (hx : x.ptr = fresh) (hk : PtrMap.get cache x.key = none)
    (hp : (q2.map strip).Perm (q.map strip ++ [strip x])) (hidx : IdxOK q2) :
    QLinked q2 (cache ++ [(x.key, fresh)]) (fresh + 1) := by
  have hpairs : (queue.pairs q2).Perm (queue.pairs q ++ [(x.key, x.ptr)]) := by
    have := hp.map (fun e : entry V => (e.key, e.ptr))
    simpa [queue.pairs, Function.comp_def, strip] using this
  have hkeys : (queue.keys q2).Perm (queue.keys q ++ [x.key]) := by
    have := hp.map (fun e : entry V => e.key)
    simpa [queue.keys, Function.comp_def, strip] using this
  have hptrs : (queue.ptrs q2).Perm (queue.ptrs q ++ [x.ptr]) := by
    have := hp.map (fun e : entry V => e.ptr)
    simpa [queue.ptrs, Function.comp_def, strip] using this
  have hk2 : x.key ∉ queue.keys q := (h.get_none_iff_q x.key).1 hk
  have hp2 : x.ptr ∉ queue.ptrs q := by
    intro hmem
    have := h.fresh_bound _ hmem
    omega
  refine ⟨?_, ?_, ?_, ?_, hidx⟩
  · rw [← hx]
    exact (List.Perm.append_right _ h.perm).trans hpairs.symm
  · rw [hkeys.nodup_iff, List.nodup_append]
    refine ⟨h.keys_nodup, by simp, ?_⟩
    intro a ha hb
    simp only [List.mem_singleton] at hb
    subst hb
    exact hk2 ha
  · rw [hptrs.nodup_iff, List.nodup_append]
    refine ⟨h.ptrs_nodup, by simp, ?_⟩
    intro a ha hb
    simp only [List.mem_singleton] at hb
    subst hb
    exact hp2 ha
  · intro p hpm
    have := hptrs.mem_iff.1 hpm
    simp only [List.mem_append, List.mem_singleton] at this
    rcases this with h1 | h1
    · have := h.fresh_bound p h1
      omega
    · omega

theorem take_q (h : QLinked q cache fresh) {q2 : List (entry V)} (x : entry V)
    (hp : (q2.map strip ++ [strip x]).Perm (q.map strip)) (hidx : IdxOK q2) :
    QLinked q2 (PtrMap.delete cache x.key) fresh ∧ x.key ∉ queue.keys q2 ∧
      x.key ∈ queue.keys q := by
  have hpairs : (queue.pairs q2 ++ [(x.key, x.ptr)]).Perm (queue.pairs q) :=
    map_perm_of_strip_snoc hp (fun e => (e.key, e.ptr)) (fun _ => rfl)
  have hkeys : (queue.keys q2 ++ [x.key]).Perm (queue.keys q) :=
    map_perm_of_strip_snoc hp (fun e => e.key) (fun _ => rfl)
  have hptrs : (queue.ptrs q2 ++ [x.ptr]).Perm (queue.ptrs q) :=
    map_perm_of_strip_snoc hp (fun e => e.ptr) (fun _ => rfl)
  have hknd := hkeys.nodup_iff.2 h.keys_nodup
  have hpnd := hptrs.nodup_iff.2 h.ptrs_nodup
  rw [List.nodup_append] at hknd hpnd
  have hxk : x.key ∉ queue.keys q2 := fun hmem => hknd.2.2 hmem (by simp)
  refine ⟨⟨?_, hknd.1, hpnd.1, ?_, hidx⟩, hxk, hkeys.mem_iff.1 (by simp)⟩
  · have h1 := (h.perm.trans hpairs.symm).filter (fun kp => decide (kp.1 ≠ x.key))
    unfold PtrMap.delete
    refine h1.trans ?_
    have e1 : (queue.pairs q2).filter (fun kp => decide (kp.1 ≠ x.key)) = queue.pairs q2 := by
      rw [List.filter_eq_self]
      intro kp hkp
      simp only [queue.pairs, List.mem_map] at hkp
      obtain ⟨y, hy, rfl⟩ := hkp
      simp only [ne_eq, decide_not, Bool.not_eq_eq_eq_not, Bool.not_true,
        decide_eq_false_iff_not]
      intro hyx
      exact hxk (hyx ▸ List.mem_map_of_mem (fun e => e.key) hy)
    rw [List.filter_append, e1]
    simp
  · intro p hpm
    exact h.fresh_bound p (hptrs.mem_iff.1 (by simp [hpm]))

end QLinked

end lfu

namespace lfu

variable {V : Type}

theorem assign_map {β : Type} (q : List (entry V)) (p : Nat) (v : V) (w : Int)
    (f : entry V → β) (hf : ∀ e : entry V, f { e with value := v, weight := w } = f e) :
    (queue.assign q p v w).map f = q.map f := by
  simp only [queue.assign, List.map_map]
  apply List.map_congr_left
  intro e _
  simp only [Function.comp]
  split
  · exact hf e
  · rfl

theorem assign_idx (q : List (entry V)) (p : Nat) (v : V) (w : Int) (h : IdxOK q) :
    IdxOK (queue.assign q p v w) := by
  intro m e he
  simp only [queue.assign, List.getElem?_map, Option.map_eq_some'] at he
  obtain ⟨e0, he0, rfl⟩ := he
  have := h m e0 he0
  split <;> simpa using this

theorem assign_linked {q : List (entry V)} {cache : PtrMap} {fresh : Nat}
    (h : QLinked q cache fresh) (p : Nat) (v : V) (w : Int) :
    QLinked (queue.assign q p v w) cache fresh := by
  refine ⟨?_, ?_, ?_, ?_, assign_idx q p v w h.idx⟩
  · rw [queue.pairs, assign_map q p v w (fun e => (e.key, e.ptr)) (fun _ => rfl)]
    exact h.perm
  · rw [queue.keys, assign_map q p v w (fun e => e.key) (fun _ => rfl)]
    exact h.keys_nodup
  · rw [queue.ptrs, assign_map q p v w (fun e => e.ptr) (fun _ => rfl)]
    exact h.ptrs_nodup
  · rw [queue.ptrs, assign_map q p v w (fun e => e.ptr) (fun _ => rfl)]
    exact h.fresh_bound

theorem assign_mem (q : List (entry V)) (e : entry V) (v : V) (w : Int) (he : e ∈ q) :
    ({ e with value := v, weight := w } : entry V) ∈ queue.assign q e.ptr v w := by
  simp only [queue.assign, List.mem_map]
  exact ⟨e, he, by simp⟩

theorem deref_of_strip_perm {q q2 : List (entry V)} {cache : PtrMap} {fresh : Nat}
    (h2 : QLinked q2 cache fresh) (hp : (q2.map strip).Perm (q.map strip))
    (e : entry V) (he : e ∈ q) :
    ∃ e2, queue.deref q2 e.ptr = some e2 ∧ e2 ∈ q2 ∧ strip e2 = strip e := by
  have : strip e ∈ q2.map strip := hp.mem_iff.2 (List.mem_map_of_mem strip he)
  simp only [List.mem_map] at this
  obtain ⟨e2, he2, hs⟩ := this
  have hptr : e2.ptr = e.ptr := by
    have h := congrArg (fun x : entry V => x.ptr) hs
    exact h
  exact ⟨e2, hptr ▸ h2.deref_of_mem_q e2 he2, he2, hs⟩

theorem update_spec (less : entry V → entry V → Bool) {q : List (entry V)} {cache : PtrMap}
    {fresh : Nat} (h : QLinked q cache fresh) (e : entry V) (he : e ∈ q) (v : V) (w : Int) :
    ∃ q2, queue.update less q e v w = some q2 ∧ q2.length = q.length ∧
      (q2.map strip).Perm ((queue.assign q e.ptr v w).map strip) ∧
      QLinked q2 cache fresh ∧
      ∃ e2, queue.deref q2 e.ptr = some e2 ∧ e2 ∈ q2 ∧ e2.value = v ∧ e2.weight = w ∧
        e2.key = e.key := by
  obtain ⟨i, hi, hidx, -⟩ := h.index_of_mem e he
  have hla : (queue.assign q e.ptr v w).length = q.length := by simp [queue.assign]
  obtain ⟨q2, hfix, hr⟩ := heap.Fix_spec less (queue.assign q e.ptr v w) i (by omega)
  have hl2 := (assign_linked h e.ptr v w).of_perm hr.perm (hr.idx (assign_idx q e.ptr v w h.idx))
  obtain ⟨e2, hd, hm, hs⟩ := deref_of_strip_perm hl2 hr.perm _ (assign_mem q e v w he)
  have hv := congrArg (fun x : entry V => x.value) hs
  have hw := congrArg (fun x : entry V => x.weight) hs
  have hk := congrArg (fun x : entry V => x.key) hs
  exact ⟨q2, by simp only [queue.update, hidx, hfix], hr.length_eq.trans hla, hr.perm, hl2,
    e2, hd, hm, hv, hw, hk⟩

@[simp] theorem notify_queue_lfu (s : lfu V) (k : String) (v : V) :
    (s.notify k v).queue = s.queue := by
  unfold notify; split <;> rfl

@[simp] theorem notify_cache_lfu (s : lfu V) (k : String) (v : V) :
    (s.notify k v).cache = s.cache := by
  unfold notify; split <;> rfl

@[simp] theorem notify_fresh_lfu (s : lfu V) (k : String) (v : V) :
    (s.notify k v).fresh = s.fresh := by
  unfold notify; split <;> rfl

@[simp] theorem notify_usedBytes_lfu (s : lfu V) (k : String) (v : V) :
    (s.notify k v).usedBytes = s.usedBytes := by
  unfold notify; split <;> rfl

@[simp] theorem notify_maxBytes_lfu (s : lfu V) (k : String) (v : V) :
    (s.notify k v).maxBytes = s.maxBytes := by
  unfold notify; split <;> rfl

@[simp] theorem notify_onEvicted_lfu (s : lfu V) (k : String) (v : V) :
    (s.notify k v).onEvicted = s.onEvicted := by
  unfold notify; split <;> rfl

theorem notify_calls_lfu (s : lfu V) (k : String) (v : V) :
    (s.notify k v).calls =
      if s.onEvicted then s.calls ++ [⟨k, v, s.queue, s.cache, s.usedBytes⟩] else s.calls := by
  unfold notify; split <;> rfl

variable (CalcLen : V → Int) (less : entry V → entry V → Bool)

theorem Set_hit_lfu (s : lfu V) (k : String) (v : V) (p : Nat) (hl : s.linked)
    (hg : PtrMap.get s.cache k = some p) :
    ∃ e q2, queue.deref s.queue p = some e ∧ e ∈ s.queue ∧ e.key = k ∧ e.ptr = p ∧
      Set CalcLen less s k v = some { s with
        usedBytes := s.usedBytes - CalcLen e.value + CalcLen v
        queue := q2 } ∧
      q2.length = s.queue.length ∧
      (q2.map strip).Perm ((queue.assign s.queue p v (e.weight + 1)).map strip) ∧
      QLinked q2 s.cache s.fresh ∧
      ∃ e2, queue.deref q2 p = some e2 ∧ e2 ∈ q2 ∧ e2.value = v ∧ e2.key = k := by
  obtain ⟨e, hd, he, hk, hp⟩ := QLinked.get_deref_q hl k p hg
  obtain ⟨q2, hu, hlen, hperm, hl2, e2, hd2, hm2, hv2, -, hk2⟩ :=
    update_spec less hl e he v (e.weight + 1)
  subst hp
  refine ⟨e, q2, hd, he, hk, rfl, ?_, hlen, hperm, hl2, e2, hd2, hm2, hv2, hk2.trans hk⟩
  simp only [Set, hg, hd, hu]

theorem Get_miss_lfu (s : lfu V) (k : String) (hg : PtrMap.get s.cache k = none) :
    Get less s k = some (s, none) := by
  simp [Get, hg]

theorem Get_hit_lfu (s : lfu V) (k : String) (p : Nat) (hl : s.linked)
    (hg : PtrMap.get s.cache k = some p) :
    ∃ e q2, queue.deref s.queue p = some e ∧ e ∈ s.queue ∧ e.key = k ∧ e.ptr = p ∧
      Get less s k = some ({ s with queue := q2 }, some e.value) ∧
      q2.length = s.queue.length ∧
      (q2.map strip).Perm ((queue.assign s.queue p e.value (e.weight + 1)).map strip) ∧
      QLinked q2 s.cache s.fresh := by
  obtain ⟨e, hd, he, hk, hp⟩ := QLinked.get_deref_q hl k p hg
  obtain ⟨q2, hu, hlen, hperm, hl2, -⟩ := update_spec less hl e he e.value (e.weight + 1)
  subst hp
  refine ⟨e, q2, hd, he, hk, rfl, ?_, hlen, hperm, hl2⟩
  simp only [Get, hg, hd, hu]

theorem removeElement_some_lfu (s : lfu V) (x : entry V) :
    removeElement CalcLen s (some x) = notify { s with
      cache := PtrMap.delete s.cache x.key
      usedBytes := s.usedBytes - CalcLen x.value } x.key x.value := rfl

theorem Del_miss_lfu (s : lfu V) (k : String) (hg : PtrMap.get s.cache k = none) :
    Del CalcLen less s k = some s := by
  simp [Del, hg]

theorem Del_hit_lfu (s : lfu V) (k : String) (p : Nat) (hl : s.linked)
    (hg : PtrMap.get s.cache k = some p) :
    ∃ e q2, queue.deref s.queue p = some e ∧ e ∈ s.queue ∧ e.key = k ∧ e.ptr = p ∧
      Del CalcLen less s k = some (notify { s with
        queue := q2
        cache := PtrMap.delete s.cache k
        usedBytes := s.usedBytes - CalcLen e.value } k e.value) ∧
      q2.length + 1 = s.queue.length ∧
      (q2.map strip ++ [strip e]).Perm (s.queue.map strip) ∧
      QLinked q2 (PtrMap.delete s.cache k) s.fresh ∧ k ∉ queue.keys q2 := by
  obtain ⟨e, hd, he, hk, hp⟩ := QLinked.get_deref_q hl k p hg
  obtain ⟨i, hi, hidx, hqi⟩ := QLinked.index_of_mem hl e he
  obtain ⟨q2, x, hrm, hx, hlen, hperm, hidx2⟩ := heap.Remove_spec less s.queue i hi
  have hxe : strip x = strip e := by
    rw [hx]
    rw [List.getElem?_eq_getElem hi] at hqi
    simp only [Option.some.injEq] at hqi
    rw [hqi]
  rw [hxe] at hperm
  obtain ⟨hl2, hnk, -⟩ := QLinked.take_q hl e hperm (hidx2 hl.idx)
  subst hk
  refine ⟨e, q2, hd, he, rfl, hp, ?_, hlen, hperm, hl2, hnk⟩
  simp only [Del, hg, hd, hidx, hrm, removeElement_some_lfu]

theorem pop_lfu {q : List (entry V)} {cache : PtrMap} {fresh : Nat}
    (hl : QLinked q cache fresh) (hne : 0 < q.length) :
    ∃ q2 x, heap.Pop less q = some (q2, x) ∧ q2.length + 1 = q.length ∧
      (q2.map strip ++ [strip x]).Perm (q.map strip) ∧
      QLinked q2 (PtrMap.delete cache x.key) fresh ∧ x.key ∉ queue.keys q2 ∧
      x.key ∈ queue.keys q ∧ strip x = strip q[0] := by
  obtain ⟨q2, x, hpop, hx, hlen, hperm, hidx2⟩ := heap.Pop_spec less q hne
  obtain ⟨hl2, hnk, hk⟩ := QLinked.take_q hl x hperm (hidx2 hl.idx)
  exact ⟨q2, x, hpop, hlen, hperm, hl2, hnk, hk, hx⟩

theorem DelOldest_nil_lfu (s : lfu V) (hs : s.queue = []) :
    DelOldest CalcLen less s = some s := by
  simp [DelOldest, queue.Len, hs]

theorem DelOldest_cons_lfu (s : lfu V) (hl : s.linked) (hne : 0 < s.queue.length) :
    ∃ q2 x, heap.Pop less s.queue = some (q2, x) ∧
      DelOldest CalcLen less s = some (notify { s with
        queue := q2
        cache := PtrMap.delete s.cache x.key
        usedBytes := s.usedBytes - CalcLen x.value } x.key x.value) ∧
      q2.length + 1 = s.queue.length ∧
      (q2.map strip ++ [strip x]).Perm (s.queue.map strip) ∧
      QLinked q2 (PtrMap.delete s.cache x.key) s.fresh ∧ x.key ∉ queue.keys q2 ∧
      x.key ∈ queue.keys s.queue := by
  obtain ⟨q2, x, hpop, hlen, hperm, hl2, hnk, hk, -⟩ := pop_lfu less hl hne
  refine ⟨q2, x, hpop, ?_, hlen, hperm, hl2, hnk, hk⟩
  have : ¬ (queue.Len s.queue = 0) := by simp only [queue.Len]; omega
  simp only [DelOldest, if_neg this, hpop, removeElement_some_lfu]

theorem Set_miss_lfu (s : lfu V) (k : String) (v : V) (hl : s.linked)
    (hg : PtrMap.get s.cache k = none) :
    ∃ q2, heap.Push less s.queue ⟨s.fresh, k, v, 0, 0⟩ = some q2 ∧
      q2.length = s.queue.length + 1 ∧
      (q2.map strip).Perm (s.queue.map strip ++ [strip ⟨s.fresh, k, v, 0, 0⟩]) ∧
      QLinked q2 (s.cache ++ [(k, s.fresh)]) (s.fresh + 1) ∧
      Set CalcLen less s k v =
        if s.maxBytes > 0 ∧ s.usedBytes + CalcLen v > s.maxBytes then
          DelOldest CalcLen less { s with
            queue := q2
            fresh := s.fresh + 1
            cache := s.cache ++ [(k, s.fresh)]
            usedBytes := s.usedBytes + CalcLen v }
        else some { s with
            queue := q2
            fresh := s.fresh + 1
            cache := s.cache ++ [(k, s.fresh)]
            usedBytes := s.usedBytes + CalcLen v } := by
  obtain ⟨q2, hpush, hlen, hperm, hidx⟩ := heap.Push_spec less s.queue ⟨s.fresh, k, v, 0, 0⟩
  have hl2 := QLinked.push_q hl ⟨s.fresh, k, v, 0, 0⟩ rfl hg hperm (hidx hl.idx)
  have hk1 : k ∉ s.cache.map Prod.fst := (PtrMap.get_eq_none_iff s.cache k).1 hg
  refine ⟨q2, hpush, hlen, hperm, hl2, ?_⟩
  simp only [Set, hg, hpush, PtrMap.set, PtrMap.delete_of_not_mem s.cache k hk1, entry.Len]
  split
  · have : ¬ (queue.Len q2 = 0) := by simp only [queue.Len]; omega
    simp only [DelOldest, if_neg this]
    cases heap.Pop less q2 <;> rfl
  · rfl

end lfu

/-! ## C10, C7, C5: deletion of an absent key, unlimited budget, update in place -/

theorem PtrMap.get_delete_self (m : PtrMap) (k : String) : PtrMap.get (PtrMap.delete m k) k = none := by
  rw [PtrMap.get_eq_none_iff]
  intro h
  simp only [PtrMap.delete, List.mem_map, List.mem_filter] at h
  obtain ⟨kp, ⟨-, h1⟩, h2⟩ := h
  simp at h1
  exact h1 h2

theorem PtrMap.get_delete_of_ne (m : PtrMap) (k k2 : String) (h : k2 ≠ k) :
    PtrMap.get (PtrMap.delete m k) k2 = PtrMap.get m k2 := by
  induction m with
  | nil => rfl
  | cons kp rest ih =>
    obtain ⟨k1, p⟩ := kp
    by_cases h1 : k1 = k
    · have e : PtrMap.delete ((k1, p) :: rest) k = PtrMap.delete rest k := by
        simp [PtrMap.delete, h1]
      have : ¬ k1 = k2 := fun h2 => h (h2.symm.trans h1)
      rw [e, ih]
      simp [PtrMap.get, this]
    · have e : PtrMap.delete ((k1, p) :: rest) k = (k1, p) :: PtrMap.delete rest k := by
        simp [PtrMap.delete, h1]
      rw [e]
      by_cases h2 : k1 = k2
      · simp [PtrMap.get, h2]
      · simp [PtrMap.get, h2, ih]

theorem PtrMap.get_append_of_some (m : PtrMap) (k2 : String) (x : String × Nat) (p : Nat)
    (h : PtrMap.get m k2 = some p) : PtrMap.get (m ++ [x]) k2 = some p := by
  induction m with
  | nil => simp [PtrMap.get] at h
  | cons kp rest ih =>
    obtain ⟨k1, q⟩ := kp
    by_cases h1 : k1 = k2
    · simp [PtrMap.get, h1] at h ⊢; exact h
    · simp [PtrMap.get, h1] at h ⊢; exact ih h

theorem PtrMap.get_append_self (m : PtrMap) (k : String) (p : Nat)
    (h : PtrMap.get m k = none) : PtrMap.get (m ++ [(k, p)]) k = some p := by
  induction m with
  | nil => simp [PtrMap.get]
  | cons kp rest ih =>
    obtain ⟨k1, q⟩ := kp
    by_cases h1 : k1 = k
    · simp [PtrMap.get, h1] at h
    · simp [PtrMap.get, h1] at h ⊢; exact ih h

theorem fifo.Del_idem {V : Type} (CalcLen : V → Int) (s : engine V) (k : String)
    (hl : s.linked) : fifo.Del CalcLen (fifo.Del CalcLen s k) k = fifo.Del CalcLen s k := by
  cases hg : PtrMap.get s.cache k with
  | none => rw [fifo.Del_miss CalcLen s k hg, fifo.Del_miss CalcLen s k hg]
  | some p =>
    obtain ⟨l1, l2, e, -, -, -, -, -, hdel⟩ := fifo.Del_hit CalcLen s k p hl hg
    rw [hdel]
    apply fifo.Del_miss
    simp [PtrMap.get_delete_self]

theorem fast.del_idem {V : Type} (c : fast.cacheShard V) (k : String)
    (hl : c.linked) : fast.del (fast.del c k) k = fast.del c k := by
  cases hg : PtrMap.get c.cache k with
  | none => rw [fast.del_miss c k hg, fast.del_miss c k hg]
  | some p =>
    obtain ⟨l1, l2, e, -, -, -, -, -, hdel⟩ := fast.del_hit c k p hl hg
    rw [hdel]
    apply fast.del_miss
    simp [PtrMap.get_delete_self]

theorem lfu.Del_idem_lfu {V : Type} (CalcLen : V → Int) (less : lfu.entry V → lfu.entry V → Bool)
    (s : lfu V) (k : String) (hl : s.linked) :
    ∃ s1, lfu.Del CalcLen less s k = some s1 ∧ lfu.Del CalcLen less s1 k = some s1 := by
  cases hg : PtrMap.get s.cache k with
  | none => exact ⟨s, lfu.Del_miss_lfu CalcLen less s k hg, lfu.Del_miss_lfu CalcLen less s k hg⟩
  | some p =>
    obtain ⟨e, q2, -, -, -, -, hdel, -⟩ := lfu.Del_hit_lfu CalcLen less s k p hl hg
    refine ⟨_, hdel, ?_⟩
    apply lfu.Del_miss_lfu
    simp [PtrMap.get_delete_self]

namespace lfu

variable {V : Type} (CalcLen : V → Int) (less : entry V → entry V → Bool)

theorem DelOldest_ok (s : lfu V) (hl : s.linked) :
    ∃ s1, DelOldest CalcLen less s = some s1 ∧ s1.linked ∧
      s1.maxBytes = s.maxBytes ∧ s1.onEvicted = s.onEvicted := by
  by_cases hne : 0 < s.queue.length
  · obtain ⟨q2, x, -, hdel, -, -, hl2, -, -⟩ := DelOldest_cons_lfu CalcLen less s hl hne
    exact ⟨_, hdel, by simpa [linked] using hl2, by simp, by simp⟩
  · have : s.queue = [] := List.length_eq_zero.1 (by omega)
    exact ⟨s, DelOldest_nil_lfu CalcLen less s this, hl, rfl, rfl⟩

theorem Set_ok (s : lfu V) (k : String) (v : V) (hl : s.linked) :
    ∃ s1, Set CalcLen less s k v = some s1 ∧ s1.linked ∧
      s1.maxBytes = s.maxBytes ∧ s1.onEvicted = s.onEvicted := by
  cases hg : PtrMap.get s.cache k with
  | none =>
    obtain ⟨q2, -, -, -, hl2, hset⟩ := Set_miss_lfu CalcLen less s k v hl hg
    rw [hset]
    split
    · exact DelOldest_ok CalcLen less _ hl2
    · exact ⟨_, rfl, hl2, rfl, rfl⟩
  | some p =>
    obtain ⟨e, q2, -, -, -, -, hset, -, -, hl2, -⟩ := Set_hit_lfu CalcLen less s k v p hl hg
    exact ⟨_, hset, hl2, rfl, rfl⟩

theorem Get_ok (s : lfu V) (k : String) (hl : s.linked) :
    ∃ s1 r, Get less s k = some (s1, r) ∧ s1.linked ∧
      s1.maxBytes = s.maxBytes ∧ s1.onEvicted = s.onEvicted := by
  cases hg : PtrMap.get s.cache k with
  | none => exact ⟨s, none, Get_miss_lfu less s k hg, hl, rfl, rfl⟩
  | some p =>
    obtain ⟨e, q2, -, -, -, -, hget, -, -, hl2⟩ := Get_hit_lfu less s k p hl hg
    exact ⟨_, _, hget, hl2, rfl, rfl⟩

theorem Del_ok (s : lfu V) (k : String) (hl : s.linked) :
    ∃ s1, Del CalcLen less s k = some s1 ∧ s1.linked ∧
      s1.maxBytes = s.maxBytes ∧ s1.onEvicted = s.onEvicted := by
  cases hg : PtrMap.get s.cache k with
  | none => exact ⟨s, Del_miss_lfu CalcLen less s k hg, hl, rfl, rfl⟩
  | some p =>
    obtain ⟨e, q2, -, -, -, -, hdel, -, -, hl2, -⟩ := Del_hit_lfu CalcLen less s k p hl hg
    exact ⟨_, hdel, by simpa [linked] using hl2, by simp, by simp⟩

theorem step_ok (s : lfu V) (op : Op V) (hl : s.linked) :
    ∃ s1, step CalcLen less s op = some s1 ∧ s1.linked ∧
      s1.maxBytes = s.maxBytes ∧ s1.onEvicted = s.onEvicted := by
  cases op with
  | Set k v => exact Set_ok CalcLen less s k v hl
  | Get k =>
    obtain ⟨s1, r, hget, h⟩ := Get_ok less s k hl
    exact ⟨s1, by simp [step, hget], h⟩
  | Del k => exact Del_ok CalcLen less s k hl
  | DelOldest => exact DelOldest_ok CalcLen less s hl

theorem run_ok (s : lfu V) (ops : List (Op V)) (hl : s.linked) :
    ∃ s1, run CalcLen less s ops = some s1 ∧ s1.linked ∧
      s1.maxBytes = s.maxBytes ∧ s1.onEvicted = s.onEvicted := by
  induction ops generalizing s with
  | nil => exact ⟨s, rfl, hl, rfl, rfl⟩
  | cons op rest ih =>
    obtain ⟨s1, hstep, hl1, hm1, ho1⟩ := step_ok CalcLen less s op hl
    obtain ⟨s2, hrun, hl2, hm2, ho2⟩ := ih s1 hl1
    exact ⟨s2, by simp only [run, hstep, hrun], hl2, hm2.trans hm1, ho2.trans ho1⟩

theorem New_linked_lfu (maxBytes : Int) (onEvicted : Bool) :
    (New maxBytes onEvicted : lfu V).linked := QLinked.nil_q

end lfu

/-- C10: `Del` of a key that is not held changes nothing and invokes no
callback, in every state of every engine (FIFO, LRU, LFU, shard): the state
after is the state before, with its entries, their order, `usedBytes`, the
length and the callback log. Hence in every reachable state a second `Del` of
the same key changes nothing: `Del(k)` twice is `Del(k)` once. -/
theorem C10_Del_absent_is_noop {V : Type} (CalcLen : V → Int)
    (less : lfu.entry V → lfu.entry V → Bool)
    (s : engine V) (c : fast.cacheShard V) (l : lfu V) (k : String)
    (hs : PtrMap.get s.cache k = none) (hc : PtrMap.get c.cache k = none)
    (hl : PtrMap.get l.cache k = none) :
    (fifo.Del CalcLen s k = s ∧ lru.Del CalcLen s k = s ∧ fast.del c k = c ∧
      lfu.Del CalcLen less l k = some l) ∧
    (∀ (capacity : Int) (onEvicted : Bool) (ops : List (Op V)),
      fifo.Del CalcLen (fifo.Del CalcLen
          (fifo.run CalcLen (fifo.New capacity onEvicted) ops) k) k
        = fifo.Del CalcLen (fifo.run CalcLen (fifo.New capacity onEvicted) ops) k ∧
      lru.Del CalcLen (lru.Del CalcLen
          (lru.run CalcLen (lru.New capacity onEvicted) ops) k) k
        = lru.Del CalcLen (lru.run CalcLen (lru.New capacity onEvicted) ops) k ∧
      fast.del (fast.del (fast.run (fast.newCacheShard capacity onEvicted) ops) k) k
        = fast.del (fast.run (fast.newCacheShard capacity onEvicted) ops) k ∧
      ∃ l1 l2, lfu.run CalcLen less (lfu.New capacity onEvicted) ops = some l1 ∧
        lfu.Del CalcLen less l1 k = some l2 ∧ lfu.Del CalcLen less l2 k = some l2) := by
  refine ⟨⟨fifo.Del_miss CalcLen s k hs, fifo.Del_miss CalcLen s k hs, fast.del_miss c k hc,
    lfu.Del_miss_lfu CalcLen less l k hl⟩, ?_⟩
  intro capacity onEvicted ops
  refine ⟨fifo.Del_idem CalcLen _ k
      (fifo.run_linked CalcLen _ ops (fifo.New_linked capacity onEvicted)),
    fifo.Del_idem CalcLen _ k
      (lru.run_linked_lru CalcLen _ ops (lru.New_linked_lru capacity onEvicted)),
    fast.del_idem _ k (fast.run_linked_shard _ ops (fast.new_linked capacity onEvicted)), ?_⟩
  obtain ⟨l1, hrun, hl1, -⟩ := lfu.run_ok CalcLen less _ ops
    (lfu.New_linked_lfu (V := V) capacity onEvicted)
  obtain ⟨l2, h1, h2⟩ := lfu.Del_idem_lfu CalcLen less l1 k hl1
  exact ⟨l1, l2, hrun, h1, h2⟩

/-- C10 at an instance: after Set a, the key b is not held. -/
theorem C10_Del_absent_is_noop_witness :
    fifo.Del (fun n : Nat => (n : Int))
        (fifo.run (fun n : Nat => (n : Int)) (fifo.New 0 true) [Op.Set "a" 1]) "b"
      = fifo.run (fun n : Nat => (n : Int)) (fifo.New 0 true) [Op.Set "a" 1] ∧
    fast.del (fast.run (fast.newCacheShard 0 true) [Op.Set "a" (1 : Nat)]) "b"
      = fast.run (fast.newCacheShard 0 true) [Op.Set "a" (1 : Nat)] ∧
    lfu.Del (fun n : Nat => (n : Int)) (fun a b => decide (a.weight < b.weight))
        (lfu.New 0 true) "b" = some (lfu.New 0 true) :=
  have h := C10_Del_absent_is_noop (fun n : Nat => (n : Int))
    (fun a b => decide (a.weight < b.weight))
    (fifo.run (fun n : Nat => (n : Int)) (fifo.New 0 true) [Op.Set "a" 1])
    (fast.run (fast.newCacheShard 0 true) [Op.Set "a" (1 : Nat)])
    (lfu.New 0 true) "b" (by decide) (by decide) (by decide)
  ⟨h.1.1, h.1.2.2.1, h.1.2.2.2⟩

theorem KeepsAll.rfl_keeps (m : PtrMap) : KeepsAll m m := fun _ h => h

theorem KeepsAll.append (m : PtrMap) (x : String × Nat) : KeepsAll m (m ++ [x]) := by
  intro k h
  cases hg : PtrMap.get m k with
  | none => rw [hg] at h; simp at h
  | some p => rw [PtrMap.get_append_of_some m k x p hg]; rfl

theorem fifo.Set_unlimited {V : Type} (CalcLen : V → Int) (s : engine V) (k : String) (v : V)
    (hl : s.linked) (hcap : s.maxBytes ≤ 0) :
    (fifo.Set CalcLen s k v).calls = s.calls ∧
    KeepsAll s.cache (fifo.Set CalcLen s k v).cache ∧
    (PtrMap.get s.cache k = none →
      list.Len (fifo.Set CalcLen s k v).ll = list.Len s.ll + 1 ∧
      (PtrMap.get (fifo.Set CalcLen s k v).cache k).isSome = true) ∧
    (PtrMap.get s.cache k ≠ none →
      list.Len (fifo.Set CalcLen s k v).ll = list.Len s.ll) := by
  cases hg : PtrMap.get s.cache k with
  | none =>
    rw [fifo.Set_miss CalcLen s k v hg]
    have hno : ¬ (s.maxBytes > 0 ∧ s.usedBytes + CalcLen v > s.maxBytes) := fun h => by omega
    dsimp only
    rw [if_neg hno]
    refine ⟨rfl, KeepsAll.append _ _, fun _ => ⟨by simp [list.Len], ?_⟩, fun h => absurd rfl h⟩
    simp [PtrMap.get_append_self s.cache k s.fresh hg]
  | some p =>
    obtain ⟨l1, l2, e, hs, -, -, -, -, hset⟩ := fifo.Set_hit CalcLen s k v p hl hg
    rw [hset]
    refine ⟨rfl, KeepsAll.rfl_keeps _, fun h => by simp at h, fun _ => ?_⟩
    simp [list.Len, hs]

theorem fast.set_unlimited {V : Type} (c : fast.cacheShard V) (k : String) (v : V)
    (hl : c.linked) (hcap : c.maxEntries ≤ 0) :
    (fast.set c k v).calls = c.calls ∧
    KeepsAll c.cache (fast.set c k v).cache ∧
    (PtrMap.get c.cache k = none →
      list.Len (fast.set c k v).ll = list.Len c.ll + 1 ∧
      (PtrMap.get (fast.set c k v).cache k).isSome = true) ∧
    (PtrMap.get c.cache k ≠ none → list.Len (fast.set c k v).ll = list.Len c.ll) := by
  cases hg : PtrMap.get c.cache k with
  | none =>
    rw [fast.set_miss c k v hg]
    have hno : ¬ (c.maxEntries > 0 ∧ ((c.ll.length + 1 : Nat) : Int) > c.maxEntries) :=
      fun h => by omega
    dsimp only
    rw [if_neg hno]
    refine ⟨rfl, KeepsAll.append _ _, fun _ => ⟨by simp [list.Len], ?_⟩, fun h => absurd rfl h⟩
    simp [PtrMap.get_append_self c.cache k c.fresh hg]
  | some p =>
    obtain ⟨l1, l2, e, hs, -, -, -, -, hset⟩ := fast.set_hit c k v p hl hg
    rw [hset]
    refine ⟨rfl, KeepsAll.rfl_keeps _, fun h => by simp at h, fun _ => ?_⟩
    simp [list.Len, hs]

theorem lfu.Set_unlimited_lfu {V : Type} (CalcLen : V → Int)
    (less : lfu.entry V → lfu.entry V → Bool) (s : lfu V) (k : String) (v : V)
    (hl : s.linked) (hcap : s.maxBytes ≤ 0) :
    ∃ s1, lfu.Set CalcLen less s k v = some s1 ∧ s1.calls = s.calls ∧
      KeepsAll s.cache s1.cache ∧
      (PtrMap.get s.cache k = none →
        lfu.Len s1 = lfu.Len s + 1 ∧ (PtrMap.get s1.cache k).isSome = true) ∧
      (PtrMap.get s.cache k ≠ none → lfu.Len s1 = lfu.Len s) := by
  cases hg : PtrMap.get s.cache k with
  | none =>
    obtain ⟨q2, -, hlen, -, -, hset⟩ := lfu.Set_miss_lfu CalcLen less s k v hl hg
    have hno : ¬ (s.maxBytes > 0 ∧ s.usedBytes + CalcLen v > s.maxBytes) := fun h => by omega
    rw [if_neg hno] at hset
    refine ⟨_, hset, rfl, KeepsAll.append _ _, fun _ => ⟨?_, ?_⟩, fun h => absurd rfl h⟩
    · simp [lfu.Len, lfu.queue.Len, hlen]
    · simp [PtrMap.get_append_self s.cache k s.fresh hg]
  | some p =>
    obtain ⟨e, q2, -, -, -, -, hset, hlen, -⟩ := lfu.Set_hit_lfu CalcLen less s k v p hl hg
    refine ⟨_, hset, rfl, KeepsAll.rfl_keeps _, fun h => by simp at h, fun _ => ?_⟩
    simp [lfu.Len, lfu.queue.Len, hlen]

theorem fast.run_config_shard {V : Type} (c : fast.cacheShard V) (ops : List (Op V)) :
    (fast.run c ops).maxEntries = c.maxEntries ∧ (fast.run c ops).onEvicted = c.onEvicted := by
  induction ops generalizing c with
  | nil => exact ⟨rfl, rfl⟩
  | cons op rest ih =>
    have h1 := ih (fast.step c op)
    have h2 : (fast.step c op).maxEntries = c.maxEntries ∧
        (fast.step c op).onEvicted = c.onEvicted := by
      have hrem : ∀ (c : fast.cacheShard V) (e : Option (Element V)),
          (fast.removeElement c e).maxEntries = c.maxEntries ∧
          (fast.removeElement c e).onEvicted = c.onEvicted := by
        intro c e
        cases e <;> simp [fast.removeElement]
      cases op with
      | Set k v =>
        simp only [fast.step, fast.set]
        split
        · simp
        · split
          · simpa using hrem _ _
          · simp
      | Get k =>
        simp only [fast.step, fast.get]
        split
        · split <;> simp
        · simp
      | Del k =>
        simp only [fast.step, fast.del]
        split
        · exact hrem _ _
        · simp
      | DelOldest => exact hrem _ _
    exact ⟨h1.1.trans h2.1, h1.2.trans h2.2⟩

/-- C7: with an unlimited budget (`maxBytes <= 0` for FIFO, LRU and LFU,
`maxEntries <= 0` for the shard), in every reachable state `Set` removes no
entry and never invokes the callback, whatever the weights are: the callback log
is unchanged, every key held before is held after, a `Set` of a key that is not
held makes `Len()` larger by exactly 1 and the key held, and a `Set` of a held
key leaves `Len()` as it is. -/
theorem C7_unlimited_budget_never_evicts {V : Type} (CalcLen : V → Int)
    (less : lfu.entry V → lfu.entry V → Bool) (capacity : Int) (onEvicted : Bool)
    (ops : List (Op V)) (k : String) (v : V) (hcap : capacity ≤ 0) :
    ((fifo.Set CalcLen (fifo.run CalcLen (fifo.New capacity onEvicted) ops) k v).calls
        = (fifo.run CalcLen (fifo.New capacity onEvicted) ops).calls ∧
      KeepsAll (fifo.run CalcLen (fifo.New capacity onEvicted) ops).cache
        (fifo.Set CalcLen (fifo.run CalcLen (fifo.New capacity onEvicted) ops) k v).cache ∧
      (PtrMap.get (fifo.run CalcLen (fifo.New capacity onEvicted) ops).cache k = none →
        fifo.Len (fifo.Set CalcLen (fifo.run CalcLen (fifo.New capacity onEvicted) ops) k v)
          = fifo.Len (fifo.run CalcLen (fifo.New capacity onEvicted) ops) + 1 ∧
        (PtrMap.get (fifo.Set CalcLen
          (fifo.run CalcLen (fifo.New capacity onEvicted) ops) k v).cache k).isSome = true) ∧
      (PtrMap.get (fifo.run CalcLen (fifo.New capacity onEvicted) ops).cache k ≠ none →
        fifo.Len (fifo.Set CalcLen (fifo.run CalcLen (fifo.New capacity onEvicted) ops) k v)
          = fifo.Len (fifo.run CalcLen (fifo.New capacity onEvicted) ops))) ∧
    ((lru.Set CalcLen (lru.run CalcLen (lru.New capacity onEvicted) ops) k v).calls
        = (lru.run CalcLen (lru.New capacity onEvicted) ops).calls ∧
      KeepsAll (lru.run CalcLen (lru.New capacity onEvicted) ops).cache
        (lru.Set CalcLen (lru.run CalcLen (lru.New capacity onEvicted) ops) k v).cache ∧
      (PtrMap.get (lru.run CalcLen (lru.New capacity onEvicted) ops).cache k = none →
        lru.Len (lru.Set CalcLen (lru.run CalcLen (lru.New capacity onEvicted) ops) k v)
          = lru.Len (lru.run CalcLen (lru.New capacity onEvicted) ops) + 1 ∧
        (PtrMap.get (lru.Set CalcLen
          (lru.run CalcLen (lru.New capacity onEvicted) ops) k v).cache k).isSome = true) ∧
      (PtrMap.get (lru.run CalcLen (lru.New capacity onEvicted) ops).cache k ≠ none →
        lru.Len (lru.Set CalcLen (lru.run CalcLen (lru.New capacity onEvicted) ops) k v)
          = lru.Len (lru.run CalcLen (lru.New capacity onEvicted) ops))) ∧
    ((fast.set (fast.run (fast.newCacheShard capacity onEvicted) ops) k v).calls
        = (fast.run (fast.newCacheShard capacity onEvicted) ops).calls ∧
      KeepsAll (fast.run (fast.newCacheShard capacity onEvicted) ops).cache
        (fast.set (fast.run (fast.newCacheShard capacity onEvicted) ops) k v).cache ∧
      (PtrMap.get (fast.run (fast.newCacheShard capacity onEvicted) ops).cache k = none →
        fast.len (fast.set (fast.run (fast.newCacheShard capacity onEvicted) ops) k v)
          = fast.len (fast.run (fast.newCacheShard capacity onEvicted) ops) + 1 ∧
        (PtrMap.get (fast.set
          (fast.run (fast.newCacheShard capacity onEvicted) ops) k v).cache k).isSome = true) ∧
      (PtrMap.get (fast.run (fast.newCacheShard capacity onEvicted) ops).cache k ≠ none →
        fast.len (fast.set (fast.run (fast.newCacheShard capacity onEvicted) ops) k v)
          = fast.len (fast.run (fast.newCacheShard capacity onEvicted) ops))) ∧
    (∃ l l1, lfu.run CalcLen less (lfu.New capacity onEvicted) ops = some l ∧
      lfu.Set CalcLen less l k v = some l1 ∧ l1.calls = l.calls ∧
      KeepsAll l.cache l1.cache ∧
      (PtrMap.get l.cache k = none →
        lfu.Len l1 = lfu.Len l + 1 ∧ (PtrMap.get l1.cache k).isSome = true) ∧
      (PtrMap.get l.cache k ≠ none → lfu.Len l1 = lfu.Len l)) := by
  refine ⟨?_, ?_, ?_, ?_⟩
  · exact fifo.Set_unlimited CalcLen _ k v
      (fifo.run_linked CalcLen _ ops (fifo.New_linked capacity onEvicted))
      (by rw [(fifo.run_config CalcLen _ ops).1]; exact hcap)
  · exact fifo.Set_unlimited CalcLen _ k v
      (lru.run_linked_lru CalcLen _ ops (lru.New_linked_lru capacity onEvicted))
      (by rw [(lru.run_config_lru CalcLen _ ops).1]; exact hcap)
  · exact fast.set_unlimited _ k v
      (fast.run_linked_shard _ ops (fast.new_linked capacity onEvicted))
      (by rw [(fast.run_config_shard _ ops).1]; exact hcap)
  · obtain ⟨l, hrun, hl, hm, -⟩ := lfu.run_ok CalcLen less _ ops
      (lfu.New_linked_lfu (V := V) capacity onEvicted)
    obtain ⟨l1, h⟩ := lfu.Set_unlimited_lfu CalcLen less l k v hl (by rw [hm]; exact hcap)
    exact ⟨l, l1, hrun, h⟩

/-- C7 at an instance: no budget, weights 10 and 20; the second insert keeps a. -/
theorem C7_unlimited_budget_never_evicts_witness :
    ((0 : Int) ≤ 0) ∧
    (fifo.Set (fun n : Nat => (n : Int))
        (fifo.run (fun n : Nat => (n : Int)) (fifo.New 0 true) [Op.Set "a" 10]) "b" 20).calls
      = (fifo.run (fun n : Nat => (n : Int)) (fifo.New 0 true) [Op.Set "a" 10]).calls ∧
    KeepsAll (fifo.run (fun n : Nat => (n : Int)) (fifo.New 0 true) [Op.Set "a" 10]).cache
      (fifo.Set (fun n : Nat => (n : Int))
        (fifo.run (fun n : Nat => (n : Int)) (fifo.New 0 true) [Op.Set "a" 10]) "b" 20).cache :=
  have h := C7_unlimited_budget_never_evicts (fun n : Nat => (n : Int))
    (fun a b => decide (a.weight < b.weight)) 0 true [Op.Set "a" 10] "b" 20 (by decide)
  ⟨by decide, h.1.1, h.1.2.1⟩

namespace fifo

variable {V : Type} (CalcLen : V → Int)

end fifo

namespace lru

variable {V : Type} (CalcLen : V → Int)

end lru

namespace fast

variable {V : Type}

theorem notify_calls_shard (c : cacheShard V) (k : String) (v : V) :
    (c.notify k v).calls =
      if c.onEvicted then c.calls ++ [⟨k, v, c.ll, c.cache⟩] else c.calls := by
  unfold cacheShard.notify; split <;> rfl

end fast

namespace lfu

variable {V : Type} (CalcLen : V → Int) (less : entry V → entry V → Bool)

end lfu

theorem fifo.Get_lookup {V : Type} (s : engine V) (k : String) :
    (fifo.Get s k).2 = list.lookup s.ll s.cache k := by
  cases hg : PtrMap.get s.cache k with
  | none => simp [fifo.Get, list.lookup, hg]
  | some p => cases hd : list.deref s.ll p <;> simp [fifo.Get, list.lookup, hg, hd]

theorem lru.Get_lookup_lru {V : Type} (s : engine V) (k : String) :
    (lru.Get s k).2 = list.lookup s.ll s.cache k := by
  cases hg : PtrMap.get s.cache k with
  | none => simp [lru.Get, list.lookup, hg]
  | some p => cases hd : list.deref s.ll p <;> simp [lru.Get, list.lookup, hg, hd]

theorem fast.get_lookup {V : Type} (c : fast.cacheShard V) (k : String) :
    (fast.get c k).2 = list.lookup c.ll c.cache k := by
  cases hg : PtrMap.get c.cache k with
  | none => simp [fast.get, list.lookup, hg]
  | some p => cases hd : list.deref c.ll p <;> simp [fast.get, list.lookup, hg, hd]

namespace Linked

variable {V : Type} {ll : List (Element V)} {cache : PtrMap} {fresh : Nat}

theorem eq_of_key (h : Linked ll cache fresh) (e e2 : Element V) (he : e ∈ ll) (he2 : e2 ∈ ll)
    (hk : e.Value.key = e2.Value.key) : e = e2 := by
  obtain ⟨l1, l2, rfl⟩ := List.append_of_mem he
  obtain ⟨h1, h2⟩ := Linked.key_ne_of_split h.keys_nodup
  simp only [List.mem_append, List.mem_cons] at he2
  rcases he2 with h3 | h3 | h3
  · exact absurd hk.symm (h1 e2 h3)
  · exact h3.symm
  · exact absurd hk.symm (h2 e2 h3)

theorem lookup_eq_some_iff (h : Linked ll cache fresh) (k : String) (v : V) :
    list.lookup ll cache k = some v ↔ ∃ e ∈ ll, e.Value.key = k ∧ e.Value.value = v := by
  constructor
  · intro hl
    unfold list.lookup at hl
    cases hg : PtrMap.get cache k with
    | none => rw [hg] at hl; simp at hl
    | some p =>
      obtain ⟨e, hd, he, hk, -⟩ := h.get_deref k p hg
      rw [hg] at hl
      simp only [hd, Option.some.injEq] at hl
      exact ⟨e, he, hk, hl⟩
  · rintro ⟨e, he, hk, hv⟩
    have hg := (h.get_some_iff k e.ptr).2 ⟨e, he, hk, rfl⟩
    have hd := list.deref_of_mem ll e he h.ptrs_nodup
    simp [list.lookup, hg, hd, hv]

theorem lookup_eq_none_iff (h : Linked ll cache fresh) (k : String) :
    list.lookup ll cache k = none ↔ k ∉ list.keys ll := by
  rw [← h.get_none_iff k]
  constructor
  · intro hl
    cases hg : PtrMap.get cache k with
    | none => rfl
    | some p =>
      obtain ⟨e, hd, -⟩ := h.get_deref k p hg
      simp [list.lookup, hg, hd] at hl
  · intro hg
    simp [list.lookup, hg]

/-- Two linked states give the same value for a key when their lists hold the
same entries with that key. -/
theorem lookup_congr {ll2 : List (Element V)} {cache2 : PtrMap} {fresh2 : Nat}
    (h : Linked ll cache fresh) (h2 : Linked ll2 cache2 fresh2) (k : String)
    (hsame : ∀ v, (∃ e ∈ ll2, e.Value.key = k ∧ e.Value.value = v) ↔
      (∃ e ∈ ll, e.Value.key = k ∧ e.Value.value = v)) :
    list.lookup ll2 cache2 k = list.lookup ll cache k := by
  apply Option.ext
  intro v
  simp only [Option.mem_def]
  rw [h2.lookup_eq_some_iff k v, h.lookup_eq_some_iff k v]
  exact hsame v

end Linked

/-- The lookups of a linked list once the entry `e` is taken out. -/
theorem Linked.lookup_remove {V : Type} {l1 l2 : List (Element V)} {e : Element V}
    {cache : PtrMap} {fresh : Nat} (h : Linked (l1 ++ e :: l2) cache fresh) :
    list.lookup (l1 ++ e :: l2) cache e.Value.key = some e.Value.value ∧
    list.lookup (l1 ++ l2) (PtrMap.delete cache e.Value.key) e.Value.key = none ∧
    ∀ k2, k2 ≠ e.Value.key →
      list.lookup (l1 ++ l2) (PtrMap.delete cache e.Value.key) k2
        = list.lookup (l1 ++ e :: l2) cache k2 := by
  have h2 := h.remove
  refine ⟨(h.lookup_eq_some_iff _ _).2 ⟨e, by simp, rfl, rfl⟩, ?_, ?_⟩
  · rw [h2.lookup_eq_none_iff]
    exact lru.not_mem_keys_remove h.keys_nodup
  · intro k2 hk2
    apply Linked.lookup_congr h h2
    intro v
    constructor
    · rintro ⟨x, hx, hxk, hxv⟩
      refine ⟨x, ?_, hxk, hxv⟩
      simp only [List.mem_append, List.mem_cons] at hx ⊢
      tauto
    · rintro ⟨x, hx, hxk, hxv⟩
      refine ⟨x, ?_, hxk, hxv⟩
      simp only [List.mem_append, List.mem_cons] at hx ⊢
      rcases hx with hx | hx | hx
      · exact Or.inl hx
      · subst hx
        exact absurd hxk.symm hk2
      · exact Or.inr hx

/-- C12: `DelOldest` on an empty cache returns the state it was given, for each
of the four engines (nothing changes, the callback log included, and the LFU
call does not fail); in every reachable state of a FIFO cache, an LRU cache or
a shard whose list is not empty, it removes exactly the front entry: the list
becomes its tail, `Len()` is smaller by 1, the removed key is absent and `Get`
of every other key returns what it returned before. -/
theorem C12_DelOldest_empty_and_front {V : Type} (CalcLen : V → Int)
    (less : lfu.entry V → lfu.entry V → Bool) :
    (∀ s : engine V, s.ll = [] → fifo.DelOldest CalcLen s = s) ∧
    (∀ s : engine V, s.ll = [] → lru.DelOldest CalcLen s = s) ∧
    (∀ c : fast.cacheShard V, c.ll = [] → fast.delOldest c = c) ∧
    (∀ l : lfu V, l.queue = [] → lfu.DelOldest CalcLen less l = some l) ∧
    (∀ (capacity : Int) (onEvicted : Bool) (ops : List (Op V)) (e : Element V)
        (rest : List (Element V)),
      (fifo.run CalcLen (fifo.New capacity onEvicted) ops).ll = e :: rest →
      (fifo.DelOldest CalcLen (fifo.run CalcLen (fifo.New capacity onEvicted) ops)).ll = rest ∧
      fifo.Len (fifo.DelOldest CalcLen (fifo.run CalcLen (fifo.New capacity onEvicted) ops))
        = fifo.Len (fifo.run CalcLen (fifo.New capacity onEvicted) ops) - 1 ∧
      (fifo.Get (fifo.DelOldest CalcLen
        (fifo.run CalcLen (fifo.New capacity onEvicted) ops)) e.Value.key).2 = none ∧
      ∀ k2, k2 ≠ e.Value.key →
        (fifo.Get (fifo.DelOldest CalcLen
          (fifo.run CalcLen (fifo.New capacity onEvicted) ops)) k2).2
          = (fifo.Get (fifo.run CalcLen (fifo.New capacity onEvicted) ops) k2).2) ∧
    (∀ (capacity : Int) (onEvicted : Bool) (ops : List (Op V)) (e : Element V)
        (rest : List (Element V)),
      (lru.run CalcLen (lru.New capacity onEvicted) ops).ll = e :: rest →
      (lru.DelOldest CalcLen (lru.run CalcLen (lru.New capacity onEvicted) ops)).ll = rest ∧
      lru.Len (lru.DelOldest CalcLen (lru.run CalcLen (lru.New capacity onEvicted) ops))
        = lru.Len (lru.run CalcLen (lru.New capacity onEvicted) ops) - 1 ∧
      (lru.Get (lru.DelOldest CalcLen
        (lru.run CalcLen (lru.New capacity onEvicted) ops)) e.Value.key).2 = none ∧
      ∀ k2, k2 ≠ e.Value.key →
        (lru.Get (lru.DelOldest CalcLen
          (lru.run CalcLen (lru.New capacity onEvicted) ops)) k2).2
          = (lru.Get (lru.run CalcLen (lru.New capacity onEvicted) ops) k2).2) ∧
    (∀ (capacity : Int) (onEvicted : Bool) (ops : List (Op V)) (e : Element V)
        (rest : List (Element V)),
      (fast.run (fast.newCacheShard capacity onEvicted) ops).ll = e :: rest →
      (fast.delOldest (fast.run (fast.newCacheShard capacity onEvicted) ops)).ll = rest ∧
      fast.len (fast.delOldest (fast.run (fast.newCacheShard capacity onEvicted) ops))
        = fast.len (fast.run (fast.newCacheShard capacity onEvicted) ops) - 1 ∧
      (fast.get (fast.delOldest
        (fast.run (fast.newCacheShard capacity onEvicted) ops)) e.Value.key).2 = none ∧
      ∀ k2, k2 ≠ e.Value.key →
        (fast.get (fast.delOldest (fast.run (fast.newCacheShard capacity onEvicted) ops)) k2).2
          = (fast.get (fast.run (fast.newCacheShard capacity onEvicted) ops) k2).2) := by
  have hE : ∀ (s : engine V), s.linked → ∀ (e : Element V) (rest : List (Element V)),
      s.ll = e :: rest →
      (fifo.DelOldest CalcLen s).ll = rest ∧
      list.Len (fifo.DelOldest CalcLen s).ll = list.Len s.ll - 1 ∧
      list.lookup (fifo.DelOldest CalcLen s).ll (fifo.DelOldest CalcLen s).cache e.Value.key
        = none ∧
      ∀ k2, k2 ≠ e.Value.key →
        list.lookup (fifo.DelOldest CalcLen s).ll (fifo.DelOldest CalcLen s).cache k2
          = list.lookup s.ll s.cache k2 := by
    intro s hl e rest hs
    have hl' : Linked ([] ++ e :: rest) s.cache s.fresh := by
      have : Linked s.ll s.cache s.fresh := hl
      rw [hs] at this
      simpa using this
    obtain ⟨-, h2, h3⟩ := hl'.lookup_remove
    rw [fifo.DelOldest_cons CalcLen s e rest hs hl.ptrs_nodup]
    refine ⟨by simp, by simp [list.Len, hs], by simpa using h2, ?_⟩
    intro k2 hk2
    rw [hs]
    simpa using h3 k2 hk2
  refine ⟨fun s hs => fifo.DelOldest_nil CalcLen s hs, fun s hs => fifo.DelOldest_nil CalcLen s hs,
    fun c hs => fast.delOldest_nil c hs, fun l hs => lfu.DelOldest_nil_lfu CalcLen less l hs,
    ?_, ?_, ?_⟩
  · intro capacity onEvicted ops e rest hs
    simp only [fifo.Get_lookup]
    exact hE _ (fifo.run_linked CalcLen _ ops (fifo.New_linked capacity onEvicted)) e rest hs
  · intro capacity onEvicted ops e rest hs
    simp only [lru.Get_lookup_lru]
    exact hE _ (lru.run_linked_lru CalcLen _ ops (lru.New_linked_lru capacity onEvicted)) e rest hs
  · intro capacity onEvicted ops e rest hs
    simp only [fast.get_lookup]
    have hl := fast.run_linked_shard (fast.newCacheShard capacity onEvicted) ops
      (fast.new_linked capacity onEvicted)
    have hl' : Linked ([] ++ e :: rest)
        (fast.run (fast.newCacheShard capacity onEvicted) ops).cache
        (fast.run (fast.newCacheShard capacity onEvicted) ops).fresh := by
      have : Linked (fast.run (fast.newCacheShard capacity onEvicted) ops).ll _ _ := hl
      rw [hs] at this
      simpa using this
    obtain ⟨-, h2, h3⟩ := hl'.lookup_remove
    rw [fast.delOldest_cons _ e rest hs hl.ptrs_nodup]
    refine ⟨by simp, by simp [fast.len, list.Len, hs], by simpa using h2, ?_⟩
    intro k2 hk2
    rw [hs]
    simpa using h3 k2 hk2

/-- The lookups of a linked list once a new key is appended. -/
theorem Linked.lookup_push {V : Type} {ll : List (Element V)} {cache : PtrMap} {fresh : Nat}
    (h : Linked ll cache fresh) (k : String) (v : V) (hk : PtrMap.get cache k = none) :
    list.lookup (ll ++ [⟨fresh, ⟨k, v⟩⟩]) (cache ++ [(k, fresh)]) k = some v ∧
    ∀ k2, k2 ≠ k →
      list.lookup (ll ++ [⟨fresh, ⟨k, v⟩⟩]) (cache ++ [(k, fresh)]) k2 = list.lookup ll cache k2 := by
  have h3 := h.push_append k v hk
  refine ⟨(h3.lookup_eq_some_iff _ _).2 ⟨⟨fresh, ⟨k, v⟩⟩, by simp, rfl, rfl⟩, ?_⟩
  intro k2 hk2
  apply Linked.lookup_congr h h3
  intro w
  constructor
  · rintro ⟨x, hx, hxk, hxv⟩
    simp only [List.mem_append, List.mem_singleton] at hx
    rcases hx with hx | hx
    · exact ⟨x, hx, hxk, hxv⟩
    · subst hx
      exact absurd hxk.symm hk2
  · rintro ⟨x, hx, hxk, hxv⟩
    exact ⟨x, by simp [hx], hxk, hxv⟩

/-- The lookups of a linked list once an entry is moved to the back with a new
value. -/
theorem Linked.lookup_touch {V : Type} {l1 l2 : List (Element V)} {e : Element V}
    {cache : PtrMap} {fresh : Nat} (v : V) (h : Linked (l1 ++ e :: l2) cache fresh) :
    list.lookup (l1 ++ l2 ++ [⟨e.ptr, ⟨e.Value.key, v⟩⟩]) cache e.Value.key = some v ∧
    ∀ k2, k2 ≠ e.Value.key →
      list.lookup (l1 ++ l2 ++ [⟨e.ptr, ⟨e.Value.key, v⟩⟩]) cache k2
        = list.lookup (l1 ++ e :: l2) cache k2 := by
  have h3 := h.touch v
  refine ⟨(h3.lookup_eq_some_iff _ _).2 ⟨⟨e.ptr, ⟨e.Value.key, v⟩⟩, by simp, rfl, rfl⟩, ?_⟩
  intro k2 hk2
  apply Linked.lookup_congr h h3
  intro w
  constructor
  · rintro ⟨x, hx, hxk, hxv⟩
    simp only [List.mem_append, List.mem_singleton] at hx
    rcases hx with (hx | hx) | hx
    · exact ⟨x, by simp [hx], hxk, hxv⟩
    · exact ⟨x, by simp [hx], hxk, hxv⟩
    · subst hx
      exact absurd hxk.symm hk2
  · rintro ⟨x, hx, hxk, hxv⟩
    simp only [List.mem_append, List.mem_cons] at hx
    rcases hx with hx | hx | hx
    · exact ⟨x, by simp [hx], hxk, hxv⟩
    · subst hx
      exact absurd hxk.symm hk2
    · exact ⟨x, by simp [hx], hxk, hxv⟩

theorem fifo.Set_roundtrip {V : Type} (CalcLen : V → Int) (s : engine V) (k : String) (v : V)
    (hl : s.linked) (hcap : s.maxBytes ≤ 0) :
    list.lookup (fifo.Set CalcLen s k v).ll (fifo.Set CalcLen s k v).cache k = some v ∧
    ∀ k2, k2 ≠ k →
      list.lookup (fifo.Set CalcLen s k v).ll (fifo.Set CalcLen s k v).cache k2
        = list.lookup s.ll s.cache k2 := by
  cases hg : PtrMap.get s.cache k with
  | none =>
    rw [fifo.Set_miss CalcLen s k v hg]
    have hno : ¬ (s.maxBytes > 0 ∧ s.usedBytes + CalcLen v > s.maxBytes) := fun h => by omega
    dsimp only
    rw [if_neg hno]
    exact Linked.lookup_push hl k v hg
  | some p =>
    obtain ⟨l1, l2, e, hs, hk, hp, -, -, hset⟩ := fifo.Set_hit CalcLen s k v p hl hg
    have hl' : Linked (l1 ++ e :: l2) s.cache s.fresh := hs ▸ hl
    have := hl'.lookup_touch v
    rw [hset, hs]
    subst hk hp
    exact this

theorem fast.set_roundtrip {V : Type} (c : fast.cacheShard V) (k : String) (v : V)
    (hl : c.linked) (hcap : c.maxEntries ≤ 0) :
    list.lookup (fast.set c k v).ll (fast.set c k v).cache k = some v ∧
    ∀ k2, k2 ≠ k →
      list.lookup (fast.set c k v).ll (fast.set c k v).cache k2 = list.lookup c.ll c.cache k2 := by
  cases hg : PtrMap.get c.cache k with
  | none =>
    rw [fast.set_miss c k v hg]
    have hno : ¬ (c.maxEntries > 0 ∧ ((c.ll.length + 1 : Nat) : Int) > c.maxEntries) :=
      fun h => by omega
    dsimp only
    rw [if_neg hno]
    exact Linked.lookup_push hl k v hg
  | some p =>
    obtain ⟨l1, l2, e, hs, hk, hp, -, -, hset⟩ := fast.set_hit c k v p hl hg
    have hl' : Linked (l1 ++ e :: l2) c.cache c.fresh := hs ▸ hl
    have := hl'.lookup_touch v
    rw [hset, hs]
    subst hk hp
    exact this

theorem list.keys_touch_sub {V : Type} {l1 l2 : List (Element V)} {e : Element V} (v : V)
    (k : String) (h : k ∈ list.keys (l1 ++ l2 ++ [⟨e.ptr, ⟨e.Value.key, v⟩⟩])) :
    k ∈ list.keys (l1 ++ e :: l2) := by
  simp only [list.keys, List.map_append, List.map_cons, List.map_nil, List.mem_append,
    List.mem_cons, List.mem_singleton] at h ⊢
  tauto

theorem fifo.DelOldest_keys {V : Type} (CalcLen : V → Int) (s : engine V)
    (hl : Linked s.ll s.cache s.fresh) (k : String) (h : k ∈ list.keys (fifo.DelOldest CalcLen s).ll) : k ∈ list.keys s.ll := by
  cases hs : s.ll with
  | nil =>
    rw [fifo.DelOldest_nil CalcLen s hs, hs] at h
    exact h
  | cons e rest =>
    rw [fifo.DelOldest_cons CalcLen s e rest hs hl.ptrs_nodup] at h
    simp only [engine.notify_ll] at h
    simp only [list.keys, List.map_cons, List.mem_cons] at h ⊢
    exact Or.inr h

theorem fifo.Set_keys {V : Type} (CalcLen : V → Int) (s : engine V) (hl : s.linked)
    (k : String) (v : V) (k2 : String) (h : k2 ∈ list.keys (fifo.Set CalcLen s k v).ll) :
    k2 ∈ list.keys s.ll ∨ k = k2 := by
  have hpush : ∀ k2, k2 ∈ list.keys (s.ll ++ [(⟨s.fresh, ⟨k, v⟩⟩ : Element V)]) →
      k2 ∈ list.keys s.ll ∨ k = k2 := by
    intro k2 h2
    simp only [list.keys, List.map_append, List.map_cons, List.map_nil, List.mem_append,
      List.mem_singleton] at h2 ⊢
    rcases h2 with h2 | h2
    · exact Or.inl h2
    · exact Or.inr h2.symm
  cases hg : PtrMap.get s.cache k with
  | none =>
    rw [fifo.Set_miss CalcLen s k v hg] at h
    have h3 := Linked.push_append hl k v hg
    dsimp only at h
    split at h
    · exact hpush k2 (fifo.DelOldest_keys CalcLen _ h3 k2 h)
    · exact hpush k2 h
  | some p =>
    obtain ⟨l1, l2, e, hs, hk, hp, -, -, hset⟩ := fifo.Set_hit CalcLen s k v p hl hg
    rw [hset] at h
    subst hk hp
    rw [hs]
    exact Or.inl (list.keys_touch_sub v k2 h)

theorem fifo.Del_keys {V : Type} (CalcLen : V → Int) (s : engine V) (hl : s.linked)
    (k : String) :
    k ∉ list.keys (fifo.Del CalcLen s k).ll ∧
    ∀ k2, k2 ∈ list.keys (fifo.Del CalcLen s k).ll → k2 ∈ list.keys s.ll := by
  cases hg : PtrMap.get s.cache k with
  | none =>
    rw [fifo.Del_miss CalcLen s k hg]
    exact ⟨(hl.get_none_iff k).1 hg, fun _ h => h⟩
  | some p =>
    obtain ⟨l1, l2, e, hs, hk, hp, -, -, hdel⟩ := fifo.Del_hit CalcLen s k p hl hg
    rw [hdel]
    subst hk
    simp only [engine.notify_ll]
    have hnd := hl.keys_nodup
    rw [hs] at hnd ⊢
    exact ⟨lru.not_mem_keys_remove hnd, fun k2 h => (lru.keys_remove_sublist l1 l2 e).subset h⟩

theorem lru.Get_keys {V : Type} (s : engine V) (hl : s.linked) (k : String) (k2 : String)
    (h : k2 ∈ list.keys (lru.Get s k).1.ll) : k2 ∈ list.keys s.ll := by
  cases hg : PtrMap.get s.cache k with
  | none =>
    rw [lru.Get_miss_lru s k hg] at h
    exact h
  | some p =>
    obtain ⟨l1, l2, e, hs, hk, hp, -, -, hget⟩ := lru.Get_hit_lru s k p hl hg
    rw [hget] at h
    rw [hs]
    exact list.keys_touch_sub e.Value.value k2 h

theorem fifo.step_keys {V : Type} (CalcLen : V → Int) (s : engine V) (hl : s.linked)
    (op : Op V) (k : String) (h : k ∈ list.keys (fifo.step CalcLen s op).ll) :
    k ∈ list.keys s.ll ∨ Op.setsKey k op = true := by
  cases op with
  | Set key v =>
    rcases fifo.Set_keys CalcLen s hl key v k h with h1 | h1
    · exact Or.inl h1
    · exact Or.inr (by simp [Op.setsKey, h1])
  | Get key =>
    simp only [fifo.step, fifo.Get_state] at h
    exact Or.inl h
  | Del key => exact Or.inl ((fifo.Del_keys CalcLen s hl key).2 k h)
  | DelOldest => exact Or.inl (fifo.DelOldest_keys CalcLen s hl k h)

theorem lru.step_keys_lru {V : Type} (CalcLen : V → Int) (s : engine V) (hl : s.linked)
    (op : Op V) (k : String) (h : k ∈ list.keys (lru.step CalcLen s op).ll) :
    k ∈ list.keys s.ll ∨ Op.setsKey k op = true := by
  cases op with
  | Set key v =>
    rcases fifo.Set_keys CalcLen s hl key v k h with h1 | h1
    · exact Or.inl h1
    · exact Or.inr (by simp [Op.setsKey, h1])
  | Get key => exact Or.inl (lru.Get_keys s hl key k h)
  | Del key => exact Or.inl ((fifo.Del_keys CalcLen s hl key).2 k h)
  | DelOldest => exact Or.inl (fifo.DelOldest_keys CalcLen s hl k h)

theorem fifo.run_absent {V : Type} (CalcLen : V → Int) (ops : List (Op V)) (s : engine V)
    (hl : s.linked) (k : String) (hk : k ∉ list.keys s.ll)
    (hops : ∀ op ∈ ops, Op.setsKey k op = false) :
    k ∉ list.keys (fifo.run CalcLen s ops).ll := by
  induction ops generalizing s with
  | nil => exact hk
  | cons op rest ih =>
    refine ih (fifo.step CalcLen s op) (fifo.step_linked CalcLen s op hl) ?_
      (fun o ho => hops o (List.mem_cons_of_mem _ ho))
    intro h
    rcases fifo.step_keys CalcLen s hl op k h with h1 | h1
    · exact hk h1
    · rw [hops op (List.mem_cons_self _ _)] at h1
      exact Bool.noConfusion h1

theorem lru.run_absent_lru {V : Type} (CalcLen : V → Int) (ops : List (Op V)) (s : engine V)
    (hl : s.linked) (k : String) (hk : k ∉ list.keys s.ll)
    (hops : ∀ op ∈ ops, Op.setsKey k op = false) :
    k ∉ list.keys (lru.run CalcLen s ops).ll := by
  induction ops generalizing s with
  | nil => exact hk
  | cons op rest ih =>
    refine ih (lru.step CalcLen s op) (lru.step_linked_lru CalcLen s op hl) ?_
      (fun o ho => hops o (List.mem_cons_of_mem _ ho))
    intro h
    rcases lru.step_keys_lru CalcLen s hl op k h with h1 | h1
    · exact hk h1
    · rw [hops op (List.mem_cons_self _ _)] at h1
      exact Bool.noConfusion h1

theorem fifo.run_append {V : Type} (CalcLen : V → Int) (s : engine V) (a b : List (Op V)) :
    fifo.run CalcLen s (a ++ b) = fifo.run CalcLen (fifo.run CalcLen s a) b := by
  simp [fifo.run, List.foldl_append]

theorem lru.run_append_lru {V : Type} (CalcLen : V → Int) (s : engine V) (a b : List (Op V)) :
    lru.run CalcLen s (a ++ b) = lru.run CalcLen (lru.run CalcLen s a) b := by
  simp [lru.run, List.foldl_append]

theorem fast.run_append_shard {V : Type} (c : fast.cacheShard V) (a b : List (Op V)) :
    fast.run c (a ++ b) = fast.run (fast.run c a) b := by
  simp [fast.run, List.foldl_append]

theorem fast.delOldest_keys {V : Type} (c : fast.cacheShard V)
    (hl : Linked c.ll c.cache c.fresh) (k : String)
    (h : k ∈ list.keys (fast.delOldest c).ll) : k ∈ list.keys c.ll := by
  cases hs : c.ll with
  | nil =>
    rw [fast.delOldest_nil c hs, hs] at h
    exact h
  | cons e rest =>
    rw [fast.delOldest_cons c e rest hs hl.ptrs_nodup] at h
    simp only [fast.notify_ll_shard] at h
    simp only [list.keys, List.map_cons, List.mem_cons] at h ⊢
    exact Or.inr h

theorem fast.set_keys {V : Type} (c : fast.cacheShard V) (hl : c.linked)
    (k : String) (v : V) (k2 : String) (h : k2 ∈ list.keys (fast.set c k v).ll) :
    k2 ∈ list.keys c.ll ∨ k = k2 := by
  have hpush : ∀ k2, k2 ∈ list.keys (c.ll ++ [(⟨c.fresh, ⟨k, v⟩⟩ : Element V)]) →
      k2 ∈ list.keys c.ll ∨ k = k2 := by
    intro k2 h2
    simp only [list.keys, List.map_append, List.map_cons, List.map_nil, List.mem_append,
      List.mem_singleton] at h2 ⊢
    rcases h2 with h2 | h2
    · exact Or.inl h2
    · exact Or.inr h2.symm
  cases hg : PtrMap.get c.cache k with
  | none =>
    rw [fast.set_miss c k v hg] at h
    have h3 := Linked.push_append hl k v hg
    dsimp only at h
    split at h
    · exact hpush k2 (fast.delOldest_keys _ h3 k2 h)
    · exact hpush k2 h
  | some p =>
    obtain ⟨l1, l2, e, hs, hk, hp, -, -, hset⟩ := fast.set_hit c k v p hl hg
    rw [hset] at h
    subst hk hp
    rw [hs]
    exact Or.inl (list.keys_touch_sub v k2 h)

theorem fast.del_keys {V : Type} (c : fast.cacheShard V) (hl : c.linked) (k : String) :
    k ∉ list.keys (fast.del c k).ll ∧
    ∀ k2, k2 ∈ list.keys (fast.del c k).ll → k2 ∈ list.keys c.ll := by
  cases hg : PtrMap.get c.cache k with
  | none =>
    rw [fast.del_miss c k hg]
    exact ⟨(Linked.get_none_iff hl k).1 hg, fun _ h => h⟩
  | some p =>
    obtain ⟨l1, l2, e, hs, hk, hp, -, -, hdel⟩ := fast.del_hit c k p hl hg
    rw [hdel]
    subst hk
    simp only [fast.notify_ll_shard]
    have hnd := Linked.keys_nodup hl
    rw [hs] at hnd ⊢
    exact ⟨lru.not_mem_keys_remove hnd, fun k2 h => (lru.keys_remove_sublist l1 l2 e).subset h⟩

theorem fast.get_keys {V : Type} (c : fast.cacheShard V) (hl : c.linked) (k : String)
    (k2 : String) (h : k2 ∈ list.keys (fast.get c k).1.ll) : k2 ∈ list.keys c.ll := by
  cases hg : PtrMap.get c.cache k with
  | none =>
    rw [fast.get_miss c k hg] at h
    exact h
  | some p =>
    obtain ⟨l1, l2, e, hs, hk, hp, -, -, hget⟩ := fast.get_hit c k p hl hg
    rw [hget] at h
    rw [hs]
    exact list.keys_touch_sub e.Value.value k2 h

theorem fast.step_keys_shard {V : Type} (c : fast.cacheShard V) (hl : c.linked)
    (op : Op V) (k : String) (h : k ∈ list.keys (fast.step c op).ll) :
    k ∈ list.keys c.ll ∨ Op.setsKey k op = true := by
  cases op with
  | Set key v =>
    rcases fast.set_keys c hl key v k h with h1 | h1
    · exact Or.inl h1
    · exact Or.inr (by simp [Op.setsKey, h1])
  | Get key => exact Or.inl (fast.get_keys c hl key k h)
  | Del key => exact Or.inl ((fast.del_keys c hl key).2 k h)
  | DelOldest => exact Or.inl (fast.delOldest_keys c hl k h)

theorem fast.run_absent_shard {V : Type} (ops : List (Op V)) (c : fast.cacheShard V)
    (hl : c.linked) (k : String) (hk : k ∉ list.keys c.ll)
    (hops : ∀ op ∈ ops, Op.setsKey k op = false) :
    k ∉ list.keys (fast.run c ops).ll := by
  induction ops generalizing c with
  | nil => exact hk
  | cons op rest ih =>
    refine ih (fast.step c op) (fast.step_linked_shard c op hl) ?_
      (fun o ho => hops o (List.mem_cons_of_mem _ ho))
    intro h
    rcases fast.step_keys_shard c hl op k h with h1 | h1
    · exact hk h1
    · rw [hops op (List.mem_cons_self _ _)] at h1
      exact Bool.noConfusion h1

/-- C13: for a FIFO cache, an LRU cache and a shard created with a capacity
that is not positive, in every reachable state, after `Set(k, v)` the call
`Get(k)` returns v and `Get` of every other key returns what it returned before
the `Set`; and in a cache of any capacity, `Get(k)` returns nil after a sequence
of calls that holds no `Set` of k, and after a sequence in which no `Set` of k
follows the last `Del(k)`. -/
theorem C13_Set_Get_round_trip {V : Type} (CalcLen : V → Int) (capacity : Int)
    (onEvicted : Bool) (k : String) :
    (capacity ≤ 0 → ∀ (ops : List (Op V)) (v : V),
      ((fifo.Get (fifo.Set CalcLen
          (fifo.run CalcLen (fifo.New capacity onEvicted) ops) k v) k).2 = some v ∧
        ∀ k2, k2 ≠ k →
          (fifo.Get (fifo.Set CalcLen
            (fifo.run CalcLen (fifo.New capacity onEvicted) ops) k v) k2).2
            = (fifo.Get (fifo.run CalcLen (fifo.New capacity onEvicted) ops) k2).2) ∧
      ((lru.Get (lru.Set CalcLen
          (lru.run CalcLen (lru.New capacity onEvicted) ops) k v) k).2 = some v ∧
        ∀ k2, k2 ≠ k →
          (lru.Get (lru.Set CalcLen
            (lru.run CalcLen (lru.New capacity onEvicted) ops) k v) k2).2
            = (lru.Get (lru.run CalcLen (lru.New capacity onEvicted) ops) k2).2) ∧
      ((fast.get (fast.set (fast.run (fast.newCacheShard capacity onEvicted) ops) k v) k).2
          = some v ∧
        ∀ k2, k2 ≠ k →
          (fast.get (fast.set (fast.run (fast.newCacheShard capacity onEvicted) ops) k v) k2).2
            = (fast.get (fast.run (fast.newCacheShard capacity onEvicted) ops) k2).2)) ∧
    (∀ ops : List (Op V), (∀ op ∈ ops, Op.setsKey k op = false) →
      (fifo.Get (fifo.run CalcLen (fifo.New capacity onEvicted) ops) k).2 = none ∧
      (lru.Get (lru.run CalcLen (lru.New capacity onEvicted) ops) k).2 = none ∧
      (fast.get (fast.run (fast.newCacheShard capacity onEvicted) ops) k).2 = none) ∧
    (∀ before after : List (Op V), (∀ op ∈ after, Op.setsKey k op = false) →
      (fifo.Get (fifo.run CalcLen (fifo.New capacity onEvicted)
        (before ++ Op.Del k :: after)) k).2 = none ∧
      (lru.Get (lru.run CalcLen (lru.New capacity onEvicted)
        (before ++ Op.Del k :: after)) k).2 = none ∧
      (fast.get (fast.run (fast.newCacheShard capacity onEvicted)
        (before ++ Op.Del k :: after)) k).2 = none) := by
  have hF := fun ops => fifo.run_linked CalcLen _ ops (fifo.New_linked (V := V) capacity onEvicted)
  have hL := fun ops =>
    lru.run_linked_lru CalcLen _ ops (lru.New_linked_lru (V := V) capacity onEvicted)
  have hS := fun ops =>
    fast.run_linked_shard _ ops (fast.new_linked (V := V) capacity onEvicted)
  refine ⟨?_, ?_, ?_⟩
  · intro hcap ops v
    simp only [fifo.Get_lookup, lru.Get_lookup_lru, fast.get_lookup]
    refine ⟨fifo.Set_roundtrip CalcLen _ k v (hF ops) ?_,
      fifo.Set_roundtrip CalcLen _ k v (hL ops) ?_, fast.set_roundtrip _ k v (hS ops) ?_⟩
    · rw [(fifo.run_config CalcLen _ ops).1]; exact hcap
    · rw [(lru.run_config_lru CalcLen _ ops).1]; exact hcap
    · rw [(fast.run_config_shard _ ops).1]; exact hcap
  · intro ops hops
    simp only [fifo.Get_lookup, lru.Get_lookup_lru, fast.get_lookup]
    refine ⟨?_, ?_, ?_⟩
    · rw [Linked.lookup_eq_none_iff (hF ops)]
      exact fifo.run_absent CalcLen ops _ (fifo.New_linked capacity onEvicted) k (by simp [fifo.New, list.keys]) hops
    · rw [Linked.lookup_eq_none_iff (hL ops)]
      exact lru.run_absent_lru CalcLen ops _ (lru.New_linked_lru capacity onEvicted) k
        (by simp [lru.New, list.keys]) hops
    · rw [Linked.lookup_eq_none_iff (hS ops)]
      exact fast.run_absent_shard ops _ (fast.new_linked capacity onEvicted) k
        (by simp [fast.newCacheShard, list.keys]) hops
  · intro before after hops
    simp only [fifo.Get_lookup, lru.Get_lookup_lru, fast.get_lookup]
    refine ⟨?_, ?_, ?_⟩
    · rw [Linked.lookup_eq_none_iff (hF _), fifo.run_append]
      exact fifo.run_absent CalcLen after _ (fifo.step_linked CalcLen _ _ (hF before)) k
        (fifo.Del_keys CalcLen _ (hF before) k).1 hops
    · rw [Linked.lookup_eq_none_iff (hL _), lru.run_append_lru]
      exact lru.run_absent_lru CalcLen after _ (lru.step_linked_lru CalcLen _ _ (hL before)) k
        (fifo.Del_keys CalcLen _ (hL before) k).1 hops
    · rw [Linked.lookup_eq_none_iff (hS _), fast.run_append_shard]
      exact fast.run_absent_shard after _ (fast.step_linked_shard _ _ (hS before)) k
        (fast.del_keys _ (hS before) k).1 hops

/-! ## C18 and C19: Set of a held key, and the survival of a fresh insert -/

theorem fifo.Set_survival {V : Type} (CalcLen : V → Int) (s : engine V) (k : String) (v : V)
    (hl : s.linked) (hacc : s.accounted CalcLen) (hpos : s.maxBytes > 0)
    (hg : PtrMap.get s.cache k = none) :
    (¬ (s.ll = [] ∧ CalcLen v > s.maxBytes) →
      list.lookup (fifo.Set CalcLen s k v).ll (fifo.Set CalcLen s k v).cache k = some v) ∧
    (s.ll = [] ∧ CalcLen v > s.maxBytes →
      (fifo.Set CalcLen s k v).ll = [] ∧ (fifo.Set CalcLen s k v).cache = [] ∧
      (fifo.Set CalcLen s k v).usedBytes = 0 ∧
      list.lookup (fifo.Set CalcLen s k v).ll (fifo.Set CalcLen s k v).cache k = none ∧
      (fifo.Set CalcLen s k v).calls
        = if s.onEvicted then s.calls ++ [⟨k, v, [], [], 0⟩] else s.calls) := by
  have hlt := fifo.Set_linked CalcLen s k v hl
  obtain ⟨hover, hfit⟩ := fifo.Set_fresh CalcLen s k v hl hg hpos
  constructor
  · intro hne
    rw [Linked.lookup_eq_some_iff hlt]
    refine ⟨⟨s.fresh, ⟨k, v⟩⟩, ?_, rfl, rfl⟩
    by_cases hc : s.usedBytes + CalcLen v > s.maxBytes
    · obtain ⟨e, rest, hs, hll, -⟩ := hover hc
      rw [hll]
      cases hs0 : s.ll with
      | nil =>
        exfalso
        apply hne
        refine ⟨hs0, ?_⟩
        have h0 : s.usedBytes = 0 := by
          have : s.usedBytes = weightSum CalcLen s.ll := hacc
          rw [this, hs0]
          rfl
        omega
      | cons e0 rest0 =>
        rw [hs0] at hs
        simp only [List.cons_append, List.cons.injEq] at hs
        rw [← hs.2]
        simp
    · rw [(hfit hc).1]
      simp
  · rintro ⟨hs0, hw⟩
    have h0 : s.usedBytes = 0 := by
      have : s.usedBytes = weightSum CalcLen s.ll := hacc
      rw [this, hs0]
      rfl
    have hc : s.usedBytes + CalcLen v > s.maxBytes := by omega
    obtain ⟨e, rest, hs, hll, hcache, hused, hcalls, -⟩ := hover hc
    rw [hs0] at hs
    simp only [List.nil_append, List.cons.injEq] at hs
    obtain ⟨he, hrest⟩ := hs
    subst he
    have hll0 : (fifo.Set CalcLen s k v).ll = [] := by rw [hll, ← hrest]
    have hc0 : (fifo.Set CalcLen s k v).cache = [] := by
      have hlen := Linked.length_eq hlt
      rw [hll0] at hlen
      exact List.eq_nil_of_length_eq_zero (by simpa using hlen)
    have hu0 : (fifo.Set CalcLen s k v).usedBytes = 0 := by
      rw [hused, h0]
      simp
    refine ⟨hll0, hc0, hu0, ?_, ?_⟩
    · rw [hll0, hc0]
      rfl
    · rw [hcalls, hll0, hc0, hu0]

/-- C19: in every reachable state of a FIFO or LRU cache created with a
positive budget, for every key k that is not held, after `Set(k, v)` the call
`Get(k)` returns v, unless the cache was empty before the call and the weight
of v exceeds the budget; in that case the call leaves the list and the lookup
table empty, `usedBytes` is 0, `Get(k)` returns nil, and the callback, if there
is one, is invoked exactly once, with (k, v). -/
theorem C19_fresh_insert_survives_unless_alone_and_too_big {V : Type} (CalcLen : V → Int)
    (capacity : Int) (onEvicted : Bool) (ops : List (Op V)) (k : String) (v : V)
    (hcap : 0 < capacity) :
    (PtrMap.get (fifo.run CalcLen (fifo.New capacity onEvicted) ops).cache k = none →
      (¬ ((fifo.run CalcLen (fifo.New capacity onEvicted) ops).ll = [] ∧
          CalcLen v > capacity) →
        (fifo.Get (fifo.Set CalcLen
          (fifo.run CalcLen (fifo.New capacity onEvicted) ops) k v) k).2 = some v) ∧
      ((fifo.run CalcLen (fifo.New capacity onEvicted) ops).ll = [] ∧ CalcLen v > capacity →
        (fifo.Set CalcLen (fifo.run CalcLen (fifo.New capacity onEvicted) ops) k v).ll = [] ∧
        (fifo.Set CalcLen (fifo.run CalcLen (fifo.New capacity onEvicted) ops) k v).cache
          = [] ∧
        (fifo.Set CalcLen (fifo.run CalcLen (fifo.New capacity onEvicted) ops) k v).usedBytes
          = 0 ∧
        (fifo.Get (fifo.Set CalcLen
          (fifo.run CalcLen (fifo.New capacity onEvicted) ops) k v) k).2 = none ∧
        (fifo.Set CalcLen (fifo.run CalcLen (fifo.New capacity onEvicted) ops) k v).calls
          = if onEvicted then
              (fifo.run CalcLen (fifo.New capacity onEvicted) ops).calls ++ [⟨k, v, [], [], 0⟩]
            else (fifo.run CalcLen (fifo.New capacity onEvicted) ops).calls)) ∧
    (PtrMap.get (lru.run CalcLen (lru.New capacity onEvicted) ops).cache k = none →
      (¬ ((lru.run CalcLen (lru.New capacity onEvicted) ops).ll = [] ∧
          CalcLen v > capacity) →
        (lru.Get (lru.Set CalcLen
          (lru.run CalcLen (lru.New capacity onEvicted) ops) k v) k).2 = some v) ∧
      ((lru.run CalcLen (lru.New capacity onEvicted) ops).ll = [] ∧ CalcLen v > capacity →
        (lru.Set CalcLen (lru.run CalcLen (lru.New capacity onEvicted) ops) k v).ll = [] ∧
        (lru.Set CalcLen (lru.run CalcLen (lru.New capacity onEvicted) ops) k v).cache
          = [] ∧
        (lru.Set CalcLen (lru.run CalcLen (lru.New capacity onEvicted) ops) k v).usedBytes
          = 0 ∧
        (lru.Get (lru.Set CalcLen
          (lru.run CalcLen (lru.New capacity onEvicted) ops) k v) k).2 = none ∧
        (lru.Set CalcLen (lru.run CalcLen (lru.New capacity onEvicted) ops) k v).calls
          = if onEvicted then
              (lru.run CalcLen (lru.New capacity onEvicted) ops).calls ++ [⟨k, v, [], [], 0⟩]
            else (lru.run CalcLen (lru.New capacity onEvicted) ops).calls)) := by
  constructor
  · intro hg
    have hl := fifo.run_linked CalcLen _ ops (fifo.New_linked (V := V) capacity onEvicted)
    have hacc := fifo.run_accounted CalcLen _ ops (fifo.New_linked (V := V) capacity onEvicted)
      (show (fifo.New capacity onEvicted : engine V).accounted CalcLen from rfl)
    have hcfg := fifo.run_config CalcLen (fifo.New capacity onEvicted) ops
    have hm : (fifo.run CalcLen (fifo.New capacity onEvicted) ops).maxBytes = capacity := hcfg.1
    have ho : (fifo.run CalcLen (fifo.New capacity onEvicted) ops).onEvicted = onEvicted :=
      hcfg.2
    have := fifo.Set_survival CalcLen _ k v hl hacc (by rw [hm]; exact hcap) hg
    simp only [fifo.Get_lookup]
    rw [hm, ho] at this
    exact this
  · intro hg
    have hl := lru.run_linked_lru CalcLen _ ops (lru.New_linked_lru (V := V) capacity onEvicted)
    have hacc := lru.run_accounted_lru CalcLen _ ops
      (lru.New_linked_lru (V := V) capacity onEvicted)
      (show (lru.New capacity onEvicted : engine V).accounted CalcLen from rfl)
    have hcfg := lru.run_config_lru CalcLen (lru.New capacity onEvicted) ops
    have hm : (lru.run CalcLen (lru.New capacity onEvicted) ops).maxBytes = capacity := hcfg.1
    have ho : (lru.run CalcLen (lru.New capacity onEvicted) ops).onEvicted = onEvicted :=
      hcfg.2
    have := fifo.Set_survival CalcLen _ k v hl hacc (by rw [hm]; exact hcap) hg
    simp only [lru.Get_lookup_lru]
    rw [hm, ho] at this
    exact this

/-- C19 at an instance, the exceptional case: in the empty FIFO cache of budget
2, `Set("a", 5)` with weight 5 leaves `Get("a")` nil; and the general case:
after `Set("a", 1)`, `Set("b", 5)` is kept. -/
theorem C19_fresh_insert_survives_unless_alone_and_too_big_witness :
    (0 : Int) < 2 ∧
    (fifo.Get (fifo.Set (fun n : Nat => (n : Int))
      (fifo.run (fun n : Nat => (n : Int)) (fifo.New 2 true) []) "a" 5) "a").2 = none ∧
    (fifo.Get (fifo.Set (fun n : Nat => (n : Int))
      (fifo.run (fun n : Nat => (n : Int)) (fifo.New 2 true) [Op.Set "a" 1]) "b" 5) "b").2
      = some 5 :=
  ⟨by decide,
    ((((C19_fresh_insert_survives_unless_alone_and_too_big (fun n : Nat => (n : Int)) 2 true
      [] "a" 5 (by decide)).1 (by decide)).2 ⟨rfl, by decide⟩).2.2.2.1),
    (((C19_fresh_insert_survives_unless_alone_and_too_big (fun n : Nat => (n : Int)) 2 true
      [Op.Set "a" 1] "b" 5 (by decide)).1 (by decide)).1
      (fun h => absurd (congrArg List.length h.1) (by decide)))⟩

/-! ## C14 and C15: the shard and the LRU cache -/

theorem weightSum_unit {V : Type} (ll : List (Element V)) :
    weightSum unitWeight ll = (ll.length : Int) := by
  induction ll with
  | nil => rfl
  | cons e rest ih =>
    simp only [weightSum, List.map_cons, List.sum_cons, List.length_cons] at ih ⊢
    rw [ih]
    simp only [unitWeight]
    omega

theorem fast.removeElement_ofEngine {V : Type} (CalcLen : V → Int) (s : engine V)
    (e : Option (Element V)) :
    fast.removeElement (fast.ofEngine s) e = fast.ofEngine (lru.removeElement CalcLen s e) := by
  cases e with
  | none => rfl
  | some e =>
    simp only [fast.removeElement, lru.removeElement, fast.cacheShard.notify, engine.notify,
      fast.ofEngine]
    cases s.onEvicted <;> simp

theorem fast.new_ofEngine {V : Type} (n : Int) (onEvicted : Bool) :
    (fast.newCacheShard n onEvicted : fast.cacheShard V) = fast.ofEngine (lru.New n onEvicted) :=
  rfl

theorem fast.get_ofEngine {V : Type} (s : engine V) (k : String) :
    fast.get (fast.ofEngine s) k = (fast.ofEngine (lru.Get s k).1, (lru.Get s k).2) := by
  cases hg : PtrMap.get s.cache k with
  | none => simp [fast.get, lru.Get, fast.ofEngine, hg]
  | some p =>
    cases hd : list.deref s.ll p <;> simp [fast.get, lru.Get, fast.ofEngine, hg, hd]

theorem fast.del_ofEngine {V : Type} (CalcLen : V → Int) (s : engine V) (k : String) :
    fast.del (fast.ofEngine s) k = fast.ofEngine (lru.Del CalcLen s k) := by
  cases hg : PtrMap.get s.cache k with
  | none => simp [fast.del, lru.Del, fast.ofEngine, hg]
  | some p =>
    have := fast.removeElement_ofEngine CalcLen s (list.deref s.ll p)
    simp only [fast.del, lru.Del, hg]
    rw [← this]
    simp [fast.ofEngine, hg]

theorem fast.delOldest_ofEngine {V : Type} (CalcLen : V → Int) (s : engine V) :
    fast.delOldest (fast.ofEngine s) = fast.ofEngine (lru.DelOldest CalcLen s) :=
  fast.removeElement_ofEngine CalcLen s (list.Front s.ll)

theorem fast.set_ofEngine {V : Type} (s : engine V) (hl : s.linked)
    (hacc : s.usedBytes = (s.ll.length : Int)) (k : String) (v : V) :
    fast.set (fast.ofEngine s) k v = fast.ofEngine (lru.Set unitWeight s k v) := by
  cases hg : PtrMap.get s.cache k with
  | none =>
    simp only [fast.set, lru.Set, hg, fast.ofEngine]
    have hc : (s.maxBytes > 0 ∧ list.Len (list.PushBack s.ll s.fresh ⟨k, v⟩) > s.maxBytes)
        ↔ (s.maxBytes > 0 ∧ s.usedBytes + unitWeight v > s.maxBytes) := by
      simp only [list.Len, list.PushBack, List.length_append, List.length_singleton, unitWeight,
        hacc, Nat.cast_add, Nat.cast_one]
    by_cases h : s.maxBytes > 0 ∧ s.usedBytes + unitWeight v > s.maxBytes
    · rw [if_pos (hc.2 h), if_pos h]
      exact fast.removeElement_ofEngine unitWeight
        ({ s with
            ll := list.PushBack s.ll s.fresh ⟨k, v⟩
            fresh := s.fresh + 1
            cache := PtrMap.set s.cache k s.fresh
            usedBytes := s.usedBytes + unitWeight v } : engine V)
        (list.Front (list.PushBack s.ll s.fresh ⟨k, v⟩))
    · rw [if_neg (fun h2 => h (hc.1 h2)), if_neg h]
  | some p =>
    obtain ⟨e, hd, -⟩ := Linked.get_deref hl k p hg
    simp [fast.set, lru.Set, hg, hd, fast.ofEngine]

theorem fast.step_ofEngine {V : Type} (s : engine V) (hl : s.linked)
    (hacc : s.usedBytes = (s.ll.length : Int)) (op : Op V) :
    fast.step (fast.ofEngine s) op = fast.ofEngine (lru.step unitWeight s op) := by
  cases op with
  | Set k v => exact fast.set_ofEngine s hl hacc k v
  | Get k => simp only [fast.step, lru.step, fast.get_ofEngine]
  | Del k => exact fast.del_ofEngine unitWeight s k
  | DelOldest => exact fast.delOldest_ofEngine unitWeight s

theorem lru.unit_length {V : Type} (n : Int) (onEvicted : Bool) (ops : List (Op V)) :
    (lru.run unitWeight (lru.New n onEvicted) ops).usedBytes
      = ((lru.run unitWeight (lru.New n onEvicted) ops).ll.length : Int) := by
  have := lru.run_accounted_lru unitWeight (lru.New n onEvicted) ops
    (lru.New_linked_lru (V := V) n onEvicted)
    (show (lru.New n onEvicted : engine V).accounted unitWeight from rfl)
  rw [← weightSum_unit]
  exact this

theorem fast.run_ofEngine {V : Type} (n : Int) (onEvicted : Bool) (ops : List (Op V)) :
    fast.run (fast.newCacheShard n onEvicted) ops
      = fast.ofEngine (lru.run unitWeight (lru.New n onEvicted) ops) := by
  induction ops using List.reverseRecOn with
  | nil => rfl
  | append_singleton ops op ih =>
    rw [fast.run_append_shard, ih, lru.run_snoc_lru]
    exact fast.step_ofEngine _
      (lru.run_linked_lru unitWeight _ ops (lru.New_linked_lru n onEvicted))
      (lru.unit_length n onEvicted ops) op

namespace fast

variable {V : Type}

theorem history_snoc_shard (n : Int) (onEvicted : Bool) (ops : List (Op V)) (op : Op V) :
    history n onEvicted (ops ++ [op]) = timedStep (history n onEvicted ops) op := by
  simp [history, List.foldl_append]

theorem touches_ofEngine (s : engine V) (op : Op V) (x : String) :
    touches (ofEngine s) op x = lru.touches s op x := by
  cases op <;> rfl

theorem history_ofEngine (n : Int) (onEvicted : Bool) (ops : List (Op V)) :
    (history n onEvicted ops).state = ofEngine (lru.history unitWeight n onEvicted ops).state ∧
    (history n onEvicted ops).clock = (lru.history unitWeight n onEvicted ops).clock ∧
    (history n onEvicted ops).lastTouch
      = (lru.history unitWeight n onEvicted ops).lastTouch := by
  induction ops using List.reverseRecOn with
  | nil => exact ⟨rfl, rfl, rfl⟩
  | append_singleton ops op ih =>
    obtain ⟨h1, h2, h3⟩ := ih
    rw [history_snoc_shard, lru.history_snoc]
    have hst := lru.history_state unitWeight n onEvicted ops
    refine ⟨?_, ?_, ?_⟩
    · simp only [timedStep, lru.timedStep, h1]
      rw [hst]
      exact step_ofEngine _
        (lru.run_linked_lru unitWeight _ ops (lru.New_linked_lru n onEvicted))
        (lru.unit_length n onEvicted ops) op
    · simp only [timedStep, lru.timedStep, h2]
    · simp only [timedStep, lru.timedStep, h1, h2, h3, touches_ofEngine]

theorem history_state_shard (n : Int) (onEvicted : Bool) (ops : List (Op V)) :
    (history n onEvicted ops).state = run (newCacheShard n onEvicted) ops := by
  rw [(history_ofEngine n onEvicted ops).1, lru.history_state, run_ofEngine]

theorem step_bound (c : cacheShard V) (hl : c.linked) (op : Op V) (hpos : 0 < c.maxEntries)
    (hb : (c.ll.length : Int) ≤ c.maxEntries) :
    ((step c op).ll.length : Int) ≤ c.maxEntries := by
  have hrem : ∀ (l1 l2 : List (Element V)) (e : Element V), c.ll = l1 ++ e :: l2 →
      ((l1 ++ l2).length : Int) ≤ c.maxEntries := by
    intro l1 l2 e hs
    rw [hs] at hb
    simp only [List.length_append, List.length_cons, Nat.cast_add, Nat.cast_one] at hb ⊢
    omega
  have htouch : ∀ (l1 l2 : List (Element V)) (e x : Element V), c.ll = l1 ++ e :: l2 →
      ((l1 ++ l2 ++ [x]).length : Int) ≤ c.maxEntries := by
    intro l1 l2 e x hs
    rw [hs] at hb
    simp only [List.length_append, List.length_cons, List.length_nil, Nat.cast_add,
      Nat.cast_one] at hb ⊢
    omega
  cases op with
  | Set k v =>
    simp only [step]
    cases hg : PtrMap.get c.cache k with
    | none =>
      rw [set_miss c k v hg]
      have h3 := Linked.push_append hl k v hg
      dsimp only
      split
      · obtain ⟨e, rest, hs⟩ :
            ∃ e rest, c.ll ++ [(⟨c.fresh, ⟨k, v⟩⟩ : Element V)] = e :: rest := by
          cases hs : c.ll ++ [(⟨c.fresh, ⟨k, v⟩⟩ : Element V)] with
          | nil => simp at hs
          | cons e rest => exact ⟨e, rest, rfl⟩
        rw [delOldest_cons _ e rest hs h3.ptrs_nodup]
        have hlen := congrArg List.length hs
        simp only [List.length_append, List.length_cons, List.length_nil] at hlen
        simp only [notify_ll_shard, notify_maxEntries]
        have : rest.length = c.ll.length := by omega
        rw [this]
        exact hb
      · rename_i hno
        simp only [List.length_append, List.length_singleton]
        by_contra hcon
        apply hno
        constructor <;> omega
    | some p =>
      obtain ⟨l1, l2, e, hs, -, -, -, -, hset⟩ := set_hit c k v p hl hg
      rw [hset]
      exact htouch l1 l2 e _ hs
  | Get k =>
    simp only [step]
    cases hg : PtrMap.get c.cache k with
    | none => rw [get_miss c k hg]; exact hb
    | some p =>
      obtain ⟨l1, l2, e, hs, -, -, -, -, hget⟩ := get_hit c k p hl hg
      rw [hget]
      exact htouch l1 l2 e _ hs
  | Del k =>
    simp only [step]
    cases hg : PtrMap.get c.cache k with
    | none => rw [del_miss c k hg]; exact hb
    | some p =>
      obtain ⟨l1, l2, e, hs, -, -, -, -, hdel⟩ := del_hit c k p hl hg
      rw [hdel]
      simp only [notify_ll_shard]
      exact hrem l1 l2 e hs
  | DelOldest =>
    simp only [step]
    cases hs : c.ll with
    | nil => rw [delOldest_nil c hs, hs]; rw [hs] at hb; exact hb
    | cons e rest =>
      rw [delOldest_cons c e rest hs hl.ptrs_nodup]
      simp only [notify_ll_shard]
      exact hrem [] rest e (by simpa using hs)

theorem run_bound (ops : List (Op V)) (c : cacheShard V) (hl : c.linked)
    (hpos : 0 < c.maxEntries) (hb : (c.ll.length : Int) ≤ c.maxEntries) :
    ((run c ops).ll.length : Int) ≤ c.maxEntries := by
  induction ops generalizing c with
  | nil => exact hb
  | cons op rest ih =>
    have hcfg : (step c op).maxEntries = c.maxEntries := (run_config_shard c [op]).1
    have := ih (step c op) (step_linked_shard c op hl) (by rw [hcfg]; exact hpos)
      (by rw [hcfg]; exact step_bound c hl op hpos hb)
    rw [hcfg] at this
    exact this

end fast

theorem fast.set_full {V : Type} (c : fast.cacheShard V) (hl : c.linked) (k : String) (v : V)
    (hg : PtrMap.get c.cache k = none) (hpos : 0 < c.maxEntries)
    (hfull : (c.ll.length : Int) = c.maxEntries) :
    ∃ e rest, c.ll = e :: rest ∧
      fast.set c k v = fast.cacheShard.notify { c with
        ll := rest ++ [⟨c.fresh, ⟨k, v⟩⟩]
        fresh := c.fresh + 1
        cache := PtrMap.delete (c.cache ++ [(k, c.fresh)]) e.Value.key } e.Value.key
          e.Value.value := by
  obtain ⟨e, rest, hs⟩ : ∃ e rest, c.ll = e :: rest := by
    cases hs : c.ll with
    | nil =>
      rw [hs] at hfull
      simp only [List.length_nil, Nat.cast_zero] at hfull
      omega
    | cons e rest => exact ⟨e, rest, rfl⟩
  refine ⟨e, rest, hs, ?_⟩
  have h3 := Linked.push_append hl k v hg
  rw [fast.set_miss c k v hg]
  dsimp only
  have hc : c.maxEntries > 0 ∧ ((c.ll.length + 1 : Nat) : Int) > c.maxEntries := by
    constructor
    · exact hpos
    · push_cast
      omega
  rw [if_pos hc]
  rw [fast.delOldest_cons _ e (rest ++ [⟨c.fresh, ⟨k, v⟩⟩]) (by simp [hs]) h3.ptrs_nodup]

theorem fast.set_evicts_least_recent {V : Type} (n : Int) (onEvicted : Bool)
    (ops : List (Op V)) (k : String) (v : V) (hpos : 0 < n)
    (hg : PtrMap.get (fast.run (fast.newCacheShard n onEvicted) ops).cache k = none)
    (hfull : ((fast.run (fast.newCacheShard n onEvicted) ops).ll.length : Int) = n)
    (e : Element V) (rest : List (Element V))
    (hs : (fast.run (fast.newCacheShard n onEvicted) ops).ll = e :: rest) :
    ∀ k2, (PtrMap.get (fast.run (fast.newCacheShard n onEvicted)
        (ops ++ [Op.Set k v])).cache k2).isSome = true →
      lru.touchedBefore (fast.history n onEvicted (ops ++ [Op.Set k v])).lastTouch
        e.Value.key k2 := by
  have hrun := fast.run_ofEngine (V := V) n onEvicted ops
  have hrun2 := fast.run_ofEngine (V := V) n onEvicted (ops ++ [Op.Set k v])
  have hl := lru.run_linked_lru unitWeight _ ops (lru.New_linked_lru (V := V) n onEvicted)
  have hacc := lru.unit_length (V := V) n onEvicted ops
  have hcfg := (lru.run_config_lru unitWeight (lru.New (V := V) n onEvicted) ops).1
  have hr := lru.history_recency (V := V) unitWeight n onEvicted ops
  rw [lru.history_state] at hr
  rw [hrun] at hg hfull hs
  have hg2 : PtrMap.get (lru.run unitWeight (lru.New n onEvicted) ops).cache k = none := hg
  have hs2 : (lru.run unitWeight (lru.New n onEvicted) ops).ll = e :: rest := hs
  have hfull2 : ((lru.run unitWeight (lru.New n onEvicted) ops).ll.length : Int) = n := hfull
  have hm : (lru.run unitWeight (lru.New n onEvicted) ops).maxBytes = n := hcfg
  obtain ⟨e2, rest2, hs3, -, -, hlast⟩ := lru.Set_evicts_least_recent unitWeight _ _ _ hl hr k v
    hg2 (by rw [hm]; exact hpos) (by rw [hm, hacc, hfull2]; simp [unitWeight])
  rw [hs2] at hs3
  simp only [List.cons_append, List.cons.injEq] at hs3
  obtain ⟨he, -⟩ := hs3
  subst he
  intro k2 hk2
  rw [hrun2, lru.run_snoc_lru] at hk2
  have hτ : (fast.history n onEvicted (ops ++ [Op.Set k v])).lastTouch
      = fun x => if k = x then some (lru.history unitWeight n onEvicted ops).clock
          else (lru.history unitWeight n onEvicted ops).lastTouch x := by
    rw [(fast.history_ofEngine n onEvicted _).2.2, lru.history_snoc]
    funext x
    simp [lru.timedStep, lru.touches]
  rw [hτ]
  exact hlast k2 hk2

/-- C14: a shard created by `newCacheShard` with `maxEntries = n > 0` holds at
most n entries after every sequence of set, get, del and delOldest calls; and
when it holds n entries, a `set` of a key that is not held removes exactly the
entry at the front of the list and appends the new one: the list is the tail of
the list before followed by the new entry, the length is n again, the removed
key is absent, the callback (if any) is invoked once with the removed entry,
and the removed key was last touched (by a `set`, or by a `get` that hit) before
every key that is held afterwards. -/
theorem C14_shard_count_bound {V : Type} (n : Int) (onEvicted : Bool) (ops : List (Op V))
    (hpos : 0 < n) :
    fast.len (fast.run (fast.newCacheShard n onEvicted) ops) ≤ n ∧
    (fast.history n onEvicted ops).state = fast.run (fast.newCacheShard n onEvicted) ops ∧
    (∀ (k : String) (v : V),
      PtrMap.get (fast.run (fast.newCacheShard n onEvicted) ops).cache k = none →
      fast.len (fast.run (fast.newCacheShard n onEvicted) ops) = n →
      ∃ e rest, (fast.run (fast.newCacheShard n onEvicted) ops).ll = e :: rest ∧
        (fast.set (fast.run (fast.newCacheShard n onEvicted) ops) k v).ll
          = rest ++ [⟨(fast.run (fast.newCacheShard n onEvicted) ops).fresh, ⟨k, v⟩⟩] ∧
        fast.len (fast.set (fast.run (fast.newCacheShard n onEvicted) ops) k v) = n ∧
        (fast.get (fast.set (fast.run (fast.newCacheShard n onEvicted) ops) k v)
          e.Value.key).2 = none ∧
        (fast.set (fast.run (fast.newCacheShard n onEvicted) ops) k v).calls
          = (if onEvicted then
              (fast.run (fast.newCacheShard n onEvicted) ops).calls ++
                [⟨e.Value.key, e.Value.value,
                  (fast.set (fast.run (fast.newCacheShard n onEvicted) ops) k v).ll,
                  (fast.set (fast.run (fast.newCacheShard n onEvicted) ops) k v).cache⟩]
            else (fast.run (fast.newCacheShard n onEvicted) ops).calls) ∧
        ∀ k2, (PtrMap.get
            (fast.set (fast.run (fast.newCacheShard n onEvicted) ops) k v).cache k2).isSome
              = true →
          lru.touchedBefore (fast.history n onEvicted (ops ++ [Op.Set k v])).lastTouch
            e.Value.key k2) := by
  have hl := fast.run_linked_shard _ ops (fast.new_linked (V := V) n onEvicted)
  have hcfg := fast.run_config_shard (fast.newCacheShard (V := V) n onEvicted) ops
  have hm : (fast.run (fast.newCacheShard n onEvicted) ops).maxEntries = n := hcfg.1
  have ho : (fast.run (fast.newCacheShard n onEvicted) ops).onEvicted = onEvicted := hcfg.2
  refine ⟨?_, fast.history_state_shard n onEvicted ops, ?_⟩
  · exact fast.run_bound ops (fast.newCacheShard n onEvicted) (fast.new_linked n onEvicted) hpos
      (by simp only [fast.newCacheShard, List.length_nil, Nat.cast_zero]; omega)
  · intro k v hg hfull
    have hfull2 : ((fast.run (fast.newCacheShard n onEvicted) ops).ll.length : Int) = n := hfull
    obtain ⟨e, rest, hs, hset⟩ := fast.set_full _ hl k v hg (by rw [hm]; exact hpos)
      (by rw [hm]; exact hfull2)
    have hlast := fast.set_evicts_least_recent n onEvicted ops k v hpos hg hfull2 e rest hs
    have hl2 := fast.set_linked _ k v hl
    have hll : (fast.set (fast.run (fast.newCacheShard n onEvicted) ops) k v).ll
        = rest ++ [⟨(fast.run (fast.newCacheShard n onEvicted) ops).fresh, ⟨k, v⟩⟩] := by
      rw [hset]; simp
    refine ⟨e, rest, hs, hll, ?_, ?_, ?_, ?_⟩
    · rw [hs] at hfull2
      simp only [fast.len, list.Len, hll, List.length_append, List.length_singleton]
      simpa using hfull2
    · rw [fast.get_lookup, Linked.lookup_eq_none_iff hl2, hll]
      have hnd := Linked.keys_nodup hl
      have hek : e.Value.key ≠ k := by
        intro h
        have hmem : e.Value.key ∈ list.keys (fast.run (fast.newCacheShard n onEvicted) ops).ll := by
          rw [hs]; simp [list.keys]
        exact (Linked.get_none_iff hl k).1 hg (h ▸ hmem)
      rw [hs] at hnd
      simp only [list.keys, List.map_cons, List.nodup_cons] at hnd
      simp only [list.keys, List.map_append, List.map_cons, List.map_nil, List.mem_append,
        List.mem_singleton, not_or]
      exact ⟨hnd.1, hek⟩
    · rw [hll]
      rw [hset, fast.notify_calls_shard]
      simp only [ho, fast.notify_cache_shard]
    · intro k2 hk2
      apply hlast k2
      rw [fast.run_append_shard]
      exact hk2

/-- C14 at an instance: a shard of two entries driven by three `set` calls of
distinct keys. -/
theorem C14_shard_count_bound_witness :
    (0 : Int) < 2 ∧
    fast.len (fast.run (fast.newCacheShard 2 true)
      [Op.Set "a" (1 : Nat), Op.Set "b" 2, Op.Set "c" 3]) ≤ 2 :=
  ⟨by decide, (C14_shard_count_bound 2 true
    [Op.Set "a" (1 : Nat), Op.Set "b" 2, Op.Set "c" 3] (by decide)).1⟩

/-- C15: when the weight function returns 1 for every value, the shard created
with `maxEntries = n` and the LRU cache created with `maxBytes = n`, driven by
the same sequence of Set, Get, Del and DelOldest calls with the same callback,
are in the same state after every sequence: the shard has the list, the lookup
table and the allocation counter of the LRU cache, so the same entries in the
same order and the same `Len()`; every `Get` returns the same result; and the
callback log of the shard is that of the LRU cache, invocation by invocation,
with the same key, value, list and table at each invocation. -/
theorem C15_shard_is_count_analog_of_lru {V : Type} (CalcLen : V → Int)
    (hunit : ∀ v, CalcLen v = 1) (n : Int) (onEvicted : Bool) (ops : List (Op V)) :
    fast.run (fast.newCacheShard n onEvicted) ops
      = fast.ofEngine (lru.run CalcLen (lru.New n onEvicted) ops) ∧
    (fast.run (fast.newCacheShard n onEvicted) ops).ll
      = (lru.run CalcLen (lru.New n onEvicted) ops).ll ∧
    (fast.run (fast.newCacheShard n onEvicted) ops).cache
      = (lru.run CalcLen (lru.New n onEvicted) ops).cache ∧
    fast.len (fast.run (fast.newCacheShard n onEvicted) ops)
      = lru.Len (lru.run CalcLen (lru.New n onEvicted) ops) ∧
    (∀ k, (fast.get (fast.run (fast.newCacheShard n onEvicted) ops) k).2
      = (lru.Get (lru.run CalcLen (lru.New n onEvicted) ops) k).2) ∧
    (fast.run (fast.newCacheShard n onEvicted) ops).calls.map (fun x => (x.key, x.value))
      = (lru.run CalcLen (lru.New n onEvicted) ops).calls.map (fun x => (x.key, x.value)) ∧
    (fast.run (fast.newCacheShard n onEvicted) ops).calls.map (fun x => (x.ll, x.cache))
      = (lru.run CalcLen (lru.New n onEvicted) ops).calls.map (fun x => (x.ll, x.cache)) ∧
    (lru.run CalcLen (lru.New n onEvicted) ops).usedBytes
      = lru.Len (lru.run CalcLen (lru.New n onEvicted) ops) := by
  have hC : CalcLen = unitWeight := funext hunit
  subst hC
  have h := fast.run_ofEngine (V := V) n onEvicted ops
  refine ⟨h, ?_, ?_, ?_, ?_, ?_, ?_, ?_⟩
  · rw [h]; rfl
  · rw [h]; rfl
  · rw [h]; rfl
  · intro k
    rw [h, fast.get_ofEngine]
  · rw [h]
    simp [fast.ofEngine, Function.comp_def]
  · rw [h]
    simp [fast.ofEngine, Function.comp_def]
  · exact lru.unit_length n onEvicted ops

/-- C15 at an instance: capacity 2, the calls Set a, Set b, Get a, Set c, Del a,
DelOldest, every value of weight 1. -/
theorem C15_shard_is_count_analog_of_lru_witness :
    (∀ v : Nat, (fun _ : Nat => (1 : Int)) v = 1) ∧
    (fast.run (fast.newCacheShard 2 true)
      [Op.Set "a" (1 : Nat), Op.Set "b" 2, Op.Get "a", Op.Set "c" 3, Op.Del "a",
        Op.DelOldest]).calls.map (fun x => (x.key, x.value))
      = (lru.run (fun _ : Nat => (1 : Int)) (lru.New 2 true)
        [Op.Set "a" (1 : Nat), Op.Set "b" 2, Op.Get "a", Op.Set "c" 3, Op.Del "a",
          Op.DelOldest]).calls.map (fun x => (x.key, x.value)) :=
  ⟨fun _ => rfl, (C15_shard_is_count_analog_of_lru (fun _ : Nat => (1 : Int)) (fun _ => rfl)
    2 true [Op.Set "a" (1 : Nat), Op.Set "b" 2, Op.Get "a", Op.Set "c" 3, Op.Del "a",
      Op.DelOldest]).2.2.2.2.2.1⟩

/-! ## The LFU engine on `int` and on the integers -/

namespace lfu.int64

variable {V : Type} (CalcLen : V → Int) (less : entry V → entry V → Bool)

theorem removeElement_eq_lfu (l : lfu V) (x : Option (entry V))
    (h : isInt (lfu.removeElement CalcLen l x).usedBytes = true) :
    removeElement CalcLen l x = lfu.removeElement CalcLen l x := by
  cases x with
  | none => rfl
  | some en =>
    simp only [lfu.removeElement, lfu.notify_usedBytes_lfu] at h
    simp only [removeElement, lfu.removeElement, wrap64_remove _ _ h]

theorem DelOldest_eq_lfu (l t : lfu V) (hs : lfu.DelOldest CalcLen less l = some t)
    (h : isInt t.usedBytes = true) :
    DelOldest CalcLen less l = some t := by
  unfold DelOldest
  unfold lfu.DelOldest at hs
  split
  · rename_i h0
    rw [if_pos h0] at hs
    exact hs
  · rename_i h0
    rw [if_neg h0] at hs
    cases hp : heap.Pop less l.queue with
    | none => simp [hp] at hs
    | some r =>
      obtain ⟨q, x⟩ := r
      simp only [hp, Option.some.injEq] at hs ⊢
      subst hs
      exact removeElement_eq_lfu CalcLen _ _ h

theorem Del_eq_lfu (l t : lfu V) (key : String) (hs : lfu.Del CalcLen less l key = some t)
    (h : isInt t.usedBytes = true) :
    Del CalcLen less l key = some t := by
  unfold Del
  unfold lfu.Del at hs
  cases hg : PtrMap.get l.cache key with
  | none => simpa [hg] using hs
  | some p =>
    simp only [hg] at hs ⊢
    cases hd : queue.deref l.queue p with
    | none => simpa [hd] using hs
    | some e =>
      simp only [hd] at hs ⊢
      cases hr : heap.Remove less l.queue e.index with
      | none => simp [hr] at hs
      | some r =>
        obtain ⟨q, x⟩ := r
        simp only [hr, Option.some.injEq] at hs ⊢
        subst hs
        exact removeElement_eq_lfu CalcLen _ _ h

theorem Set_eq_lfu (l t : lfu V) (key : String) (value : V)
    (hc : lfu.fitsCall CalcLen l (Op.Set key value) = true)
    (hs : lfu.Set CalcLen less l key value = some t)
    (h : isInt t.usedBytes = true) :
    Set CalcLen less l key value = some t := by
  unfold Set
  unfold lfu.Set at hs
  cases hg : PtrMap.get l.cache key with
  | some p =>
    simp only [hg] at hs ⊢
    cases hd : queue.deref l.queue p with
    | none => simpa [hd] using hs
    | some e =>
      simp only [hd] at hs ⊢
      have hw := lfu.fitsTouch_spec l key p e
        (by simp only [lfu.fitsCall, Bool.and_eq_true] at hc; exact hc.2) hg hd
      rw [hw]
      cases hu : queue.update less l.queue e value (e.weight + 1) with
      | none => simp [hu] at hs
      | some q =>
        simp only [hu, Option.some.injEq] at hs ⊢
        subst hs
        rw [wrap64_update _ _ _ h]
  | none =>
    simp only [hg] at hs ⊢
    have hsum : isInt (l.usedBytes + CalcLen value) = true := by
      simp only [lfu.fitsCall, hg, Option.isSome_none, Bool.false_or, Bool.and_eq_true] at hc
      exact hc.1.2
    cases hp : heap.Push less l.queue ⟨l.fresh, key, value, 0, 0⟩ with
    | none => simp [hp] at hs
    | some q =>
      simp only [hp, entry.Len] at hs ⊢
      rw [wrap64_insert _ _ hsum]
      split
      · rename_i hgd
        rw [if_pos hgd] at hs
        cases hq : heap.Pop less q with
        | none => simp [hq] at hs
        | some r =>
          obtain ⟨q1, x⟩ := r
          simp only [hq, Option.some.injEq] at hs ⊢
          subst hs
          exact removeElement_eq_lfu CalcLen _ _ h
      · rename_i hgd
        rw [if_neg hgd] at hs
        exact hs

theorem Get_eq_lfu (l : lfu V) (key : String) (hc : lfu.fitsTouch l key = true) :
    Get less l key = lfu.Get less l key := by
  unfold Get lfu.Get
  cases hg : PtrMap.get l.cache key with
  | none => rfl
  | some p =>
    simp only []
    cases hd : queue.deref l.queue p with
    | none => rfl
    | some e =>
      simp only [lfu.fitsTouch_spec l key p e hc hg hd]

theorem step_eq_lfu (l t : lfu V) (op : Op V)
    (hc : lfu.fitsCall CalcLen l op = true)
    (hs : lfu.step CalcLen less l op = some t)
    (h : isInt t.usedBytes = true) :
    step CalcLen less l op = some t := by
  cases op with
  | Set k v => exact Set_eq_lfu CalcLen less l t k v hc hs h
  | Get k =>
    simp only [step, Get_eq_lfu less l k
      (by simp only [lfu.fitsCall, Bool.and_eq_true] at hc; exact hc.2)]
    exact hs
  | Del k => exact Del_eq_lfu CalcLen less l t k hs h
  | DelOldest => exact DelOldest_eq_lfu CalcLen less l t hs h

end lfu.int64

theorem lfu.fits_start_lfu {V : Type} (CalcLen : V → Int)
    (less : lfu.entry V → lfu.entry V → Bool) (s : lfu V) (ops : List (Op V))
    (h : lfu.fits CalcLen less s ops = true) :
    isInt s.maxBytes = true ∧ isInt s.usedBytes = true := by
  cases ops with
  | nil => simpa [lfu.fits] using h
  | cons op rest =>
    simp only [lfu.fits, Bool.and_eq_true] at h
    cases op <;> simp only [lfu.fitsCall, Bool.and_eq_true] at h
    · exact ⟨h.1.1.1.1.1, h.1.1.1.1.2⟩
    · exact ⟨h.1.1.1, h.1.1.2⟩
    all_goals exact h.1

/-- On a sequence of calls in which no computation on the byte counter
overflows, the LFU cache on the type `int` of 64 bits goes through the states
of the LFU cache on the integers. -/
theorem lfu.int64.run_eq_lfu {V : Type} (CalcLen : V → Int)
    (less : lfu.entry V → lfu.entry V → Bool) (ops : List (Op V))
    (s : lfu V) (h : lfu.fits CalcLen less s ops = true) :
    lfu.int64.run CalcLen less s ops = lfu.run CalcLen less s ops := by
  induction ops generalizing s with
  | nil => rfl
  | cons op rest ih =>
    simp only [lfu.fits, Bool.and_eq_true] at h
    cases hs : lfu.step CalcLen less s op with
    | none => simp [hs] at h
    | some t =>
      simp only [hs] at h
      have h2 := (lfu.fits_start_lfu CalcLen less _ rest h.2).2
      simp only [lfu.int64.run, lfu.run, hs,
        lfu.int64.step_eq_lfu CalcLen less s t op h.1 hs h2]
      exact ih _ h.2

theorem lfu.fits_prefix_lfu {V : Type} (CalcLen : V → Int)
    (less : lfu.entry V → lfu.entry V → Bool) (ops ops2 : List (Op V))
    (s : lfu V) (h : lfu.fits CalcLen less s (ops ++ ops2) = true) :
    lfu.fits CalcLen less s ops = true := by
  induction ops generalizing s with
  | nil =>
    have := lfu.fits_start_lfu CalcLen less s _ h
    simp [lfu.fits, this.1, this.2]
  | cons op rest ih =>
    simp only [List.cons_append, lfu.fits, Bool.and_eq_true] at h ⊢
    refine ⟨h.1, ?_⟩
    cases hs : lfu.step CalcLen less s op with
    | none => simp [hs] at h
    | some t =>
      simp only [hs] at h ⊢
      exact ih _ h.2

theorem lfu.run_snoc_lfu {V : Type} (CalcLen : V → Int)
    (less : lfu.entry V → lfu.entry V → Bool) (ops : List (Op V)) (s l : lfu V) (op : Op V)
    (h : lfu.run CalcLen less s ops = some l) :
    lfu.run CalcLen less s (ops ++ [op]) = lfu.step CalcLen less l op := by
  induction ops generalizing s with
  | nil =>
    simp only [lfu.run, Option.some.injEq] at h
    subst h
    simp only [List.nil_append, lfu.run]
    cases lfu.step CalcLen less s op <;> rfl
  | cons o rest ih =>
    simp only [List.cons_append, lfu.run] at h ⊢
    cases hs : lfu.step CalcLen less s o with
    | none => simp [hs] at h
    | some t =>
      simp only [hs] at h ⊢
      exact ih t h

/-- Where a sum overflows, the engines on `int` and the engines on the integers
part ways: budget `2^63 - 1`, `Set a` with weight `2^63 - 1` (and, for the LFU
cache, `Get a`), then `Set b` with weight 1. On `int` the counter wraps to
`-2^63`, nothing is evicted and both keys are held; on the integers the sum
exceeds the budget and an entry is evicted. These calls do not fit. -/
theorem int64_overflow_example :
    (list.keys (fifo.int64.run (fun n : Nat => (n : Int)) (fifo.New 9223372036854775807 true)
        [Op.Set "a" 9223372036854775807, Op.Set "b" 1]).ll = ["a", "b"] ∧
      (fifo.int64.run (fun n : Nat => (n : Int)) (fifo.New 9223372036854775807 true)
        [Op.Set "a" 9223372036854775807, Op.Set "b" 1]).usedBytes = -9223372036854775808 ∧
      list.keys (fifo.run (fun n : Nat => (n : Int)) (fifo.New 9223372036854775807 true)
        [Op.Set "a" 9223372036854775807, Op.Set "b" 1]).ll = ["b"] ∧
      fifo.fits (fun n : Nat => (n : Int)) (fifo.New 9223372036854775807 true)
        [Op.Set "a" 9223372036854775807, Op.Set "b" 1] = false) ∧
    (list.keys (lru.int64.run (fun n : Nat => (n : Int)) (lru.New 9223372036854775807 true)
        [Op.Set "a" 9223372036854775807, Op.Set "b" 1]).ll = ["a", "b"] ∧
      (lru.int64.run (fun n : Nat => (n : Int)) (lru.New 9223372036854775807 true)
        [Op.Set "a" 9223372036854775807, Op.Set "b" 1]).usedBytes = -9223372036854775808 ∧
      list.keys (lru.run (fun n : Nat => (n : Int)) (lru.New 9223372036854775807 true)
        [Op.Set "a" 9223372036854775807, Op.Set "b" 1]).ll = ["b"] ∧
      lru.fits (fun n : Nat => (n : Int)) (lru.New 9223372036854775807 true)
        [Op.Set "a" 9223372036854775807, Op.Set "b" 1] = false) ∧
    ((lfu.int64.run (fun n : Nat => (n : Int)) (fun a b => decide (a.weight < b.weight))
        (lfu.New 9223372036854775807 true)
        [Op.Set "a" 9223372036854775807, Op.Get "a", Op.Set "b" 1]).map
          (fun l => (lfu.queue.keys l.queue, l.usedBytes, l.calls.length))
        = some (["b", "a"], -9223372036854775808, 0) ∧
      (lfu.run (fun n : Nat => (n : Int)) (fun a b => decide (a.weight < b.weight))
        (lfu.New 9223372036854775807 true)
        [Op.Set "a" 9223372036854775807, Op.Get "a", Op.Set "b" 1]).map
          (fun l => (lfu.queue.keys l.queue, l.calls.map (fun c => (c.key, c.value))))
        = some (["a"], [("b", 1)]) ∧
      lfu.fits (fun n : Nat => (n : Int)) (fun a b => decide (a.weight < b.weight))
        (lfu.New 9223372036854775807 true)
        [Op.Set "a" 9223372036854775807, Op.Get "a", Op.Set "b" 1] = false) := by
  refine ⟨by decide, by decide, by decide⟩

/-! ## A newcomer of weight 0 reaches the root of the LFU heap -/

namespace lfu

variable {V : Type}

theorem queue.Less_get (less : entry V → entry V → Bool) (q : List (entry V)) (i j : Nat)
    (a b : entry V) (hi : q[i]? = some a) (hj : q[j]? = some b) :
    queue.Less less q (i : Int) (j : Int) = some (less a b) := by
  simp only [queue.Less, queue.item_natCast, hi, hj]

theorem queue.Swap_get (q : List (entry V)) (i j : Nat) (a b : entry V)
    (hi : q[i]? = some a) (hj : q[j]? = some b) (hij : i ≠ j) :
    ∃ q2, queue.Swap q (i : Int) (j : Int) = some q2 ∧ q2.length = q.length ∧
      q2[i]? = some { b with index := (i : Int) } ∧
      q2[j]? = some { a with index := (j : Int) } ∧
      ∀ m, m ≠ i → m ≠ j → q2[m]? = q[m]? := by
  have hil : i < q.length := by
    by_contra h
    rw [List.getElem?_eq_none (by omega)] at hi
    exact Option.noConfusion hi
  have hjl : j < q.length := by
    by_contra h
    rw [List.getElem?_eq_none (by omega)] at hj
    exact Option.noConfusion hj
  refine ⟨(q.set i { b with index := (i : Int) }).set j { a with index := (j : Int) },
    by simp only [queue.Swap, queue.item_natCast, hi, hj, Int.toNat_ofNat], by simp, ?_, ?_, ?_⟩
  · rw [List.getElem?_set_ne (fun h => hij h.symm), List.getElem?_set_self hil]
  · rw [List.getElem?_set_self (by simpa using hjl)]
  · intro m hmi hmj
    rw [List.getElem?_set_ne (fun h => hmj h.symm), List.getElem?_set_ne (fun h => hmi h.symm)]

/-- The loop `up` carries an entry that `less` puts before every other entry to
the root. -/
theorem heap.up_root (less : entry V → entry V → Bool)
    (hless : ∀ a b : entry V, a.weight < b.weight → less a b = true) :
    ∀ (fuel : Nat) (q : List (entry V)) (j : Nat) (x : entry V), q[j]? = some x → j < fuel →
      (∀ m e, m ≠ j → q[m]? = some e → x.weight < e.weight) →
      ∀ q2, heap.up less fuel q (j : Int) = some q2 →
        ∃ y, q2[0]? = some y ∧ strip y = strip x := by
  intro fuel
  induction fuel with
  | zero => intro q j x _ hf; omega
  | succ fuel ih =>
    intro q j x hx hf hbelow q2 hup
    rcases Nat.eq_zero_or_pos j with h0 | hpos
    · subst h0
      have hz : Int.tdiv (((0 : Nat) : Int) - 1) 2 = ((0 : Nat) : Int) := by decide
      simp only [heap.up, hz, if_true, Option.some.injEq] at hup
      subst hup
      exact ⟨x, hx, rfl⟩
    · have hp := parent_pos j hpos
      have hlt : (j - 1) / 2 < j := by omega
      have hne : ¬ ((((j - 1) / 2 : Nat) : Int) = (j : Int)) := by omega
      have hjl : j < q.length := by
        by_contra h
        rw [List.getElem?_eq_none (by omega)] at hx
        exact Option.noConfusion hx
      have hi : q[(j - 1) / 2]? = some q[(j - 1) / 2] := List.getElem?_eq_getElem (by omega)
      have hw : x.weight < (q[(j - 1) / 2]).weight := hbelow _ _ (by omega) hi
      have hL := queue.Less_get less q j ((j - 1) / 2) x _ hx hi
      rw [hless _ _ hw] at hL
      obtain ⟨q1, hsw, hlen, h1, h2, h3⟩ := queue.Swap_get q ((j - 1) / 2) j _ x hi hx (by omega)
      simp only [heap.up, hp, if_neg hne, hL, hsw] at hup
      obtain ⟨y, hy, hs⟩ := ih q1 ((j - 1) / 2) _ h1 (by omega) (by
        intro m e hm he
        by_cases hmj : m = j
        · subst hmj
          rw [h2] at he
          simp only [Option.some.injEq] at he
          subst he
          exact hw
        · rw [h3 m hm hmj] at he
          exact hbelow m e hmj he) q2 hup
      exact ⟨y, hy, hs⟩

end lfu

theorem PtrMap.delete_append_self (m : PtrMap) (k : String) (p : Nat)
    (h : PtrMap.get m k = none) : PtrMap.delete (m ++ [(k, p)]) k = m := by
  have hk1 : k ∉ m.map Prod.fst := (PtrMap.get_eq_none_iff m k).1 h
  have := PtrMap.delete_of_not_mem m k hk1
  unfold PtrMap.delete at this ⊢
  rw [List.filter_append, this]
  simp

theorem lfu.heap.Push_root {V : Type} (less : lfu.entry V → lfu.entry V → Bool)
    (hless : ∀ a b : lfu.entry V, a.weight < b.weight → less a b = true)
    (q : List (lfu.entry V)) (x : lfu.entry V) (hw : ∀ e ∈ q, x.weight < e.weight)
    (q2 : List (lfu.entry V)) (hpush : lfu.heap.Push less q x = some q2) :
    ∃ y, q2[0]? = some y ∧ lfu.strip y = lfu.strip x := by
  have hl : (lfu.queue.Push q x).length = q.length + 1 := by simp [lfu.queue.Push]
  have hj : lfu.queue.Len (lfu.queue.Push q x) - 1 = ((q.length : Nat) : Int) := by
    simp [lfu.queue.Len, hl]
  simp only [lfu.heap.Push, hj] at hpush
  have hx : (lfu.queue.Push q x)[q.length]? = some { x with index := (q.length : Int) } := by
    simp [lfu.queue.Push]
  obtain ⟨y, hy, hs⟩ := lfu.heap.up_root less hless _ (lfu.queue.Push q x) q.length _ hx
    (by omega) (by
      intro m e hm he
      have hlt : m < q.length := by
        by_contra hcon
        have hml : m < (lfu.queue.Push q x).length := by
          by_contra h2
          rw [List.getElem?_eq_none (by omega)] at he
          exact Option.noConfusion he
        omega
      simp only [lfu.queue.Push] at he
      rw [List.getElem?_append_left hlt] at he
      exact hw e (List.getElem?_mem he)) q2 hpush
  exact ⟨y, hy, hs⟩

theorem lfu.Set_newcomer {V : Type} (CalcLen : V → Int)
    (less : lfu.entry V → lfu.entry V → Bool)
    (hless : ∀ a b : lfu.entry V, a.weight < b.weight → less a b = true)
    (s : lfu V) (k : String) (v : V) (hl : s.linked)
    (hg : PtrMap.get s.cache k = none) (hpos : s.maxBytes > 0)
    (hover : s.usedBytes + CalcLen v > s.maxBytes) (hw : ∀ e ∈ s.queue, 1 ≤ e.weight) :
    ∃ s1, lfu.Set CalcLen less s k v = some s1 ∧ s1.cache = s.cache ∧
      s1.usedBytes = s.usedBytes ∧
      s1.calls = (if s.onEvicted then s.calls ++ [⟨k, v, s1.queue, s1.cache, s1.usedBytes⟩]
        else s.calls) ∧
      lfu.Len s1 = lfu.Len s ∧ (s1.queue.map lfu.strip).Perm (s.queue.map lfu.strip) ∧
      s1.linked := by
  obtain ⟨q2, hpush, hlen, hperm, hl2, hset⟩ := lfu.Set_miss_lfu CalcLen less s k v hl hg
  obtain ⟨y, hy, hys⟩ := lfu.heap.Push_root less hless s.queue ⟨s.fresh, k, v, 0, 0⟩
    (fun e he => by have := hw e he; show (0 : Int) < e.weight; omega) q2 hpush
  obtain ⟨q3, x, hpop, hlen3, hperm3, hl3, -, -, hx⟩ := lfu.pop_lfu less hl2 (by omega)
  have hq0 : q2[0]? = some q2[0] := List.getElem?_eq_getElem (by omega)
  rw [hq0] at hy
  simp only [Option.some.injEq] at hy
  rw [hy, hys] at hx
  have hxk : x.key = k := congrArg (fun e : lfu.entry V => e.key) hx
  have hxv : x.value = v := congrArg (fun e : lfu.entry V => e.value) hx
  rw [hset, if_pos ⟨hpos, hover⟩]
  have hne : ¬ (lfu.queue.Len q2 = 0) := by simp only [lfu.queue.Len]; omega
  simp only [lfu.DelOldest, hne, if_false, hpop, lfu.removeElement, lfu.entry.Len]
  rw [hxk, hxv, PtrMap.delete_append_self s.cache k s.fresh hg]
  refine ⟨_, rfl, by simp, by simp, ?_, ?_, ?_, ?_⟩
  · rw [lfu.notify_calls_lfu]
    simp
  · simp only [lfu.Len, lfu.queue.Len, lfu.notify_queue_lfu]
    omega
  · simp only [lfu.notify_queue_lfu]
    rw [hx] at hperm3
    exact (List.perm_append_right_iff _).1 (hperm3.trans hperm)
  · have h4 : lfu.QLinked q3 s.cache (s.fresh + 1) := by
      rw [hxk, PtrMap.delete_append_self s.cache k s.fresh hg] at hl3
      exact hl3
    simpa [lfu.linked] using h4

/-! ## The LFU heap under the order by weight and sequence number -/

namespace lfu

variable {V : Type}

theorem RLe.rfl_le (x : Int × Nat) : RLe x x := Or.inr ⟨rfl, le_refl _⟩

theorem RLe.trans_le {x y z : Int × Nat} (h1 : RLe x y) (h2 : RLe y z) : RLe x z := by
  unfold RLe at *
  omega

theorem RLe.of_less {a b : entry V} (h : specLess a b = true) :
    RLe (a.weight, a.ptr) (b.weight, b.ptr) := by
  simp only [specLess, decide_eq_true_eq] at h
  unfold RLe
  simp only
  omega

theorem RLe.of_not_less {a b : entry V} (h : specLess a b = false) :
    RLe (b.weight, b.ptr) (a.weight, a.ptr) := by
  simp only [specLess, decide_eq_false_iff_not] at h
  unfold RLe
  simp only
  omega

theorem FUpPre.stop_up {f : Nat → Option (Int × Nat)} {n j : Nat} (h : FUpPre f n j)
    (hp : 0 < j → FLe f ((j - 1) / 2) j) : FHeap f n := by
  intro m hm0 hmn
  by_cases hmj : m = j
  · subst hmj
    exact hp hm0
  · exact h.1 m hm0 hmn hmj

theorem FUpPre.swap_up {f f1 : Nat → Option (Int × Nat)} {n j : Nat} {a b : Int × Nat}
    (h : FUpPre f n j) (hj0 : 0 < j) (hjn : j < n) (ha : f ((j - 1) / 2) = some a)
    (hb : f j = some b) (hba : RLe b a) (hs : FSwap f f1 ((j - 1) / 2) j) :
    FUpPre f1 n ((j - 1) / 2) := by
  obtain ⟨hs1, hs2, hs3⟩ := hs
  constructor
  · intro m hm0 hmn hmi x y hx hy
    by_cases hmj : m = j
    · subst hmj
      rw [hs1, hb] at hx
      rw [hs2, ha] at hy
      simp only [Option.some.injEq] at hx hy
      subst hx hy
      exact hba
    · rw [hs3 m hmi hmj] at hy
      by_cases hpj : (m - 1) / 2 = j
      · rw [hpj, hs2, ha] at hx
        simp only [Option.some.injEq] at hx
        subst hx
        exact h.2 hj0 m hm0 hmn hpj _ _ ha hy
      · by_cases hpi : (m - 1) / 2 = (j - 1) / 2
        · rw [hpi, hs1, hb] at hx
          simp only [Option.some.injEq] at hx
          subst hx
          have := h.1 m hm0 hmn hmj _ _ (hpi ▸ ha) hy
          exact hba.trans_le this
        · rw [hs3 _ hpi hpj] at hx
          exact h.1 m hm0 hmn hmj _ _ hx hy
  · intro hi0 c hc0 hcn hpc x y hx hy
    have hne1 : ((j - 1) / 2 - 1) / 2 ≠ (j - 1) / 2 := by omega
    have hne2 : ((j - 1) / 2 - 1) / 2 ≠ j := by omega
    rw [hs3 _ hne1 hne2] at hx
    have hza : RLe x a := h.1 ((j - 1) / 2) hi0 (by omega) (by omega) _ _ hx ha
    by_cases hcj : c = j
    · subst hcj
      rw [hs2, ha] at hy
      simp only [Option.some.injEq] at hy
      subst hy
      exact hza
    · rw [hs3 c (by omega) hcj] at hy
      have := h.1 c hc0 hcn hcj _ _ (hpc ▸ ha) hy
      exact hza.trans_le this

theorem FDownPre.stop_down {f : Nat → Option (Int × Nat)} {n i : Nat} (h : FDownPre f n i)
    (hc : ∀ c, 0 < c → c < n → (c - 1) / 2 = i → FLe f i c) : FUpPre f n i := by
  refine ⟨?_, h.2⟩
  intro m hm0 hmn hmi
  by_cases hp : (m - 1) / 2 = i
  · rw [hp]
    exact hc m hm0 hmn hp
  · exact h.1 m hm0 hmn hmi hp

theorem FDownPre.swap_down {f f1 : Nat → Option (Int × Nat)} {n i j : Nat} {a b : Int × Nat}
    (h : FDownPre f n i) (hj0 : 0 < j) (hjn : j < n) (hpj : (j - 1) / 2 = i)
    (ha : f i = some a) (hb : f j = some b) (hba : RLe b a)
    (hmin : ∀ c, 0 < c → c < n → (c - 1) / 2 = i → ∀ y, f c = some y → RLe b y)
    (hs : FSwap f f1 i j) :
    FDownPre f1 n j ∧ ((∀ c, 0 < c → c < n → (c - 1) / 2 = j → FLe f1 j c) → FHeap f1 n) := by
  obtain ⟨hs1, hs2, hs3⟩ := hs
  have hA : ∀ m, 0 < m → m < n → m ≠ j → (m - 1) / 2 ≠ j → FLe f1 ((m - 1) / 2) m := by
    intro m hm0 hmn hmj hpm x y hx hy
    by_cases hmi : m = i
    · subst hmi
      rw [hs1, hb] at hy
      simp only [Option.some.injEq] at hy
      subst hy
      rw [hs3 _ (by omega) (by omega)] at hx
      exact h.2 hm0 j hj0 hjn hpj _ _ hx hb
    · rw [hs3 m hmi hmj] at hy
      by_cases hpi : (m - 1) / 2 = i
      · rw [hpi, hs1, hb] at hx
        simp only [Option.some.injEq] at hx
        subst hx
        exact hmin m hm0 hmn hpi y hy
      · rw [hs3 _ hpi hpm] at hx
        exact h.1 m hm0 hmn hmi hpi _ _ hx hy
  refine ⟨⟨hA, ?_⟩, ?_⟩
  · intro _ c hc0 hcn hpc x y hx hy
    rw [hpj, hs1, hb] at hx
    simp only [Option.some.injEq] at hx
    subst hx
    rw [hs3 c (by omega) (by omega)] at hy
    exact h.1 c hc0 hcn (by omega) (by omega) _ _ (hpc ▸ hb) hy
  · intro hch m hm0 hmn
    by_cases hmj : m = j
    · subst hmj
      intro x y hx hy
      rw [hpj, hs1, hb] at hx
      rw [hs2, ha] at hy
      simp only [Option.some.injEq] at hx hy
      subst hx hy
      exact hba
    · by_cases hpm : (m - 1) / 2 = j
      · rw [hpm]
        exact hch m hm0 hmn hpm
      · exact hA m hm0 hmn hmj hpm

theorem rankAt_of_get {q : List (entry V)} {m : Nat} {e : entry V} (h : q[m]? = some e) :
    rankAt q m = some (e.weight, e.ptr) := by
  simp [rankAt, h]

theorem rankAt_get (q : List (entry V)) (m : Nat) (hm : m < q.length) :
    rankAt q m = some (q[m].weight, q[m].ptr) :=
  rankAt_of_get (List.getElem?_eq_getElem hm)

theorem FSwap.of_get {q q1 : List (entry V)} {i j : Nat} {a b : entry V}
    (h1 : q1[i]? = some { b with index := (i : Int) })
    (h2 : q1[j]? = some { a with index := (j : Int) })
    (h3 : ∀ m, m ≠ i → m ≠ j → q1[m]? = q[m]?)
    (ha : q[i]? = some a) (hb : q[j]? = some b) :
    FSwap (rankAt q) (rankAt q1) i j := by
  refine ⟨?_, ?_, ?_⟩
  · rw [rankAt_of_get h1, rankAt_of_get hb]
  · rw [rankAt_of_get h2, rankAt_of_get ha]
  · intro m hmi hmj
    simp only [rankAt, h3 m hmi hmj]

/-- The loop `up`, started at the only position that may come before its
parent, restores the heap condition. -/
theorem heap.up_heap :
    ∀ (fuel : Nat) (q : List (entry V)) (j n : Nat), j < n → n ≤ q.length →
      FUpPre (rankAt q) n j →
      ∀ q2, heap.up specLess fuel q (j : Int) = some q2 → FHeap (rankAt q2) n := by
  intro fuel
  induction fuel with
  | zero =>
    intro q j n _ _ _ q2 hup
    simp [heap.up] at hup
  | succ fuel ih =>
    intro q j n hjn hn hpre q2 hup
    rcases Nat.eq_zero_or_pos j with h0 | hpos
    · subst h0
      have hz : Int.tdiv (((0 : Nat) : Int) - 1) 2 = ((0 : Nat) : Int) := by decide
      simp only [heap.up, hz, if_true, Option.some.injEq] at hup
      subst hup
      exact hpre.stop_up (fun h => absurd h (lt_irrefl 0))
    · have hp := parent_pos j hpos
      have hne : ¬ ((((j - 1) / 2 : Nat) : Int) = (j : Int)) := by omega
      have hi : q[(j - 1) / 2]? = some q[(j - 1) / 2] := List.getElem?_eq_getElem (by omega)
      have hj : q[j]? = some q[j] := List.getElem?_eq_getElem (by omega)
      have hL := queue.Less_get specLess q j ((j - 1) / 2) _ _ hj hi
      simp only [heap.up, hp, if_neg hne, hL] at hup
      cases hb : specLess q[j] q[(j - 1) / 2] with
      | false =>
        simp only [hb, Option.some.injEq] at hup
        subst hup
        refine hpre.stop_up (fun _ => ?_)
        intro x y hx hy
        rw [rankAt_of_get hi] at hx
        rw [rankAt_of_get hj] at hy
        simp only [Option.some.injEq] at hx hy
        subst hx hy
        exact RLe.of_not_less hb
      | true =>
        obtain ⟨q1, hsw, hlen, h1, h2, h3⟩ :=
          queue.Swap_get q ((j - 1) / 2) j _ _ hi hj (by omega)
        simp only [hb, hsw] at hup
        have hs := FSwap.of_get h1 h2 h3 hi hj
        have hpre1 := hpre.swap_up hpos hjn (rankAt_of_get hi) (rankAt_of_get hj)
          (RLe.of_less hb) hs
        exact ih q1 ((j - 1) / 2) n (by omega) (by rw [hlen]; exact hn) hpre1 q2 hup

/-- The loop `down`, started at a position whose children may come before it:
either it moves nothing, and then the children are not before the position, or
it moves the entry and the heap condition holds on the first `n` positions. -/
theorem heap.down_heap :
    ∀ (fuel : Nat) (q : List (entry V)) (i0 i n : Nat), n ≤ q.length → i0 ≤ i →
      FDownPre (rankAt q) n i →
      ∀ q2 b, heap.down specLess fuel q (i0 : Int) (i : Int) (n : Int) = some (q2, b) →
        (q2 = q ∧ b = decide ((i : Int) > (i0 : Int)) ∧
          ∀ c, 0 < c → c < n → (c - 1) / 2 = i → FLe (rankAt q) i c) ∨
        (b = true ∧ FHeap (rankAt q2) n) := by
  intro fuel
  induction fuel with
  | zero =>
    intro q i0 i n _ _ _ q2 b hd
    simp [heap.down] at hd
  | succ fuel ih =>
    intro q i0 i n hn hi0 hpre q2 b hd
    have hj1 : (2 * (i : Int) + 1) = ((2 * i + 1 : Nat) : Int) := by push_cast; rfl
    by_cases hbrk : n ≤ 2 * i + 1
    · have : (2 * (i : Int) + 1 ≥ (n : Int) ∨ 2 * (i : Int) + 1 < 0) := Or.inl (by omega)
      simp only [heap.down, if_pos this, Option.some.injEq, Prod.mk.injEq] at hd
      left
      refine ⟨hd.1.symm, hd.2.symm, ?_⟩
      intro c hc0 hcn hpc
      omega
    · have hnb : ¬ (2 * (i : Int) + 1 ≥ (n : Int) ∨ 2 * (i : Int) + 1 < 0) := by omega
      have hj2 : (2 * (i : Int) + 1 + 1) = ((2 * i + 2 : Nat) : Int) := by push_cast; ring
      have hg1 : q[2 * i + 1]? = some q[2 * i + 1] := List.getElem?_eq_getElem (by omega)
      have hgi : q[i]? = some q[i] := List.getElem?_eq_getElem (by omega)
      obtain ⟨c, hc, j, hjdef, hjlo, hjn, hpj, hmin⟩ : ∃ c,
          (if 2 * (i : Int) + 1 + 1 < (n : Int) then
            queue.Less specLess q (2 * (i : Int) + 1 + 1) (2 * (i : Int) + 1) else some false)
            = some c ∧
          ∃ j : Nat, (if c = true then 2 * (i : Int) + 1 + 1 else 2 * (i : Int) + 1) = (j : Int) ∧
            i < j ∧ j < n ∧ (j - 1) / 2 = i ∧
            ∀ c2, 0 < c2 → c2 < n → (c2 - 1) / 2 = i → FLe (rankAt q) j c2 := by
        by_cases h2 : 2 * i + 2 < n
        · have hg2 : q[2 * i + 2]? = some q[2 * i + 2] := List.getElem?_eq_getElem (by omega)
          have hL := queue.Less_get specLess q (2 * i + 2) (2 * i + 1) _ _ hg2 hg1
          have hlt : 2 * (i : Int) + 1 + 1 < (n : Int) := by omega
          rw [if_pos hlt, hj2, hj1, hL]
          cases hb : specLess q[2 * i + 2] q[2 * i + 1] with
          | true =>
            refine ⟨true, rfl, 2 * i + 2, by simp, by omega, h2, by omega, ?_⟩
            intro c2 hc0 hcn hpc x y hx hy
            rw [rankAt_of_get hg2] at hx
            simp only [Option.some.injEq] at hx
            subst hx
            have hcc : c2 = 2 * i + 1 ∨ c2 = 2 * i + 2 := by omega
            rcases hcc with hcc | hcc
            · subst hcc
              rw [rankAt_of_get hg1] at hy
              simp only [Option.some.injEq] at hy
              subst hy
              exact RLe.of_less hb
            · subst hcc
              rw [rankAt_of_get hg2] at hy
              simp only [Option.some.injEq] at hy
              subst hy
              exact RLe.rfl_le _
          | false =>
            refine ⟨false, rfl, 2 * i + 1, by simp, by omega, by omega, by omega, ?_⟩
            intro c2 hc0 hcn hpc x y hx hy
            rw [rankAt_of_get hg1] at hx
            simp only [Option.some.injEq] at hx
            subst hx
            have hcc : c2 = 2 * i + 1 ∨ c2 = 2 * i + 2 := by omega
            rcases hcc with hcc | hcc
            · subst hcc
              rw [rankAt_of_get hg1] at hy
              simp only [Option.some.injEq] at hy
              subst hy
              exact RLe.rfl_le _
            · subst hcc
              rw [rankAt_of_get hg2] at hy
              simp only [Option.some.injEq] at hy
              subst hy
              exact RLe.of_not_less hb
        · have hlt : ¬ (2 * (i : Int) + 1 + 1 < (n : Int)) := by omega
          rw [if_neg hlt]
          refine ⟨false, rfl, 2 * i + 1, by simp, by omega, by omega, by omega, ?_⟩
          intro c2 hc0 hcn hpc x y hx hy
          have hcc : c2 = 2 * i + 1 := by omega
          subst hcc
          rw [hx] at hy
          simp only [Option.some.injEq] at hy
          subst hy
          exact RLe.rfl_le _
      have hgj : q[j]? = some q[j] := List.getElem?_eq_getElem (by omega)
      have hL := queue.Less_get specLess q j i _ _ hgj hgi
      simp only [heap.down, if_neg hnb, hc, hjdef, hL] at hd
      cases hb : specLess q[j] q[i] with
      | false =>
        simp only [hb, Option.some.injEq, Prod.mk.injEq] at hd
        left
        refine ⟨hd.1.symm, hd.2.symm, ?_⟩
        intro c2 hc0 hcn hpc x y hx hy
        rw [rankAt_of_get hgi] at hx
        simp only [Option.some.injEq] at hx
        subst hx
        exact (RLe.of_not_less hb).trans_le (hmin c2 hc0 hcn hpc _ _ (rankAt_of_get hgj) hy)
      | true =>
        obtain ⟨q1, hsw, hlen, h1, h2, h3⟩ := queue.Swap_get q i j _ _ hgi hgj (by omega)
        simp only [hb, hsw] at hd
        have hs := FSwap.of_get h1 h2 h3 hgi hgj
        obtain ⟨hpre1, hheap⟩ := hpre.swap_down (by omega) hjn hpj (rankAt_of_get hgi)
          (rankAt_of_get hgj) (RLe.of_less hb)
          (fun c2 hc0 hcn hpc y hy => hmin c2 hc0 hcn hpc _ _ (rankAt_of_get hgj) hy) hs
        right
        rcases ih q1 i0 j n (by rw [hlen]; exact hn) (by omega) hpre1 q2 b hd with
          ⟨hq, hbv, hch⟩ | ⟨hbv, hh⟩
        · subst hq
          refine ⟨?_, hheap hch⟩
          rw [hbv]
          simp only [decide_eq_true_eq]
          omega
        · exact ⟨hbv, hh⟩

theorem FHeap.root_min {q : List (entry V)} {n : Nat} (hn : n ≤ q.length)
    (h : FHeap (rankAt q) n) (r : entry V) (hr : q[0]? = some r) :
    ∀ m, m < n → ∀ e, q[m]? = some e → RLe (r.weight, r.ptr) (e.weight, e.ptr) := by
  intro m
  induction m using Nat.strong_induction_on with
  | _ m ih =>
    intro hm e he
    rcases Nat.eq_zero_or_pos m with hz | hpos
    · subst hz
      rw [hr] at he
      simp only [Option.some.injEq] at he
      subst he
      exact RLe.rfl_le _
    · have hp : q[(m - 1) / 2]? = some q[(m - 1) / 2] := List.getElem?_eq_getElem (by omega)
      have h1 := ih ((m - 1) / 2) (by omega) (by omega) _ hp
      have h2 := h m hpos hm _ _ (rankAt_of_get hp) (rankAt_of_get he)
      exact h1.trans_le h2

theorem FHeap.dropLast {q : List (entry V)} {n : Nat} (h : FHeap (rankAt q) n)
    (hn : n + 1 ≤ q.length) : FHeap (rankAt q.dropLast) n := by
  intro m hm0 hmn x y hx hy
  have e1 : rankAt q.dropLast ((m - 1) / 2) = rankAt q ((m - 1) / 2) := by
    simp only [rankAt, List.getElem?_dropLast]
    rw [if_pos (by omega)]
  have e2 : rankAt q.dropLast m = rankAt q m := by
    simp only [rankAt, List.getElem?_dropLast]
    rw [if_pos (by omega)]
  rw [e1] at hx
  rw [e2] at hy
  exact h m hm0 hmn x y hx hy

theorem FHeap.mono_heap {f : Nat → Option (Int × Nat)} {n n2 : Nat} (h : FHeap f n) (hn : n2 ≤ n) :
    FHeap f n2 :=
  fun m hm0 hmn => h m hm0 (by omega)

/-- A heap in which the pair at position `i` has been replaced satisfies what
`down` starts from at `i`. -/
theorem FHeap.replaced {f f1 : Nat → Option (Int × Nat)} {n i : Nat} (h : FHeap f n)
    (hsame : ∀ m, m < n → m ≠ i → f1 m = f m) (hin : i < n) (a : Int × Nat) (ha : f i = some a) :
    FDownPre f1 n i := by
  constructor
  · intro m hm0 hmn hmi hpi x y hx hy
    rw [hsame _ (by omega) hpi] at hx
    rw [hsame m hmn hmi] at hy
    exact h m hm0 hmn x y hx hy
  · intro hi0 c hc0 hcn hpc x y hx hy
    rw [hsame _ (by omega) (by omega)] at hx
    rw [hsame c hcn (by omega)] at hy
    have h1 := h i hi0 hin x a hx ha
    have h2 := h c hc0 hcn a y (hpc ▸ ha) hy
    exact h1.trans_le h2

theorem queue.Pop_eq (q q2 : List (entry V)) (x : entry V) (h : queue.Pop q = some (q2, x)) :
    q2 = q.dropLast := by
  unfold queue.Pop at h
  split at h
  · simp only [Option.some.injEq, Prod.mk.injEq] at h
    exact h.1.symm
  · exact Option.noConfusion h

theorem heap.Push_heap (q : List (entry V)) (x : entry V)
    (h : FHeap (rankAt q) q.length) (q2 : List (entry V))
    (hpush : heap.Push specLess q x = some q2) : FHeap (rankAt q2) q2.length := by
  have hl : (queue.Push q x).length = q.length + 1 := by simp [queue.Push]
  have hj : queue.Len (queue.Push q x) - 1 = ((q.length : Nat) : Int) := by
    simp [queue.Len, hl]
  obtain ⟨q3, hu, hr⟩ := heap.up_spec specLess ((queue.Push q x).length + 1) (queue.Push q x)
    q.length (by omega) (by omega)
  simp only [heap.Push, hj] at hpush
  rw [hu] at hpush
  simp only [Option.some.injEq] at hpush
  subst hpush
  rw [hr.length_eq, hl]
  refine heap.up_heap _ (queue.Push q x) q.length (q.length + 1) (by omega) (by omega) ?_ _ hu
  constructor
  · intro m hm0 hmn hmj a b hx hy
    have e1 : rankAt (queue.Push q x) ((m - 1) / 2) = rankAt q ((m - 1) / 2) := by
      simp only [rankAt, queue.Push]
      rw [List.getElem?_append_left (by omega)]
    have e2 : rankAt (queue.Push q x) m = rankAt q m := by
      simp only [rankAt, queue.Push]
      rw [List.getElem?_append_left (by omega)]
    rw [e1] at hx
    rw [e2] at hy
    exact h m hm0 (by omega) _ _ hx hy
  · intro _ c hc0 hcn hpc
    omega

theorem heap.fix_heap (q : List (entry V)) (i n : Nat) (hin : i < n) (hn : n ≤ q.length)
    (hpre : FDownPre (rankAt q) n i) (q1 : List (entry V)) (moved : Bool) (fd : Nat)
    (hd : heap.down specLess fd q (i : Int) (i : Int) (n : Int) = some (q1, moved)) :
    (moved = true ∧ FHeap (rankAt q1) n) ∨
    (moved = false ∧ q1 = q ∧
      ∀ fu q2, heap.up specLess fu q1 (i : Int) = some q2 → FHeap (rankAt q2) n) := by
  rcases heap.down_heap _ q i i n hn (le_refl _) hpre q1 moved hd with ⟨hq, hb, hch⟩ | ⟨hb, hh⟩
  · right
    subst hq
    refine ⟨by rw [hb]; simp, rfl, ?_⟩
    intro fu q2 hup
    exact heap.up_heap fu q1 i n hin hn (hpre.stop_down hch) q2 hup
  · exact Or.inl ⟨hb, hh⟩

theorem heap.Fix_heap (q : List (entry V)) (i : Nat) (hi : i < q.length)
    (hpre : FDownPre (rankAt q) q.length i) (q2 : List (entry V))
    (hfix : heap.Fix specLess q (i : Int) = some q2) : FHeap (rankAt q2) q2.length := by
  obtain ⟨q1, b, hd, hr1⟩ := heap.down_spec specLess (q.length + 1) q (i : Int) i q.length
    (le_refl _) (by omega) (by omega)
  simp only [heap.Fix, queue.Len, hd] at hfix
  rcases heap.fix_heap q i q.length hi (le_refl _) hpre q1 b _ hd with ⟨hb, hh⟩ | ⟨hb, hq, hup⟩
  · subst hb
    simp only [if_true, Option.some.injEq] at hfix
    subst hfix
    rw [hr1.length_eq]
    exact hh
  · subst hb
    subst hq
    simp only [Bool.false_eq_true, if_false] at hfix
    obtain ⟨q3, hu, hr2⟩ := heap.up_spec specLess (q1.length + 1) q1 i hi (by omega)
    rw [hu] at hfix
    simp only [Option.some.injEq] at hfix
    subst hfix
    rw [hr2.length_eq]
    exact hup _ _ hu

theorem heap.Pop_heap (q : List (entry V)) (h : FHeap (rankAt q) q.length)
    (hlen : 0 < q.length) (q2 : List (entry V)) (x : entry V)
    (hpop : heap.Pop specLess q = some (q2, x)) : FHeap (rankAt q2) q2.length := by
  obtain ⟨q2s, xs, hpops, -, hl2, -, -⟩ := heap.Pop_spec specLess q hlen
  rw [hpop] at hpops
  simp only [Option.some.injEq, Prod.mk.injEq] at hpops
  obtain ⟨hq2, -⟩ := hpops
  subst hq2
  rcases Nat.eq_zero_or_pos q2.length with hz | hpos
  · rw [hz]
    intro m hm0 hmn
    omega
  · have hn : queue.Len q - 1 = ((q.length - 1 : Nat) : Int) := by
      simp only [queue.Len]; omega
    have hg0 : q[0]? = some q[0] := List.getElem?_eq_getElem hlen
    have hgn : q[q.length - 1]? = some q[q.length - 1] := List.getElem?_eq_getElem (by omega)
    obtain ⟨q1, hsw, hlen1, h1, h2, h3⟩ :=
      queue.Swap_get q 0 (q.length - 1) _ _ hg0 hgn (by omega)
    obtain ⟨q3, b, hd, hr2⟩ := heap.down_spec specLess (q.length + 1) q1 0 0 (q.length - 1)
      (by rw [hlen1]; omega) (by omega) (by omega)
    have hs := FSwap.of_get h1 h2 h3 hg0 hgn
    have hpre : FDownPre (rankAt q1) (q.length - 1) 0 := by
      constructor
      · intro m hm0 hmn hmi hpi a c ha hc
        rw [hs.2.2 _ hpi (by omega)] at ha
        rw [hs.2.2 m hmi (by omega)] at hc
        exact h m hm0 (by omega) _ _ ha hc
      · intro h0
        omega
    have hheap : FHeap (rankAt q3) (q.length - 1) := by
      rcases heap.down_heap _ q1 0 0 (q.length - 1) (by rw [hlen1]; omega) (le_refl _) hpre
        q3 b hd with ⟨hq, -, hch⟩ | ⟨-, hh⟩
      · subst hq
        exact (hpre.stop_down hch).stop_up (fun h0 => absurd h0 (lt_irrefl 0))
      · exact hh
    have h0 : ((0 : Nat) : Int) = 0 := rfl
    rw [h0] at hsw hd
    simp only [heap.Pop, hn, hsw, hd] at hpop
    have hq2 := queue.Pop_eq q3 q2 x hpop
    subst hq2
    have hl3 : q3.length = q.length := hr2.length_eq.trans hlen1
    have : q3.dropLast.length = q.length - 1 := by simp [hl3]
    rw [this]
    exact hheap.dropLast (by omega)

theorem heap.Remove_heap (q : List (entry V)) (i : Nat) (hi : i < q.length)
    (h : FHeap (rankAt q) q.length) (q2 : List (entry V)) (x : entry V)
    (hrem : heap.Remove specLess q (i : Int) = some (q2, x)) : FHeap (rankAt q2) q2.length := by
  have hn : queue.Len q - 1 = ((q.length - 1 : Nat) : Int) := by
    simp only [queue.Len]; omega
  by_cases hin : i = q.length - 1
  · have hne : ¬ (((q.length - 1 : Nat) : Int) ≠ (i : Int)) := by omega
    simp only [heap.Remove, hn, if_neg hne] at hrem
    have hq2 := queue.Pop_eq q q2 x hrem
    subst hq2
    have : q.dropLast.length = q.length - 1 := by simp
    rw [this]
    exact (h.mono_heap (by omega)).dropLast (by omega)
  · have hne : (((q.length - 1 : Nat) : Int) ≠ (i : Int)) := by omega
    have hgi : q[i]? = some q[i] := List.getElem?_eq_getElem hi
    have hgn : q[q.length - 1]? = some q[q.length - 1] := List.getElem?_eq_getElem (by omega)
    obtain ⟨q1, hsw, hlen1, h1, h2, h3⟩ :=
      queue.Swap_get q i (q.length - 1) _ _ hgi hgn (by omega)
    obtain ⟨q3, b, hd, hr2⟩ := heap.down_spec specLess (q.length + 1) q1 (i : Int) i
      (q.length - 1) (by rw [hlen1]; omega) (by omega) (by omega)
    have hs := FSwap.of_get h1 h2 h3 hgi hgn
    have hpre : FDownPre (rankAt q1) (q.length - 1) i :=
      (h.mono_heap (Nat.sub_le _ _)).replaced (fun m hm hmi => hs.2.2 m hmi (by omega)) (by omega) _
        (rankAt_of_get hgi)
    have hl3 : q3.length = q.length := hr2.length_eq.trans hlen1
    simp only [heap.Remove, hn, if_pos hne, hsw, hd] at hrem
    rcases heap.fix_heap q1 i (q.length - 1) (by omega) (by rw [hlen1]; omega) hpre q3 b _ hd with
      ⟨hb, hh⟩ | ⟨hb, hq, hup⟩
    · subst hb
      simp only [if_true] at hrem
      have hq2 := queue.Pop_eq q3 q2 x hrem
      subst hq2
      have : q3.dropLast.length = q.length - 1 := by simp [hl3]
      rw [this]
      exact hh.dropLast (by omega)
    · subst hb
      obtain ⟨q4, hu, hr3⟩ := heap.up_spec specLess (q.length + 1) q3 i (by omega) (by omega)
      simp only [Bool.false_eq_true, if_false, hu] at hrem
      have hq2 := queue.Pop_eq q4 q2 x hrem
      subst hq2
      have hl4 : q4.length = q.length := hr3.length_eq.trans hl3
      have : q4.dropLast.length = q.length - 1 := by simp [hl4]
      rw [this]
      exact (hup _ _ hu).dropLast (by omega)

theorem QLinked.pos_unique {q : List (entry V)} {cache : PtrMap} {fresh : Nat}
    (h : QLinked q cache fresh) (m i : Nat) (a e : entry V) (ha : q[m]? = some a)
    (he : q[i]? = some e) (hp : a.ptr = e.ptr) : m = i := by
  have h1 := h.deref_of_mem_q a (List.getElem?_mem ha)
  have h2 := h.deref_of_mem_q e (List.getElem?_mem he)
  rw [hp, h2] at h1
  simp only [Option.some.injEq] at h1
  subst h1
  have i1 := h.idx m e ha
  have i2 := h.idx i e he
  omega

theorem queue.update_heap {q : List (entry V)} {cache : PtrMap} {fresh : Nat}
    (hl : QLinked q cache fresh) (h : FHeap (rankAt q) q.length) (e : entry V) (he : e ∈ q)
    (v : V) (w : Int) (q2 : List (entry V))
    (hu : queue.update specLess q e v w = some q2) : FHeap (rankAt q2) q2.length := by
  obtain ⟨i, hi, hidx, hgi⟩ := hl.index_of_mem e he
  have hla : (queue.assign q e.ptr v w).length = q.length := by simp [queue.assign]
  simp only [queue.update, hidx] at hu
  refine heap.Fix_heap (queue.assign q e.ptr v w) i (by omega) ?_ q2 hu
  rw [hla]
  refine h.replaced ?_ hi _ (rankAt_of_get hgi)
  intro m hm hmi
  have hgm : q[m]? = some q[m] := List.getElem?_eq_getElem hm
  have hne : q[m].ptr ≠ e.ptr := fun hp => hmi (hl.pos_unique m i _ _ hgm hgi hp)
  simp only [rankAt, queue.assign, List.getElem?_map, hgm, Option.map_some', if_neg hne]

end lfu

namespace lfu

variable {V : Type} (CalcLen : V → Int)

theorem DelOldest_heap (s s1 : lfu V) (h : FHeap (rankAt s.queue) s.queue.length)
    (hd : DelOldest CalcLen specLess s = some s1) : s1.heapOrdered := by
  unfold DelOldest at hd
  split at hd
  · simp only [Option.some.injEq] at hd
    subst hd
    exact h
  · rename_i hne
    have hlen : 0 < s.queue.length := by
      simp only [queue.Len] at hne
      omega
    cases hp : heap.Pop specLess s.queue with
    | none => simp [hp] at hd
    | some r =>
      obtain ⟨q, x⟩ := r
      simp only [hp, Option.some.injEq] at hd
      subst hd
      have := heap.Pop_heap s.queue h hlen q x hp
      simpa [heapOrdered, removeElement] using this

theorem Set_heap (s s1 : lfu V) (k : String) (v : V) (hl : s.linked) (h : s.heapOrdered)
    (hs : Set CalcLen specLess s k v = some s1) : s1.heapOrdered := by
  cases hg : PtrMap.get s.cache k with
  | none =>
    obtain ⟨q2, hpush, -, -, -, hset⟩ := Set_miss_lfu CalcLen specLess s k v hl hg
    have h2 := heap.Push_heap s.queue _ h q2 hpush
    rw [hset] at hs
    split at hs
    · exact DelOldest_heap CalcLen _ s1 h2 hs
    · simp only [Option.some.injEq] at hs
      subst hs
      exact h2
  | some p =>
    obtain ⟨e, hd, he, -, -⟩ := QLinked.get_deref_q hl k p hg
    simp only [Set, hg, hd] at hs
    cases hu : queue.update specLess s.queue e v (e.weight + 1) with
    | none => simp [hu] at hs
    | some q2 =>
      simp only [hu, Option.some.injEq] at hs
      subst hs
      exact queue.update_heap hl h e he v _ q2 hu

theorem Get_heap (s s1 : lfu V) (k : String) (r : Option V) (hl : s.linked)
    (h : s.heapOrdered) (hs : Get specLess s k = some (s1, r)) : s1.heapOrdered := by
  cases hg : PtrMap.get s.cache k with
  | none =>
    rw [Get_miss_lfu specLess s k hg] at hs
    simp only [Option.some.injEq, Prod.mk.injEq] at hs
    rw [← hs.1]
    exact h
  | some p =>
    obtain ⟨e, hd, he, -, -⟩ := QLinked.get_deref_q hl k p hg
    simp only [Get, hg, hd] at hs
    cases hu : queue.update specLess s.queue e e.value (e.weight + 1) with
    | none => simp [hu] at hs
    | some q2 =>
      simp only [hu, Option.some.injEq, Prod.mk.injEq] at hs
      rw [← hs.1]
      exact queue.update_heap hl h e he _ _ q2 hu

theorem Del_heap (s s1 : lfu V) (k : String) (hl : s.linked) (h : s.heapOrdered)
    (hs : Del CalcLen specLess s k = some s1) : s1.heapOrdered := by
  cases hg : PtrMap.get s.cache k with
  | none =>
    rw [Del_miss_lfu CalcLen specLess s k hg] at hs
    simp only [Option.some.injEq] at hs
    subst hs
    exact h
  | some p =>
    obtain ⟨e, hd, he, -, -⟩ := QLinked.get_deref_q hl k p hg
    obtain ⟨i, hi, hidx, -⟩ := QLinked.index_of_mem hl e he
    simp only [Del, hg, hd, hidx] at hs
    cases hr : heap.Remove specLess s.queue (i : Int) with
    | none => simp [hr] at hs
    | some r =>
      obtain ⟨q2, x⟩ := r
      simp only [hr, Option.some.injEq] at hs
      subst hs
      have := heap.Remove_heap s.queue i hi h q2 x hr
      simpa [heapOrdered, removeElement] using this

theorem step_heap (s s1 : lfu V) (op : Op V) (hl : s.linked) (h : s.heapOrdered)
    (hs : step CalcLen specLess s op = some s1) : s1.heapOrdered := by
  cases op with
  | Set k v => exact Set_heap CalcLen s s1 k v hl h hs
  | Get k =>
    simp only [step, Option.map_eq_some', Prod.exists, exists_and_right, exists_eq_right] at hs
    obtain ⟨r, hr⟩ := hs
    exact Get_heap s s1 k r hl h hr
  | Del k => exact Del_heap CalcLen s s1 k hl h hs
  | DelOldest => exact DelOldest_heap CalcLen s s1 h hs

theorem run_heap (ops : List (Op V)) (s s1 : lfu V) (hl : s.linked) (h : s.heapOrdered)
    (hs : run CalcLen specLess s ops = some s1) : s1.heapOrdered := by
  induction ops generalizing s with
  | nil =>
    simp only [run, Option.some.injEq] at hs
    subst hs
    exact h
  | cons op rest ih =>
    obtain ⟨s2, hstep, hl2, -, -⟩ := step_ok CalcLen specLess s op hl
    simp only [run, hstep] at hs
    exact ih s2 hl2 (step_heap CalcLen s s2 op hl h hstep) hs

end lfu

theorem lfu.root_least {V : Type} {q : List (lfu.entry V)} (h : lfu.FHeap (lfu.rankAt q) q.length)
    (r : lfu.entry V) (hr : q[0]? = some r) :
    ∀ e ∈ q, r.weight ≤ e.weight ∧ (e.weight = r.weight → r.ptr ≤ e.ptr) := by
  intro e he
  obtain ⟨m, hm⟩ := List.mem_iff_getElem?.1 he
  have hml : m < q.length := by
    by_contra hcon
    rw [List.getElem?_eq_none (by omega)] at hm
    exact Option.noConfusion hm
  have := lfu.FHeap.root_min (le_refl _) h r hr m hml e hm
  unfold lfu.RLe at this
  simp only at this
  omega

theorem lfu.strip_fields {V : Type} {a b : lfu.entry V} (h : lfu.strip a = lfu.strip b) :
    a.ptr = b.ptr ∧ a.key = b.key ∧ a.value = b.value ∧ a.weight = b.weight := by
  have h1 := congrArg (fun e : lfu.entry V => e.ptr) h
  have h2 := congrArg (fun e : lfu.entry V => e.key) h
  have h3 := congrArg (fun e : lfu.entry V => e.value) h
  have h4 := congrArg (fun e : lfu.entry V => e.weight) h
  exact ⟨h1, h2, h3, h4⟩

theorem lfu.least_of_strip_perm {V : Type} {q q2 : List (lfu.entry V)} (x : lfu.entry V)
    (hp : (q2.map lfu.strip).Perm (q.map lfu.strip))
    (h : ∀ e ∈ q2, x.weight ≤ e.weight ∧ (e.weight = x.weight → x.ptr ≤ e.ptr)) :
    ∀ e ∈ q, x.weight ≤ e.weight ∧ (e.weight = x.weight → x.ptr ≤ e.ptr) := by
  intro e he
  have hmem : lfu.strip e ∈ q2.map lfu.strip := hp.mem_iff.2 (List.mem_map_of_mem lfu.strip he)
  obtain ⟨e2, he2, hs⟩ := List.mem_map.1 hmem
  obtain ⟨hq, -, -, hw⟩ := lfu.strip_fields hs
  have := h e2 he2
  rw [hw, hq] at this
  exact this

theorem lfu.DelOldest_least {V : Type} (CalcLen : V → Int) (s : lfu V) (hl : s.linked)
    (h : s.heapOrdered) (hne : 0 < s.queue.length) :
    ∃ r s1, s.queue[0]? = some r ∧ lfu.DelOldest CalcLen lfu.specLess s = some s1 ∧
      s1.calls.map (fun c => (c.key, c.value))
        = s.calls.map (fun c => (c.key, c.value))
          ++ (if s.onEvicted then [(r.key, r.value)] else []) ∧
      PtrMap.get s1.cache r.key = none ∧
      lfu.Len s1 = lfu.Len s - 1 ∧
      ∀ e ∈ s.queue, r.weight ≤ e.weight ∧ (e.weight = r.weight → r.ptr ≤ e.ptr) := by
  obtain ⟨q2, x, hpop, hlen, -, hl2, -, -, hx⟩ := lfu.pop_lfu lfu.specLess hl hne
  have hr : s.queue[0]? = some s.queue[0] := List.getElem?_eq_getElem hne
  obtain ⟨-, hxk, hxv, -⟩ := lfu.strip_fields hx
  have hq : ¬ (lfu.queue.Len s.queue = 0) := by simp only [lfu.queue.Len]; omega
  have hdo : lfu.DelOldest CalcLen lfu.specLess s
      = some (lfu.removeElement CalcLen { s with queue := q2 } (some x)) := by
    simp only [lfu.DelOldest, hq, if_false, hpop]
  refine ⟨s.queue[0], _, hr, hdo, ?_, ?_, ?_, lfu.root_least h _ hr⟩
  · simp only [lfu.removeElement, lfu.notify_calls_lfu, hxk, hxv]
    cases s.onEvicted <;> simp
  · simp only [lfu.removeElement, lfu.notify_cache_lfu, hxk]
    exact PtrMap.get_delete_self _ _
  · simp only [lfu.removeElement, lfu.Len, lfu.queue.Len, lfu.notify_queue_lfu]
    omega

theorem lfu.Set_evicts_least {V : Type} (CalcLen : V → Int) (s : lfu V) (hl : s.linked)
    (h : s.heapOrdered) (k : String) (v : V) (hg : PtrMap.get s.cache k = none)
    (hpos : s.maxBytes > 0) (hover : s.usedBytes + CalcLen v > s.maxBytes) :
    ∃ x s1, lfu.Set CalcLen lfu.specLess s k v = some s1 ∧
      s1.calls.map (fun c => (c.key, c.value))
        = s.calls.map (fun c => (c.key, c.value))
          ++ (if s.onEvicted then [(x.key, x.value)] else []) ∧
      PtrMap.get s1.cache x.key = none ∧
      lfu.strip x ∈ (s.queue ++ [(⟨s.fresh, k, v, 0, 0⟩ : lfu.entry V)]).map lfu.strip ∧
      ∀ e ∈ s.queue ++ [(⟨s.fresh, k, v, 0, 0⟩ : lfu.entry V)],
        x.weight ≤ e.weight ∧ (e.weight = x.weight → x.ptr ≤ e.ptr) := by
  obtain ⟨q2, hpush, hlen, hperm, hl2, hset⟩ := lfu.Set_miss_lfu CalcLen lfu.specLess s k v hl hg
  have h2 := lfu.heap.Push_heap s.queue _ h q2 hpush
  obtain ⟨q3, x, hpop, hlen3, hperm3, -, -, -, hx⟩ := lfu.pop_lfu lfu.specLess hl2 (by omega)
  have hr : q2[0]? = some q2[0] := List.getElem?_eq_getElem (by omega)
  obtain ⟨hxp, -, -, hxw⟩ := lfu.strip_fields hx
  have hq : ¬ (lfu.queue.Len q2 = 0) := by simp only [lfu.queue.Len]; omega
  have hperm2 : (q2.map lfu.strip).Perm
      ((s.queue ++ [(⟨s.fresh, k, v, 0, 0⟩ : lfu.entry V)]).map lfu.strip) := by
    simpa using hperm
  have hdo : lfu.Set CalcLen lfu.specLess s k v
      = some (lfu.removeElement CalcLen { s with
          queue := q3
          fresh := s.fresh + 1
          cache := s.cache ++ [(k, s.fresh)]
          usedBytes := s.usedBytes + CalcLen v } (some x)) := by
    rw [hset, if_pos ⟨hpos, hover⟩]
    simp only [lfu.DelOldest, hq, if_false, hpop]
  refine ⟨x, _, hdo, ?_, ?_, ?_, ?_⟩
  · simp only [lfu.removeElement, lfu.notify_calls_lfu]
    cases s.onEvicted <;> simp
  · simp only [lfu.removeElement, lfu.notify_cache_lfu]
    exact PtrMap.get_delete_self _ _
  · apply hperm2.mem_iff.1
    rw [hx]
    exact List.mem_map_of_mem lfu.strip (List.getElem?_mem hr)
  · apply lfu.least_of_strip_perm x hperm2
    rw [hxw, hxp]
    exact lfu.root_least h2 _ hr

theorem lfu.ptr_lt_fresh {V : Type} (s : lfu V) (hl : s.linked) :
    ∀ e ∈ s.queue, e.ptr < s.fresh := by
  intro e he
  exact hl.fresh_bound e.ptr (List.mem_map_of_mem (fun a : lfu.entry V => a.ptr) he)

/-- With an order that compares the weights alone, the entry evicted among
entries of equal weight is not always the earliest inserted: budget 3, unit
weights, five inserts; the second eviction takes d and keeps b and c. -/
theorem lfu.weight_alone_is_not_insertion_order :
    (lfu.run (fun _ : Nat => (1 : Int)) (fun a b => decide (a.weight < b.weight))
      (lfu.New 3 true)
      [Op.Set "a" 1, Op.Set "b" 2, Op.Set "c" 3, Op.Set "d" 4, Op.Set "e" 5]).map
        (fun l => l.calls.map (fun c => (c.key, c.value)))
      = some [("a", 1), ("d", 4)] := by
  decide

/-! ## The FIFO and LRU engines on `int`: reachable states -/

namespace fifo.int64

variable {V : Type} (CalcLen : V → Int)

theorem removeElement_reweigh (f : engine V) (e : Element V) :
    removeElement CalcLen f (some e) =
      fifo.removeElement CalcLen { f with
        usedBytes := wrap64 (f.usedBytes - wrap64 (CalcLen e.Value.value))
          + CalcLen e.Value.value } (some e) := by
  simp only [removeElement, fifo.removeElement, add_sub_cancel_right]

theorem removeElement_shape (f : engine V) (e : Option (Element V)) :
    ∃ u, removeElement CalcLen f e = fifo.removeElement CalcLen { f with usedBytes := u } e := by
  cases e with
  | none => exact ⟨f.usedBytes, rfl⟩
  | some e => exact ⟨_, removeElement_reweigh CalcLen f e⟩

theorem DelOldest_shape (f : engine V) :
    ∃ u, DelOldest CalcLen f = fifo.DelOldest CalcLen { f with usedBytes := u } :=
  removeElement_shape CalcLen f _

theorem Del_shape (f : engine V) (k : String) :
    ∃ u, Del CalcLen f k = fifo.Del CalcLen { f with usedBytes := u } k := by
  cases hg : PtrMap.get f.cache k with
  | none => exact ⟨f.usedBytes, by simp [Del, fifo.Del, hg]⟩
  | some p =>
    obtain ⟨u, hu⟩ := removeElement_shape CalcLen f (list.deref f.ll p)
    exact ⟨u, by simp only [Del, fifo.Del, hg, hu]⟩

theorem Set_hit_shape (f : engine V) (k : String) (v : V) (p : Nat)
    (hg : PtrMap.get f.cache k = some p) :
    ∃ u, Set CalcLen f k v = fifo.Set CalcLen { f with usedBytes := u } k v := by
  cases hd : list.deref f.ll p with
  | none => exact ⟨f.usedBytes, by simp [Set, fifo.Set, hg, hd]⟩
  | some e =>
    refine ⟨wrap64 (wrap64 (f.usedBytes - wrap64 (CalcLen e.Value.value)) + wrap64 (CalcLen v))
      - CalcLen v + CalcLen e.Value.value, ?_⟩
    simp only [Set, fifo.Set, hg, hd, add_sub_cancel_right, sub_add_cancel]

theorem Set_miss64 (f : engine V) (k : String) (v : V)
    (hg : PtrMap.get f.cache k = none) :
    Set CalcLen f k v =
      let s3 : engine V := { f with
        ll := f.ll ++ [⟨f.fresh, ⟨k, v⟩⟩]
        fresh := f.fresh + 1
        cache := f.cache ++ [(k, f.fresh)]
        usedBytes := wrap64 (f.usedBytes + wrap64 (CalcLen v)) }
      if f.maxBytes > 0 ∧ wrap64 (f.usedBytes + wrap64 (CalcLen v)) > f.maxBytes then
        DelOldest CalcLen s3
      else s3 := by
  have hk1 : k ∉ f.cache.map Prod.fst := (PtrMap.get_eq_none_iff f.cache k).1 hg
  simp only [Set, hg, list.PushBack, PtrMap.set, PtrMap.delete_of_not_mem f.cache k hk1]

theorem DelOldest_linked64 (f : engine V) (h : f.linked) : (DelOldest CalcLen f).linked := by
  obtain ⟨u, hu⟩ := DelOldest_shape CalcLen f
  rw [hu]
  exact fifo.DelOldest_linked CalcLen { f with usedBytes := u } h

theorem Del_linked64 (f : engine V) (k : String) (h : f.linked) :
    (Del CalcLen f k).linked := by
  obtain ⟨u, hu⟩ := Del_shape CalcLen f k
  rw [hu]
  exact fifo.Del_linked CalcLen { f with usedBytes := u } k h

theorem Set_linked64 (f : engine V) (k : String) (v : V) (h : f.linked) :
    (Set CalcLen f k v).linked := by
  cases hg : PtrMap.get f.cache k with
  | none =>
    rw [Set_miss64 CalcLen f k v hg]
    have h3 := Linked.push_append h k v hg
    dsimp only
    split
    · exact DelOldest_linked64 CalcLen _ h3
    · exact h3
  | some p =>
    obtain ⟨u, hu⟩ := Set_hit_shape CalcLen f k v p hg
    rw [hu]
    exact fifo.Set_linked CalcLen { f with usedBytes := u } k v h

theorem step_linked64 (f : engine V) (op : Op V) (h : f.linked) :
    (step CalcLen f op).linked := by
  cases op with
  | Set k v => exact Set_linked64 CalcLen f k v h
  | Get k => exact fifo.step_linked CalcLen f (Op.Get k) h
  | Del k => exact Del_linked64 CalcLen f k h
  | DelOldest => exact DelOldest_linked64 CalcLen f h

theorem run_linked64 (f : engine V) (ops : List (Op V)) (h : f.linked) :
    (run CalcLen f ops).linked := by
  induction ops generalizing f with
  | nil => exact h
  | cons op rest ih => exact ih _ (step_linked64 CalcLen f op h)

theorem step_config64 (f : engine V) (op : Op V) :
    (step CalcLen f op).maxBytes = f.maxBytes ∧
    (step CalcLen f op).onEvicted = f.onEvicted := by
  cases op with
  | Set k v =>
    cases hg : PtrMap.get f.cache k with
    | none =>
      simp only [step, Set_miss64 CalcLen f k v hg]
      split
      · obtain ⟨u, hu⟩ := DelOldest_shape CalcLen ({ f with
          ll := f.ll ++ [⟨f.fresh, ⟨k, v⟩⟩]
          fresh := f.fresh + 1
          cache := f.cache ++ [(k, f.fresh)]
          usedBytes := wrap64 (f.usedBytes + wrap64 (CalcLen v)) } : engine V)
        rw [hu]
        exact fifo.removeElement_config CalcLen _ _
      · exact ⟨rfl, rfl⟩
    | some p =>
      obtain ⟨u, hu⟩ := Set_hit_shape CalcLen f k v p hg
      simp only [step, hu]
      exact fifo.Set_config CalcLen { f with usedBytes := u } k v
  | Get k => exact fifo.step_config CalcLen f (Op.Get k)
  | Del k =>
    obtain ⟨u, hu⟩ := Del_shape CalcLen f k
    simp only [step, hu]
    exact fifo.step_config CalcLen { f with usedBytes := u } (Op.Del k)
  | DelOldest =>
    obtain ⟨u, hu⟩ := DelOldest_shape CalcLen f
    simp only [step, hu]
    exact fifo.removeElement_config CalcLen { f with usedBytes := u } _

theorem run_config64 (f : engine V) (ops : List (Op V)) :
    (run CalcLen f ops).maxBytes = f.maxBytes ∧
    (run CalcLen f ops).onEvicted = f.onEvicted := by
  induction ops generalizing f with
  | nil => exact ⟨rfl, rfl⟩
  | cons op rest ih =>
    have h1 := ih (step CalcLen f op)
    have h2 := step_config64 CalcLen f op
    exact ⟨h1.1.trans h2.1, h1.2.trans h2.2⟩

theorem DelOldest_cons64 (s : engine V) (e : Element V) (rest : List (Element V))
    (hs : s.ll = e :: rest) (hnd : (list.ptrs s.ll).Nodup) :
    DelOldest CalcLen s =
      engine.notify { s with
        ll := rest
        usedBytes := wrap64 (s.usedBytes - wrap64 (CalcLen e.Value.value))
        cache := PtrMap.delete s.cache e.Value.key } e.Value.key e.Value.value := by
  have h1 : DelOldest CalcLen s = removeElement CalcLen s (some e) := by
    simp [DelOldest, list.Front, hs]
  rw [h1, removeElement_reweigh]
  have h2 := fifo.DelOldest_cons CalcLen ({ s with
    usedBytes := wrap64 (s.usedBytes - wrap64 (CalcLen e.Value.value))
      + CalcLen e.Value.value } : engine V) e rest hs hnd
  have h3 : fifo.DelOldest CalcLen ({ s with
      usedBytes := wrap64 (s.usedBytes - wrap64 (CalcLen e.Value.value))
        + CalcLen e.Value.value } : engine V)
      = fifo.removeElement CalcLen ({ s with
      usedBytes := wrap64 (s.usedBytes - wrap64 (CalcLen e.Value.value))
        + CalcLen e.Value.value } : engine V) (some e) := by
    simp [fifo.DelOldest, list.Front, hs]
  rw [← h3, h2]
  simp only [add_sub_cancel_right]

theorem Set_fresh64 (s : engine V) (k : String) (v : V) (hl : s.linked)
    (hg : PtrMap.get s.cache k = none) (hpos : s.maxBytes > 0) :
    FreshInsertEffect64 CalcLen s (Set CalcLen s k v) k v := by
  have h3 := Linked.push_append hl k v hg
  rw [Set_miss64 CalcLen s k v hg]
  dsimp only
  constructor
  · intro hc
    rw [if_pos ⟨hpos, hc⟩]
    obtain ⟨e, rest, hs⟩ : ∃ e rest, s.ll ++ [(⟨s.fresh, ⟨k, v⟩⟩ : Element V)] = e :: rest := by
      cases hs : s.ll ++ [(⟨s.fresh, ⟨k, v⟩⟩ : Element V)] with
      | nil => simp at hs
      | cons e rest => exact ⟨e, rest, rfl⟩
    refine ⟨e, rest, hs, ?_⟩
    rw [DelOldest_cons64 CalcLen _ e rest hs h3.ptrs_nodup]
    have hlen : rest.length = s.ll.length := by
      have := congrArg List.length hs
      simp only [List.length_append, List.length_cons, List.length_nil] at this
      omega
    refine ⟨by simp, by simp, by simp, ?_, ?_⟩
    · simp only [engine.notify_ll, engine.notify_cache, engine.notify_usedBytes,
        engine.notify_calls]
    · simp only [engine.notify_ll, list.Len, hlen]
  · intro hc
    rw [if_neg (fun h => hc h.2)]
    refine ⟨rfl, rfl, rfl, rfl, ?_⟩
    simp [list.Len]

theorem Set_hit64 (s : engine V) (k : String) (v : V) (p : Nat)
    (hl : Linked s.ll s.cache s.fresh) (hg : PtrMap.get s.cache k = some p) :
    ∃ l1 l2 e, s.ll = l1 ++ e :: l2 ∧ e.Value.key = k ∧ e.ptr = p ∧
      (∀ x ∈ l1, x.ptr ≠ p) ∧ (∀ x ∈ l2, x.ptr ≠ p) ∧
      Set CalcLen s k v = { s with
        ll := l1 ++ l2 ++ [⟨p, ⟨k, v⟩⟩]
        usedBytes := wrap64 (wrap64 (s.usedBytes - wrap64 (CalcLen e.Value.value))
          + wrap64 (CalcLen v)) } := by
  obtain ⟨e, hd, he, hk, hp⟩ := hl.get_deref k p hg
  obtain ⟨l1, l2, hs, h1, h2⟩ := list.split_of_mem s.ll e he hl.ptrs_nodup
  subst hk hp
  refine ⟨l1, l2, e, hs, rfl, rfl, h1, h2, ?_⟩
  simp only [Set, hg, hd]
  rw [hs, list.MoveToBack_split l1 l2 e h1 h2, list.setValue_back l1 l2 e v h1 h2]

theorem removeElement_split64 (s : engine V) (l1 l2 : List (Element V)) (e : Element V)
    (hs : s.ll = l1 ++ e :: l2)
    (h1 : ∀ x ∈ l1, x.ptr ≠ e.ptr) (h2 : ∀ x ∈ l2, x.ptr ≠ e.ptr) :
    removeElement CalcLen s (some e) =
      engine.notify { s with
        ll := l1 ++ l2
        usedBytes := wrap64 (s.usedBytes - wrap64 (CalcLen e.Value.value))
        cache := PtrMap.delete s.cache e.Value.key } e.Value.key e.Value.value := by
  simp only [removeElement, hs, list.Remove_split l1 l2 e h1 h2]

theorem Del_hit64 (s : engine V) (k : String) (p : Nat)
    (hl : Linked s.ll s.cache s.fresh) (hg : PtrMap.get s.cache k = some p) :
    ∃ l1 l2 e, s.ll = l1 ++ e :: l2 ∧ e.Value.key = k ∧ e.ptr = p ∧
      (∀ x ∈ l1, x.ptr ≠ p) ∧ (∀ x ∈ l2, x.ptr ≠ p) ∧
      Del CalcLen s k = engine.notify { s with
        ll := l1 ++ l2
        usedBytes := wrap64 (s.usedBytes - wrap64 (CalcLen e.Value.value))
        cache := PtrMap.delete s.cache k } k e.Value.value := by
  obtain ⟨e, hd, he, hk, hp⟩ := hl.get_deref k p hg
  obtain ⟨l1, l2, hs, h1, h2⟩ := list.split_of_mem s.ll e he hl.ptrs_nodup
  subst hk hp
  refine ⟨l1, l2, e, hs, rfl, rfl, h1, h2, ?_⟩
  simp only [Del, hg, hd]
  exact removeElement_split64 CalcLen s l1 l2 e hs h1 h2

theorem DelOldest_nil64 (s : engine V) (hs : s.ll = []) : DelOldest CalcLen s = s := by
  simp [DelOldest, list.Front, hs, removeElement]

theorem Del_miss64 (s : engine V) (k : String) (hg : PtrMap.get s.cache k = none) :
    Del CalcLen s k = s := by
  simp [Del, hg]

theorem DelOldest_accounted64 (s : engine V) (hl : s.linked)
    (h : s.accounted64 CalcLen) : (DelOldest CalcLen s).accounted64 CalcLen := by
  unfold engine.accounted64 at h ⊢
  cases hs : s.ll with
  | nil => rw [DelOldest_nil64 CalcLen s hs, h, hs]
  | cons e rest =>
    rw [DelOldest_cons64 CalcLen s e rest hs hl.ptrs_nodup]
    simp only [engine.notify_ll, engine.notify_usedBytes]
    rw [h, hs, weightSum_cons]
    simp only [wrap64]
    omega

theorem Set_accounted64 (s : engine V) (k : String) (v : V) (hl : s.linked)
    (h : s.accounted64 CalcLen) : (Set CalcLen s k v).accounted64 CalcLen := by
  cases hg : PtrMap.get s.cache k with
  | none =>
    rw [Set_miss64 CalcLen s k v hg]
    have h3 := Linked.push_append hl k v hg
    have h4 : engine.accounted64 CalcLen ({ s with
        ll := s.ll ++ [⟨s.fresh, ⟨k, v⟩⟩]
        fresh := s.fresh + 1
        cache := s.cache ++ [(k, s.fresh)]
        usedBytes := wrap64 (s.usedBytes + wrap64 (CalcLen v)) } : engine V) := by
      unfold engine.accounted64 at h ⊢
      simp only [h, weightSum_append, weightSum_cons, weightSum_nil]
      simp only [wrap64]
      omega
    dsimp only
    split
    · exact DelOldest_accounted64 CalcLen _ h3 h4
    · exact h4
  | some p =>
    obtain ⟨l1, l2, e, hs, hk, hp, -, -, hset⟩ := Set_hit64 CalcLen s k v p hl hg
    rw [hset]
    unfold engine.accounted64 at h ⊢
    simp only [h, hs, weightSum_append, weightSum_cons, weightSum_nil]
    simp only [wrap64]
    omega

theorem Del_accounted64 (s : engine V) (k : String) (hl : s.linked)
    (h : s.accounted64 CalcLen) : (Del CalcLen s k).accounted64 CalcLen := by
  cases hg : PtrMap.get s.cache k with
  | none => rw [Del_miss64 CalcLen s k hg]; exact h
  | some p =>
    obtain ⟨l1, l2, e, hs, hk, hp, -, -, hdel⟩ := Del_hit64 CalcLen s k p hl hg
    rw [hdel]
    unfold engine.accounted64 at h ⊢
    simp only [engine.notify_ll, engine.notify_usedBytes, h, hs, weightSum_append,
      weightSum_cons]
    simp only [wrap64]
    omega

theorem run_accounted64 (s : engine V) (ops : List (Op V)) (hl : s.linked)
    (h : s.accounted64 CalcLen) : (run CalcLen s ops).accounted64 CalcLen := by
  induction ops generalizing s with
  | nil => exact h
  | cons op rest ih =>
    refine ih _ (step_linked64 CalcLen s op hl) ?_
    cases op with
    | Set k v => exact Set_accounted64 CalcLen s k v hl h
    | Get k =>
      simp only [step, fifo.Get_state]
      exact h
    | Del k => exact Del_accounted64 CalcLen s k hl h
    | DelOldest => exact DelOldest_accounted64 CalcLen s hl h

end fifo.int64

namespace lru.int64

variable {V : Type} (CalcLen : V → Int)

theorem removeElement_eq64 : @removeElement V CalcLen = fifo.int64.removeElement CalcLen := rfl

theorem DelOldest_eq64 : @DelOldest V CalcLen = fifo.int64.DelOldest CalcLen := rfl

theorem Set_eq64 : @Set V CalcLen = fifo.int64.Set CalcLen := rfl

theorem Del_eq64 : @Del V CalcLen = fifo.int64.Del CalcLen := rfl

theorem step_linked64_lru (l : engine V) (op : Op V) (h : l.linked) :
    (step CalcLen l op).linked := by
  cases op with
  | Set k v => exact fifo.int64.Set_linked64 CalcLen l k v h
  | Get k => exact lru.Get_linked l k h
  | Del k => exact fifo.int64.Del_linked64 CalcLen l k h
  | DelOldest => exact fifo.int64.DelOldest_linked64 CalcLen l h

theorem run_linked64_lru (l : engine V) (ops : List (Op V)) (h : l.linked) :
    (run CalcLen l ops).linked := by
  induction ops generalizing l with
  | nil => exact h
  | cons op rest ih => exact ih _ (step_linked64_lru CalcLen l op h)

theorem step_config64_lru (l : engine V) (op : Op V) :
    (step CalcLen l op).maxBytes = l.maxBytes ∧
    (step CalcLen l op).onEvicted = l.onEvicted := by
  cases op with
  | Set k v => exact fifo.int64.step_config64 CalcLen l (Op.Set k v)
  | Get k => exact lru.step_config_lru CalcLen l (Op.Get k)
  | Del k => exact fifo.int64.step_config64 CalcLen l (Op.Del k)
  | DelOldest => exact fifo.int64.step_config64 CalcLen l Op.DelOldest

theorem run_config64_lru (l : engine V) (ops : List (Op V)) :
    (run CalcLen l ops).maxBytes = l.maxBytes ∧
    (run CalcLen l ops).onEvicted = l.onEvicted := by
  induction ops generalizing l with
  | nil => exact ⟨rfl, rfl⟩
  | cons op rest ih =>
    have h1 := ih (step CalcLen l op)
    have h2 := step_config64_lru CalcLen l op
    exact ⟨h1.1.trans h2.1, h1.2.trans h2.2⟩

theorem Get_accounted64 (s : engine V) (k : String) (hl : s.linked)
    (h : s.accounted64 CalcLen) : (lru.Get s k).1.accounted64 CalcLen := by
  cases hg : PtrMap.get s.cache k with
  | none => rw [lru.Get_miss_lru s k hg]; exact h
  | some p =>
    obtain ⟨l1, l2, e, hs, hk, hp, -, -, hget⟩ := lru.Get_hit_lru s k p hl hg
    rw [hget]
    unfold engine.accounted64 at h ⊢
    simp only [h, hs, weightSum_append, weightSum_cons, weightSum_nil]
    congr 1
    omega

theorem run_accounted64_lru (s : engine V) (ops : List (Op V)) (hl : s.linked)
    (h : s.accounted64 CalcLen) : (run CalcLen s ops).accounted64 CalcLen := by
  induction ops generalizing s with
  | nil => exact h
  | cons op rest ih =>
    refine ih _ (step_linked64_lru CalcLen s op hl) ?_
    cases op with
    | Set k v => exact fifo.int64.Set_accounted64 CalcLen s k v hl h
    | Get k => exact Get_accounted64 CalcLen s k hl h
    | Del k => exact fifo.int64.Del_accounted64 CalcLen s k hl h
    | DelOldest => exact fifo.int64.DelOldest_accounted64 CalcLen s hl h

theorem DelOldest_recency64 (s : engine V) (τ : String → Option Nat) (c : Nat)
    (hl : s.linked) (h : lru.Recency s.ll τ c) :
    lru.Recency (DelOldest CalcLen s).ll τ c := by
  obtain ⟨u, hu⟩ := fifo.int64.DelOldest_shape CalcLen s
  rw [DelOldest_eq64, hu, ← lru.DelOldest_eq]
  exact lru.DelOldest_recency CalcLen { s with usedBytes := u } τ c hl h

theorem timedStep_recency64 (t : lru.Timed V) (op : Op V) (hl : t.state.linked)
    (h : lru.Recency t.state.ll t.lastTouch t.clock) :
    lru.Recency (timedStep CalcLen t op).state.ll (timedStep CalcLen t op).lastTouch
      (timedStep CalcLen t op).clock := by
  cases op with
  | Set k v =>
    cases hg : PtrMap.get t.state.cache k with
    | none =>
      have hτ : (timedStep CalcLen t (Op.Set k v)).lastTouch
          = fun x => if k = x then some t.clock else t.lastTouch x := by
        funext x; simp [timedStep, lru.touches]
      simp only [hτ]
      simp only [timedStep, step, Set_eq64]
      rw [fifo.int64.Set_miss64 CalcLen t.state k v hg]
      have h3 := Linked.push_append hl k v hg
      have hk : k ∉ list.keys t.state.ll := (Linked.get_none_iff hl k).1 hg
      have hr := h.push_key k t.state.fresh v hk
      dsimp only
      split
      · exact DelOldest_recency64 CalcLen _ _ _ h3 hr
      · exact hr
    | some p =>
      obtain ⟨u, hu⟩ := fifo.int64.Set_hit_shape CalcLen t.state k v p hg
      have := lru.timedStep_recency CalcLen
        ⟨{ t.state with usedBytes := u }, t.clock, t.lastTouch⟩ (Op.Set k v) hl h
      simpa only [timedStep, lru.timedStep, step, lru.step, Set_eq64, lru.Set_eq, hu,
        lru.touches] using this
  | Get k => exact lru.timedStep_recency CalcLen t (Op.Get k) hl h
  | Del k =>
    obtain ⟨u, hu⟩ := fifo.int64.Del_shape CalcLen t.state k
    have := lru.timedStep_recency CalcLen
      ⟨{ t.state with usedBytes := u }, t.clock, t.lastTouch⟩ (Op.Del k) hl h
    simpa only [timedStep, lru.timedStep, step, lru.step, Del_eq64, lru.Del_eq, hu,
      lru.touches] using this
  | DelOldest =>
    obtain ⟨u, hu⟩ := fifo.int64.DelOldest_shape CalcLen t.state
    have := lru.timedStep_recency CalcLen
      ⟨{ t.state with usedBytes := u }, t.clock, t.lastTouch⟩ Op.DelOldest hl h
    simpa only [timedStep, lru.timedStep, step, lru.step, DelOldest_eq64, lru.DelOldest_eq, hu,
      lru.touches] using this

theorem foldl_timedStep_state64 (t : lru.Timed V) (ops : List (Op V)) :
    (ops.foldl (timedStep CalcLen) t).state = run CalcLen t.state ops := by
  induction ops generalizing t with
  | nil => rfl
  | cons op rest ih => simp only [List.foldl_cons, run, ih]; rfl

theorem foldl_timedStep_recency64 (t : lru.Timed V) (ops : List (Op V))
    (hl : t.state.linked) (h : lru.Recency t.state.ll t.lastTouch t.clock) :
    lru.Recency (ops.foldl (timedStep CalcLen) t).state.ll
      (ops.foldl (timedStep CalcLen) t).lastTouch (ops.foldl (timedStep CalcLen) t).clock := by
  induction ops generalizing t with
  | nil => exact h
  | cons op rest ih =>
    simp only [List.foldl_cons]
    refine ih _ ?_ (timedStep_recency64 CalcLen t op hl h)
    exact step_linked64_lru CalcLen t.state op hl

theorem history_state64 (maxBytes : Int) (onEvicted : Bool) (ops : List (Op V)) :
    (history CalcLen maxBytes onEvicted ops).state
      = run CalcLen (lru.New maxBytes onEvicted) ops :=
  foldl_timedStep_state64 CalcLen _ ops

theorem history_recency64 (maxBytes : Int) (onEvicted : Bool) (ops : List (Op V)) :
    lru.Recency (history CalcLen maxBytes onEvicted ops).state.ll
      (history CalcLen maxBytes onEvicted ops).lastTouch
      (history CalcLen maxBytes onEvicted ops).clock :=
  foldl_timedStep_recency64 CalcLen _ ops (lru.New_linked_lru maxBytes onEvicted)
    ⟨by simp [lru.New, list.keys], by simp [lru.New, list.keys]⟩

theorem history_snoc64 (maxBytes : Int) (onEvicted : Bool) (ops : List (Op V)) (op : Op V) :
    history CalcLen maxBytes onEvicted (ops ++ [op])
      = timedStep CalcLen (history CalcLen maxBytes onEvicted ops) op := by
  simp [history, List.foldl_append]

theorem run_snoc64 (s : engine V) (ops : List (Op V)) (op : Op V) :
    run CalcLen s (ops ++ [op]) = step CalcLen (run CalcLen s ops) op := by
  simp [run, List.foldl_append]

theorem DelOldest_least_recent64 (s : engine V)
    (τ : String → Option Nat) (c : Nat) (hl : s.linked) (h : lru.Recency s.ll τ c)
    (e : Element V) (rest : List (Element V)) (hs : s.ll = e :: rest) :
    (DelOldest CalcLen s).ll = rest ∧
    PtrMap.get (DelOldest CalcLen s).cache e.Value.key = none ∧
    ∀ k, (PtrMap.get (DelOldest CalcLen s).cache k).isSome = true →
      lru.touchedBefore τ e.Value.key k := by
  obtain ⟨u, hu⟩ := fifo.int64.DelOldest_shape CalcLen s
  rw [DelOldest_eq64, hu, ← lru.DelOldest_eq]
  exact lru.DelOldest_least_recent CalcLen { s with usedBytes := u } τ c hl h e rest hs

theorem Set_evicts_least_recent64 (s : engine V)
    (τ : String → Option Nat) (c : Nat) (hl : s.linked) (hr : lru.Recency s.ll τ c)
    (k : String) (v : V) (hg : PtrMap.get s.cache k = none) (hpos : s.maxBytes > 0)
    (hc : wrap64 (s.usedBytes + wrap64 (CalcLen v)) > s.maxBytes) :
    ∃ e rest, s.ll ++ [⟨s.fresh, ⟨k, v⟩⟩] = e :: rest ∧
      (Set CalcLen s k v).ll = rest ∧
      PtrMap.get (Set CalcLen s k v).cache e.Value.key = none ∧
      ∀ k2, (PtrMap.get (Set CalcLen s k v).cache k2).isSome = true →
        lru.touchedBefore (fun x => if k = x then some c else τ x) e.Value.key k2 := by
  have hk : k ∉ list.keys s.ll := (Linked.get_none_iff hl k).1 hg
  have h3 : engine.linked ({ s with
      ll := s.ll ++ [⟨s.fresh, ⟨k, v⟩⟩]
      fresh := s.fresh + 1
      cache := s.cache ++ [(k, s.fresh)]
      usedBytes := wrap64 (s.usedBytes + wrap64 (CalcLen v)) } : engine V) :=
    Linked.push_append hl k v hg
  have hr3 := hr.push_key k s.fresh v hk
  obtain ⟨e, rest, hs⟩ : ∃ e rest, s.ll ++ [(⟨s.fresh, ⟨k, v⟩⟩ : Element V)] = e :: rest := by
    cases hs : s.ll ++ [(⟨s.fresh, ⟨k, v⟩⟩ : Element V)] with
    | nil => simp at hs
    | cons e rest => exact ⟨e, rest, rfl⟩
  refine ⟨e, rest, hs, ?_⟩
  rw [Set_eq64, fifo.int64.Set_miss64 CalcLen s k v hg]
  dsimp only
  rw [if_pos ⟨hpos, hc⟩, ← DelOldest_eq64]
  exact DelOldest_least_recent64 CalcLen _ _ _ h3 hr3 e rest hs

end lru.int64

/-! ## The LFU engine on `int`: reachable states -/

namespace lfu.int64

variable {V : Type} (CalcLen : V → Int) (less : entry V → entry V → Bool)

theorem removeElement_some64 (s : lfu V) (x : entry V) :
    removeElement CalcLen s (some x) = lfu.notify { s with
      cache := PtrMap.delete s.cache x.key
      usedBytes := wrap64 (s.usedBytes - wrap64 (CalcLen x.value)) } x.key x.value := rfl

theorem Set_hit64_lfu (s : lfu V) (k : String) (v : V) (p : Nat) (hl : s.linked)
    (hg : PtrMap.get s.cache k = some p) :
    ∃ e q2, queue.deref s.queue p = some e ∧ e ∈ s.queue ∧ e.key = k ∧ e.ptr = p ∧
      Set CalcLen less s k v = some { s with
        usedBytes := wrap64 (wrap64 (s.usedBytes - wrap64 (CalcLen e.value))
          + wrap64 (CalcLen v))
        queue := q2 } ∧
      q2.length = s.queue.length ∧
      (q2.map strip).Perm
        ((queue.assign s.queue p v (wrap64 (e.weight + 1))).map strip) ∧
      QLinked q2 s.cache s.fresh ∧
      ∃ e2, queue.deref q2 p = some e2 ∧ e2 ∈ q2 ∧ e2.value = v ∧ e2.key = k := by
  obtain ⟨e, hd, he, hk, hp⟩ := QLinked.get_deref_q hl k p hg
  obtain ⟨q2, hu, hlen, hperm, hl2, e2, hd2, hm2, hv2, -, hk2⟩ :=
    update_spec less hl e he v (wrap64 (e.weight + 1))
  subst hp
  refine ⟨e, q2, hd, he, hk, rfl, ?_, hlen, hperm, hl2, e2, hd2, hm2, hv2, hk2.trans hk⟩
  simp only [Set, hg, hd, hu]

theorem Get_miss64_lfu (s : lfu V) (k : String) (hg : PtrMap.get s.cache k = none) :
    Get less s k = some (s, none) := by
  simp [Get, hg]

theorem Get_hit64_lfu (s : lfu V) (k : String) (p : Nat) (hl : s.linked)
    (hg : PtrMap.get s.cache k = some p) :
    ∃ e q2, queue.deref s.queue p = some e ∧ e ∈ s.queue ∧ e.key = k ∧ e.ptr = p ∧
      Get less s k = some ({ s with queue := q2 }, some e.value) ∧
      q2.length = s.queue.length ∧
      (q2.map strip).Perm
        ((queue.assign s.queue p e.value (wrap64 (e.weight + 1))).map strip) ∧
      QLinked q2 s.cache s.fresh := by
  obtain ⟨e, hd, he, hk, hp⟩ := QLinked.get_deref_q hl k p hg
  obtain ⟨q2, hu, hlen, hperm, hl2, -⟩ :=
    update_spec less hl e he e.value (wrap64 (e.weight + 1))
  subst hp
  refine ⟨e, q2, hd, he, hk, rfl, ?_, hlen, hperm, hl2⟩
  simp only [Get, hg, hd, hu]

theorem Del_miss64_lfu (s : lfu V) (k : String) (hg : PtrMap.get s.cache k = none) :
    Del CalcLen less s k = some s := by
  simp [Del, hg]

theorem Del_hit64_lfu (s : lfu V) (k : String) (p : Nat) (hl : s.linked)
    (hg : PtrMap.get s.cache k = some p) :
    ∃ e q2, queue.deref s.queue p = some e ∧ e ∈ s.queue ∧ e.key = k ∧ e.ptr = p ∧
      Del CalcLen less s k = some (lfu.notify { s with
        queue := q2
        cache := PtrMap.delete s.cache k
        usedBytes := wrap64 (s.usedBytes - wrap64 (CalcLen e.value)) } k e.value) ∧
      q2.length + 1 = s.queue.length ∧
      (q2.map strip ++ [strip e]).Perm (s.queue.map strip) ∧
      QLinked q2 (PtrMap.delete s.cache k) s.fresh ∧ k ∉ queue.keys q2 := by
  obtain ⟨e, hd, he, hk, hp⟩ := QLinked.get_deref_q hl k p hg
  obtain ⟨i, hi, hidx, hqi⟩ := QLinked.index_of_mem hl e he
  obtain ⟨q2, x, hrm, hx, hlen, hperm, hidx2⟩ := heap.Remove_spec less s.queue i hi
  have hxe : strip x = strip e := by
    rw [hx]
    rw [List.getElem?_eq_getElem hi] at hqi
    simp only [Option.some.injEq] at hqi
    rw [hqi]
  rw [hxe] at hperm
  obtain ⟨hl2, hnk, -⟩ := QLinked.take_q hl e hperm (hidx2 hl.idx)
  subst hk
  refine ⟨e, q2, hd, he, rfl, hp, ?_, hlen, hperm, hl2, hnk⟩
  simp only [Del, hg, hd, hidx, hrm, removeElement_some64]

theorem DelOldest_nil64_lfu (s : lfu V) (hs : s.queue = []) :
    DelOldest CalcLen less s = some s := by
  simp [DelOldest, queue.Len, hs]

theorem DelOldest_cons64_lfu (s : lfu V) (hl : s.linked) (hne : 0 < s.queue.length) :
    ∃ q2 x, heap.Pop less s.queue = some (q2, x) ∧
      DelOldest CalcLen less s = some (lfu.notify { s with
        queue := q2
        cache := PtrMap.delete s.cache x.key
        usedBytes := wrap64 (s.usedBytes - wrap64 (CalcLen x.value)) } x.key x.value) ∧
      q2.length + 1 = s.queue.length ∧
      (q2.map strip ++ [strip x]).Perm (s.queue.map strip) ∧
      QLinked q2 (PtrMap.delete s.cache x.key) s.fresh ∧ x.key ∉ queue.keys q2 ∧
      x.key ∈ queue.keys s.queue := by
  obtain ⟨q2, x, hpop, hlen, hperm, hl2, hnk, hk, -⟩ := pop_lfu less hl hne
  refine ⟨q2, x, hpop, ?_, hlen, hperm, hl2, hnk, hk⟩
  have : ¬ (queue.Len s.queue = 0) := by simp only [queue.Len]; omega
  simp only [DelOldest, if_neg this, hpop, removeElement_some64]

theorem Set_miss64_lfu (s : lfu V) (k : String) (v : V) (hl : s.linked)
    (hg : PtrMap.get s.cache k = none) :
    ∃ q2, heap.Push less s.queue ⟨s.fresh, k, v, 0, 0⟩ = some q2 ∧
      q2.length = s.queue.length + 1 ∧
      (q2.map strip).Perm (s.queue.map strip ++ [strip ⟨s.fresh, k, v, 0, 0⟩]) ∧
      QLinked q2 (s.cache ++ [(k, s.fresh)]) (s.fresh + 1) ∧
      Set CalcLen less s k v =
        if s.maxBytes > 0 ∧ wrap64 (s.usedBytes + wrap64 (CalcLen v)) > s.maxBytes then
          DelOldest CalcLen less { s with
            queue := q2
            fresh := s.fresh + 1
            cache := s.cache ++ [(k, s.fresh)]
            usedBytes := wrap64 (s.usedBytes + wrap64 (CalcLen v)) }
        else some { s with
            queue := q2
            fresh := s.fresh + 1
            cache := s.cache ++ [(k, s.fresh)]
            usedBytes := wrap64 (s.usedBytes + wrap64 (CalcLen v)) } := by
  obtain ⟨q2, hpush, hlen, hperm, hidx⟩ := heap.Push_spec less s.queue ⟨s.fresh, k, v, 0, 0⟩
  have hl2 := QLinked.push_q hl ⟨s.fresh, k, v, 0, 0⟩ rfl hg hperm (hidx hl.idx)
  have hk1 : k ∉ s.cache.map Prod.fst := (PtrMap.get_eq_none_iff s.cache k).1 hg
  refine ⟨q2, hpush, hlen, hperm, hl2, ?_⟩
  simp only [Set, hg, hpush, PtrMap.set, PtrMap.delete_of_not_mem s.cache k hk1, entry.Len]
  split
  · have : ¬ (queue.Len q2 = 0) := by simp only [queue.Len]; omega
    simp only [DelOldest, if_neg this]
    cases heap.Pop less q2 <;> rfl
  · rfl

theorem DelOldest_ok64 (s : lfu V) (hl : s.linked) :
    ∃ s1, DelOldest CalcLen less s = some s1 ∧ s1.linked ∧
      s1.maxBytes = s.maxBytes ∧ s1.onEvicted = s.onEvicted := by
  by_cases hne : 0 < s.queue.length
  · obtain ⟨q2, x, -, hdel, -, -, hl2, -, -⟩ := DelOldest_cons64_lfu CalcLen less s hl hne
    exact ⟨_, hdel, by simpa [lfu.linked] using hl2, by simp, by simp⟩
  · have : s.queue = [] := List.length_eq_zero.1 (by omega)
    exact ⟨s, DelOldest_nil64_lfu CalcLen less s this, hl, rfl, rfl⟩

theorem Set_ok64 (s : lfu V) (k : String) (v : V) (hl : s.linked) :
    ∃ s1, Set CalcLen less s k v = some s1 ∧ s1.linked ∧
      s1.maxBytes = s.maxBytes ∧ s1.onEvicted = s.onEvicted := by
  cases hg : PtrMap.get s.cache k with
  | none =>
    obtain ⟨q2, -, -, -, hl2, hset⟩ := Set_miss64_lfu CalcLen less s k v hl hg
    rw [hset]
    split
    · exact DelOldest_ok64 CalcLen less _ hl2
    · exact ⟨_, rfl, hl2, rfl, rfl⟩
  | some p =>
    obtain ⟨e, q2, -, -, -, -, hset, -, -, hl2, -⟩ := Set_hit64_lfu CalcLen less s k v p hl hg
    exact ⟨_, hset, hl2, rfl, rfl⟩

theorem Get_ok64 (s : lfu V) (k : String) (hl : s.linked) :
    ∃ s1 r, Get less s k = some (s1, r) ∧ s1.linked ∧
      s1.maxBytes = s.maxBytes ∧ s1.onEvicted = s.onEvicted := by
  cases hg : PtrMap.get s.cache k with
  | none => exact ⟨s, none, Get_miss64_lfu less s k hg, hl, rfl, rfl⟩
  | some p =>
    obtain ⟨e, q2, -, -, -, -, hget, -, -, hl2⟩ := Get_hit64_lfu less s k p hl hg
    exact ⟨_, _, hget, hl2, rfl, rfl⟩

theorem Del_ok64 (s : lfu V) (k : String) (hl : s.linked) :
    ∃ s1, Del CalcLen less s k = some s1 ∧ s1.linked ∧
      s1.maxBytes = s.maxBytes ∧ s1.onEvicted = s.onEvicted := by
  cases hg : PtrMap.get s.cache k with
  | none => exact ⟨s, Del_miss64_lfu CalcLen less s k hg, hl, rfl, rfl⟩
  | some p =>
    obtain ⟨e, q2, -, -, -, -, hdel, -, -, hl2, -⟩ := Del_hit64_lfu CalcLen less s k p hl hg
    exact ⟨_, hdel, by simpa [lfu.linked] using hl2, by simp, by simp⟩

theorem step_ok64 (s : lfu V) (op : Op V) (hl : s.linked) :
    ∃ s1, step CalcLen less s op = some s1 ∧ s1.linked ∧
      s1.maxBytes = s.maxBytes ∧ s1.onEvicted = s.onEvicted := by
  cases op with
  | Set k v => exact Set_ok64 CalcLen less s k v hl
  | Get k =>
    obtain ⟨s1, r, hget, h⟩ := Get_ok64 less s k hl
    exact ⟨s1, by simp [step, hget], h⟩
  | Del k => exact Del_ok64 CalcLen less s k hl
  | DelOldest => exact DelOldest_ok64 CalcLen less s hl

theorem run_ok64 (s : lfu V) (ops : List (Op V)) (hl : s.linked) :
    ∃ s1, run CalcLen less s ops = some s1 ∧ s1.linked ∧
      s1.maxBytes = s.maxBytes ∧ s1.onEvicted = s.onEvicted := by
  induction ops generalizing s with
  | nil => exact ⟨s, rfl, hl, rfl, rfl⟩
  | cons op rest ih =>
    obtain ⟨s1, hstep, hl1, hm1, ho1⟩ := step_ok64 CalcLen less s op hl
    obtain ⟨s2, hrun, hl2, hm2, ho2⟩ := ih s1 hl1
    exact ⟨s2, by simp only [run, hstep, hrun], hl2, hm2.trans hm1, ho2.trans ho1⟩

theorem DelOldest_heap64 (s s1 : lfu V) (h : FHeap (rankAt s.queue) s.queue.length)
    (hd : DelOldest CalcLen specLess s = some s1) : s1.heapOrdered := by
  unfold DelOldest at hd
  split at hd
  · simp only [Option.some.injEq] at hd
    subst hd
    exact h
  · rename_i hne
    have hlen : 0 < s.queue.length := by
      simp only [queue.Len] at hne
      omega
    cases hp : heap.Pop specLess s.queue with
    | none => simp [hp] at hd
    | some r =>
      obtain ⟨q, x⟩ := r
      simp only [hp, Option.some.injEq] at hd
      subst hd
      have := heap.Pop_heap s.queue h hlen q x hp
      simpa [heapOrdered, removeElement] using this

theorem Set_heap64 (s s1 : lfu V) (k : String) (v : V) (hl : s.linked) (h : s.heapOrdered)
    (hs : Set CalcLen specLess s k v = some s1) : s1.heapOrdered := by
  cases hg : PtrMap.get s.cache k with
  | none =>
    obtain ⟨q2, hpush, -, -, -, hset⟩ := Set_miss64_lfu CalcLen specLess s k v hl hg
    have h2 := heap.Push_heap s.queue _ h q2 hpush
    rw [hset] at hs
    split at hs
    · exact DelOldest_heap64 CalcLen _ s1 h2 hs
    · simp only [Option.some.injEq] at hs
      subst hs
      exact h2
  | some p =>
    obtain ⟨e, hd, he, -, -⟩ := QLinked.get_deref_q hl k p hg
    simp only [Set, hg, hd] at hs
    cases hu : queue.update specLess s.queue e v (wrap64 (e.weight + 1)) with
    | none => simp [hu] at hs
    | some q2 =>
      simp only [hu, Option.some.injEq] at hs
      subst hs
      exact queue.update_heap hl h e he v _ q2 hu

theorem Get_heap64 (s s1 : lfu V) (k : String) (r : Option V) (hl : s.linked)
    (h : s.heapOrdered) (hs : Get specLess s k = some (s1, r)) : s1.heapOrdered := by
  cases hg : PtrMap.get s.cache k with
  | none =>
    rw [Get_miss64_lfu specLess s k hg] at hs
    simp only [Option.some.injEq, Prod.mk.injEq] at hs
    rw [← hs.1]
    exact h
  | some p =>
    obtain ⟨e, hd, he, -, -⟩ := QLinked.get_deref_q hl k p hg
    simp only [Get, hg, hd] at hs
    cases hu : queue.update specLess s.queue e e.value (wrap64 (e.weight + 1)) with
    | none => simp [hu] at hs
    | some q2 =>
      simp only [hu, Option.some.injEq, Prod.mk.injEq] at hs
      rw [← hs.1]
      exact queue.update_heap hl h e he _ _ q2 hu

theorem Del_heap64 (s s1 : lfu V) (k : String) (hl : s.linked) (h : s.heapOrdered)
    (hs : Del CalcLen specLess s k = some s1) : s1.heapOrdered := by
  cases hg : PtrMap.get s.cache k with
  | none =>
    rw [Del_miss64_lfu CalcLen specLess s k hg] at hs
    simp only [Option.some.injEq] at hs
    subst hs
    exact h
  | some p =>
    obtain ⟨e, hd, he, -, -⟩ := QLinked.get_deref_q hl k p hg
    obtain ⟨i, hi, hidx, -⟩ := QLinked.index_of_mem hl e he
    simp only [Del, hg, hd, hidx] at hs
    cases hr : heap.Remove specLess s.queue (i : Int) with
    | none => simp [hr] at hs
    | some r =>
      obtain ⟨q2, x⟩ := r
      simp only [hr, Option.some.injEq] at hs
      subst hs
      have := heap.Remove_heap s.queue i hi h q2 x hr
      simpa [heapOrdered, removeElement] using this

theorem step_heap64 (s s1 : lfu V) (op : Op V) (hl : s.linked) (h : s.heapOrdered)
    (hs : step CalcLen specLess s op = some s1) : s1.heapOrdered := by
  cases op with
  | Set k v => exact Set_heap64 CalcLen s s1 k v hl h hs
  | Get k =>
    simp only [step, Option.map_eq_some', Prod.exists, exists_and_right, exists_eq_right] at hs
    obtain ⟨r, hr⟩ := hs
    exact Get_heap64 s s1 k r hl h hr
  | Del k => exact Del_heap64 CalcLen s s1 k hl h hs
  | DelOldest => exact DelOldest_heap64 CalcLen s s1 h hs

theorem run_heap64 (ops : List (Op V)) (s s1 : lfu V) (hl : s.linked) (h : s.heapOrdered)
    (hs : run CalcLen specLess s ops = some s1) : s1.heapOrdered := by
  induction ops generalizing s with
  | nil =>
    simp only [run, Option.some.injEq] at hs
    subst hs
    exact h
  | cons op rest ih =>
    obtain ⟨s2, hstep, hl2, -, -⟩ := step_ok64 CalcLen specLess s op hl
    simp only [run, hstep] at hs
    exact ih s2 hl2 (step_heap64 CalcLen s s2 op hl h hstep) hs

theorem DelOldest_range64 (s s1 : lfu V) (h : wrap64 s.usedBytes = s.usedBytes)
    (hs : DelOldest CalcLen less s = some s1) : wrap64 s1.usedBytes = s1.usedBytes := by
  unfold DelOldest at hs
  split at hs
  · simp only [Option.some.injEq] at hs
    subst hs
    exact h
  · cases hp : heap.Pop less s.queue with
    | none => simp [hp] at hs
    | some r =>
      obtain ⟨q, x⟩ := r
      simp only [hp, Option.some.injEq] at hs
      subst hs
      simp only [removeElement, lfu.notify_usedBytes_lfu, wrap64_wrap64]

theorem step_range64 (s s1 : lfu V) (op : Op V) (hl : s.linked)
    (h : wrap64 s.usedBytes = s.usedBytes)
    (hs : step CalcLen less s op = some s1) : wrap64 s1.usedBytes = s1.usedBytes := by
  cases op with
  | Set k v =>
    simp only [step] at hs
    cases hg : PtrMap.get s.cache k with
    | none =>
      obtain ⟨q2, -, hlen, -, hl2, hset⟩ := Set_miss64_lfu CalcLen less s k v hl hg
      rw [hset] at hs
      split at hs
      · exact DelOldest_range64 CalcLen less _ s1 (by simp only [wrap64_wrap64]) hs
      · simp only [Option.some.injEq] at hs
        subst hs
        simp only [wrap64_wrap64]
    | some p =>
      obtain ⟨e, q2, -, -, -, -, hset, -⟩ := Set_hit64_lfu CalcLen less s k v p hl hg
      rw [hset] at hs
      simp only [Option.some.injEq] at hs
      subst hs
      simp only [wrap64_wrap64]
  | Get k =>
    cases hg : PtrMap.get s.cache k with
    | none =>
      simp only [step, Get_miss64_lfu less s k hg, Option.map_some', Option.some.injEq] at hs
      subst hs
      exact h
    | some p =>
      obtain ⟨e, q2, -, -, -, -, hget2, -⟩ := Get_hit64_lfu less s k p hl hg
      simp only [step, hget2, Option.map_some', Option.some.injEq] at hs
      subst hs
      exact h
  | Del k =>
    simp only [step] at hs
    cases hg : PtrMap.get s.cache k with
    | none =>
      rw [Del_miss64_lfu CalcLen less s k hg] at hs
      simp only [Option.some.injEq] at hs
      subst hs
      exact h
    | some p =>
      obtain ⟨e, q2, -, -, -, -, hdel, -⟩ := Del_hit64_lfu CalcLen less s k p hl hg
      rw [hdel] at hs
      simp only [Option.some.injEq] at hs
      subst hs
      simp only [lfu.notify_usedBytes_lfu, wrap64_wrap64]
  | DelOldest => exact DelOldest_range64 CalcLen less s s1 h hs

theorem run_range64 (ops : List (Op V)) (s s1 : lfu V) (hl : s.linked)
    (h : wrap64 s.usedBytes = s.usedBytes)
    (hs : run CalcLen less s ops = some s1) : wrap64 s1.usedBytes = s1.usedBytes := by
  induction ops generalizing s with
  | nil =>
    simp only [run, Option.some.injEq] at hs
    subst hs
    exact h
  | cons op rest ih =>
    obtain ⟨s2, hstep, hl2, -, -⟩ := step_ok64 CalcLen less s op hl
    simp only [run, hstep] at hs
    exact ih s2 hl2 (step_range64 CalcLen less s s2 op hl h hstep) hs

theorem run_snoc64_lfu (ops : List (Op V)) (s l : lfu V) (op : Op V)
    (h : run CalcLen less s ops = some l) :
    run CalcLen less s (ops ++ [op]) = step CalcLen less l op := by
  induction ops generalizing s with
  | nil =>
    simp only [run, Option.some.injEq] at h
    subst h
    simp only [List.nil_append, run]
    cases step CalcLen less s op <;> rfl
  | cons o rest ih =>
    simp only [List.cons_append, run] at h ⊢
    cases hs : step CalcLen less s o with
    | none => simp [hs] at h
    | some t =>
      simp only [hs] at h ⊢
      exact ih t h

theorem Set_newcomer64
    (hless : ∀ a b : lfu.entry V, a.weight < b.weight → less a b = true)
    (s : lfu V) (k : String) (v : V) (hl : s.linked)
    (hg : PtrMap.get s.cache k = none) (hpos : s.maxBytes > 0)
    (hover : wrap64 (s.usedBytes + wrap64 (CalcLen v)) > s.maxBytes)
    (hw : ∀ e ∈ s.queue, 1 ≤ e.weight) :
    ∃ s1, Set CalcLen less s k v = some s1 ∧ s1.cache = s.cache ∧
      s1.usedBytes = wrap64 s.usedBytes ∧
      s1.calls = (if s.onEvicted then s.calls ++ [⟨k, v, s1.queue, s1.cache, s1.usedBytes⟩]
        else s.calls) ∧
      lfu.Len s1 = lfu.Len s ∧ (s1.queue.map lfu.strip).Perm (s.queue.map lfu.strip) ∧
      s1.linked := by
  obtain ⟨q2, hpush, hlen, hperm, hl2, hset⟩ := Set_miss64_lfu CalcLen less s k v hl hg
  obtain ⟨y, hy, hys⟩ := lfu.heap.Push_root less hless s.queue ⟨s.fresh, k, v, 0, 0⟩
    (fun e he => by have := hw e he; show (0 : Int) < e.weight; omega) q2 hpush
  obtain ⟨q3, x, hpop, hlen3, hperm3, hl3, -, -, hx⟩ := lfu.pop_lfu less hl2 (by omega)
  have hq0 : q2[0]? = some q2[0] := List.getElem?_eq_getElem (by omega)
  rw [hq0] at hy
  simp only [Option.some.injEq] at hy
  rw [hy, hys] at hx
  have hxk : x.key = k := congrArg (fun e : lfu.entry V => e.key) hx
  have hxv : x.value = v := congrArg (fun e : lfu.entry V => e.value) hx
  rw [hset, if_pos ⟨hpos, hover⟩]
  have hne : ¬ (lfu.queue.Len q2 = 0) := by simp only [lfu.queue.Len]; omega
  simp only [DelOldest, hne, if_false, hpop, removeElement, lfu.entry.Len]
  rw [hxk, hxv, PtrMap.delete_append_self s.cache k s.fresh hg]
  refine ⟨_, rfl, by simp, ?_, ?_, ?_, ?_, ?_⟩
  · simp only [lfu.notify_usedBytes_lfu, wrap64]
    omega
  · rw [lfu.notify_calls_lfu]
    simp
  · simp only [lfu.Len, lfu.queue.Len, lfu.notify_queue_lfu]
    omega
  · simp only [lfu.notify_queue_lfu]
    rw [hx] at hperm3
    exact (List.perm_append_right_iff _).1 (hperm3.trans hperm)
  · have h4 : lfu.QLinked q3 s.cache (s.fresh + 1) := by
      rw [hxk, PtrMap.delete_append_self s.cache k s.fresh hg] at hl3
      exact hl3
    simpa [lfu.linked] using h4

theorem DelOldest_least64 (s : lfu V) (hl : s.linked)
    (h : s.heapOrdered) (hne : 0 < s.queue.length) :
    ∃ r s1, s.queue[0]? = some r ∧ DelOldest CalcLen lfu.specLess s = some s1 ∧
      s1.calls.map (fun c => (c.key, c.value))
        = s.calls.map (fun c => (c.key, c.value))
          ++ (if s.onEvicted then [(r.key, r.value)] else []) ∧
      PtrMap.get s1.cache r.key = none ∧
      lfu.Len s1 = lfu.Len s - 1 ∧
      ∀ e ∈ s.queue, r.weight ≤ e.weight ∧ (e.weight = r.weight → r.ptr ≤ e.ptr) := by
  obtain ⟨q2, x, hpop, hlen, -, hl2, -, -, hx⟩ := lfu.pop_lfu lfu.specLess hl hne
  have hr : s.queue[0]? = some s.queue[0] := List.getElem?_eq_getElem hne
  obtain ⟨-, hxk, hxv, -⟩ := lfu.strip_fields hx
  have hq : ¬ (lfu.queue.Len s.queue = 0) := by simp only [lfu.queue.Len]; omega
  have hdo : DelOldest CalcLen lfu.specLess s
      = some (removeElement CalcLen { s with queue := q2 } (some x)) := by
    simp only [DelOldest, hq, if_false, hpop]
  refine ⟨s.queue[0], _, hr, hdo, ?_, ?_, ?_, lfu.root_least h _ hr⟩
  · simp only [removeElement, lfu.notify_calls_lfu, hxk, hxv]
    cases s.onEvicted <;> simp
  · simp only [removeElement, lfu.notify_cache_lfu, hxk]
    exact PtrMap.get_delete_self _ _
  · simp only [removeElement, lfu.Len, lfu.queue.Len, lfu.notify_queue_lfu]
    omega

theorem Set_evicts_least64 (s : lfu V) (hl : s.linked)
    (h : s.heapOrdered) (k : String) (v : V) (hg : PtrMap.get s.cache k = none)
    (hpos : s.maxBytes > 0)
    (hover : wrap64 (s.usedBytes + wrap64 (CalcLen v)) > s.maxBytes) :
    ∃ x s1, Set CalcLen lfu.specLess s k v = some s1 ∧
      s1.calls.map (fun c => (c.key, c.value))
        = s.calls.map (fun c => (c.key, c.value))
          ++ (if s.onEvicted then [(x.key, x.value)] else []) ∧
      PtrMap.get s1.cache x.key = none ∧
      lfu.strip x ∈ (s.queue ++ [(⟨s.fresh, k, v, 0, 0⟩ : lfu.entry V)]).map lfu.strip ∧
      ∀ e ∈ s.queue ++ [(⟨s.fresh, k, v, 0, 0⟩ : lfu.entry V)],
        x.weight ≤ e.weight ∧ (e.weight = x.weight → x.ptr ≤ e.ptr) := by
  obtain ⟨q2, hpush, hlen, hperm, hl2, hset⟩ :=
    Set_miss64_lfu CalcLen lfu.specLess s k v hl hg
  have h2 := lfu.heap.Push_heap s.queue _ h q2 hpush
  obtain ⟨q3, x, hpop, hlen3, hperm3, -, -, -, hx⟩ := lfu.pop_lfu lfu.specLess hl2 (by omega)
  have hr : q2[0]? = some q2[0] := List.getElem?_eq_getElem (by omega)
  obtain ⟨hxp, -, -, hxw⟩ := lfu.strip_fields hx
  have hq : ¬ (lfu.queue.Len q2 = 0) := by simp only [lfu.queue.Len]; omega
  have hperm2 : (q2.map lfu.strip).Perm
      ((s.queue ++ [(⟨s.fresh, k, v, 0, 0⟩ : lfu.entry V)]).map lfu.strip) := by
    simpa using hperm
  have hdo : Set CalcLen lfu.specLess s k v
      = some (removeElement CalcLen { s with
          queue := q3
          fresh := s.fresh + 1
          cache := s.cache ++ [(k, s.fresh)]
          usedBytes := wrap64 (s.usedBytes + wrap64 (CalcLen v)) } (some x)) := by
    rw [hset, if_pos ⟨hpos, hover⟩]
    simp only [DelOldest, hq, if_false, hpop]
  refine ⟨x, _, hdo, ?_, ?_, ?_, ?_⟩
  · simp only [removeElement, lfu.notify_calls_lfu]
    cases s.onEvicted <;> simp
  · simp only [removeElement, lfu.notify_cache_lfu]
    exact PtrMap.get_delete_self _ _
  · apply hperm2.mem_iff.1
    rw [hx]
    exact List.mem_map_of_mem lfu.strip (List.getElem?_mem hr)
  · apply lfu.least_of_strip_perm x hperm2
    rw [hxw, hxp]
    exact lfu.root_least h2 _ hr

end lfu.int64

/-! ## The order of the calls `Set` of a FIFO cache on `int` -/

namespace fifo.int64

variable {V : Type} (CalcLen : V → Int)

theorem timedStep_recency64_fifo (t : fifo.Timed V) (op : Op V) (hl : t.state.linked)
    (h : lru.Recency t.state.ll t.lastSet t.clock) :
    lru.Recency (timedStep CalcLen t op).state.ll (timedStep CalcLen t op).lastSet
      (timedStep CalcLen t op).clock := by
  cases op with
  | Set k v =>
    cases hg : PtrMap.get t.state.cache k with
    | none =>
      have hτ : (timedStep CalcLen t (Op.Set k v)).lastSet
          = fun x => if k = x then some t.clock else t.lastSet x := by
        funext x; simp [timedStep, Op.setsKey]
      simp only [hτ]
      simp only [timedStep, step]
      rw [Set_miss64 CalcLen t.state k v hg]
      have h3 := Linked.push_append hl k v hg
      have hk : k ∉ list.keys t.state.ll := (Linked.get_none_iff hl k).1 hg
      have hr := h.push_key k t.state.fresh v hk
      dsimp only
      split
      · exact lru.int64.DelOldest_recency64 CalcLen _ _ _ h3 hr
      · exact hr
    | some p =>
      obtain ⟨u, hu⟩ := Set_hit_shape CalcLen t.state k v p hg
      have := fifo.timedStep_recency_fifo CalcLen
        ⟨{ t.state with usedBytes := u }, t.clock, t.lastSet⟩ (Op.Set k v) hl h
      simpa only [timedStep, fifo.timedStep, step, fifo.step, hu] using this
  | Get k => exact fifo.timedStep_recency_fifo CalcLen t (Op.Get k) hl h
  | Del k =>
    obtain ⟨u, hu⟩ := Del_shape CalcLen t.state k
    have := fifo.timedStep_recency_fifo CalcLen
      ⟨{ t.state with usedBytes := u }, t.clock, t.lastSet⟩ (Op.Del k) hl h
    simpa only [timedStep, fifo.timedStep, step, fifo.step, hu] using this
  | DelOldest =>
    obtain ⟨u, hu⟩ := DelOldest_shape CalcLen t.state
    have := fifo.timedStep_recency_fifo CalcLen
      ⟨{ t.state with usedBytes := u }, t.clock, t.lastSet⟩ Op.DelOldest hl h
    simpa only [timedStep, fifo.timedStep, step, fifo.step, hu] using this

theorem foldl_timedStep_state64_fifo (t : fifo.Timed V) (ops : List (Op V)) :
    (ops.foldl (timedStep CalcLen) t).state = run CalcLen t.state ops := by
  induction ops generalizing t with
  | nil => rfl
  | cons op rest ih => simp only [List.foldl_cons, run, ih]; rfl

theorem foldl_timedStep_recency64_fifo (t : fifo.Timed V) (ops : List (Op V))
    (hl : t.state.linked) (h : lru.Recency t.state.ll t.lastSet t.clock) :
    lru.Recency (ops.foldl (timedStep CalcLen) t).state.ll
      (ops.foldl (timedStep CalcLen) t).lastSet (ops.foldl (timedStep CalcLen) t).clock := by
  induction ops generalizing t with
  | nil => exact h
  | cons op rest ih =>
    simp only [List.foldl_cons]
    refine ih _ ?_ (timedStep_recency64_fifo CalcLen t op hl h)
    exact step_linked64 CalcLen t.state op hl

theorem history_state64_fifo (maxBytes : Int) (onEvicted : Bool) (ops : List (Op V)) :
    (history CalcLen maxBytes onEvicted ops).state
      = run CalcLen (fifo.New maxBytes onEvicted) ops :=
  foldl_timedStep_state64_fifo CalcLen _ ops

theorem history_recency64_fifo (maxBytes : Int) (onEvicted : Bool) (ops : List (Op V)) :
    lru.Recency (history CalcLen maxBytes onEvicted ops).state.ll
      (history CalcLen maxBytes onEvicted ops).lastSet
      (history CalcLen maxBytes onEvicted ops).clock :=
  foldl_timedStep_recency64_fifo CalcLen _ ops (fifo.New_linked maxBytes onEvicted)
    ⟨by simp [fifo.New, list.keys], by simp [fifo.New, list.keys]⟩

theorem run_snoc64_fifo (s : engine V) (ops : List (Op V)) (op : Op V) :
    run CalcLen s (ops ++ [op]) = step CalcLen (run CalcLen s ops) op := by
  simp [run, List.foldl_append]

end fifo.int64

/-! ## C4 and C8: the byte counter of the engines on `int` -/

/-- C4, as stated, fails on the engines on the type `int` of 64 bits: budget
`2^63 - 1`, the weight of a value being the value, `Set a` with weight
`2^63 - 1`, then `Set b` with weight 1. The counter wraps to `-2^63`, which does
not exceed the budget, so nothing is evicted: a and b are held, the sum of
their weights is `2^63`, and `usedBytes` is `-2^63`, negative under a weight
function that is never negative. -/
theorem C4_usedBytes_wraps_counterexample :
    (list.keys (fifo.int64.run (fun n : Nat => (n : Int)) (fifo.New 9223372036854775807 false)
        [Op.Set "a" 9223372036854775807, Op.Set "b" 1]).ll = ["a", "b"] ∧
      weightSum (fun n : Nat => (n : Int))
        (fifo.int64.run (fun n : Nat => (n : Int)) (fifo.New 9223372036854775807 false)
          [Op.Set "a" 9223372036854775807, Op.Set "b" 1]).ll = 9223372036854775808 ∧
      (fifo.int64.run (fun n : Nat => (n : Int)) (fifo.New 9223372036854775807 false)
        [Op.Set "a" 9223372036854775807, Op.Set "b" 1]).usedBytes = -9223372036854775808 ∧
      ¬ ((fifo.int64.run (fun n : Nat => (n : Int)) (fifo.New 9223372036854775807 false)
          [Op.Set "a" 9223372036854775807, Op.Set "b" 1]).usedBytes
        = weightSum (fun n : Nat => (n : Int))
            (fifo.int64.run (fun n : Nat => (n : Int)) (fifo.New 9223372036854775807 false)
              [Op.Set "a" 9223372036854775807, Op.Set "b" 1]).ll) ∧
      ¬ (0 ≤ (fifo.int64.run (fun n : Nat => (n : Int)) (fifo.New 9223372036854775807 false)
          [Op.Set "a" 9223372036854775807, Op.Set "b" 1]).usedBytes)) ∧
    (list.keys (lru.int64.run (fun n : Nat => (n : Int)) (lru.New 9223372036854775807 false)
        [Op.Set "a" 9223372036854775807, Op.Set "b" 1]).ll = ["a", "b"] ∧
      weightSum (fun n : Nat => (n : Int))
        (lru.int64.run (fun n : Nat => (n : Int)) (lru.New 9223372036854775807 false)
          [Op.Set "a" 9223372036854775807, Op.Set "b" 1]).ll = 9223372036854775808 ∧
      (lru.int64.run (fun n : Nat => (n : Int)) (lru.New 9223372036854775807 false)
        [Op.Set "a" 9223372036854775807, Op.Set "b" 1]).usedBytes = -9223372036854775808 ∧
      ¬ ((lru.int64.run (fun n : Nat => (n : Int)) (lru.New 9223372036854775807 false)
          [Op.Set "a" 9223372036854775807, Op.Set "b" 1]).usedBytes
        = weightSum (fun n : Nat => (n : Int))
            (lru.int64.run (fun n : Nat => (n : Int)) (lru.New 9223372036854775807 false)
              [Op.Set "a" 9223372036854775807, Op.Set "b" 1]).ll) ∧
      ¬ (0 ≤ (lru.int64.run (fun n : Nat => (n : Int)) (lru.New 9223372036854775807 false)
          [Op.Set "a" 9223372036854775807, Op.Set "b" 1]).usedBytes)) ∧
    (∀ v : Nat, 0 ≤ (fun n : Nat => (n : Int)) v) :=
  ⟨by decide, by decide, fun v => Int.natCast_nonneg v⟩

/-- C4, amended: in every state of a FIFO or LRU cache on the type `int`
reached from `New` (any budget, any callback) by a sequence of Set, Get, Del
and DelOldest calls, `usedBytes` is the sum of `CalcLen` of the stored value
over the entries of the list, reduced to the range of `int`; that sum is also
the sum over the entries the lookup table points at; `usedBytes` is 0 when the
cache is empty; and in every state in which the sum is itself a value of
`int`, `usedBytes` is the sum, and it is not negative when `CalcLen` is never
negative. -/
theorem C4_usedBytes_is_sum_of_weights {V : Type} (CalcLen : V → Int) (maxBytes : Int)
    (onEvicted : Bool) (ops : List (Op V)) :
    ((fifo.int64.run CalcLen (fifo.New maxBytes onEvicted) ops).usedBytes
        = wrap64 (weightSum CalcLen
            (fifo.int64.run CalcLen (fifo.New maxBytes onEvicted) ops).ll) ∧
      weightSum CalcLen (fifo.int64.run CalcLen (fifo.New maxBytes onEvicted) ops).ll
        = tableWeight CalcLen (fifo.int64.run CalcLen (fifo.New maxBytes onEvicted) ops).ll
            (fifo.int64.run CalcLen (fifo.New maxBytes onEvicted) ops).cache ∧
      (fifo.Len (fifo.int64.run CalcLen (fifo.New maxBytes onEvicted) ops) = 0 →
        (fifo.int64.run CalcLen (fifo.New maxBytes onEvicted) ops).usedBytes = 0) ∧
      (wrap64 (weightSum CalcLen
            (fifo.int64.run CalcLen (fifo.New maxBytes onEvicted) ops).ll)
          = weightSum CalcLen (fifo.int64.run CalcLen (fifo.New maxBytes onEvicted) ops).ll →
        (fifo.int64.run CalcLen (fifo.New maxBytes onEvicted) ops).usedBytes
          = weightSum CalcLen (fifo.int64.run CalcLen (fifo.New maxBytes onEvicted) ops).ll ∧
        ((∀ v, 0 ≤ CalcLen v) →
          0 ≤ (fifo.int64.run CalcLen (fifo.New maxBytes onEvicted) ops).usedBytes))) ∧
    ((lru.int64.run CalcLen (lru.New maxBytes onEvicted) ops).usedBytes
        = wrap64 (weightSum CalcLen
            (lru.int64.run CalcLen (lru.New maxBytes onEvicted) ops).ll) ∧
      weightSum CalcLen (lru.int64.run CalcLen (lru.New maxBytes onEvicted) ops).ll
        = tableWeight CalcLen (lru.int64.run CalcLen (lru.New maxBytes onEvicted) ops).ll
            (lru.int64.run CalcLen (lru.New maxBytes onEvicted) ops).cache ∧
      (lru.Len (lru.int64.run CalcLen (lru.New maxBytes onEvicted) ops) = 0 →
        (lru.int64.run CalcLen (lru.New maxBytes onEvicted) ops).usedBytes = 0) ∧
      (wrap64 (weightSum CalcLen
            (lru.int64.run CalcLen (lru.New maxBytes onEvicted) ops).ll)
          = weightSum CalcLen (lru.int64.run CalcLen (lru.New maxBytes onEvicted) ops).ll →
        (lru.int64.run CalcLen (lru.New maxBytes onEvicted) ops).usedBytes
          = weightSum CalcLen (lru.int64.run CalcLen (lru.New maxBytes onEvicted) ops).ll ∧
        ((∀ v, 0 ≤ CalcLen v) →
          0 ≤ (lru.int64.run CalcLen (lru.New maxBytes onEvicted) ops).usedBytes))) := by
  have key : ∀ s : engine V, s.linked → s.accounted64 CalcLen →
      s.usedBytes = wrap64 (weightSum CalcLen s.ll) ∧
      weightSum CalcLen s.ll = tableWeight CalcLen s.ll s.cache ∧
      (list.Len s.ll = 0 → s.usedBytes = 0) ∧
      (wrap64 (weightSum CalcLen s.ll) = weightSum CalcLen s.ll →
        s.usedBytes = weightSum CalcLen s.ll ∧
        ((∀ v, 0 ≤ CalcLen v) → 0 ≤ s.usedBytes)) := by
    intro s hl ha
    refine ⟨ha, (tableWeight_eq CalcLen hl).symm, ?_, ?_⟩
    · intro h0
      have : s.ll = [] := by
        simp only [list.Len] at h0
        exact List.length_eq_zero.1 (by exact_mod_cast h0)
      rw [ha, this]; rfl
    · intro hw
      have hu : s.usedBytes = weightSum CalcLen s.ll := ha.trans hw
      refine ⟨hu, ?_⟩
      intro hnn
      rw [hu]; exact weightSum_nonneg CalcLen hnn _
  have h0 : ∀ (m : Int) (o : Bool), engine.accounted64 CalcLen (fifo.New m o : engine V) := by
    intro m o; rfl
  exact ⟨key _ (fifo.int64.run_linked64 CalcLen _ ops (fifo.New_linked maxBytes onEvicted))
      (fifo.int64.run_accounted64 CalcLen _ ops (fifo.New_linked maxBytes onEvicted)
        (h0 maxBytes onEvicted)),
    key _ (lru.int64.run_linked64_lru CalcLen _ ops (lru.New_linked_lru maxBytes onEvicted))
      (lru.int64.run_accounted64_lru CalcLen _ ops (lru.New_linked_lru maxBytes onEvicted)
        (h0 maxBytes onEvicted))⟩

/-- C4, amended, at an instance: weights 3 and 4 under a budget of 5, so that
the second `Set` evicts; the sum of the weights held is a value of `int` and the
byte count of the final state is not negative. -/
theorem C4_usedBytes_is_sum_of_weights_witness :
    wrap64 (weightSum (fun n : Nat => (n : Int))
        (fifo.int64.run (fun n : Nat => (n : Int)) (fifo.New 5 true)
          [Op.Set "a" 3, Op.Set "b" 4, Op.Get "a"]).ll)
      = weightSum (fun n : Nat => (n : Int))
        (fifo.int64.run (fun n : Nat => (n : Int)) (fifo.New 5 true)
          [Op.Set "a" 3, Op.Set "b" 4, Op.Get "a"]).ll ∧
    (∀ v : Nat, 0 ≤ (fun n : Nat => (n : Int)) v) ∧
    0 ≤ (fifo.int64.run (fun n : Nat => (n : Int)) (fifo.New 5 true)
          [Op.Set "a" 3, Op.Set "b" 4, Op.Get "a"]).usedBytes ∧
    0 ≤ (lru.int64.run (fun n : Nat => (n : Int)) (lru.New 5 true)
          [Op.Set "a" 3, Op.Set "b" 4, Op.Get "a"]).usedBytes :=
  ⟨by decide, fun v => Int.natCast_nonneg v,
    ((C4_usedBytes_is_sum_of_weights (fun n : Nat => (n : Int)) 5 true
      [Op.Set "a" 3, Op.Set "b" 4, Op.Get "a"]).1.2.2.2 (by decide)).2
        (fun v => Int.natCast_nonneg v),
    ((C4_usedBytes_is_sum_of_weights (fun n : Nat => (n : Int)) 5 true
      [Op.Set "a" 3, Op.Set "b" 4, Op.Get "a"]).2.2.2.2 (by decide)).2
        (fun v => Int.natCast_nonneg v)⟩

/-- C8: in every state of a FIFO or LRU cache on the type `int` with a positive
budget, reached by any sequence of calls, a `Set` of a key that is not held
removes exactly one entry when the new `usedBytes` (the counter plus the weight
of the new value, as the code computes it) exceeds `maxBytes`, namely the entry
at the front of the list after the new entry was appended, and invokes the
callback (if any) exactly once, for that entry; when the new `usedBytes` does
not exceed `maxBytes` it removes nothing. There is one eviction only even when
`usedBytes` stays above `maxBytes`: with budget 2, after Set a (weight 1) and
Set b (weight 5) only a was evicted and `usedBytes` is 5. -/
theorem C8_one_eviction_per_crossing_insert {V : Type} (CalcLen : V → Int) (maxBytes : Int)
    (onEvicted : Bool) (ops : List (Op V)) (k : String) (v : V) (hpos : maxBytes > 0) :
    (PtrMap.get (fifo.int64.run CalcLen (fifo.New maxBytes onEvicted) ops).cache k = none →
      (fifo.int64.run CalcLen (fifo.New maxBytes onEvicted) ops).maxBytes = maxBytes ∧
      (fifo.int64.run CalcLen (fifo.New maxBytes onEvicted) ops).onEvicted = onEvicted ∧
      FreshInsertEffect64 CalcLen (fifo.int64.run CalcLen (fifo.New maxBytes onEvicted) ops)
        (fifo.int64.Set CalcLen
          (fifo.int64.run CalcLen (fifo.New maxBytes onEvicted) ops) k v) k v) ∧
    (PtrMap.get (lru.int64.run CalcLen (lru.New maxBytes onEvicted) ops).cache k = none →
      (lru.int64.run CalcLen (lru.New maxBytes onEvicted) ops).maxBytes = maxBytes ∧
      (lru.int64.run CalcLen (lru.New maxBytes onEvicted) ops).onEvicted = onEvicted ∧
      FreshInsertEffect64 CalcLen (lru.int64.run CalcLen (lru.New maxBytes onEvicted) ops)
        (lru.int64.Set CalcLen
          (lru.int64.run CalcLen (lru.New maxBytes onEvicted) ops) k v) k v) ∧
    (list.keys (fifo.int64.run (fun n : Nat => (n : Int)) (fifo.New 2 true)
        [Op.Set "a" 1, Op.Set "b" 5]).ll = ["b"] ∧
      (fifo.int64.run (fun n : Nat => (n : Int)) (fifo.New 2 true)
        [Op.Set "a" 1, Op.Set "b" 5]).usedBytes = 5 ∧
      (fifo.int64.run (fun n : Nat => (n : Int)) (fifo.New 2 true)
        [Op.Set "a" 1, Op.Set "b" 5]).calls.map (fun c => (c.key, c.value)) = [("a", 1)]) ∧
    (list.keys (lru.int64.run (fun n : Nat => (n : Int)) (lru.New 2 true)
        [Op.Set "a" 1, Op.Set "b" 5]).ll = ["b"] ∧
      (lru.int64.run (fun n : Nat => (n : Int)) (lru.New 2 true)
        [Op.Set "a" 1, Op.Set "b" 5]).usedBytes = 5 ∧
      (lru.int64.run (fun n : Nat => (n : Int)) (lru.New 2 true)
        [Op.Set "a" 1, Op.Set "b" 5]).calls.map (fun c => (c.key, c.value)) = [("a", 1)]) ∧
    (list.keys (fifo.run (fun n : Nat => (n : Int)) (fifo.New 2 true)
        [Op.Set "a" 1, Op.Set "b" 5]).ll = ["b"] ∧
      (fifo.run (fun n : Nat => (n : Int)) (fifo.New 2 true)
        [Op.Set "a" 1, Op.Set "b" 5]).usedBytes = 5 ∧
      (fifo.run (fun n : Nat => (n : Int)) (fifo.New 2 true)
        [Op.Set "a" 1, Op.Set "b" 5]).calls.map (fun c => (c.key, c.value)) = [("a", 1)]) ∧
    (list.keys (lru.run (fun n : Nat => (n : Int)) (lru.New 2 true)
        [Op.Set "a" 1, Op.Set "b" 5]).ll = ["b"] ∧
      (lru.run (fun n : Nat => (n : Int)) (lru.New 2 true)
        [Op.Set "a" 1, Op.Set "b" 5]).usedBytes = 5 ∧
      (lru.run (fun n : Nat => (n : Int)) (lru.New 2 true)
        [Op.Set "a" 1, Op.Set "b" 5]).calls.map (fun c => (c.key, c.value)) = [("a", 1)]) := by
  refine ⟨?_, ?_, by decide, by decide, by decide, by decide⟩
  · intro hg
    exact ⟨(fifo.int64.run_config64 CalcLen _ ops).1, (fifo.int64.run_config64 CalcLen _ ops).2,
      fifo.int64.Set_fresh64 CalcLen _ k v
        (fifo.int64.run_linked64 CalcLen _ ops (fifo.New_linked maxBytes onEvicted)) hg
        (by rw [(fifo.int64.run_config64 CalcLen _ ops).1]; exact hpos)⟩
  · intro hg
    exact ⟨(lru.int64.run_config64_lru CalcLen _ ops).1,
      (lru.int64.run_config64_lru CalcLen _ ops).2,
      fifo.int64.Set_fresh64 CalcLen _ k v
        (lru.int64.run_linked64_lru CalcLen _ ops (lru.New_linked_lru maxBytes onEvicted)) hg
        (by rw [(lru.int64.run_config64_lru CalcLen _ ops).1]; exact hpos)⟩

/-- C8 at an instance: budget 2, weights 1; the third insert crosses the
budget. -/
theorem C8_one_eviction_per_crossing_insert_witness :
    ((2 : Int) > 0) ∧
    FreshInsertEffect64 (fun _ : Nat => (1 : Int))
      (fifo.int64.run (fun _ : Nat => (1 : Int)) (fifo.New 2 true)
        [Op.Set "a" 1, Op.Set "b" 2])
      (fifo.int64.Set (fun _ : Nat => (1 : Int))
        (fifo.int64.run (fun _ : Nat => (1 : Int)) (fifo.New 2 true)
          [Op.Set "a" 1, Op.Set "b" 2])
        "c" 3) "c" 3 :=
  ⟨by decide,
    ((C8_one_eviction_per_crossing_insert (fun _ : Nat => (1 : Int)) 2 true
      [Op.Set "a" 1, Op.Set "b" 2] "c" 3 (by decide)).1 (by decide)).2.2⟩

/-! ## C1 and C2: the order of the list of the engines on `int` -/

/-- C1: for every sequence of Set, Get, Del and DelOldest calls on an LRU cache
created by `New`, the list holds, from front to back, exactly the held keys,
once each, in strictly increasing order of their most recent touch (a `Set` of
the key, or a `Get` that hit it), and DelOldest removes the front entry, whose
key was touched before every key that stays: this for the cache on the
integers, and for the cache on the type `int`. On the type `int`, a budget
eviction inside a `Set` of a new key, which takes place when the budget is
positive and the new `usedBytes`, as the code computes it, exceeds it, removes
the front entry as well, whose key was touched before every key that stays, the
new key counted as touched by that call. With unit weights and `maxBytes` 2:
Set a, Set b, Set c evicts a and leaves two entries; with Get(b) before Set c,
a is evicted all the same and b, c stay. -/
theorem C1_lru_recency_order {V : Type} (CalcLen : V → Int) (maxBytes : Int)
    (onEvicted : Bool) (ops : List (Op V)) :
    ((lru.history CalcLen maxBytes onEvicted ops).state
        = lru.run CalcLen (lru.New maxBytes onEvicted) ops ∧
      (∀ k, k ∈ list.keys (lru.run CalcLen (lru.New maxBytes onEvicted) ops).ll ↔
        (PtrMap.get (lru.run CalcLen (lru.New maxBytes onEvicted) ops).cache k).isSome
          = true) ∧
      (list.keys (lru.run CalcLen (lru.New maxBytes onEvicted) ops).ll).Nodup ∧
      (∀ k ∈ list.keys (lru.run CalcLen (lru.New maxBytes onEvicted) ops).ll,
        ∃ t, (lru.history CalcLen maxBytes onEvicted ops).lastTouch k = some t) ∧
      (list.keys (lru.run CalcLen (lru.New maxBytes onEvicted) ops).ll).Pairwise
        (lru.touchedBefore (lru.history CalcLen maxBytes onEvicted ops).lastTouch) ∧
      (∀ e rest, (lru.run CalcLen (lru.New maxBytes onEvicted) ops).ll = e :: rest →
        (lru.DelOldest CalcLen (lru.run CalcLen (lru.New maxBytes onEvicted) ops)).ll = rest ∧
        PtrMap.get (lru.DelOldest CalcLen
          (lru.run CalcLen (lru.New maxBytes onEvicted) ops)).cache e.Value.key = none ∧
        ∀ k, (PtrMap.get (lru.DelOldest CalcLen
            (lru.run CalcLen (lru.New maxBytes onEvicted) ops)).cache k).isSome = true →
          lru.touchedBefore (lru.history CalcLen maxBytes onEvicted ops).lastTouch
            e.Value.key k)) ∧
    ((lru.int64.history CalcLen maxBytes onEvicted ops).state
        = lru.int64.run CalcLen (lru.New maxBytes onEvicted) ops ∧
      (∀ k, k ∈ list.keys (lru.int64.run CalcLen (lru.New maxBytes onEvicted) ops).ll ↔
        (PtrMap.get (lru.int64.run CalcLen (lru.New maxBytes onEvicted) ops).cache k).isSome
          = true) ∧
      (list.keys (lru.int64.run CalcLen (lru.New maxBytes onEvicted) ops).ll).Nodup ∧
      (∀ k ∈ list.keys (lru.int64.run CalcLen (lru.New maxBytes onEvicted) ops).ll,
        ∃ t, (lru.int64.history CalcLen maxBytes onEvicted ops).lastTouch k = some t) ∧
      (list.keys (lru.int64.run CalcLen (lru.New maxBytes onEvicted) ops).ll).Pairwise
        (lru.touchedBefore (lru.int64.history CalcLen maxBytes onEvicted ops).lastTouch) ∧
      (∀ e rest, (lru.int64.run CalcLen (lru.New maxBytes onEvicted) ops).ll = e :: rest →
        (lru.int64.DelOldest CalcLen
          (lru.int64.run CalcLen (lru.New maxBytes onEvicted) ops)).ll = rest ∧
        PtrMap.get (lru.int64.DelOldest CalcLen
          (lru.int64.run CalcLen (lru.New maxBytes onEvicted) ops)).cache e.Value.key
          = none ∧
        ∀ k, (PtrMap.get (lru.int64.DelOldest CalcLen
            (lru.int64.run CalcLen (lru.New maxBytes onEvicted) ops)).cache k).isSome
            = true →
          lru.touchedBefore (lru.int64.history CalcLen maxBytes onEvicted ops).lastTouch
            e.Value.key k) ∧
      (∀ k v,
        PtrMap.get (lru.int64.run CalcLen (lru.New maxBytes onEvicted) ops).cache k = none →
        maxBytes > 0 →
        wrap64 ((lru.int64.run CalcLen (lru.New maxBytes onEvicted) ops).usedBytes
          + wrap64 (CalcLen v)) > maxBytes →
        ∃ e rest,
          (lru.int64.run CalcLen (lru.New maxBytes onEvicted) ops).ll
            ++ [⟨(lru.int64.run CalcLen (lru.New maxBytes onEvicted) ops).fresh, ⟨k, v⟩⟩]
            = e :: rest ∧
          (lru.int64.run CalcLen (lru.New maxBytes onEvicted) (ops ++ [Op.Set k v])).ll
            = rest ∧
          PtrMap.get (lru.int64.run CalcLen (lru.New maxBytes onEvicted)
            (ops ++ [Op.Set k v])).cache e.Value.key = none ∧
          ∀ k2, (PtrMap.get (lru.int64.run CalcLen (lru.New maxBytes onEvicted)
              (ops ++ [Op.Set k v])).cache k2).isSome = true →
            lru.touchedBefore
              (lru.int64.history CalcLen maxBytes onEvicted (ops ++ [Op.Set k v])).lastTouch
              e.Value.key k2)) ∧
    (list.keys (lru.run (fun _ : Nat => (1 : Int)) (lru.New 2 true)
        [Op.Set "a" 1, Op.Set "b" 2, Op.Set "c" 3]).ll = ["b", "c"] ∧
      lru.Len (lru.run (fun _ : Nat => (1 : Int)) (lru.New 2 true)
        [Op.Set "a" 1, Op.Set "b" 2, Op.Set "c" 3]) = 2 ∧
      (lru.run (fun _ : Nat => (1 : Int)) (lru.New 2 true)
        [Op.Set "a" 1, Op.Set "b" 2, Op.Set "c" 3]).calls.map (fun c => (c.key, c.value))
        = [("a", 1)]) ∧
    (list.keys (lru.run (fun _ : Nat => (1 : Int)) (lru.New 2 true)
        [Op.Set "a" 1, Op.Set "b" 2, Op.Get "b", Op.Set "c" 3]).ll = ["b", "c"] ∧
      lru.Len (lru.run (fun _ : Nat => (1 : Int)) (lru.New 2 true)
        [Op.Set "a" 1, Op.Set "b" 2, Op.Get "b", Op.Set "c" 3]) = 2 ∧
      (lru.run (fun _ : Nat => (1 : Int)) (lru.New 2 true)
        [Op.Set "a" 1, Op.Set "b" 2, Op.Get "b", Op.Set "c" 3]).calls.map
          (fun c => (c.key, c.value)) = [("a", 1)]) ∧
    (list.keys (lru.int64.run (fun _ : Nat => (1 : Int)) (lru.New 2 true)
        [Op.Set "a" 1, Op.Set "b" 2, Op.Set "c" 3]).ll = ["b", "c"] ∧
      lru.Len (lru.int64.run (fun _ : Nat => (1 : Int)) (lru.New 2 true)
        [Op.Set "a" 1, Op.Set "b" 2, Op.Set "c" 3]) = 2 ∧
      (lru.int64.run (fun _ : Nat => (1 : Int)) (lru.New 2 true)
        [Op.Set "a" 1, Op.Set "b" 2, Op.Set "c" 3]).calls.map (fun c => (c.key, c.value))
        = [("a", 1)]) ∧
    (list.keys (lru.int64.run (fun _ : Nat => (1 : Int)) (lru.New 2 true)
        [Op.Set "a" 1, Op.Set "b" 2, Op.Get "b", Op.Set "c" 3]).ll = ["b", "c"] ∧
      lru.Len (lru.int64.run (fun _ : Nat => (1 : Int)) (lru.New 2 true)
        [Op.Set "a" 1, Op.Set "b" 2, Op.Get "b", Op.Set "c" 3]) = 2 ∧
      (lru.int64.run (fun _ : Nat => (1 : Int)) (lru.New 2 true)
        [Op.Set "a" 1, Op.Set "b" 2, Op.Get "b", Op.Set "c" 3]).calls.map
          (fun c => (c.key, c.value)) = [("a", 1)]) := by
  have hl := lru.run_linked_lru CalcLen _ ops (lru.New_linked_lru (V := V) maxBytes onEvicted)
  have hst := lru.history_state CalcLen maxBytes onEvicted ops
  have hr := lru.history_recency CalcLen maxBytes onEvicted ops
  rw [hst] at hr
  have hl6 := lru.int64.run_linked64_lru CalcLen _ ops
    (lru.New_linked_lru (V := V) maxBytes onEvicted)
  have hst6 := lru.int64.history_state64 CalcLen maxBytes onEvicted ops
  have hr6 := lru.int64.history_recency64 CalcLen maxBytes onEvicted ops
  rw [hst6] at hr6
  refine ⟨⟨hst, ?_, hl.keys_nodup, ?_, hr.2, ?_⟩, ⟨hst6, ?_, hl6.keys_nodup, ?_, hr6.2, ?_, ?_⟩,
    by decide, by decide, by decide, by decide⟩
  · intro k
    rw [← not_iff_not, ← Linked.get_none_iff hl k]
    cases PtrMap.get (lru.run CalcLen (lru.New maxBytes onEvicted) ops).cache k <;> simp
  · intro k hk
    obtain ⟨t, h1, -⟩ := hr.1 k hk
    exact ⟨t, h1⟩
  · intro e rest hs
    exact lru.DelOldest_least_recent CalcLen _ _ _ hl hr e rest hs
  · intro k
    rw [← not_iff_not, ← Linked.get_none_iff hl6 k]
    cases PtrMap.get (lru.int64.run CalcLen (lru.New maxBytes onEvicted) ops).cache k <;> simp
  · intro k hk
    obtain ⟨t, h1, -⟩ := hr6.1 k hk
    exact ⟨t, h1⟩
  · intro e rest hs
    exact lru.int64.DelOldest_least_recent64 CalcLen _ _ _ hl6 hr6 e rest hs
  · intro k v hg hpos hc
    have hcfg := (lru.int64.run_config64_lru CalcLen (lru.New (V := V) maxBytes onEvicted) ops).1
    have hτ : (lru.int64.history CalcLen maxBytes onEvicted (ops ++ [Op.Set k v])).lastTouch
        = fun x => if k = x then
            some (lru.int64.history CalcLen maxBytes onEvicted ops).clock
          else (lru.int64.history CalcLen maxBytes onEvicted ops).lastTouch x := by
      rw [lru.int64.history_snoc64]
      funext x; simp [lru.int64.timedStep, lru.touches]
    rw [hτ, lru.int64.run_snoc64]
    exact lru.int64.Set_evicts_least_recent64 CalcLen _ _ _ hl6 hr6 k v hg
      (by rw [hcfg]; exact hpos) (by rw [hcfg]; exact hc)

/-- C2, amended: in every reachable FIFO state, `Set(k, v)` on a held key k
replaces the stored value, adjusts `usedBytes` by the difference of the
weights, invokes no callback, keeps the lookup table, and moves the entry of k
to the back of the list; all other entries keep their value and their relative
order. So a following DelOldest removes the same entry as before the Set when
k was not at the front of the list, and otherwise the entry that followed k.
The eviction order is the order of the last `Set` of each key: in every
reachable state, of the cache on the integers and of the cache on the type
`int`, the list holds the held keys, from front to back, in strictly increasing
order of the most recent `Set` of each (a `Get` does not count), and DelOldest
removes the front entry, whose key was last set before every key that stays; on
the type `int` so does the eviction inside a `Set` of a new key, which takes
place when the budget is positive and the new `usedBytes`, as the code computes
it, exceeds it (the new key counted as set by that call). After Set a, Set b,
Get a, DelOldest removes a; after Set a, Set b, Set a, DelOldest removes b;
with unit weights and budget 2, after Set a, Set b, Set a the call Set c evicts
b. -/
theorem C2_fifo_Set_existing_moves_to_back {V : Type} (CalcLen : V → Int) (maxBytes : Int)
    (onEvicted : Bool) (ops : List (Op V)) (k : String) (v : V) (p : Nat)
    (h : PtrMap.get (fifo.run CalcLen (fifo.New maxBytes onEvicted) ops).cache k = some p) :
    (∃ l1 l2 e,
      (fifo.run CalcLen (fifo.New maxBytes onEvicted) ops).ll = l1 ++ e :: l2 ∧
      e.Value.key = k ∧ e.ptr = p ∧
      (fifo.Set CalcLen (fifo.run CalcLen (fifo.New maxBytes onEvicted) ops) k v).ll
        = l1 ++ l2 ++ [⟨p, ⟨k, v⟩⟩] ∧
      (fifo.Set CalcLen (fifo.run CalcLen (fifo.New maxBytes onEvicted) ops) k v).usedBytes
        = (fifo.run CalcLen (fifo.New maxBytes onEvicted) ops).usedBytes
            - CalcLen e.Value.value + CalcLen v ∧
      (fifo.Set CalcLen (fifo.run CalcLen (fifo.New maxBytes onEvicted) ops) k v).cache
        = (fifo.run CalcLen (fifo.New maxBytes onEvicted) ops).cache ∧
      (fifo.Set CalcLen (fifo.run CalcLen (fifo.New maxBytes onEvicted) ops) k v).calls
        = (fifo.run CalcLen (fifo.New maxBytes onEvicted) ops).calls ∧
      (l1 ≠ [] →
        list.Front
          (fifo.Set CalcLen (fifo.run CalcLen (fifo.New maxBytes onEvicted) ops) k v).ll
          = list.Front (fifo.run CalcLen (fifo.New maxBytes onEvicted) ops).ll) ∧
      (l1 = [] →
        list.Front
          (fifo.Set CalcLen (fifo.run CalcLen (fifo.New maxBytes onEvicted) ops) k v).ll
          = list.Front (l2 ++ [⟨p, ⟨k, v⟩⟩]))) ∧
    (∀ ops2 : List (Op V),
      (fifo.history CalcLen maxBytes onEvicted ops2).state
        = fifo.run CalcLen (fifo.New maxBytes onEvicted) ops2 ∧
      (∀ x, x ∈ list.keys (fifo.run CalcLen (fifo.New maxBytes onEvicted) ops2).ll ↔
        (PtrMap.get (fifo.run CalcLen (fifo.New maxBytes onEvicted) ops2).cache x).isSome
          = true) ∧
      (∀ x ∈ list.keys (fifo.run CalcLen (fifo.New maxBytes onEvicted) ops2).ll,
        ∃ t, (fifo.history CalcLen maxBytes onEvicted ops2).lastSet x = some t) ∧
      (list.keys (fifo.run CalcLen (fifo.New maxBytes onEvicted) ops2).ll).Pairwise
        (lru.touchedBefore (fifo.history CalcLen maxBytes onEvicted ops2).lastSet) ∧
      (∀ e rest, (fifo.run CalcLen (fifo.New maxBytes onEvicted) ops2).ll = e :: rest →
        (fifo.DelOldest CalcLen (fifo.run CalcLen (fifo.New maxBytes onEvicted) ops2)).ll
          = rest ∧
        PtrMap.get (fifo.DelOldest CalcLen
          (fifo.run CalcLen (fifo.New maxBytes onEvicted) ops2)).cache e.Value.key = none ∧
        ∀ x, (PtrMap.get (fifo.DelOldest CalcLen
            (fifo.run CalcLen (fifo.New maxBytes onEvicted) ops2)).cache x).isSome = true →
          lru.touchedBefore (fifo.history CalcLen maxBytes onEvicted ops2).lastSet
            e.Value.key x)) ∧
    (∀ ops2 : List (Op V),
      (fifo.int64.history CalcLen maxBytes onEvicted ops2).state
        = fifo.int64.run CalcLen (fifo.New maxBytes onEvicted) ops2 ∧
      (∀ x, x ∈ list.keys (fifo.int64.run CalcLen (fifo.New maxBytes onEvicted) ops2).ll ↔
        (PtrMap.get
          (fifo.int64.run CalcLen (fifo.New maxBytes onEvicted) ops2).cache x).isSome
          = true) ∧
      (∀ x ∈ list.keys (fifo.int64.run CalcLen (fifo.New maxBytes onEvicted) ops2).ll,
        ∃ t, (fifo.int64.history CalcLen maxBytes onEvicted ops2).lastSet x = some t) ∧
      (list.keys (fifo.int64.run CalcLen (fifo.New maxBytes onEvicted) ops2).ll).Pairwise
        (lru.touchedBefore (fifo.int64.history CalcLen maxBytes onEvicted ops2).lastSet) ∧
      (∀ e rest,
        (fifo.int64.run CalcLen (fifo.New maxBytes onEvicted) ops2).ll = e :: rest →
        (fifo.int64.DelOldest CalcLen
          (fifo.int64.run CalcLen (fifo.New maxBytes onEvicted) ops2)).ll = rest ∧
        PtrMap.get (fifo.int64.DelOldest CalcLen
          (fifo.int64.run CalcLen (fifo.New maxBytes onEvicted) ops2)).cache e.Value.key
          = none ∧
        ∀ x, (PtrMap.get (fifo.int64.DelOldest CalcLen
            (fifo.int64.run CalcLen (fifo.New maxBytes onEvicted) ops2)).cache x).isSome
            = true →
          lru.touchedBefore (fifo.int64.history CalcLen maxBytes onEvicted ops2).lastSet
            e.Value.key x) ∧
      (∀ k2 v2,
        PtrMap.get (fifo.int64.run CalcLen (fifo.New maxBytes onEvicted) ops2).cache k2
          = none →
        maxBytes > 0 →
        wrap64 ((fifo.int64.run CalcLen (fifo.New maxBytes onEvicted) ops2).usedBytes
          + wrap64 (CalcLen v2)) > maxBytes →
        ∃ e rest,
          (fifo.int64.run CalcLen (fifo.New maxBytes onEvicted) ops2).ll
            ++ [⟨(fifo.int64.run CalcLen (fifo.New maxBytes onEvicted) ops2).fresh,
                ⟨k2, v2⟩⟩]
            = e :: rest ∧
          (fifo.int64.run CalcLen (fifo.New maxBytes onEvicted)
            (ops2 ++ [Op.Set k2 v2])).ll = rest ∧
          PtrMap.get (fifo.int64.run CalcLen (fifo.New maxBytes onEvicted)
            (ops2 ++ [Op.Set k2 v2])).cache e.Value.key = none ∧
          ∀ x, (PtrMap.get (fifo.int64.run CalcLen (fifo.New maxBytes onEvicted)
              (ops2 ++ [Op.Set k2 v2])).cache x).isSome = true →
            lru.touchedBefore
              (fifo.int64.history CalcLen maxBytes onEvicted
                (ops2 ++ [Op.Set k2 v2])).lastSet
              e.Value.key x)) ∧
    (list.keys (fifo.run (fun _ : Nat => (1 : Int)) (fifo.New 0 true)
        [Op.Set "a" 1, Op.Set "b" 2, Op.Get "a", Op.DelOldest]).ll = ["b"] ∧
      (fifo.run (fun _ : Nat => (1 : Int)) (fifo.New 0 true)
        [Op.Set "a" 1, Op.Set "b" 2, Op.Get "a", Op.DelOldest]).calls.map
          (fun c => (c.key, c.value)) = [("a", 1)]) ∧
    (list.keys (fifo.run (fun _ : Nat => (1 : Int)) (fifo.New 0 true)
        [Op.Set "a" 1, Op.Set "b" 2, Op.Set "a" 3, Op.DelOldest]).ll = ["a"] ∧
      (fifo.run (fun _ : Nat => (1 : Int)) (fifo.New 0 true)
        [Op.Set "a" 1, Op.Set "b" 2, Op.Set "a" 3, Op.DelOldest]).calls.map
          (fun c => (c.key, c.value)) = [("b", 2)]) ∧
    (list.keys (fifo.int64.run (fun _ : Nat => (1 : Int)) (fifo.New 2 true)
        [Op.Set "a" 1, Op.Set "b" 2, Op.Set "a" 3, Op.Set "c" 4]).ll = ["a", "c"] ∧
      (fifo.int64.run (fun _ : Nat => (1 : Int)) (fifo.New 2 true)
        [Op.Set "a" 1, Op.Set "b" 2, Op.Set "a" 3, Op.Set "c" 4]).calls.map
          (fun c => (c.key, c.value)) = [("b", 2)]) := by
  have hl := fifo.run_linked CalcLen _ ops (fifo.New_linked (V := V) maxBytes onEvicted)
  obtain ⟨l1, l2, e, hs, hk, hp, -, -, hset⟩ := fifo.Set_hit CalcLen _ k v p hl h
  refine ⟨⟨l1, l2, e, hs, hk, hp, ?_, ?_, ?_, ?_, ?_, ?_⟩, ?_, ?_, by decide, by decide,
    by decide⟩
  · rw [hset]
  · rw [hset]
  · rw [hset]
  · rw [hset]
  · intro hne
    rw [hset, hs]
    cases l1 with
    | nil => exact absurd rfl hne
    | cons x rest => simp [list.Front]
  · intro hnil
    rw [hset, hnil]
    simp
  · intro ops2
    have hl2 := fifo.run_linked CalcLen _ ops2 (fifo.New_linked (V := V) maxBytes onEvicted)
    have hst := fifo.history_state_fifo CalcLen maxBytes onEvicted ops2
    have hr := fifo.history_recency_fifo CalcLen maxBytes onEvicted ops2
    rw [hst] at hr
    refine ⟨hst, ?_, ?_, hr.2, ?_⟩
    · intro x
      rw [← not_iff_not, ← Linked.get_none_iff hl2 x]
      cases PtrMap.get (fifo.run CalcLen (fifo.New maxBytes onEvicted) ops2).cache x <;> simp
    · intro x hx
      obtain ⟨t, h1, -⟩ := hr.1 x hx
      exact ⟨t, h1⟩
    · intro e2 rest hs2
      exact lru.DelOldest_least_recent CalcLen _ _ _ hl2 hr e2 rest hs2
  · intro ops2
    have hl2 := fifo.int64.run_linked64 CalcLen _ ops2
      (fifo.New_linked (V := V) maxBytes onEvicted)
    have hst := fifo.int64.history_state64_fifo CalcLen maxBytes onEvicted ops2
    have hr := fifo.int64.history_recency64_fifo CalcLen maxBytes onEvicted ops2
    rw [hst] at hr
    refine ⟨hst, ?_, ?_, hr.2, ?_, ?_⟩
    · intro x
      rw [← not_iff_not, ← Linked.get_none_iff hl2 x]
      cases PtrMap.get
        (fifo.int64.run CalcLen (fifo.New maxBytes onEvicted) ops2).cache x <;> simp
    · intro x hx
      obtain ⟨t, h1, -⟩ := hr.1 x hx
      exact ⟨t, h1⟩
    · intro e2 rest hs2
      exact lru.int64.DelOldest_least_recent64 CalcLen _ _ _ hl2 hr e2 rest hs2
    · intro k2 v2 hg hpos hc
      have hcfg :=
        (fifo.int64.run_config64 CalcLen (fifo.New (V := V) maxBytes onEvicted) ops2).1
      have hτ : (fifo.int64.history CalcLen maxBytes onEvicted
            (ops2 ++ [Op.Set k2 v2])).lastSet
          = fun x => if k2 = x then
              some (fifo.int64.history CalcLen maxBytes onEvicted ops2).clock
            else (fifo.int64.history CalcLen maxBytes onEvicted ops2).lastSet x := by
        simp only [fifo.int64.history, List.foldl_append, List.foldl_cons, List.foldl_nil]
        funext x; simp [fifo.int64.timedStep, Op.setsKey]
      rw [hτ, fifo.int64.run_snoc64_fifo]
      exact lru.int64.Set_evicts_least_recent64 CalcLen _ _ _ hl2 hr k2 v2 hg
        (by rw [hcfg]; exact hpos) (by rw [hcfg]; exact hc)

/-- C2, amended, at an instance: Set a, Set b, Set c, then Set(b, 7). -/
theorem C2_fifo_Set_existing_moves_to_back_witness :
    PtrMap.get (fifo.run (fun n : Nat => (n : Int)) (fifo.New 0 false)
        [Op.Set "a" 1, Op.Set "b" 2, Op.Set "c" 3]).cache "b" = some 1 ∧
    ∃ l1 l2 e,
      (fifo.run (fun n : Nat => (n : Int)) (fifo.New 0 false)
        [Op.Set "a" 1, Op.Set "b" 2, Op.Set "c" 3]).ll = l1 ++ e :: l2 ∧
      e.Value.key = "b" ∧ e.ptr = 1 ∧
      (fifo.Set (fun n : Nat => (n : Int)) (fifo.run (fun n : Nat => (n : Int))
        (fifo.New 0 false) [Op.Set "a" 1, Op.Set "b" 2, Op.Set "c" 3]) "b" 7).ll
        = l1 ++ l2 ++ [⟨1, ⟨"b", 7⟩⟩] :=
  ⟨by decide,
    (C2_fifo_Set_existing_moves_to_back (fun n : Nat => (n : Int)) 0 false
      [Op.Set "a" 1, Op.Set "b" 2, Op.Set "c" 3] "b" 7 1 (by decide)).1.imp
      fun _ h1 => h1.imp fun _ h2 => h2.imp fun _ h3 => ⟨h3.1, h3.2.1, h3.2.2.1, h3.2.2.2.1⟩⟩

/-! ## C20 and C16: the budget eviction of the LFU cache on `int` -/

/-- C20: in an LFU cache on the type `int` created with a positive budget, the
heap being ordered by the access weight (an entry of smaller weight comes
first), in a state reached by any sequence of calls in which every held entry
has weight at least 1, a `Set(k, v)` of a key that is not held which pushes
`usedBytes`, as the code computes it, above the budget evicts the new entry
itself, created with weight 0: the call does not fail, right after it `Get(k)`
returns nil, the callback (if any) is invoked once, with (k, v), and the lookup
table, `usedBytes`, `Len()` and the entries of the queue are those of before
the call. -/
theorem C20_lfu_evicts_the_newcomer {V : Type} (CalcLen : V → Int)
    (less : lfu.entry V → lfu.entry V → Bool) (capacity : Int) (onEvicted : Bool)
    (ops : List (Op V)) (l : lfu V) (k : String) (v : V)
    (hless : ∀ a b : lfu.entry V, a.weight < b.weight → less a b = true)
    (hcap : 0 < capacity)
    (hrun : lfu.int64.run CalcLen less (lfu.New capacity onEvicted) ops = some l)
    (hg : PtrMap.get l.cache k = none)
    (hover : wrap64 (l.usedBytes + wrap64 (CalcLen v)) > capacity)
    (hw : ∀ e ∈ l.queue, 1 ≤ e.weight) :
    ∃ l1, lfu.int64.Set CalcLen less l k v = some l1 ∧
      lfu.int64.Get less l1 k = some (l1, none) ∧
      l1.calls.map (fun c => (c.key, c.value))
        = l.calls.map (fun c => (c.key, c.value)) ++ (if onEvicted then [(k, v)] else []) ∧
      l1.cache = l.cache ∧
      l1.usedBytes = l.usedBytes ∧
      lfu.Len l1 = lfu.Len l ∧
      (l1.queue.map lfu.strip).Perm (l.queue.map lfu.strip) := by
  obtain ⟨l0, hrun0, hl, hm, ho⟩ :=
    lfu.int64.run_ok64 CalcLen less (lfu.New capacity onEvicted) ops
      (lfu.New_linked_lfu capacity onEvicted)
  rw [hrun] at hrun0
  simp only [Option.some.injEq] at hrun0
  subst hrun0
  have hm2 : l.maxBytes = capacity := hm
  have ho2 : l.onEvicted = onEvicted := ho
  have hrange : wrap64 l.usedBytes = l.usedBytes :=
    lfu.int64.run_range64 CalcLen less ops _ l (lfu.New_linked_lfu capacity onEvicted)
      (by simp only [lfu.New]; rfl) hrun
  obtain ⟨l1, hset, hcache, hused, hcalls, hlen, hperm, -⟩ :=
    lfu.int64.Set_newcomer64 CalcLen less hless l k v hl hg (by rw [hm2]; exact hcap)
      (by rw [hm2]; exact hover) hw
  refine ⟨l1, hset, lfu.int64.Get_miss64_lfu less l1 k (by rw [hcache]; exact hg), ?_, hcache,
    hused.trans hrange, hlen, hperm⟩
  rw [hcalls, ho2]
  cases onEvicted <;> simp

/-- C20 at an instance: budget 2, weights by value, the heap ordered by weight
alone; after `Set("a", 1)` and `Get("a")` the entry of a has weight 1, and
`Set("b", 5)` evicts b itself. -/
theorem C20_lfu_evicts_the_newcomer_witness :
    (0 : Int) < 2 ∧
    lfu.int64.run (fun n : Nat => (n : Int)) (fun a b => decide (a.weight < b.weight))
      (lfu.New 2 true) [Op.Set "a" 1, Op.Get "a"]
      = some ⟨2, true, 1, [⟨0, "a", 1, 1, 0⟩], [("a", 0)], 1, []⟩ ∧
    (wrap64 ((⟨2, true, 1, [⟨0, "a", 1, 1, 0⟩], [("a", 0)], 1, []⟩ : lfu Nat).usedBytes
      + wrap64 ((fun n : Nat => (n : Int)) 5)) > 2) ∧
    ∃ l1, lfu.int64.Set (fun n : Nat => (n : Int)) (fun a b => decide (a.weight < b.weight))
        ⟨2, true, 1, [⟨0, "a", 1, 1, 0⟩], [("a", 0)], 1, []⟩ "b" 5 = some l1 ∧
      lfu.int64.Get (fun a b => decide (a.weight < b.weight)) l1 "b" = some (l1, none) ∧
      l1.calls.map (fun c => (c.key, c.value)) = [("b", 5)] :=
  ⟨by decide, rfl, by decide,
    (C20_lfu_evicts_the_newcomer (fun n : Nat => (n : Int))
      (fun a b => decide (a.weight < b.weight)) 2 true [Op.Set "a" 1, Op.Get "a"]
      ⟨2, true, 1, [⟨0, "a", 1, 1, 0⟩], [("a", 0)], 1, []⟩ "b" 5
      (fun a b h => by simpa using h) (by decide) rfl rfl (by decide)
      (fun e he => by
        simp only [List.mem_singleton] at he
        subst he
        decide)).imp
      fun _ h => ⟨h.1, h.2.1, h.2.2.1⟩⟩

/-- C16: the heap order being the one the spec states (by weight, and among
entries of equal weight by the sequence number assigned at insertion, the
allocation number `ptr`, smaller for an earlier insertion), every sequence of
calls on an LFU cache created by `New` returns, and in the state reached: every
held entry has a sequence number below the counter `fresh` that the next insert
draws, and `DelOldest` on a non-empty cache evicts the entry at the heap root,
which has the least weight, and among the entries of that weight the least
sequence number: this for the cache on the integers, and for the cache on the
type `int`. On the type `int`, a `Set` of a key not held that forces an
eviction (the budget is positive and the new `usedBytes`, as the code computes
it, exceeds it) evicts an entry x of the queue with the new entry added that
has the least weight, and among the entries of that weight the least sequence
number: it is never an entry b while an entry a of the same weight inserted
earlier is present. So with budget 2 and unit weights, `Set a`, `Set b`,
`Set c` evicts a and keeps b and c; with budget 3, five inserts evict a and
then b. -/
theorem C16_lfu_tie_break_by_insertion_sequence {V : Type} (CalcLen : V → Int)
    (capacity : Int) (onEvicted : Bool) (ops : List (Op V)) :
    (∃ l, lfu.run CalcLen lfu.specLess (lfu.New capacity onEvicted) ops = some l ∧
      (∀ e ∈ l.queue, e.ptr < l.fresh) ∧
      (0 < l.queue.length →
        ∃ r l1, l.queue[0]? = some r ∧ lfu.DelOldest CalcLen lfu.specLess l = some l1 ∧
          l1.calls.map (fun c => (c.key, c.value))
            = l.calls.map (fun c => (c.key, c.value))
              ++ (if onEvicted then [(r.key, r.value)] else []) ∧
          PtrMap.get l1.cache r.key = none ∧
          (∀ e ∈ l.queue, r.weight ≤ e.weight ∧ (e.weight = r.weight → r.ptr ≤ e.ptr)) ∧
          (∀ a ∈ l.queue, ∀ b ∈ l.queue, a.weight = b.weight → a.ptr < b.ptr →
            lfu.strip r ≠ lfu.strip b))) ∧
    (∃ l, lfu.int64.run CalcLen lfu.specLess (lfu.New capacity onEvicted) ops = some l ∧
      (∀ e ∈ l.queue, e.ptr < l.fresh) ∧
      (0 < l.queue.length →
        ∃ r l1, l.queue[0]? = some r ∧
          lfu.int64.DelOldest CalcLen lfu.specLess l = some l1 ∧
          l1.calls.map (fun c => (c.key, c.value))
            = l.calls.map (fun c => (c.key, c.value))
              ++ (if onEvicted then [(r.key, r.value)] else []) ∧
          PtrMap.get l1.cache r.key = none ∧
          (∀ e ∈ l.queue, r.weight ≤ e.weight ∧ (e.weight = r.weight → r.ptr ≤ e.ptr)) ∧
          (∀ a ∈ l.queue, ∀ b ∈ l.queue, a.weight = b.weight → a.ptr < b.ptr →
            lfu.strip r ≠ lfu.strip b)) ∧
      (∀ (k : String) (v : V), PtrMap.get l.cache k = none → 0 < capacity →
        wrap64 (l.usedBytes + wrap64 (CalcLen v)) > capacity →
        ∃ x l1, lfu.int64.Set CalcLen lfu.specLess l k v = some l1 ∧
          l1.calls.map (fun c => (c.key, c.value))
            = l.calls.map (fun c => (c.key, c.value))
              ++ (if onEvicted then [(x.key, x.value)] else []) ∧
          PtrMap.get l1.cache x.key = none ∧
          lfu.strip x ∈ (l.queue ++ [(⟨l.fresh, k, v, 0, 0⟩ : lfu.entry V)]).map lfu.strip ∧
          (∀ e ∈ l.queue ++ [(⟨l.fresh, k, v, 0, 0⟩ : lfu.entry V)],
            x.weight ≤ e.weight ∧ (e.weight = x.weight → x.ptr ≤ e.ptr)) ∧
          (∀ a ∈ l.queue ++ [(⟨l.fresh, k, v, 0, 0⟩ : lfu.entry V)],
            ∀ b ∈ l.queue ++ [(⟨l.fresh, k, v, 0, 0⟩ : lfu.entry V)],
            a.weight = b.weight → a.ptr < b.ptr → lfu.strip x ≠ lfu.strip b))) ∧
    (lfu.run (fun _ : Nat => (1 : Int)) lfu.specLess (lfu.New 2 true)
      [Op.Set "a" 1, Op.Set "b" 2, Op.Set "c" 3]).map
        (fun l => (l.calls.map (fun c => (c.key, c.value)), lfu.queue.keys l.queue))
      = some ([("a", 1)], ["b", "c"]) ∧
    (lfu.run (fun _ : Nat => (1 : Int)) lfu.specLess (lfu.New 3 true)
      [Op.Set "a" 1, Op.Set "b" 2, Op.Set "c" 3, Op.Set "d" 4, Op.Set "e" 5]).map
        (fun l => l.calls.map (fun c => (c.key, c.value)))
      = some [("a", 1), ("b", 2)] ∧
    (lfu.int64.run (fun _ : Nat => (1 : Int)) lfu.specLess (lfu.New 2 true)
      [Op.Set "a" 1, Op.Set "b" 2, Op.Set "c" 3]).map
        (fun l => (l.calls.map (fun c => (c.key, c.value)), lfu.queue.keys l.queue))
      = some ([("a", 1)], ["b", "c"]) ∧
    (lfu.int64.run (fun _ : Nat => (1 : Int)) lfu.specLess (lfu.New 3 true)
      [Op.Set "a" 1, Op.Set "b" 2, Op.Set "c" 3, Op.Set "d" 4, Op.Set "e" 5]).map
        (fun l => l.calls.map (fun c => (c.key, c.value)))
      = some [("a", 1), ("b", 2)] := by
  have hearlier : ∀ (q : List (lfu.entry V)) (x : lfu.entry V),
      (∀ e ∈ q, x.weight ≤ e.weight ∧ (e.weight = x.weight → x.ptr ≤ e.ptr)) →
      ∀ a ∈ q, ∀ b ∈ q, a.weight = b.weight → a.ptr < b.ptr → lfu.strip x ≠ lfu.strip b := by
    intro q x hmin a ha b _ hw hp hs
    obtain ⟨hxp, -, -, hxw⟩ := lfu.strip_fields hs
    have := (hmin a ha).2 (by rw [hw, hxw])
    omega
  refine ⟨?_, ?_, by decide, by decide, by decide, by decide⟩
  · obtain ⟨l, hrun, hl, hm, ho⟩ := lfu.run_ok CalcLen lfu.specLess
      (lfu.New capacity onEvicted) ops (lfu.New_linked_lfu capacity onEvicted)
    have hh : l.heapOrdered := lfu.run_heap CalcLen ops (lfu.New capacity onEvicted) l
      (lfu.New_linked_lfu capacity onEvicted) (fun m hm0 hmn => by
        simp only [lfu.New, List.length_nil] at hmn
        omega) hrun
    have ho2 : l.onEvicted = onEvicted := ho
    refine ⟨l, hrun, lfu.ptr_lt_fresh l hl, ?_⟩
    intro hne
    obtain ⟨r, l1, hr, hdo, hcalls, hgone, -, hmin⟩ := lfu.DelOldest_least CalcLen l hl hh hne
    rw [ho2] at hcalls
    exact ⟨r, l1, hr, hdo, hcalls, hgone, hmin, hearlier _ r hmin⟩
  · obtain ⟨l, hrun, hl, hm, ho⟩ := lfu.int64.run_ok64 CalcLen lfu.specLess
      (lfu.New capacity onEvicted) ops (lfu.New_linked_lfu capacity onEvicted)
    have hh : l.heapOrdered := lfu.int64.run_heap64 CalcLen ops (lfu.New capacity onEvicted) l
      (lfu.New_linked_lfu capacity onEvicted) (fun m hm0 hmn => by
        simp only [lfu.New, List.length_nil] at hmn
        omega) hrun
    have hm2 : l.maxBytes = capacity := hm
    have ho2 : l.onEvicted = onEvicted := ho
    refine ⟨l, hrun, lfu.ptr_lt_fresh l hl, ?_, ?_⟩
    · intro hne
      obtain ⟨r, l1, hr, hdo, hcalls, hgone, -, hmin⟩ :=
        lfu.int64.DelOldest_least64 CalcLen l hl hh hne
      rw [ho2] at hcalls
      exact ⟨r, l1, hr, hdo, hcalls, hgone, hmin, hearlier _ r hmin⟩
    · intro k v hg hcap hover
      obtain ⟨x, l1, hset, hcalls, hgone, hmem, hmin⟩ :=
        lfu.int64.Set_evicts_least64 CalcLen l hl hh k v hg
          (by rw [hm2]; exact hcap) (by rw [hm2]; exact hover)
      rw [ho2] at hcalls
      exact ⟨x, l1, hset, hcalls, hgone, hmem, hmin, hearlier _ x hmin⟩

end GoCache
